import Mathlib

/-!
Faconde: string metrics and glob matching.

A shallow embedding of the C library `faconde` (files `src/glob.c`,
`src/metric.c`, `src/api.h`, `src/macro.h`) together with theorems about it.

Conventions of the embedding:

* a codepoint (`char32_t`) is a natural number; a sequence given to a metric
  as a pointer and a length is a `List Nat`;
* `int32_t` quantities that are never negative (lengths, indices, cells of
  the dynamic-programming tables) are natural numbers; all of them stay
  below `2 * 4096 + 2` for inputs within `FC_MAX_SEQ_LEN`, so no 32-bit
  wrap-around can happen; quantities that may be negative are integers;
* a `double` result is computed as an exact rational number;
* a `for` loop with a known number of iterations is a function recursive on
  the number of iterations left, carrying the loop variables;
* where the initialisation of a buffer is at stake, a second model of the
  function (`...Checked`, `..._checked`) runs on cells that are `none` until
  they are written, and fails on the read of such a cell.
-/

namespace Faconde

/-! ## Constants and macros (`api.h`, `macro.h`, `metric.c`) -/

/-- Maximum allowed length of a sequence (`FC_MAX_SEQ_LEN`). -/
def FC_MAX_SEQ_LEN : Nat := 4096

/-- The largest `int32_t`, used as out-of-bound value (`INT32_MAX`). -/
def INT32_MAX : Nat := 2147483647

/-- Default length of a column of a matrix of edit operations, as compiled
with `NDEBUG` (`FC_DEFAULT_COLUMN_LEN`). -/
def FC_DEFAULT_COLUMN_LEN : Nat := 256

/-- The macro `FC_MIN(a, b)`, that is `a < b ? a : b`. -/
def FC_MIN (a b : Nat) : Nat := if a < b then a else b

/-- The macro `FC_MIN3(a, b, c)`, that is `FC_MIN(a, FC_MIN(b, c))`. -/
def FC_MIN3 (a b c : Nat) : Nat := FC_MIN a (FC_MIN b c)

/-- The macro `FC_MAX(a, b)`, that is `a > b ? a : b`. -/
def FC_MAX (a b : Nat) : Nat := if a > b then a else b

/-- The macro `FC_MAX3(a, b, c)`, that is `FC_MAX(a, FC_MAX(b, c))`. -/
def FC_MAX3 (a b c : Nat) : Nat := FC_MAX a (FC_MAX b c)

/-! ## Glob matching (`glob.c`) -/

/-- The buffer of a NUL-terminated string: its codepoints followed by the
terminator. A cursor into such a buffer is the list of the cells from the
cursor on; the empty list is the cursor one past the terminator, which may
be formed but not read. -/
def cstr (s : List Nat) : List Nat := s ++ [0]

/-- Outcome of a run of `fc_glob`: a returned boolean, a read past the end of
a buffer (undefined behaviour in C), or exhaustion of the iteration budget
of the model. -/
inductive GlobResult where
  | ret (b : Bool)
  | outOfBounds
  | outOfFuel
  deriving DecidableEq

/-- Outcome of one of the two inner loops of the `[` case of `fc_glob`:
the function returns false, a read past the end of the pattern buffer, or
the loop is left with the pattern cursor at `pat`. -/
inductive ClassScan where
  | reject
  | outOfBounds
  | next (pat : List Nat)
  deriving DecidableEq

/-- The loop `while ((*pat == *str) == invert) { if (!*pat || *pat == U']')
return false; pat++; }` of `fc_glob`, where `c` is `*str`. -/
def globClassFind (invert : Bool) (c : Nat) : List Nat → ClassScan
  | [] => ClassScan.outOfBounds
  | p :: pat =>
    if (decide (p = c)) = invert then
      if p = 0 ∨ p = 93 then ClassScan.reject
      else globClassFind invert c pat
    else ClassScan.next (p :: pat)

/-- The loop `do { if (!*pat++) return false; } while (*pat != U']');` of
`fc_glob`. -/
def globClassSkip : List Nat → ClassScan
  | [] => ClassScan.outOfBounds
  | p :: pat =>
    if p = 0 then ClassScan.reject
    else
      match pat with
      | [] => ClassScan.outOfBounds
      | q :: rest => if q ≠ 93 then globClassSkip (q :: rest) else ClassScan.next (q :: rest)

/-- The loop `do { if (fc_glob(pat, str)) return true; } while (*str++);
return false;` of the `*` case of `fc_glob`; `rec` is the recursive call
`fc_glob(pat, ·)`. -/
def globStar (rec : List Nat → GlobResult) : List Nat → GlobResult
  | [] =>
    match rec [] with
    | GlobResult.ret true => GlobResult.ret true
    | GlobResult.ret false => GlobResult.outOfBounds
    | r => r
  | c :: str =>
    match rec (c :: str) with
    | GlobResult.ret true => GlobResult.ret true
    | GlobResult.ret false => if c ≠ 0 then globStar rec str else GlobResult.ret false
    | r => r

/-- The body of `fc_glob`: the `for (;;)` loop around the `switch (*pat)`,
run for at most `fuel` iterations (every iteration that does not return
moves the pattern cursor forward). The codepoints of the cases are
`?` = 63, `*` = 42, `[` = 91, `^` = 94, `]` = 93. -/
def fc_globAux : Nat → List Nat → List Nat → GlobResult
  | 0, _, _ => GlobResult.outOfFuel
  | _ + 1, [], _ => GlobResult.outOfBounds
  | fuel + 1, p :: pat, str =>
    if p = 0 then
      -- return !*str;
      match str with
      | [] => GlobResult.outOfBounds
      | c :: _ => GlobResult.ret (decide (c = 0))
    else if p = 63 then
      -- if (!*str++) return false; pat++;
      match str with
      | [] => GlobResult.outOfBounds
      | c :: str1 => if c = 0 then GlobResult.ret false else fc_globAux fuel pat str1
    else if p = 42 then
      -- if (!*++pat) return true; do ... while (*str++); return false;
      match pat with
      | [] => GlobResult.outOfBounds
      | q :: _ =>
        if q = 0 then GlobResult.ret true
        else globStar (fc_globAux fuel pat) str
    else if p = 91 then
      -- pat++; if (*pat == U'^') { invert = true; pat++; }
      match pat with
      | [] => GlobResult.outOfBounds
      | q :: pat1 =>
        let invert : Bool := decide (q = 94)
        let pat2 : List Nat := if q = 94 then pat1 else q :: pat1
        match str with
        | [] => GlobResult.outOfBounds
        | c :: str1 =>
          match globClassFind invert c pat2 with
          | ClassScan.reject => GlobResult.ret false
          | ClassScan.outOfBounds => GlobResult.outOfBounds
          | ClassScan.next pat3 =>
            match globClassSkip pat3 with
            | ClassScan.reject => GlobResult.ret false
            | ClassScan.outOfBounds => GlobResult.outOfBounds
            -- pat++; str++;
            | ClassScan.next pat4 => fc_globAux fuel pat4.tail str1
    else
      -- if (*str++ != *pat++) return false;
      match str with
      | [] => GlobResult.outOfBounds
      | c :: str1 => if c ≠ p then GlobResult.ret false else fc_globAux fuel pat str1

/-- The function `fc_glob(pat, str)` on the buffers of its two arguments:
the loop is given one iteration per cell of the pattern buffer, which it
cannot exceed. -/
def fc_glob (pat str : List Nat) : GlobResult :=
  fc_globAux (pat.length + 1) pat str

/-- Depth of the recursion in the loop of the `*` case of `fc_glob`, as run by
`globStar`: the greatest of the depths `depth str` of the recursive calls
`fc_glob(pat, str)` that the loop makes. -/
def globStarDepth (rec : List Nat → GlobResult) (depth : List Nat → Nat) : List Nat → Nat
  | [] => depth []
  | c :: str =>
    match rec (c :: str) with
    | GlobResult.ret false =>
      if c ≠ 0 then max (depth (c :: str)) (globStarDepth rec depth str) else depth (c :: str)
    | _ => depth (c :: str)

/-- Depth of the recursion of a call of `fc_glob`, as run by `fc_globAux`: the
greatest number of calls of `fc_glob` that are active at the same time below
this call. An iteration of the loop `for (;;)` stays in the same call; only
the `*` case calls `fc_glob`, on the pattern after the `*`. -/
def fc_globDepth : Nat → List Nat → List Nat → Nat
  | 0, _, _ => 0
  | _ + 1, [], _ => 0
  | fuel + 1, p :: pat, str =>
    if p = 0 then 0
    else if p = 63 then
      match str with
      | [] => 0
      | c :: str1 => if c = 0 then 0 else fc_globDepth fuel pat str1
    else if p = 42 then
      match pat with
      | [] => 0
      | q :: _ =>
        if q = 0 then 0
        else globStarDepth (fc_globAux fuel pat) (fun s => fc_globDepth fuel pat s + 1) str
    else if p = 91 then
      match pat with
      | [] => 0
      | q :: pat1 =>
        let invert : Bool := decide (q = 94)
        let pat2 : List Nat := if q = 94 then pat1 else q :: pat1
        match str with
        | [] => 0
        | c :: str1 =>
          match globClassFind invert c pat2 with
          | ClassScan.reject => 0
          | ClassScan.outOfBounds => 0
          | ClassScan.next pat3 =>
            match globClassSkip pat3 with
            | ClassScan.reject => 0
            | ClassScan.outOfBounds => 0
            | ClassScan.next pat4 => fc_globDepth fuel pat4.tail str1
    else
      match str with
      | [] => 0
      | c :: str1 => if c ≠ p then 0 else fc_globDepth fuel pat str1

/-- Codepoints of an ASCII string literal. -/
def cps (s : String) : List Nat := s.toList.map Char.toNat

/-! ## Scratch buffers and the macro `STRIP` (`metric.c`) -/

/-- A scratch buffer of `n` cells, on the stack or from `fc_malloc`. Its
initial content is indeterminate in C and is taken to be zero here; the
functions below write every cell before they read it. -/
def scratch (n : Nat) : List Nat := List.replicate n 0

/-- First loop of `STRIP`: `while (len2 && *seq1 == *seq2) { seq1++; seq2++;
len1--; len2--; }`. The macro requires `len1 >= len2`. -/
def stripHead : List Nat → List Nat → List Nat × List Nat
  | x :: seq1, y :: seq2 => if x = y then stripHead seq1 seq2 else (x :: seq1, y :: seq2)
  | seq1, seq2 => (seq1, seq2)

/-- Second loop of `STRIP`: `while (len2 && seq1[len1 - 1] == seq2[len2 - 1])
{ len1--; len2--; }`, run for at most `fuel` iterations (`len2` suffices). -/
def stripTail : Nat → List Nat → List Nat → List Nat × List Nat
  | 0, seq1, seq2 => (seq1, seq2)
  | fuel + 1, seq1, seq2 =>
    if seq2.length ≠ 0 ∧ seq1.getLast? = seq2.getLast? then
      stripTail fuel seq1.dropLast seq2.dropLast
    else (seq1, seq2)

/-- The macro `STRIP(seq1, seq2, len1, len2)`: strips the common leading and
then the common trailing codepoints of two sequences. -/
def STRIP (seq1 seq2 : List Nat) : List Nat × List Nat :=
  stripTail (stripHead seq1 seq2).2.length (stripHead seq1 seq2).1 (stripHead seq1 seq2).2

/-- The macro `TRANSPOSED(seq1, seq2, i, j)`. -/
def TRANSPOSED (seq1 seq2 : List Nat) (i j : Nat) : Bool :=
  decide (i > 1 ∧ j > 1 ∧ seq1.getD (i - 2) 0 = seq2.getD (j - 1) 0
    ∧ seq1.getD (i - 1) 0 = seq2.getD (j - 2) 0)

/-! ## Absolute Levenshtein distance -/

/-- The loop `for (j = ...; j <= len2; j++) column[j] = j;`, with `n`
iterations left. -/
def fillIota : Nat → Nat → List Nat → List Nat
  | 0, _, column => column
  | n + 1, j, column => fillIota n (j + 1) (column.set j j)

/-- Inner loop of `fc_levenshtein0` (over `j`, with `n` iterations left),
carrying `column` and `last`. -/
def levInner (seq1 seq2 : List Nat) (i : Nat) : Nat → Nat → List Nat → Nat → List Nat
  | 0, _, column, _ => column
  | n + 1, j, column, last =>
    let old := column.getD j 0
    let column1 :=
      if seq1.getD (i - 1) 0 = seq2.getD (j - 1) 0 then column.set j last
      else
        let ic := column.getD (j - 1) 0 + 1
        let dc := column.getD j 0 + 1
        let rc := last + 1
        column.set j (FC_MIN3 ic dc rc)
    levInner seq1 seq2 i n (j + 1) column1 old

/-- Outer loop of `fc_levenshtein0` (over `i`, with `n` iterations left). -/
def levOuter (seq1 seq2 : List Nat) : Nat → Nat → List Nat → List Nat
  | 0, _, column => column
  | n + 1, i, column =>
    levOuter seq1 seq2 n (i + 1) (levInner seq1 seq2 i seq2.length 1 (column.set 0 i) (i - 1))

/-- The function `fc_levenshtein0(column, seq1, len1, seq2, len2)`; expects
`len1 >= len2` and a buffer of at least `len2 + 1` cells. -/
def fc_levenshtein0 (column seq1 seq2 : List Nat) : Nat :=
  let s1 := (STRIP seq1 seq2).1
  let s2 := (STRIP seq1 seq2).2
  if s2.length = 0 then s1.length
  else
    (levOuter s1 s2 s1.length 1 (fillIota s2.length 1 column)).getD s2.length 0

/-- The function `fc_levenshtein(seq1, len1, seq2, len2)`. -/
def fc_levenshtein (seq1 seq2 : List Nat) : Nat :=
  let s1 := if seq1.length < seq2.length then seq2 else seq1
  let s2 := if seq1.length < seq2.length then seq1 else seq2
  let column :=
    if s2.length ≥ FC_DEFAULT_COLUMN_LEN then scratch (s2.length + 1)
    else scratch FC_DEFAULT_COLUMN_LEN
  fc_levenshtein0 column s1 s2

/-! ## Normalized Levenshtein distance -/

/-- The normalization strategies of `enum fc_norm_method`. -/
inductive fc_norm_method where
  | FC_NORM_LSEQ
  | FC_NORM_LALIGN
  deriving DecidableEq

/-- The loop `for (j = 1; j <= len2; j++) column[j] = length[j] = j;` of
`fc_nlevenshtein0`, with `n` iterations left; `length` is `&column[l]`. -/
def nlevFill (l : Nat) : Nat → Nat → List Nat → List Nat
  | 0, _, column => column
  | n + 1, j, column => nlevFill l n (j + 1) ((column.set (l + j) j).set j j)

/-- Body of the inner loop of `fc_nlevenshtein0` at `i` and `j`: returns the
buffer, `old` and `lold`; `length` is `&column[l]`. -/
def nlevBody (seq1 seq2 : List Nat) (i l j : Nat) (column : List Nat) (last llast : Nat) :
    List Nat × Nat × Nat :=
  let old := column.getD j 0
  let ic := column.getD (j - 1) 0 + 1
  let dc := column.getD j 0 + 1
  let rc := last + (if seq1.getD (i - 1) 0 ≠ seq2.getD (j - 1) 0 then 1 else 0)
  let column1 := column.set j (FC_MIN3 ic dc rc)
  let lold := column1.getD (l + j) 0
  let lic := if ic = column1.getD j 0 then column1.getD (l + (j - 1)) 0 + 1 else 0
  let ldc := if dc = column1.getD j 0 then column1.getD (l + j) 0 + 1 else 0
  let lrc := if rc = column1.getD j 0 then llast + 1 else 0
  (column1.set (l + j) (FC_MAX3 lic ldc lrc), old, lold)

/-- Inner loop of `fc_nlevenshtein0` (over `j`, with `n` iterations left),
carrying the buffer, `last` and `llast`. -/
def nlevInner (seq1 seq2 : List Nat) (i l : Nat) :
    Nat → Nat → List Nat → Nat → Nat → List Nat
  | 0, _, column, _, _ => column
  | n + 1, j, column, last, llast =>
    let r := nlevBody seq1 seq2 i l j column last llast
    nlevInner seq1 seq2 i l n (j + 1) r.1 r.2.1 r.2.2

/-- Outer loop of `fc_nlevenshtein0` (over `i`, with `n` iterations left). -/
def nlevOuter (seq1 seq2 : List Nat) (l : Nat) : Nat → Nat → List Nat → List Nat
  | 0, _, column => column
  | n + 1, i, column =>
    nlevOuter seq1 seq2 l n (i + 1)
      (nlevInner seq1 seq2 i l seq2.length 1 ((column.set l i).set 0 i) (i - 1) (i - 1))

/-- The function `fc_nlevenshtein0(column, method, seq1, len1, seq2, len2)`;
expects `len1 >= len2` and a buffer of at least `2 * (len2 + 1)` cells. The
`double` result is computed as an exact rational. -/
def fc_nlevenshtein0 (column : List Nat) (method : fc_norm_method) (seq1 seq2 : List Nat) : ℚ :=
  if seq2.length = 0 then (if seq1.length = 0 then 0 else 1)
  else
    match method with
    | fc_norm_method.FC_NORM_LSEQ =>
      (fc_levenshtein0 column seq1 seq2 : ℚ) / (seq1.length : ℚ)
    | fc_norm_method.FC_NORM_LALIGN =>
      let l := seq2.length + 1
      let r := nlevOuter seq1 seq2 l seq1.length 1 (nlevFill l seq2.length 1 column)
      (r.getD seq2.length 0 : ℚ) / (r.getD (l + seq2.length) 0 : ℚ)

/-- The function `fc_nlevenshtein(method, seq1, len1, seq2, len2)`. -/
def fc_nlevenshtein (method : fc_norm_method) (seq1 seq2 : List Nat) : ℚ :=
  let s1 := if seq1.length < seq2.length then seq2 else seq1
  let s2 := if seq1.length < seq2.length then seq1 else seq2
  let column :=
    if 2 * (s2.length + 1) > FC_DEFAULT_COLUMN_LEN * 2 then scratch (2 * (s2.length + 1))
    else scratch (FC_DEFAULT_COLUMN_LEN * 2)
  fc_nlevenshtein0 column method s1 s2

/-- The two operands `column[len2]` and `length[len2]` of the last division of
`fc_nlevenshtein0` under `FC_NORM_LALIGN`, read when `len2` is not 0: the
distance and the tracked alignment length. -/
def nlevOperands (column seq1 seq2 : List Nat) : Nat × Nat :=
  let l := seq2.length + 1
  let r := nlevOuter seq1 seq2 l seq1.length 1 (nlevFill l seq2.length 1 column)
  (r.getD seq2.length 0, r.getD (l + seq2.length) 0)

/-- The operands of the last division of `fc_nlevenshtein0` as it is called by
`fc_nlevenshtein(FC_NORM_LALIGN, seq1, len1, seq2, len2)`. -/
def fc_nlevenshtein_operands (seq1 seq2 : List Nat) : Nat × Nat :=
  let s1 := if seq1.length < seq2.length then seq2 else seq1
  let s2 := if seq1.length < seq2.length then seq1 else seq2
  let column :=
    if 2 * (s2.length + 1) > FC_DEFAULT_COLUMN_LEN * 2 then scratch (2 * (s2.length + 1))
    else scratch (FC_DEFAULT_COLUMN_LEN * 2)
  nlevOperands column s1 s2

/-! ## Absolute Damerau distance -/

/-- Inner loop of `fc_damerau0` (over `j`, with `n` iterations left). The
rows `transpos`, `previous` and `current` are the offsets `t`, `p`, `c` into
the buffer `matrix`. -/
def damInner (seq1 seq2 : List Nat) (i t p c : Nat) : Nat → Nat → List Nat → List Nat
  | 0, _, matrix => matrix
  | n + 1, j, matrix =>
    let matrix1 :=
      if seq1.getD (i - 1) 0 = seq2.getD (j - 1) 0 then
        matrix.set (c + j) (matrix.getD (p + (j - 1)) 0)
      else
        let ic := matrix.getD (c + (j - 1)) 0 + 1
        let dc := matrix.getD (p + j) 0 + 1
        let rc := matrix.getD (p + (j - 1)) 0 + 1
        let matrix2 := matrix.set (c + j) (FC_MIN3 ic dc rc)
        if TRANSPOSED seq1 seq2 i j then
          let tc := matrix2.getD (t + (j - 2)) 0 + 1
          matrix2.set (c + j) (FC_MIN tc (matrix2.getD (c + j) 0))
        else matrix2
    damInner seq1 seq2 i t p c n (j + 1) matrix1

/-- Outer loop of `fc_damerau0` (over `i`, with `n` iterations left); returns
the buffer and the offset of the row `previous` after the last rotation
`FC_SWAP3(int32_t *, transpos, previous, current)`. -/
def damOuter (seq1 seq2 : List Nat) : Nat → Nat → Nat → Nat → Nat → List Nat → List Nat × Nat
  | 0, _, _, p, _, matrix => (matrix, p)
  | n + 1, i, t, p, c, matrix =>
    damOuter seq1 seq2 n (i + 1) p c t
      (damInner seq1 seq2 i t p c seq2.length 1 (matrix.set c i))

/-- The loop `for (j = 0; j <= len2; j++) previous[j] = j;` of `fc_damerau0`,
with `n` iterations left and `previous` at offset `p`. -/
def fillIotaAt (p : Nat) : Nat → Nat → List Nat → List Nat
  | 0, _, matrix => matrix
  | n + 1, j, matrix => fillIotaAt p n (j + 1) (matrix.set (p + j) j)

/-- The function `fc_damerau0(matrix, seq1, len1, seq2, len2)`; expects
`len1 >= len2` and a buffer of at least `3 * (len2 + 1)` cells. -/
def fc_damerau0 (matrix seq1 seq2 : List Nat) : Nat :=
  let s1 := (STRIP seq1 seq2).1
  let s2 := (STRIP seq1 seq2).2
  if s2.length = 0 then s1.length
  else
    let t := 0
    let p := t + (s2.length + 1)
    let c := p + (s2.length + 1)
    let r := damOuter s1 s2 s1.length 1 t p c (fillIotaAt p (s2.length + 1) 0 matrix)
    r.1.getD (r.2 + s2.length) 0

/-- The function `fc_damerau(seq1, len1, seq2, len2)`. -/
def fc_damerau (seq1 seq2 : List Nat) : Nat :=
  let s1 := if seq1.length < seq2.length then seq2 else seq1
  let s2 := if seq1.length < seq2.length then seq1 else seq2
  let column :=
    if 3 * (s2.length + 1) > FC_DEFAULT_COLUMN_LEN * 3 then scratch (3 * (s2.length + 1))
    else scratch (FC_DEFAULT_COLUMN_LEN * 3)
  fc_damerau0 column s1 s2

/-- A read of the cell `k` of a buffer whose cells may be uninitialised: a
cell is `none` until it is written, and the read of such a cell (or of a cell
outside the buffer) gives `none`. -/
def readCell (matrix : List (Option Nat)) (k : Nat) : Option Nat := matrix.getD k none

/-- The inner loop of `fc_damerau0` as `damInner`, on a buffer whose cells may
be uninitialised: `none` as soon as an uninitialised cell is read. -/
def damInnerChecked (seq1 seq2 : List Nat) (i t p c : Nat) :
    Nat → Nat → List (Option Nat) → Option (List (Option Nat))
  | 0, _, matrix => some matrix
  | n + 1, j, matrix =>
    let matrix1 : Option (List (Option Nat)) :=
      if seq1.getD (i - 1) 0 = seq2.getD (j - 1) 0 then
        match readCell matrix (p + (j - 1)) with
        | some v => some (matrix.set (c + j) (some v))
        | none => none
      else
        match readCell matrix (c + (j - 1)), readCell matrix (p + j),
          readCell matrix (p + (j - 1)) with
        | some ic0, some dc0, some rc0 =>
          let matrix2 := matrix.set (c + j) (some (FC_MIN3 (ic0 + 1) (dc0 + 1) (rc0 + 1)))
          if TRANSPOSED seq1 seq2 i j then
            match readCell matrix2 (t + (j - 2)), readCell matrix2 (c + j) with
            | some tc0, some cur => some (matrix2.set (c + j) (some (FC_MIN (tc0 + 1) cur)))
            | _, _ => none
          else some matrix2
        | _, _, _ => none
    match matrix1 with
    | some m => damInnerChecked seq1 seq2 i t p c n (j + 1) m
    | none => none

/-- The outer loop of `fc_damerau0` as `damOuter`, on a buffer whose cells may
be uninitialised. -/
def damOuterChecked (seq1 seq2 : List Nat) :
    Nat → Nat → Nat → Nat → Nat → List (Option Nat) → Option (List (Option Nat) × Nat)
  | 0, _, _, p, _, matrix => some (matrix, p)
  | n + 1, i, t, p, c, matrix =>
    match damInnerChecked seq1 seq2 i t p c seq2.length 1 (matrix.set c (some i)) with
    | some m => damOuterChecked seq1 seq2 n (i + 1) p c t m
    | none => none

/-- The loop `for (j = 0; j <= len2; j++) previous[j] = j;` as `fillIotaAt`,
on a buffer whose cells may be uninitialised. -/
def fillIotaAtChecked (p : Nat) : Nat → Nat → List (Option Nat) → List (Option Nat)
  | 0, _, matrix => matrix
  | n + 1, j, matrix => fillIotaAtChecked p n (j + 1) (matrix.set (p + j) (some j))

/-- The function `fc_damerau0` as above, on a buffer whose cells may be
uninitialised: `none` when the run reads a cell that was never written. -/
def fc_damerau0_checked (matrix : List (Option Nat)) (seq1 seq2 : List Nat) : Option Nat :=
  let s1 := (STRIP seq1 seq2).1
  let s2 := (STRIP seq1 seq2).2
  if s2.length = 0 then some s1.length
  else
    let t := 0
    let p := t + (s2.length + 1)
    let c := p + (s2.length + 1)
    match damOuterChecked s1 s2 s1.length 1 t p c
        (fillIotaAtChecked p (s2.length + 1) 0 matrix) with
    | some r => readCell r.1 (r.2 + s2.length)
    | none => none

/-- The function `fc_damerau` as above, where the array `column` and the
memory returned by `fc_malloc` start with all their cells uninitialised. -/
def fc_damerau_checked (seq1 seq2 : List Nat) : Option Nat :=
  let s1 := if seq1.length < seq2.length then seq2 else seq1
  let s2 := if seq1.length < seq2.length then seq1 else seq2
  let column : List (Option Nat) :=
    if 3 * (s2.length + 1) > FC_DEFAULT_COLUMN_LEN * 3 then
      List.replicate (3 * (s2.length + 1)) none
    else List.replicate (FC_DEFAULT_COLUMN_LEN * 3) none
  fc_damerau0_checked column s1 s2

/-! ## Normalized Damerau distance -/

/-- The loop `for (j = 0; j <= len2; j++) previous[j] = lprevious[j] = j;` of
`fc_ndamerau0`, with `n` iterations left; `previous` and `lprevious` are at
the offsets `p` and `lp` of the buffer. -/
def ndamFill (p lp : Nat) : Nat → Nat → List Nat → List Nat
  | 0, _, matrix => matrix
  | n + 1, j, matrix => ndamFill p lp n (j + 1) ((matrix.set (lp + j) j).set (p + j) j)

/-- Body of the inner loop of `fc_ndamerau0` at `i` and `j`. The rows
`transpos`, `previous`, `current` and `ltranspos`, `lprevious`, `lcurrent` are
at the offsets `t`, `p`, `c` and `lt`, `lp`, `lc` of the buffer. -/
def ndamBody (seq1 seq2 : List Nat) (i t p c lt lp lc j : Nat) (matrix : List Nat) : List Nat :=
  let transposed := TRANSPOSED seq1 seq2 i j
  let ic := matrix.getD (c + (j - 1)) 0 + 1
  let dc := matrix.getD (p + j) 0 + 1
  let rc := matrix.getD (p + (j - 1)) 0
    + (if seq1.getD (i - 1) 0 ≠ seq2.getD (j - 1) 0 then 1 else 0)
  let matrix1 := matrix.set (c + j) (FC_MIN3 ic dc rc)
  let tc := matrix1.getD (t + (j - 2)) 0 + 1
  let matrix2 :=
    if transposed then matrix1.set (c + j) (FC_MIN (matrix1.getD (c + j) 0) tc)
    else matrix1
  let lic := if ic = matrix2.getD (c + j) 0 then matrix2.getD (lc + (j - 1)) 0 + 1 else 0
  let ldc := if dc = matrix2.getD (c + j) 0 then matrix2.getD (lp + j) 0 + 1 else 0
  let lrc := if rc = matrix2.getD (c + j) 0 then matrix2.getD (lp + (j - 1)) 0 + 1 else 0
  let matrix3 := matrix2.set (lc + j) (FC_MAX3 lic ldc lrc)
  if transposed then
    let ltc := if tc = matrix3.getD (c + j) 0 then matrix3.getD (lt + (j - 2)) 0 + 1 else 0
    matrix3.set (lc + j) (FC_MAX (matrix3.getD (lc + j) 0) ltc)
  else matrix3

/-- Inner loop of `fc_ndamerau0` (over `j`, with `n` iterations left). -/
def ndamInner (seq1 seq2 : List Nat) (i t p c lt lp lc : Nat) : Nat → Nat → List Nat → List Nat
  | 0, _, matrix => matrix
  | n + 1, j, matrix =>
    ndamInner seq1 seq2 i t p c lt lp lc n (j + 1) (ndamBody seq1 seq2 i t p c lt lp lc j matrix)

/-- Outer loop of `fc_ndamerau0` (over `i`, with `n` iterations left); returns
the buffer and the offsets of `previous` and `lprevious` after the last
rotations `FC_SWAP3`. -/
def ndamOuter (seq1 seq2 : List Nat) :
    Nat → Nat → Nat → Nat → Nat → Nat → Nat → Nat → List Nat → List Nat × Nat × Nat
  | 0, _, _, p, _, _, lp, _, matrix => (matrix, p, lp)
  | n + 1, i, t, p, c, lt, lp, lc, matrix =>
    ndamOuter seq1 seq2 n (i + 1) p c t lp lc lt
      (ndamInner seq1 seq2 i t p c lt lp lc seq2.length 1 ((matrix.set (lc + 0) i).set (c + 0) i))

/-- The function `fc_ndamerau0(matrix, method, seq1, len1, seq2, len2)`;
expects `len1 >= len2` and a buffer of at least `6 * (len2 + 1)` cells. The
`double` result is computed as an exact rational. -/
def fc_ndamerau0 (matrix : List Nat) (method : fc_norm_method) (seq1 seq2 : List Nat) : ℚ :=
  if seq2.length = 0 then (if seq1.length = 0 then 0 else 1)
  else
    match method with
    | fc_norm_method.FC_NORM_LSEQ =>
      (fc_damerau0 matrix seq1 seq2 : ℚ) / (seq1.length : ℚ)
    | fc_norm_method.FC_NORM_LALIGN =>
      let lt := 0
      let lp := lt + (seq2.length + 1)
      let lc := lp + (seq2.length + 1)
      let t := lc + (seq2.length + 1)
      let p := t + (seq2.length + 1)
      let c := p + (seq2.length + 1)
      let r := ndamOuter seq1 seq2 seq1.length 1 t p c lt lp lc
        (ndamFill p lp (seq2.length + 1) 0 matrix)
      (r.1.getD (r.2.1 + seq2.length) 0 : ℚ) / (r.1.getD (r.2.2 + seq2.length) 0 : ℚ)

/-- The function `fc_ndamerau(method, seq1, len1, seq2, len2)`. -/
def fc_ndamerau (method : fc_norm_method) (seq1 seq2 : List Nat) : ℚ :=
  let s1 := if seq1.length < seq2.length then seq2 else seq1
  let s2 := if seq1.length < seq2.length then seq1 else seq2
  let column :=
    if 6 * (s2.length + 1) > FC_DEFAULT_COLUMN_LEN * 6 then scratch (6 * (s2.length + 1))
    else scratch (FC_DEFAULT_COLUMN_LEN * 6)
  fc_ndamerau0 column method s1 s2

/-- The two operands `previous[len2]` and `lprevious[len2]` of the last
division of `fc_ndamerau0` under `FC_NORM_LALIGN`, read when `len2` is not 0:
the distance and the tracked alignment length. -/
def ndamOperands (matrix seq1 seq2 : List Nat) : Nat × Nat :=
  let lt := 0
  let lp := lt + (seq2.length + 1)
  let lc := lp + (seq2.length + 1)
  let t := lc + (seq2.length + 1)
  let p := t + (seq2.length + 1)
  let c := p + (seq2.length + 1)
  let r := ndamOuter seq1 seq2 seq1.length 1 t p c lt lp lc
    (ndamFill p lp (seq2.length + 1) 0 matrix)
  (r.1.getD (r.2.1 + seq2.length) 0, r.1.getD (r.2.2 + seq2.length) 0)

/-- The operands of the last division of `fc_ndamerau0` as it is called by
`fc_ndamerau(FC_NORM_LALIGN, seq1, len1, seq2, len2)`. -/
def fc_ndamerau_operands (seq1 seq2 : List Nat) : Nat × Nat :=
  let s1 := if seq1.length < seq2.length then seq2 else seq1
  let s2 := if seq1.length < seq2.length then seq1 else seq2
  let column :=
    if 6 * (s2.length + 1) > FC_DEFAULT_COLUMN_LEN * 6 then scratch (6 * (s2.length + 1))
    else scratch (FC_DEFAULT_COLUMN_LEN * 6)
  ndamOperands column s1 s2

/-! ## Bounded Levenshtein distance -/

/-- The function `fc_lev_bounded0`: `memcmp(seq1, seq2, len1 * sizeof *seq1)
!= 0` when the lengths are equal, `INT32_MAX` otherwise. -/
def fc_lev_bounded0 (seq1 seq2 : List Nat) : Nat :=
  if seq1.length = seq2.length then (if seq1 ≠ seq2 then 1 else 0)
  else INT32_MAX

/-- The function `fc_lev_bounded1`. -/
def fc_lev_bounded1 (seq1 seq2 : List Nat) : Nat :=
  let s1 := if seq1.length < seq2.length then seq2 else seq1
  let s2 := if seq1.length < seq2.length then seq1 else seq2
  (STRIP s1 s2).1.length

/-- The table `models` of `fc_lev_bounded2`, with `i` = 105, `d` = 100 and
`r` = 114; the row is chosen by `diff`. -/
def models : List (List (List Nat)) :=
  [[[105, 100], [100, 105], [114, 114]], [[100, 114], [114, 100]], [[100, 100]]]

/-- The loop `while (i < len1 && j < len2)` of `fc_lev_bounded2` for one
model, run for at most `fuel` iterations; returns `i`, `j` and `cost` when
the loop is left. -/
def bounded2Scan (seq1 seq2 model : List Nat) : Nat → Nat → Nat → Nat → Nat × Nat × Nat
  | 0, i, j, cost => (i, j, cost)
  | fuel + 1, i, j, cost =>
    if i < seq1.length ∧ j < seq2.length then
      if seq1.getD i 0 = seq2.getD j 0 then
        bounded2Scan seq1 seq2 model fuel (i + 1) (j + 1) cost
      else
        let cost1 := cost + 1
        if cost1 > 2 then (i, j, cost1)
        else if model.getD (cost1 - 1) 0 = 100 then
          bounded2Scan seq1 seq2 model fuel (i + 1) j cost1
        else if model.getD (cost1 - 1) 0 = 105 then
          bounded2Scan seq1 seq2 model fuel i (j + 1) cost1
        else
          bounded2Scan seq1 seq2 model fuel (i + 1) (j + 1) cost1
    else (i, j, cost)

/-- One iteration of the loop over the models in `fc_lev_bounded2`: the scan
of `model` followed by the update of `dist`. -/
def bounded2Model (seq1 seq2 : List Nat) (dist : Nat) (model : List Nat) : Nat :=
  let r := bounded2Scan seq1 seq2 model (seq1.length + seq2.length) 0 0 0
  let i := r.1
  let j := r.2.1
  let cost := r.2.2
  if cost ≤ 2 then
    let cost1 :=
      if i < seq1.length then cost + (seq1.length - i)
      else if j < seq2.length then cost + (seq2.length - j)
      else cost
    if cost1 < dist then cost1 else dist
  else dist

/-- The function `fc_lev_bounded2`. -/
def fc_lev_bounded2 (seq1 seq2 : List Nat) : Nat :=
  let t1 := if seq1.length < seq2.length then seq2 else seq1
  let t2 := if seq1.length < seq2.length then seq1 else seq2
  let s1 := (STRIP t1 t2).1
  let s2 := (STRIP t1 t2).2
  let diff := s1.length - s2.length
  if diff > 2 then INT32_MAX
  else if s2.length = 0 then s1.length
  else (models.getD diff []).foldl (bounded2Model s1 s2) 3

/-- The table `fc_lev_bounded[3]` of the three functions above, indexed by
the bound. -/
def fc_lev_bounded (k : Fin 3) : List Nat → List Nat → Nat :=
  match k with
  | 0 => fc_lev_bounded0
  | 1 => fc_lev_bounded1
  | 2 => fc_lev_bounded2

/-! ## Longest common substring and subsequence -/

/-- Loop variables of `fc_lcsubstr0`. -/
structure LcsubstrState where
  column : List Nat
  max_len : Nat
  my_pos : Nat
  deriving DecidableEq

/-- Inner loop of `fc_lcsubstr0` (over `j`, with `n` iterations left). -/
def lcsubstrInner (seq1 seq2 : List Nat) (i : Nat) :
    Nat → Nat → LcsubstrState → Nat → LcsubstrState
  | 0, _, st, _ => st
  | n + 1, j, st, last =>
    let old := st.column.getD j 0
    let st1 : LcsubstrState :=
      if seq1.getD i 0 = seq2.getD j 0 then
        let column1 := st.column.set j (last + 1)
        if st.max_len < column1.getD j 0 then
          ⟨column1, column1.getD j 0, i⟩
        else ⟨column1, st.max_len, st.my_pos⟩
      else ⟨st.column.set j 0, st.max_len, st.my_pos⟩
    lcsubstrInner seq1 seq2 i n (j + 1) st1 old

/-- Outer loop of `fc_lcsubstr0` (over `i`, with `n` iterations left). -/
def lcsubstrOuter (seq1 seq2 : List Nat) : Nat → Nat → LcsubstrState → LcsubstrState
  | 0, _, st => st
  | n + 1, i, st =>
    lcsubstrOuter seq1 seq2 n (i + 1) (lcsubstrInner seq1 seq2 i seq2.length 0 st 0)

/-- The call `memset(buf, 0, n * sizeof *buf)`. -/
def memsetZero (buf : List Nat) (n : Nat) : List Nat :=
  List.replicate (min n buf.length) 0 ++ buf.drop n

/-- The function `fc_lcsubstr0` called with a non-null `pos`: returns
`max_len` and the offset into `seq1` that `*pos` is set to. -/
def fc_lcsubstr0 (column seq1 seq2 : List Nat) : Nat × Nat :=
  let st := lcsubstrOuter seq1 seq2 seq1.length 0
    ⟨memsetZero column seq2.length, 0, INT32_MAX⟩
  (st.max_len,
    if st.max_len ≠ 0 then ((st.my_pos : Int) - (st.max_len : Int) + 1).toNat else seq1.length)

/-- The function `fc_lcsubstr_extract` called with a non-null `pos`: the
returned length and the offset into `seq1` stored in `*pos`. -/
def fc_lcsubstr_extract (seq1 seq2 : List Nat) : Nat × Nat :=
  let column :=
    if seq2.length ≥ FC_DEFAULT_COLUMN_LEN then scratch seq2.length
    else scratch FC_DEFAULT_COLUMN_LEN
  fc_lcsubstr0 column seq1 seq2

/-- The function `fc_lcsubstr`: `fc_lcsubstr_extract` with a null `pos`. -/
def fc_lcsubstr (seq1 seq2 : List Nat) : Nat :=
  (fc_lcsubstr_extract seq1 seq2).1

/-- Inner loop of `fc_lcsubseq0` (over `j`, with `n` iterations left). -/
def lcsubseqInner (seq1 seq2 : List Nat) (i : Nat) : Nat → Nat → List Nat → Nat → List Nat
  | 0, _, column, _ => column
  | n + 1, j, column, last =>
    let old := column.getD j 0
    let column1 :=
      if seq1.getD (i - 1) 0 = seq2.getD (j - 1) 0 then column.set j (last + 1)
      else if column.getD j 0 < column.getD (j - 1) 0 then
        column.set j (column.getD (j - 1) 0)
      else column
    lcsubseqInner seq1 seq2 i n (j + 1) column1 old

/-- Outer loop of `fc_lcsubseq0` (over `i`, with `n` iterations left). -/
def lcsubseqOuter (seq1 seq2 : List Nat) : Nat → Nat → List Nat → List Nat
  | 0, _, column => column
  | n + 1, i, column =>
    lcsubseqOuter seq1 seq2 n (i + 1) (lcsubseqInner seq1 seq2 i seq2.length 1 column 0)

/-- The function `fc_lcsubseq0`; expects `len1 >= len2` and a buffer of at
least `len2 + 1` cells. -/
def fc_lcsubseq0 (column seq1 seq2 : List Nat) : Nat :=
  if seq2.length = 0 then 0
  else
    (lcsubseqOuter seq1 seq2 seq1.length 1
      (memsetZero column (seq2.length + 1))).getD seq2.length 0

/-- The function `fc_lcsubseq`. -/
def fc_lcsubseq (seq1 seq2 : List Nat) : Nat :=
  let s1 := if seq1.length < seq2.length then seq2 else seq1
  let s2 := if seq1.length < seq2.length then seq1 else seq2
  let column :=
    if s2.length ≥ FC_DEFAULT_COLUMN_LEN then scratch (s2.length + 1)
    else scratch FC_DEFAULT_COLUMN_LEN
  fc_lcsubseq0 column s1 s2

/-- The function `fc_nlcsubseq(seq1, len1, seq2, len2)`; the `double` result
is computed as an exact rational. -/
def fc_nlcsubseq (seq1 seq2 : List Nat) : ℚ :=
  if seq1.length = 0 ∧ seq2.length = 0 then 1
  else
    let lcs := fc_lcsubseq seq1 seq2
    1 - (2 * (lcs : ℚ)) / (((seq1.length + seq2.length : Nat) : ℚ))

/-! ## Jaro distance -/

/-- The innermost loop of the matching phase of `fc_jaro0` (over `j`, with
`n` iterations left), carrying the flag buffer and `matches`; `matched2` is
`&matched1[len1]`. -/
def jaroFind (seq1 seq2 : List Nat) (i : Nat) : Nat → Nat → List Nat → Nat → List Nat × Nat
  | 0, _, matched1, nmatches => (matched1, nmatches)
  | n + 1, j, matched1, nmatches =>
    if matched1.getD (seq1.length + j) 0 = 0 ∧ seq1.getD i 0 = seq2.getD j 0 then
      ((matched1.set i 1).set (seq1.length + j) 1, nmatches + 1)
    else jaroFind seq1 seq2 i n (j + 1) matched1 nmatches

/-- The matching phase of `fc_jaro0` (loop over `i`, with `n` iterations
left). -/
def jaroMatch (seq1 seq2 : List Nat) (window : Int) : Nat → Nat → List Nat → Nat → List Nat × Nat
  | 0, _, matched1, nmatches => (matched1, nmatches)
  | n + 1, i, matched1, nmatches =>
    let bot0 : Int := (i : Int) - window
    let bot : Int := if bot0 < 0 then 0 else bot0
    let top0 : Int := (i : Int) + window + 1
    let top : Int := if top0 > (seq2.length : Int) then (seq2.length : Int) else top0
    let r := jaroFind seq1 seq2 i (top - bot).toNat bot.toNat matched1 nmatches
    jaroMatch seq1 seq2 window n (i + 1) r.1 r.2

/-- The loop `for (j = k; j < len2; j++) if (matched2[j]) { k = j + 1; break;
}` of `fc_jaro0` (with `n` iterations left); returns `j` and `k`. -/
def jaroNext (matched1 : List Nat) (len1 : Nat) : Nat → Nat → Nat → Nat × Nat
  | 0, j, k => (j, k)
  | n + 1, j, k =>
    if matched1.getD (len1 + j) 0 ≠ 0 then (j, j + 1)
    else jaroNext matched1 len1 n (j + 1) k

/-- The transposition phase of `fc_jaro0` (loop over `i`, with `n` iterations
left), carrying `transpos` and `k`; `none` when `seq2[j]` is read at
`j = len2`, outside the sequence. -/
def jaroTranspos (seq1 seq2 matched1 : List Nat) : Nat → Nat → Nat → Nat → Option Nat
  | 0, _, transpos, _ => some transpos
  | n + 1, i, transpos, k =>
    if matched1.getD i 0 ≠ 0 then
      let r := jaroNext matched1 seq1.length (seq2.length - k) k k
      match seq2.get? r.1 with
      | none => none
      | some c =>
        jaroTranspos seq1 seq2 matched1 n (i + 1)
          (if seq1.getD i 0 ≠ c then transpos + 1 else transpos) r.2
    else jaroTranspos seq1 seq2 matched1 n (i + 1) transpos k

/-- The function `fc_jaro0`; the `double` result is computed as an exact
rational; `none` stands for a read outside `seq2`. -/
def fc_jaro0 (matched1 seq1 seq2 : List Nat) : Option ℚ :=
  let flags := memsetZero matched1 (seq1.length + seq2.length)
  let window0 : Int := ((FC_MAX seq1.length seq2.length / 2 : Nat) : Int) - 1
  let window : Int := if window0 < 0 then 0 else window0
  let r := jaroMatch seq1 seq2 window seq1.length 0 flags 0
  if r.2 = 0 then some 0
  else
    match jaroTranspos seq1 seq2 r.1 seq1.length 0 0 0 with
    | none => none
    | some transpos =>
      let m : ℚ := (r.2 : ℚ)
      let t : ℚ := ((transpos / 2 : Nat) : ℚ)
      some (1 - (1 / 3 * (m / (seq1.length : ℚ) + m / (seq2.length : ℚ) + (m - t) / m)))

/-- The function `fc_jaro`. -/
def fc_jaro (seq1 seq2 : List Nat) : Option ℚ :=
  let buf :=
    if seq1.length + seq2.length > FC_DEFAULT_COLUMN_LEN * 2 then
      scratch (seq1.length + seq2.length)
    else scratch (FC_DEFAULT_COLUMN_LEN * 2)
  fc_jaro0 buf seq1 seq2

/-! ## Memoized string metrics -/

/-- The metrics of `enum fc_metric` (`FC_METRIC_NR`, their number, is not one
of them: `fc_memo_init` aborts on it). -/
inductive fc_metric where
  | FC_LEVENSHTEIN
  | FC_DAMERAU
  | FC_LCSUBSTR
  | FC_LCSUBSEQ
  deriving DecidableEq

/-- The structure `struct fc_memo`. The function pointer `compute` is
represented by the metric whose function it points to; `seq1` is `none` for
a null pointer; `seq2` is the buffer of `max_len` codepoints holding the
previous sequence; `matrix` is the similarity matrix, stored row after row,
each row having `mdim` cells. -/
structure fc_memo where
  compute : fc_metric
  matrix : List Nat
  mdim : Nat
  seq1 : Option (List Nat)
  len1 : Nat
  seq2 : List Nat
  len2 : Nat
  max_dist : Int
  deriving DecidableEq

/-- The loop `for (i = ...; i < mdim; i++) matrix[i][0] = i;` of
`fc_memo_init`, with `n` iterations left. -/
def memoInitCol (mdim : Nat) : Nat → Nat → List Nat → List Nat
  | 0, _, matrix => matrix
  | n + 1, i, matrix => memoInitCol mdim n (i + 1) (matrix.set (i * mdim + 0) i)

/-- The loop `for (j = ...; j < mdim; j++) matrix[0][j] = j;` of
`fc_memo_init`, with `n` iterations left. -/
def memoInitRow (mdim : Nat) : Nat → Nat → List Nat → List Nat
  | 0, _, matrix => matrix
  | n + 1, j, matrix => memoInitRow mdim n (j + 1) (matrix.set (0 * mdim + j) j)

/-- The function `fc_memo_init(ctx, metric, max_len, max_dist)`; `ctx->len2`
is left as it was. -/
def fc_memo_init (ctx : fc_memo) (metric : fc_metric) (max_len : Nat) (max_dist : Int) :
    fc_memo :=
  let mdim := max_len + 1
  match metric with
  | fc_metric.FC_LEVENSHTEIN | fc_metric.FC_DAMERAU =>
    { ctx with
      mdim := mdim, max_dist := max_dist, seq1 := none, len1 := 0,
      compute := metric,
      seq2 := scratch max_len,
      matrix := memoInitRow mdim (mdim - 1) 1 (memoInitCol mdim mdim 0 (scratch (mdim * mdim))) }
  | fc_metric.FC_LCSUBSTR =>
    { ctx with
      mdim := mdim, max_dist := max_dist, seq1 := none, len1 := 0,
      compute := metric,
      seq2 := scratch max_len,
      matrix := memsetZero (scratch ((mdim + 1) * mdim)) ((mdim + 1) * mdim) }
  | fc_metric.FC_LCSUBSEQ =>
    { ctx with
      mdim := mdim, max_dist := max_dist, seq1 := none, len1 := 0,
      compute := metric,
      seq2 := scratch max_len,
      matrix := memsetZero (scratch (mdim * mdim)) (mdim * mdim) }

/-- The function `fc_memo_metric`. -/
def fc_memo_metric (ctx : fc_memo) : fc_metric := ctx.compute

/-- The function `fc_memo_set_ref(ctx, seq1, len1)`. -/
def fc_memo_set_ref (ctx : fc_memo) (seq1 : List Nat) : fc_memo :=
  { ctx with seq1 := some seq1, len1 := seq1.length, len2 := 0 }

/-- The loop `while (skip < min_len2 && old_seq2[skip] == seq2[skip]) skip++;`
of the memoized metrics, run for at most `fuel` iterations. -/
def memoSkip (old_seq2 seq2 : List Nat) (min_len2 : Nat) : Nat → Nat → Nat
  | 0, skip => skip
  | fuel + 1, skip =>
    if skip < min_len2 ∧ old_seq2.getD skip 0 = seq2.getD skip 0 then
      memoSkip old_seq2 seq2 min_len2 fuel (skip + 1)
    else skip

/-- The call `memcpy(&dst[off], &src[off], n * sizeof *src)`. -/
def memcpyAt (dst : List Nat) (off : Nat) (src : List Nat) (n : Nat) : List Nat :=
  dst.take off ++ (src.drop off).take n ++ dst.drop (off + n)

/-- Inner loop of `fc_memo_lcsubstr` (over `j`, with `n` iterations left),
carrying the matrix and `max_len`. -/
def memoLcsubstrInner (seq1 seq2 : List Nat) (mdim i : Nat) :
    Nat → Nat → List Nat → Nat → List Nat × Nat
  | 0, _, matrix, max_len => (matrix, max_len)
  | n + 1, j, matrix, max_len =>
    if seq1.getD (j - 1) 0 = seq2.getD (i - 1) 0 then
      let up_left := matrix.getD ((i - 1) * mdim + (j - 1)) 0 + 1
      memoLcsubstrInner seq1 seq2 mdim i n (j + 1) (matrix.set (i * mdim + j) up_left)
        (if max_len < up_left then up_left else max_len)
    else
      memoLcsubstrInner seq1 seq2 mdim i n (j + 1) (matrix.set (i * mdim + j) 0) max_len

/-- Outer loop of `fc_memo_lcsubstr` (over `i`, with `n` iterations left);
`max_lens` is the index of the additional row. -/
def memoLcsubstrOuter (seq1 seq2 : List Nat) (mdim len1 max_lens : Nat) :
    Nat → Nat → List Nat → Nat → List Nat × Nat
  | 0, _, matrix, max_len => (matrix, max_len)
  | n + 1, i, matrix, max_len =>
    let r := memoLcsubstrInner seq1 seq2 mdim i len1 1 matrix max_len
    memoLcsubstrOuter seq1 seq2 mdim len1 max_lens n (i + 1)
      (r.1.set (max_lens * mdim + i) r.2) r.2

/-- The function `fc_memo_lcsubstr(ctx, seq2, len2)`: the returned value and
the state of `ctx` after the call; `none` when the assertion fails. -/
def fc_memo_lcsubstr (ctx : fc_memo) (seq2 : List Nat) : Option (Nat × fc_memo) :=
  match ctx.seq1 with
  | none => none
  | some seq1 =>
    if ¬ (seq2.length < ctx.mdim ∧ ctx.compute = fc_metric.FC_LCSUBSTR) then none
    else
      let len1 := ctx.len1
      let len2 := seq2.length
      let max_lens := ctx.mdim
      let skip := memoSkip ctx.seq2 seq2 (FC_MIN ctx.len2 len2) (FC_MIN ctx.len2 len2) 0
      let old_seq2 := memcpyAt ctx.seq2 skip seq2 (len2 - skip)
      let max_len := ctx.matrix.getD (max_lens * ctx.mdim + skip) 0
      let r := memoLcsubstrOuter seq1 seq2 ctx.mdim len1 max_lens (len2 - skip) (skip + 1)
        ctx.matrix max_len
      some (r.2, { ctx with seq2 := old_seq2, len2 := len2, matrix := r.1 })

/-- Inner loop of `fc_memo_lcsubseq` (over `j`, with `n` iterations left). -/
def memoLcsubseqInner (seq1 seq2 : List Nat) (mdim i : Nat) : Nat → Nat → List Nat → List Nat
  | 0, _, matrix => matrix
  | n + 1, j, matrix =>
    let matrix1 :=
      if seq1.getD (i - 1) 0 = seq2.getD (j - 1) 0 then
        matrix.set (i * mdim + j) (matrix.getD ((i - 1) * mdim + (j - 1)) 0 + 1)
      else
        let fst := matrix.getD (i * mdim + (j - 1)) 0
        let snd := matrix.getD ((i - 1) * mdim + j) 0
        matrix.set (i * mdim + j) (FC_MAX fst snd)
    memoLcsubseqInner seq1 seq2 mdim i n (j + 1) matrix1

/-- Outer loop of `fc_memo_lcsubseq` (over `i`, with `n` iterations left). -/
def memoLcsubseqOuter (seq1 seq2 : List Nat) (mdim skip : Nat) : Nat → Nat → List Nat → List Nat
  | 0, _, matrix => matrix
  | n + 1, i, matrix =>
    memoLcsubseqOuter seq1 seq2 mdim skip n (i + 1)
      (memoLcsubseqInner seq1 seq2 mdim i (seq2.length - skip) (skip + 1) matrix)

/-- The function `fc_memo_lcsubseq(ctx, seq2, len2)`: the returned value and
the state of `ctx` after the call; `none` when the assertion fails. -/
def fc_memo_lcsubseq (ctx : fc_memo) (seq2 : List Nat) : Option (Nat × fc_memo) :=
  match ctx.seq1 with
  | none => none
  | some seq1 =>
    if ¬ (seq2.length < ctx.mdim ∧ ctx.compute = fc_metric.FC_LCSUBSEQ) then none
    else
      let len1 := ctx.len1
      let len2 := seq2.length
      let skip := memoSkip ctx.seq2 seq2 (FC_MIN ctx.len2 len2) (FC_MIN ctx.len2 len2) 0
      let old_seq2 := memcpyAt ctx.seq2 skip seq2 (len2 - skip)
      let matrix := memoLcsubseqOuter seq1 seq2 ctx.mdim skip len1 1 ctx.matrix
      some (matrix.getD (len1 * ctx.mdim + len2) 0,
        { ctx with seq2 := old_seq2, len2 := len2, matrix := matrix })

/-- The loop of `fc_memo_distance` that takes the minimum of the column
`skip` of the matrix (over `i`, with `n` iterations left). -/
def memoColMin (matrix : List Nat) (mdim skip : Nat) : Nat → Nat → Nat → Nat
  | 0, _, min => min
  | n + 1, i, min =>
    let val := matrix.getD (i * mdim + skip) 0
    memoColMin matrix mdim skip n (i + 1) (if val < min then val else min)

/-- Inner loop of `fc_memo_distance` (over `j`, with `n` iterations left). -/
def memoDistInner (seq1 seq2 : List Nat) (mdim : Nat) (transpos : Bool) (i : Nat) :
    Nat → Nat → List Nat → List Nat
  | 0, _, matrix => matrix
  | n + 1, j, matrix =>
    let matrix1 :=
      if seq1.getD (i - 1) 0 = seq2.getD (j - 1) 0 then
        matrix.set (i * mdim + j) (matrix.getD ((i - 1) * mdim + (j - 1)) 0)
      else
        let ic := matrix.getD (i * mdim + (j - 1)) 0 + 1
        let dc := matrix.getD ((i - 1) * mdim + j) 0 + 1
        let rc := matrix.getD ((i - 1) * mdim + (j - 1)) 0 + 1
        let matrix2 := matrix.set (i * mdim + j) (FC_MIN3 ic dc rc)
        if transpos && TRANSPOSED seq1 seq2 i j then
          let ic1 := matrix2.getD (i * mdim + j) 0
          let tc := matrix2.getD ((i - 2) * mdim + (j - 2)) 0 + 1
          matrix2.set (i * mdim + j) (FC_MIN ic1 tc)
        else matrix2
    memoDistInner seq1 seq2 mdim transpos i n (j + 1) matrix1

/-- Outer loop of `fc_memo_distance` (over `i`, with `n` iterations left). -/
def memoDistOuter (seq1 seq2 : List Nat) (mdim skip : Nat) (transpos : Bool) :
    Nat → Nat → List Nat → List Nat
  | 0, _, matrix => matrix
  | n + 1, i, matrix =>
    memoDistOuter seq1 seq2 mdim skip transpos n (i + 1)
      (memoDistInner seq1 seq2 mdim transpos i (seq2.length - skip) (skip + 1) matrix)

/-- The function `fc_memo_distance(ctx, seq2, len2, transpos)`: the returned
value and the state of `ctx` after the call; `none` when the assertion
fails. -/
def fc_memo_distance (ctx : fc_memo) (seq2 : List Nat) (transpos : Bool) :
    Option (Nat × fc_memo) :=
  match ctx.seq1 with
  | none => none
  | some seq1 =>
    if ¬ (seq2.length < ctx.mdim) then none
    else
      let len1 := ctx.len1
      let len2 := seq2.length
      if (Int.natAbs ((len1 : Int) - (len2 : Int)) : Int) > ctx.max_dist then
        some (INT32_MAX, ctx)
      else
        let skip := memoSkip ctx.seq2 seq2 (FC_MIN ctx.len2 len2) (FC_MIN ctx.len2 len2) 0
        if skip ≠ 0 ∧
            ((memoColMin ctx.matrix ctx.mdim skip (len1 + 1) 0 INT32_MAX : Nat) : Int)
              > ctx.max_dist then
          some (INT32_MAX, ctx)
        else
          let old_seq2 := memcpyAt ctx.seq2 skip seq2 (len2 - skip)
          let matrix := memoDistOuter seq1 seq2 ctx.mdim skip transpos len1 1 ctx.matrix
          some (matrix.getD (len1 * ctx.mdim + len2) 0,
            { ctx with seq2 := old_seq2, len2 := len2, matrix := matrix })

/-- The function `fc_memo_levenshtein(ctx, seq2, len2)`. -/
def fc_memo_levenshtein (ctx : fc_memo) (seq2 : List Nat) : Option (Nat × fc_memo) :=
  if ctx.compute = fc_metric.FC_LEVENSHTEIN then fc_memo_distance ctx seq2 false else none

/-- The function `fc_memo_damerau(ctx, seq2, len2)`. -/
def fc_memo_damerau (ctx : fc_memo) (seq2 : List Nat) : Option (Nat × fc_memo) :=
  if ctx.compute = fc_metric.FC_DAMERAU then fc_memo_distance ctx seq2 true else none

/-- The function `fc_memo_compute(m, seq2, len2)`, which calls `m->compute`. -/
def fc_memo_compute (m : fc_memo) (seq2 : List Nat) : Option (Nat × fc_memo) :=
  match m.compute with
  | fc_metric.FC_LEVENSHTEIN => fc_memo_levenshtein m seq2
  | fc_metric.FC_DAMERAU => fc_memo_damerau m seq2
  | fc_metric.FC_LCSUBSTR => fc_memo_lcsubstr m seq2
  | fc_metric.FC_LCSUBSEQ => fc_memo_lcsubseq m seq2

/-- Runs `fc_memo_compute` on the queries of a list, in order, on one
memoizer; returns the list of the values returned, and `none` if an
assertion fails. -/
def memoRun : fc_memo → List (List Nat) → Option (List Nat)
  | _, [] => some []
  | m, q :: qs =>
    match fc_memo_compute m q with
    | none => none
    | some r =>
      match memoRun r.2 qs with
      | none => none
      | some vs => some (r.1 :: vs)

/-- The value of a metric in `enum fc_metric`. -/
def fc_metric.val : fc_metric → Nat
  | fc_metric.FC_LEVENSHTEIN => 0
  | fc_metric.FC_DAMERAU => 1
  | fc_metric.FC_LCSUBSTR => 2
  | fc_metric.FC_LCSUBSEQ => 3

/-- The table `funcs` of `fc_memo_metric`, filled by `[FC_##METRIC] =
fc_memo_##metric`: the cell of index `FC_X` holds the function of the metric
`FC_X` (a function is named by the metric it computes, as in the field
`compute`). -/
def memoFuncs : List fc_metric :=
  [fc_metric.FC_LEVENSHTEIN, fc_metric.FC_DAMERAU, fc_metric.FC_LCSUBSTR,
    fc_metric.FC_LCSUBSEQ]

/-- The loop `for (i = 0; i < FC_ARRAY_SIZE(funcs); i++) if (funcs[i] ==
ctx->compute) return i;` of `fc_memo_metric` over what is left of the table
from the index `i` on; `none` stands for the call of `fc_fatal` after the
loop. -/
def memoMetricLoop (compute : fc_metric) : List fc_metric → Nat → Option Nat
  | [], _ => none
  | f :: funcs, i => if f = compute then some i else memoMetricLoop compute funcs (i + 1)

/-- The function `fc_memo_metric` as the search of `ctx->compute` in the table
`funcs`: the index returned, as a number. -/
def fc_memo_metric_index (ctx : fc_memo) : Option Nat :=
  memoMetricLoop ctx.compute memoFuncs 0

/-- A call made on a memoizer after `fc_memo_init`: `fc_memo_set_ref(ctx,
seq1, len1)` or `fc_memo_compute(ctx, seq2, len2)`. -/
inductive MemoOp where
  | set_ref (seq1 : List Nat)
  | compute (seq2 : List Nat)
  deriving DecidableEq

/-- Runs a list of calls on a memoizer, in order; returns the memoizer they
leave, and `none` if an assertion fails. -/
def memoOps : fc_memo → List MemoOp → Option fc_memo
  | m, [] => some m
  | m, MemoOp.set_ref seq1 :: ops => memoOps (fc_memo_set_ref m seq1) ops
  | m, MemoOp.compute seq2 :: ops =>
    match fc_memo_compute m seq2 with
    | none => none
    | some r => memoOps r.2 ops

/-- The test of the two early exits of `fc_memo_distance(ctx, seq2, len2,
transpos)`: `abs(len1 - len2) > ctx->max_dist`, or `skip` is not 0 and the
minimum of the column `skip` of the matrix is above `ctx->max_dist`. -/
def memoRejects (ctx : fc_memo) (seq2 : List Nat) : Bool :=
  decide ((Int.natAbs ((ctx.len1 : Int) - (seq2.length : Int)) : Int) > ctx.max_dist) ||
  decide (memoSkip ctx.seq2 seq2 (FC_MIN ctx.len2 seq2.length) (FC_MIN ctx.len2 seq2.length) 0
      ≠ 0 ∧
    ((memoColMin ctx.matrix ctx.mdim
        (memoSkip ctx.seq2 seq2 (FC_MIN ctx.len2 seq2.length) (FC_MIN ctx.len2 seq2.length) 0)
        (ctx.len1 + 1) 0 INT32_MAX : Nat) : Int) > ctx.max_dist)

/-- The sequence that a memoizer holds as its previous sequence: the first
`len2` codepoints of the buffer `seq2`. -/
def memoPrev (ctx : fc_memo) : List Nat := ctx.seq2.take ctx.len2

/-! # Specification -/

/-- One edit of a sequence: the insertion, the deletion or the substitution of
a single codepoint at any position and, when `t` is true, also the swap of
two adjacent codepoints. -/
inductive EditStep (t : Bool) : List Nat → List Nat → Prop
  | ins (u v : List Nat) (x : Nat) : EditStep t (u ++ v) (u ++ x :: v)
  | del (u v : List Nat) (x : Nat) : EditStep t (u ++ x :: v) (u ++ v)
  | sub (u v : List Nat) (x y : Nat) : EditStep t (u ++ x :: v) (u ++ y :: v)
  | swap (h : t = true) (u v : List Nat) (x y : Nat) :
      EditStep t (u ++ x :: y :: v) (u ++ y :: x :: v)

/-- The proposition `EditSeq t a b n`: some sequence of `n` edits, each applied
to the result of the one before, transforms `a` into `b`. -/
inductive EditSeq (t : Bool) : List Nat → List Nat → Nat → Prop
  | refl (a : List Nat) : EditSeq t a a 0
  | snoc {a b c : List Nat} {n : Nat} : EditSeq t a b n → EditStep t b c → EditSeq t a c (n + 1)

/-- The proposition `Align t a b n`: `a` is turned into `b` by `n` edits read
off an alignment of the two sequences from left to right, so that no
codepoint is edited twice: kept codepoints are free, a substitution, a
deletion, an insertion and (when `t` is true) a swap of two adjacent
codepoints cost one each. -/
inductive Align (t : Bool) : List Nat → List Nat → Nat → Prop
  | nil : Align t [] [] 0
  | keep (x : Nat) {a b : List Nat} {n : Nat} : Align t a b n → Align t (x :: a) (x :: b) n
  | sub (x y : Nat) {a b : List Nat} {n : Nat} :
      Align t a b n → Align t (x :: a) (y :: b) (n + 1)
  | del (x : Nat) {a b : List Nat} {n : Nat} : Align t a b n → Align t (x :: a) b (n + 1)
  | ins (y : Nat) {a b : List Nat} {n : Nat} : Align t a b n → Align t a (y :: b) (n + 1)
  | swap (h : t = true) (x y : Nat) {a b : List Nat} {n : Nat} :
      Align t a b n → Align t (x :: y :: a) (y :: x :: b) (n + 1)

/-- The edit distance by recursion on the two sequences from their heads:
Levenshtein when `t` is false, with the restricted transposition term when
`t` is true. -/
def dist (t : Bool) : List Nat → List Nat → Nat
  | [], b => b.length
  | _ :: a, [] => a.length + 1
  | x :: a, y :: b =>
    if x = y then dist t a b
    else
      let base := min (dist t (x :: a) b + 1) (min (dist t a (y :: b) + 1) (dist t a b + 1))
      if t = true ∧ a.head? = some y ∧ b.head? = some x then
        min (dist t a.tail b.tail + 1) base
      else base
termination_by a b => a.length + b.length
decreasing_by
  all_goals simp_wf
  all_goals omega

/-- The full recurrence of the matrix of edit operations on the prefixes of
`a` and `b` (Wagner and Fischer): the cell `(i, j)` compares the first `i`
codepoints of `a` with the first `j` codepoints of `b`. With `t` true the
cell `(i - 2, j - 2)` enters when `TRANSPOSED(a, b, i, j)` holds. -/
def distCell (t : Bool) (a b : List Nat) : Nat → Nat → Nat
  | 0, j => j
  | i + 1, 0 => i + 1
  | i + 1, j + 1 =>
    if a.getD i 0 = b.getD j 0 then distCell t a b i j
    else
      let base := min (distCell t a b (i + 1) j + 1)
        (min (distCell t a b i (j + 1) + 1) (distCell t a b i j + 1))
      if t = true ∧ TRANSPOSED a b (i + 1) (j + 1) = true then
        min (distCell t a b (i - 1) (j - 1) + 1) base
      else base
termination_by i j => i + j
decreasing_by
  all_goals simp_wf
  all_goals omega

/-- Length of the longest common suffix of the first `i` codepoints of `a`
and the first `j` codepoints of `b`. -/
def csCell (a b : List Nat) : Nat → Nat → Nat
  | 0, _ => 0
  | _ + 1, 0 => 0
  | i + 1, j + 1 => if a.getD i 0 = b.getD j 0 then csCell a b i j + 1 else 0

/-- The recurrence of the longest common subsequence on the prefixes of `a`
and `b`. -/
def lcsCell (a b : List Nat) : Nat → Nat → Nat
  | 0, _ => 0
  | _ + 1, 0 => 0
  | i + 1, j + 1 =>
    if a.getD i 0 = b.getD j 0 then lcsCell a b i j + 1
    else max (lcsCell a b (i + 1) j) (lcsCell a b i (j + 1))
termination_by i j => i + j
decreasing_by
  all_goals simp_wf
  all_goals omega

/-- The scan of `fc_lev_bounded2` for one model, told on the two sequences as
lists: the number of edits made when the operations `ops` left of the model
(`d` = 100 drops a codepoint of the first sequence, `i` = 105 one of the
second, any other one of both) are applied in order at the successive
mismatches, and what is left of either sequence is removed at the end;
`none` when a mismatch is met and no operation is left. -/
def modelCost : List Nat → List Nat → List Nat → Option Nat
  | _, [], b => some b.length
  | _, _ :: a, [] => some (a.length + 1)
  | ops, x :: a, y :: b =>
    if x = y then modelCost ops a b
    else
      match ops with
      | [] => none
      | o :: ops1 =>
        if o = 100 then (modelCost ops1 a (y :: b)).map (fun n => n + 1)
        else if o = 105 then (modelCost ops1 (x :: a) b).map (fun n => n + 1)
        else (modelCost ops1 a b).map (fun n => n + 1)
termination_by _ a b => a.length + b.length
decreasing_by
  all_goals simp_wf
  all_goals omega

/-- The proposition `CsMax a b n m v`: `v` is the largest of the lengths
`csCell a b i j` of common suffixes, over the prefixes of `a` of length
`i ≤ n` and the prefixes of `b` of length `j ≤ m`. -/
def CsMax (a b : List Nat) (n m v : Nat) : Prop :=
  (∀ i j, i ≤ n → j ≤ m → csCell a b i j ≤ v) ∧ ∃ i j, i ≤ n ∧ j ≤ m ∧ csCell a b i j = v

/-- The one-shot function of a metric. -/
def oneShot : fc_metric → List Nat → List Nat → Nat
  | fc_metric.FC_LEVENSHTEIN => fc_levenshtein
  | fc_metric.FC_DAMERAU => fc_damerau
  | fc_metric.FC_LCSUBSTR => fc_lcsubstr
  | fc_metric.FC_LCSUBSEQ => fc_lcsubseq

/-- State of a memoizer of the given metric between two calls: the common
fields are set for the reference `r` and the bound `max_len` on the lengths,
the first row and the first column of the matrix are as `fc_memo_init` left
them, and the cells of the rows up to `len1` and the columns up to `len2`
(for `FC_LCSUBSTR`: the other way round, with the running maximum in the
additional row) hold the recurrence of the metric for `r` and the previous
sequence. -/
def MemoInv (metric : fc_metric) (max_len : Nat) (r : List Nat) (ctx : fc_memo) : Prop :=
  ctx.compute = metric ∧ ctx.mdim = max_len + 1 ∧ ctx.seq1 = some r ∧ ctx.len1 = r.length ∧
  r.length ≤ max_len ∧ ctx.seq2.length = max_len ∧ ctx.len2 ≤ max_len ∧
  match metric with
  | fc_metric.FC_LEVENSHTEIN =>
    ctx.mdim * ctx.mdim ≤ ctx.matrix.length ∧
    (∀ i, i < ctx.mdim → ctx.matrix.getD (i * ctx.mdim + 0) 0 = i) ∧
    (∀ j, j < ctx.mdim → ctx.matrix.getD (0 * ctx.mdim + j) 0 = j) ∧
    (∀ i j, i ≤ r.length → j ≤ ctx.len2 →
      ctx.matrix.getD (i * ctx.mdim + j) 0 = distCell false r ctx.seq2 i j)
  | fc_metric.FC_DAMERAU =>
    ctx.mdim * ctx.mdim ≤ ctx.matrix.length ∧
    (∀ i, i < ctx.mdim → ctx.matrix.getD (i * ctx.mdim + 0) 0 = i) ∧
    (∀ j, j < ctx.mdim → ctx.matrix.getD (0 * ctx.mdim + j) 0 = j) ∧
    (∀ i j, i ≤ r.length → j ≤ ctx.len2 →
      ctx.matrix.getD (i * ctx.mdim + j) 0 = distCell true r ctx.seq2 i j)
  | fc_metric.FC_LCSUBSEQ =>
    ctx.mdim * ctx.mdim ≤ ctx.matrix.length ∧
    (∀ i, i < ctx.mdim → ctx.matrix.getD (i * ctx.mdim + 0) 0 = 0) ∧
    (∀ j, j < ctx.mdim → ctx.matrix.getD (0 * ctx.mdim + j) 0 = 0) ∧
    (∀ i j, i ≤ r.length → j ≤ ctx.len2 →
      ctx.matrix.getD (i * ctx.mdim + j) 0 = lcsCell r ctx.seq2 i j)
  | fc_metric.FC_LCSUBSTR =>
    (ctx.mdim + 1) * ctx.mdim ≤ ctx.matrix.length ∧
    (∀ i, i < ctx.mdim → ctx.matrix.getD (i * ctx.mdim + 0) 0 = 0) ∧
    (∀ j, j < ctx.mdim → ctx.matrix.getD (0 * ctx.mdim + j) 0 = 0) ∧
    (∀ i j, i ≤ ctx.len2 → j ≤ r.length →
      ctx.matrix.getD (i * ctx.mdim + j) 0 = csCell r ctx.seq2 j i) ∧
    (∀ i, i ≤ ctx.len2 →
      CsMax r ctx.seq2 r.length i (ctx.matrix.getD (ctx.mdim * ctx.mdim + i) 0))

/-- A memoizer structure before `fc_memo_init`, with arbitrary content. -/
def memo0 : fc_memo := ⟨fc_metric.FC_LEVENSHTEIN, [], 0, none, 0, [], 0, 0⟩

/-- Alignments of `a` with `b`, read from the heads of the two sequences, with
their cost and their number of steps: `AlignPath a b n m` holds when some
alignment made of matches (`keep`, free), substitutions, deletions and
insertions (one each) has cost `n` and `m` steps in all, every match,
substitution, deletion and insertion counting one step. -/
inductive AlignPath : List Nat → List Nat → Nat → Nat → Prop
  | nil : AlignPath [] [] 0 0
  | keep (x : Nat) {a b : List Nat} {n m : Nat} :
      AlignPath a b n m → AlignPath (x :: a) (x :: b) n (m + 1)
  | sub (x y : Nat) {a b : List Nat} {n m : Nat} :
      AlignPath a b n m → AlignPath (x :: a) (y :: b) (n + 1) (m + 1)
  | del (x : Nat) {a b : List Nat} {n m : Nat} :
      AlignPath a b n m → AlignPath (x :: a) b (n + 1) (m + 1)
  | ins (y : Nat) {a b : List Nat} {n m : Nat} :
      AlignPath a b n m → AlignPath a (y :: b) (n + 1) (m + 1)

/-- The proposition `LongestOptimal a b d l`: `d` is the least cost of an
alignment of `a` with `b`, and `l` is the largest number of steps of an
alignment of `a` with `b` of cost `d`. -/
def LongestOptimal (a b : List Nat) (d l : Nat) : Prop :=
  AlignPath a b d l ∧ ∀ n m, AlignPath a b n m → d ≤ n ∧ (n = d → m ≤ l)

/-- The two matrices of `fc_nlevenshtein0` under `FC_NORM_LALIGN`, as a
recurrence on the prefixes of `a` and `b`: the cell `(i, j)` holds the cost
(`column`) and the alignment length (`length`) for the first `i` codepoints of
`a` and the first `j` codepoints of `b`. -/
def lalignCell (a b : List Nat) : Nat → Nat → Nat × Nat
  | 0, j => (j, j)
  | i + 1, 0 => (i + 1, i + 1)
  | i + 1, j + 1 =>
    let ic := (lalignCell a b (i + 1) j).1 + 1
    let dc := (lalignCell a b i (j + 1)).1 + 1
    let rc := (lalignCell a b i j).1 + (if a.getD i 0 ≠ b.getD j 0 then 1 else 0)
    let d := min ic (min dc rc)
    (d, max (if ic = d then (lalignCell a b (i + 1) j).2 + 1 else 0)
      (max (if dc = d then (lalignCell a b i (j + 1)).2 + 1 else 0)
        (if rc = d then (lalignCell a b i j).2 + 1 else 0)))
termination_by i j => i + j
decreasing_by
  all_goals simp_wf
  all_goals omega

/-- The value of `window` in `fc_jaro0` for sequences of the lengths `len1`
and `len2`. -/
def jaroWindow (len1 len2 : Nat) : Int :=
  if ((FC_MAX len1 len2 / 2 : Nat) : Int) - 1 < 0 then 0
  else ((FC_MAX len1 len2 / 2 : Nat) : Int) - 1

/-- The matching phase of `fc_jaro(seq1, len1, seq2, len2)`: the flag buffer
(`matched1`, with `matched2` at the offset `len1`) and the value of `matches`
when the first loop of `fc_jaro0` ends. -/
def jaroFlags (seq1 seq2 : List Nat) : List Nat × Nat :=
  let buf :=
    if seq1.length + seq2.length > FC_DEFAULT_COLUMN_LEN * 2 then
      scratch (seq1.length + seq2.length)
    else scratch (FC_DEFAULT_COLUMN_LEN * 2)
  jaroMatch seq1 seq2 (jaroWindow seq1.length seq2.length) seq1.length 0
    (memsetZero buf (seq1.length + seq2.length)) 0

/-- The transposition phase of `fc_jaro`, run on the flags left by the
matching phase: the value of `transpos` after `transpos >>= 1`; `none` stands
for a read outside `seq2`. -/
def jaroTransposCount (seq1 seq2 : List Nat) : Option Nat :=
  (jaroTranspos seq1 seq2 (jaroFlags seq1 seq2).1 seq1.length 0 0 0).map (fun t => t / 2)

/-- The proposition `JaroValid a b w i j`: position `j` of `b` holds the same
codepoint as position `i` of `a` and lies in the window of `i`, that is
`bot ≤ j < top` in the matching phase of `fc_jaro0` at `i`. -/
def JaroValid (a b : List Nat) (w : Int) (i j : Nat) : Prop :=
  i < a.length ∧ j < b.length ∧ a.getD i 0 = b.getD j 0 ∧
    (i : Int) - w ≤ (j : Int) ∧ (j : Int) ≤ (i : Int) + w

/-- The proposition `JaroGreedy a b w n R`: `R` pairs positions of `a` below
`n` with positions of `b` the way the matching phase of `fc_jaro0` does: every
pair is valid, no position is paired twice, and a position of `a` is paired
with the first valid position of `b` that no earlier position of `a` took (it
stays alone when there is none). -/
def JaroGreedy (a b : List Nat) (w : Int) (n : Nat) (R : Nat → Nat → Prop) : Prop :=
  (∀ i j, R i j → i < n ∧ JaroValid a b w i j) ∧
  (∀ i j j', R i j → R i j' → j = j') ∧
  (∀ i i' j, R i j → R i' j → i = i') ∧
  (∀ i j, R i j → ∀ j', j' < j → JaroValid a b w i j' → ∃ i', i' < i ∧ R i' j') ∧
  (∀ i, i < n → (∀ j, ¬ R i j) → ∀ j', JaroValid a b w i j' → ∃ i', i' < i ∧ R i' j')

/-- The codepoints of `seq` at the positions `i, i + 1, ..., i + n - 1` whose
flag `flags[off + i]` is set, in order. -/
def flaggedFrom (seq flags : List Nat) (off : Nat) : Nat → Nat → List Nat
  | 0, _ => []
  | n + 1, i =>
    if flags.getD (off + i) 0 ≠ 0 then seq.getD i 0 :: flaggedFrom seq flags off n (i + 1)
    else flaggedFrom seq flags off n (i + 1)

/-- The number of positions at which two lists differ (up to the length of
the shorter one). -/
def mismatches : List Nat → List Nat → Nat
  | x :: xs, y :: ys => (if x ≠ y then 1 else 0) + mismatches xs ys
  | _, _ => 0

/-- State of the matching phase of `fc_jaro0` once the positions of `seq1`
below `n` are done: the flags of the buffer are those of a greedy pairing,
and `matches` counts the flags set for either sequence. -/
def JaroInv (a b : List Nat) (w : Int) (n : Nat) (flags : List Nat) (nmatches : Nat) : Prop :=
  a.length + b.length ≤ flags.length ∧
  (∃ R, JaroGreedy a b w n R ∧
    (∀ i, i < a.length → (flags.getD i 0 ≠ 0 ↔ ∃ j, R i j)) ∧
    (∀ j, j < b.length → (flags.getD (a.length + j) 0 ≠ 0 ↔ ∃ i, R i j))) ∧
  nmatches = (flaggedFrom a flags 0 a.length 0).length ∧
  nmatches = (flaggedFrom b flags a.length b.length 0).length

/-- The value returned by `fc_jaro0` for `matches` matches and `transpos`
differences between the flagged codepoints (before halving). -/
def jaroValue (len1 len2 nmatches transpos : Nat) : ℚ :=
  if nmatches = 0 then 0
  else 1 - (1 / 3 * ((nmatches : ℚ) / (len1 : ℚ) + (nmatches : ℚ) / (len2 : ℚ)
    + ((nmatches : ℚ) - ((transpos / 2 : Nat) : ℚ)) / (nmatches : ℚ)))

/-- The places of the six rows of `fc_ndamerau0` in its buffer, `W` being
`len2 + 1`: the rows `ltranspos`, `lprevious`, `lcurrent` lie at `0`, `W`,
`2 * W` and the rows `transpos`, `previous`, `current` at `3 * W`, `4 * W`,
`5 * W`, in this order or in one of the two orders that the rotations
`FC_SWAP3` give. -/
def NdamRows (W t p c lt lp lc : Nat) : Prop :=
  (lt = 0 ∧ lp = W ∧ lc = 2 * W ∧ t = 3 * W ∧ p = 4 * W ∧ c = 5 * W) ∨
  (lt = W ∧ lp = 2 * W ∧ lc = 0 ∧ t = 4 * W ∧ p = 5 * W ∧ c = 3 * W) ∨
  (lt = 2 * W ∧ lp = 0 ∧ lc = W ∧ t = 5 * W ∧ p = 3 * W ∧ c = 4 * W)

/-- The value that the body of the inner loop of `fc_ndamerau0` stores in
`current[j]`, from the costs `ic`, `dc`, `rc` and, when `transposed` holds,
`tc`. -/
def ndamCost (transposed : Bool) (ic dc rc tc : Nat) : Nat :=
  if transposed then FC_MIN (FC_MIN3 ic dc rc) tc else FC_MIN3 ic dc rc

/-- The value that the body of the inner loop of `fc_ndamerau0` stores in
`lcurrent[j]`; `la`, `lb`, `lr` and `lx` are the cells `lcurrent[j - 1]`,
`lprevious[j]`, `lprevious[j - 1]` and `ltranspos[j - 2]`. -/
def ndamLen (transposed : Bool) (ic dc rc tc la lb lr lx : Nat) : Nat :=
  let d := ndamCost transposed ic dc rc tc
  let l := FC_MAX3 (if ic = d then la + 1 else 0) (if dc = d then lb + 1 else 0)
    (if rc = d then lr + 1 else 0)
  if transposed then FC_MAX l (if tc = d then lx + 1 else 0) else l

/-- The property of the cell `k` of a cost row at the offset `x` and of the
length row at the offset `lx` of the buffer `M` of `fc_ndamerau0`: the cost is
at most the length, and the length is positive from the cell 1 on. -/
def NdamGood (M : List Nat) (x lx k : Nat) : Prop :=
  M.getD (x + k) 0 ≤ M.getD (lx + k) 0 ∧ (1 ≤ k → 1 ≤ M.getD (lx + k) 0)

/-- The invariant of the inner loop of `fc_ndamerau0` before the iteration
`j` of the row `i`: the buffer holds the six rows of `W` cells, the cells of
`current` before `j` and all the cells of `previous` are good, and from the
second row on the cells of `transpos` are at most those of `ltranspos`. -/
def NdamInv (W i t p c lt lp lc j : Nat) (M : List Nat) : Prop :=
  6 * W ≤ M.length ∧
  (∀ k, k < j → NdamGood M c lc k) ∧
  (∀ k, k < W → NdamGood M p lp k) ∧
  (2 ≤ i → ∀ k, k < W → M.getD (t + k) 0 ≤ M.getD (lt + k) 0)

/-- The invariant of the inner loop of `fc_ndamerau0` on its three cost rows,
before the iteration `j` of the row `i`: the cells of `current` before `j`,
the row `previous` and, from the second row on, the row `transpos` hold the
rows `i`, `i - 1` and `i - 2` of the matrix of edit operations with
transpositions. -/
def NdamDist (seq1 seq2 : List Nat) (W i t p c j : Nat) (M : List Nat) : Prop :=
  (∀ k, k < j → M.getD (c + k) 0 = distCell true seq1 seq2 i k) ∧
  (∀ k, k < W → M.getD (p + k) 0 = distCell true seq1 seq2 (i - 1) k) ∧
  (2 ≤ i → ∀ k, k < W → M.getD (t + k) 0 = distCell true seq1 seq2 (i - 2) k)

/-- The cell `(i, j)` of the recurrence of a metric for a reference `r` and a
sequence `q`: `i` codepoints of `r` against `j` codepoints of `q`. -/
def memoCell (metric : fc_metric) (r q : List Nat) (i j : Nat) : Nat :=
  match metric with
  | fc_metric.FC_LEVENSHTEIN => distCell false r q i j
  | fc_metric.FC_DAMERAU => distCell true r q i j
  | fc_metric.FC_LCSUBSTR => csCell r q i j
  | fc_metric.FC_LCSUBSEQ => lcsCell r q i j

/-- The index, in the matrix of a memoizer, of the cell for `i` codepoints of
the reference and `j` codepoints of the sequence: `matrix[i][j]`, and
`matrix[j][i]` for `FC_LCSUBSTR`. -/
def memoIndex (metric : fc_metric) (mdim i j : Nat) : Nat :=
  match metric with
  | fc_metric.FC_LCSUBSTR => j * mdim + i
  | _ => i * mdim + j

/-- The value of the first row and of the first column of the matrix of a
memoizer at the index `k`: `k` for the two edit distances, 0 for the two
other metrics. -/
def memoBorder (metric : fc_metric) (k : Nat) : Nat :=
  match metric with
  | fc_metric.FC_LEVENSHTEIN => k
  | fc_metric.FC_DAMERAU => k
  | _ => 0

/-! # Theorems -/

/-! ## Macros and buffers -/

theorem FC_MIN_eq (a b : Nat) : FC_MIN a b = min a b := by
  unfold FC_MIN
  split <;> omega

theorem FC_MIN3_eq (a b c : Nat) : FC_MIN3 a b c = min a (min b c) := by
  simp only [FC_MIN3, FC_MIN_eq]

theorem FC_MAX_eq (a b : Nat) : FC_MAX a b = max a b := by
  unfold FC_MAX
  split <;> omega

theorem getD_set_eq (l : List Nat) (i v : Nat) (h : i < l.length) :
    (l.set i v).getD i 0 = v := by
  simp [List.getD_eq_getElem?_getD, List.getElem?_set, h]

theorem getD_set_ne (l : List Nat) (i j v : Nat) (h : i ≠ j) :
    (l.set i v).getD j 0 = l.getD j 0 := by
  simp [List.getD_eq_getElem?_getD, List.getElem?_set, h]

theorem getD_scratch (n k : Nat) : (scratch n).getD k 0 = 0 := by
  unfold scratch
  by_cases h : k < n
  · simp [List.getD_eq_getElem?_getD, List.getElem?_replicate, h]
  · simp [List.getD_eq_getElem?_getD, List.getElem?_replicate, h]

theorem length_scratch (n : Nat) : (scratch n).length = n := by
  simp [scratch]

/-! ## The edit distance on lists -/

theorem dist_nil_left (t : Bool) (b : List Nat) : dist t [] b = b.length := by
  rw [dist]

theorem dist_nil_right (t : Bool) (a : List Nat) : dist t a [] = a.length := by
  cases a with
  | nil => rw [dist]
  | cons x a => rw [dist]; rfl

theorem dist_cons_cons (t : Bool) (x y : Nat) (a b : List Nat) :
    dist t (x :: a) (y :: b) =
      if x = y then dist t a b
      else if t = true ∧ a.head? = some y ∧ b.head? = some x then
        min (dist t a.tail b.tail + 1)
          (min (dist t (x :: a) b + 1) (min (dist t a (y :: b) + 1) (dist t a b + 1)))
      else min (dist t (x :: a) b + 1) (min (dist t a (y :: b) + 1) (dist t a b + 1)) := by
  rw [dist]

theorem dist_cons_same (t : Bool) (x : Nat) (a b : List Nat) :
    dist t (x :: a) (x :: b) = dist t a b := by
  rw [dist_cons_cons, if_pos rfl]

theorem dist_comm_aux (t : Bool) : ∀ (n : Nat) (a b : List Nat),
    a.length + b.length = n → dist t a b = dist t b a := by
  intro n
  induction n using Nat.strong_induction_on with
  | _ n ih =>
    intro a b hn
    cases a with
    | nil => rw [dist_nil_left, dist_nil_right]
    | cons x a =>
      cases b with
      | nil => rw [dist_nil_left, dist_nil_right]
      | cons y b =>
        simp only [List.length_cons] at hn
        have h1 : dist t a b = dist t b a := ih (a.length + b.length) (by omega) a b rfl
        have h2 : dist t (x :: a) b = dist t b (x :: a) :=
          ih (a.length + 1 + b.length) (by omega) (x :: a) b (by simp)
        have h3 : dist t a (y :: b) = dist t (y :: b) a :=
          ih (a.length + (b.length + 1)) (by omega) a (y :: b) (by simp)
        have h4 : dist t a.tail b.tail = dist t b.tail a.tail :=
          ih (a.tail.length + b.tail.length) (by simp only [List.length_tail]; omega)
            a.tail b.tail rfl
        by_cases hxy : x = y
        · rw [dist_cons_cons, dist_cons_cons, if_pos hxy, if_pos hxy.symm, h1]
        · rw [dist_cons_cons, dist_cons_cons, if_neg hxy, if_neg (Ne.symm hxy)]
          by_cases hc : t = true ∧ a.head? = some y ∧ b.head? = some x
          · rw [if_pos hc, if_pos (show t = true ∧ b.head? = some x ∧ a.head? = some y from ⟨hc.1, hc.2.2, hc.2.1⟩),
              h1, h2, h3, h4]
            omega
          · rw [if_neg hc, if_neg (show ¬ (t = true ∧ b.head? = some x ∧ a.head? = some y) from
              fun h => hc ⟨h.1, h.2.2, h.2.1⟩), h1, h2, h3]
            omega

theorem dist_comm (t : Bool) (a b : List Nat) : dist t a b = dist t b a :=
  dist_comm_aux t _ a b rfl

theorem dist_cons_cons_le_base (t : Bool) (x y : Nat) (a b : List Nat) (h : x ≠ y) :
    dist t (x :: a) (y :: b)
      ≤ min (dist t (x :: a) b + 1) (min (dist t a (y :: b) + 1) (dist t a b + 1)) := by
  rw [dist_cons_cons, if_neg h]
  split
  · exact Nat.min_le_right _ _
  · exact Nat.le_refl _

theorem dist_lipschitz_aux (t : Bool) : ∀ (n : Nat) (a b : List Nat) (x : Nat),
    a.length + b.length = n →
      dist t a (x :: b) ≤ dist t a b + 1 ∧ dist t a b ≤ dist t a (x :: b) + 1 := by
  intro n
  induction n using Nat.strong_induction_on with
  | _ n ih =>
    intro a b x hn
    cases a with
    | nil => rw [dist_nil_left, dist_nil_left, List.length_cons]; omega
    | cons z a =>
      simp only [List.length_cons] at hn
      -- the two bounds with the roles of the sequences exchanged, at smaller sizes
      have hA : dist t (z :: a) b ≤ dist t a b + 1 := by
        have := (ih (b.length + a.length) (by omega) b a z rfl).1
        rwa [dist_comm t b (z :: a), dist_comm t b a] at this
      have hB : dist t a b ≤ dist t (z :: a) b + 1 := by
        have := (ih (b.length + a.length) (by omega) b a z rfl).2
        rwa [dist_comm t b (z :: a), dist_comm t b a] at this
      by_cases hzx : z = x
      · subst hzx
        rw [dist_cons_same]
        exact ⟨hB, hA⟩
      · constructor
        · have := dist_cons_cons_le_base t z x a b hzx
          omega
        · have h2 := (ih (a.length + b.length) (by omega) a b x rfl).2
          rw [dist_cons_cons, if_neg hzx]
          by_cases hc : t = true ∧ a.head? = some x ∧ b.head? = some z
          · rw [if_pos hc]
            obtain ⟨_, ha, hb⟩ := hc
            cases a with
            | nil => simp at ha
            | cons x2 a2 =>
              cases b with
              | nil => simp at hb
              | cons z2 b2 =>
                simp only [List.head?_cons, Option.some.injEq] at ha hb
                subst ha hb
                simp only [List.tail_cons]
                have h5 : dist t (z2 :: x2 :: a2) (z2 :: b2) ≤ dist t a2 b2 + 1 := by
                  rw [dist_cons_same]
                  have := (ih (b2.length + a2.length)
                    (by simp only [List.length_cons] at hn; omega) b2 a2 x2 rfl).1
                  rwa [dist_comm t b2 (x2 :: a2), dist_comm t b2 a2] at this
                omega
          · rw [if_neg hc]
            omega

theorem dist_cons_right_le (t : Bool) (a b : List Nat) (x : Nat) :
    dist t a (x :: b) ≤ dist t a b + 1 :=
  (dist_lipschitz_aux t _ a b x rfl).1

theorem dist_le_cons_right (t : Bool) (a b : List Nat) (x : Nat) :
    dist t a b ≤ dist t a (x :: b) + 1 :=
  (dist_lipschitz_aux t _ a b x rfl).2

theorem dist_cons_left_le (t : Bool) (a b : List Nat) (x : Nat) :
    dist t (x :: a) b ≤ dist t a b + 1 := by
  rw [dist_comm t (x :: a) b, dist_comm t a b]
  exact dist_cons_right_le t b a x

theorem dist_le_cons_left (t : Bool) (a b : List Nat) (x : Nat) :
    dist t a b ≤ dist t (x :: a) b + 1 := by
  rw [dist_comm t (x :: a) b, dist_comm t a b]
  exact dist_le_cons_right t b a x

theorem dist_cons_cons_le (t : Bool) (a b : List Nat) (x y : Nat) :
    dist t (x :: a) (y :: b) ≤ dist t a b + 1 := by
  by_cases h : x = y
  · subst h
    rw [dist_cons_same]
    omega
  · have := dist_cons_cons_le_base t x y a b h
    omega

theorem dist_self (t : Bool) (a : List Nat) : dist t a a = 0 := by
  induction a with
  | nil => rw [dist_nil_left]; rfl
  | cons x a ih => rw [dist_cons_same, ih]

theorem dist_append_left (t : Bool) (p a b : List Nat) :
    dist t (p ++ a) (p ++ b) = dist t a b := by
  induction p with
  | nil => rfl
  | cons x p ih => rw [List.cons_append, List.cons_append, dist_cons_same, ih]

/-! ## Alignments and the edit distance -/

theorem Align.nil_left (t : Bool) : ∀ b : List Nat, Align t [] b b.length
  | [] => Align.nil
  | y :: b => Align.ins y (Align.nil_left t b)

theorem Align.nil_right (t : Bool) : ∀ a : List Nat, Align t a [] a.length
  | [] => Align.nil
  | x :: a => Align.del x (Align.nil_right t a)

theorem dist_le_of_align (t : Bool) {a b : List Nat} {n : Nat} (h : Align t a b n) :
    dist t a b ≤ n := by
  induction h with
  | nil => rw [dist_nil_left]; exact Nat.le_refl _
  | keep x _ ih => rw [dist_cons_same]; exact ih
  | sub x y _ ih =>
    exact Nat.le_trans (dist_cons_cons_le t _ _ x y) (Nat.add_le_add_right ih 1)
  | del x _ ih =>
    exact Nat.le_trans (dist_cons_left_le t _ _ x) (Nat.add_le_add_right ih 1)
  | ins y _ ih =>
    exact Nat.le_trans (dist_cons_right_le t _ _ y) (Nat.add_le_add_right ih 1)
  | swap ht x y _ ih =>
    by_cases hxy : x = y
    · subst hxy
      rw [dist_cons_same, dist_cons_same]
      omega
    · rw [dist_cons_cons, if_neg hxy, if_pos ⟨ht, rfl, rfl⟩]
      simp only [List.tail_cons]
      omega

theorem align_dist_aux (t : Bool) : ∀ (n : Nat) (a b : List Nat),
    a.length + b.length = n → Align t a b (dist t a b) := by
  intro n
  induction n using Nat.strong_induction_on with
  | _ n ih =>
    intro a b hn
    cases a with
    | nil => rw [dist_nil_left]; exact Align.nil_left t b
    | cons x a =>
      cases b with
      | nil => rw [dist_nil_right]; exact Align.nil_right t (x :: a)
      | cons y b =>
        simp only [List.length_cons] at hn
        have h1 : Align t a b (dist t a b) := ih (a.length + b.length) (by omega) a b rfl
        have h2 : Align t (x :: a) b (dist t (x :: a) b) :=
          ih (a.length + 1 + b.length) (by omega) (x :: a) b (by simp)
        have h3 : Align t a (y :: b) (dist t a (y :: b)) :=
          ih (a.length + (b.length + 1)) (by omega) a (y :: b) (by simp)
        by_cases hxy : x = y
        · subst hxy
          rw [dist_cons_same]
          exact Align.keep x h1
        · have hbase : ∀ v, v = min (dist t (x :: a) b + 1)
              (min (dist t a (y :: b) + 1) (dist t a b + 1)) → Align t (x :: a) (y :: b) v := by
            intro v hv
            have hcases : v = dist t (x :: a) b + 1 ∨ v = dist t a (y :: b) + 1
                ∨ v = dist t a b + 1 := by omega
            rcases hcases with h | h | h
            · rw [h]; exact Align.ins y h2
            · rw [h]; exact Align.del x h3
            · rw [h]; exact Align.sub x y h1
          rw [dist_cons_cons, if_neg hxy]
          by_cases hc : t = true ∧ a.head? = some y ∧ b.head? = some x
          · rw [if_pos hc]
            obtain ⟨ht, ha, hb⟩ := hc
            cases a with
            | nil => simp at ha
            | cons x2 a2 =>
              cases b with
              | nil => simp at hb
              | cons y2 b2 =>
                simp only [List.head?_cons, Option.some.injEq] at ha hb
                subst ha hb
                simp only [List.tail_cons]
                simp only [List.length_cons] at hn
                have h4 : Align t a2 b2 (dist t a2 b2) :=
                  ih (a2.length + b2.length) (by omega) a2 b2 rfl
                rcases Nat.le_total (dist t a2 b2 + 1)
                  (min (dist t (y2 :: x2 :: a2) (y2 :: b2) + 1)
                    (min (dist t (x2 :: a2) (x2 :: y2 :: b2) + 1)
                      (dist t (x2 :: a2) (y2 :: b2) + 1))) with hle | hle
                · rw [Nat.min_eq_left hle]
                  exact Align.swap ht y2 x2 h4
                · rw [Nat.min_eq_right hle]
                  exact hbase _ rfl
          · rw [if_neg hc]
            exact hbase _ rfl

/-- The distance `dist t a b` is the cost of some alignment of `a` and `b`. -/
theorem align_dist (t : Bool) (a b : List Nat) : Align t a b (dist t a b) :=
  align_dist_aux t _ a b rfl

theorem Align.append (t : Bool) {a b : List Nat} {n : Nat} (h : Align t a b n) :
    ∀ {c d : List Nat} {m : Nat}, Align t c d m → Align t (a ++ c) (b ++ d) (n + m) := by
  induction h with
  | nil => intro c d m h2; simpa using h2
  | keep x _ ih => intro c d m h2; exact Align.keep x (ih h2)
  | sub x y _ ih =>
    intro c d m h2
    have := Align.sub x y (ih h2)
    rw [Nat.add_right_comm]
    exact this
  | del x _ ih =>
    intro c d m h2
    have := Align.del x (ih h2)
    rw [Nat.add_right_comm]
    exact this
  | ins y _ ih =>
    intro c d m h2
    have := Align.ins y (ih h2)
    rw [Nat.add_right_comm]
    exact this
  | swap ht x y _ ih =>
    intro c d m h2
    have := Align.swap ht x y (ih h2)
    rw [Nat.add_right_comm]
    exact this

theorem Align.reverse (t : Bool) {a b : List Nat} {n : Nat} (h : Align t a b n) :
    Align t a.reverse b.reverse n := by
  induction h with
  | nil => exact Align.nil
  | keep x _ ih =>
    rw [List.reverse_cons, List.reverse_cons]
    exact Align.append t ih (Align.keep x Align.nil)
  | sub x y _ ih =>
    rw [List.reverse_cons, List.reverse_cons]
    exact Align.append t ih (Align.sub x y Align.nil)
  | del x _ ih =>
    rw [List.reverse_cons]
    have := Align.append t ih (Align.del x (Align.nil (t := t)))
    simpa using this
  | ins y _ ih =>
    rw [List.reverse_cons]
    have := Align.append t ih (Align.ins y (Align.nil (t := t)))
    simpa using this
  | swap ht x y _ ih =>
    have := Align.append t ih (Align.swap ht y x (Align.nil (t := t)))
    simpa using this

theorem dist_reverse (t : Bool) (a b : List Nat) : dist t a.reverse b.reverse = dist t a b := by
  apply Nat.le_antisymm
  · exact dist_le_of_align t (Align.reverse t (align_dist t a b))
  · have := dist_le_of_align t (Align.reverse t (align_dist t a.reverse b.reverse))
    simpa using this

theorem dist_append_right (t : Bool) (s a b : List Nat) :
    dist t (a ++ s) (b ++ s) = dist t a b := by
  rw [← dist_reverse, List.reverse_append, List.reverse_append, dist_append_left, dist_reverse]

theorem Align.length_le {t : Bool} {a b : List Nat} {n : Nat} (h : Align t a b n) :
    a.length ≤ n + b.length ∧ b.length ≤ n + a.length := by
  induction h with
  | nil => simp
  | keep x _ ih => simp only [List.length_cons]; omega
  | sub x y _ ih => simp only [List.length_cons]; omega
  | del x _ ih => simp only [List.length_cons]; omega
  | ins y _ ih => simp only [List.length_cons]; omega
  | swap ht x y _ ih => simp only [List.length_cons]; omega

theorem length_le_dist_add (t : Bool) (a b : List Nat) : a.length ≤ dist t a b + b.length :=
  (Align.length_le (align_dist t a b)).1

theorem length_le_dist_add_left (t : Bool) (a b : List Nat) :
    b.length ≤ dist t a b + a.length :=
  (Align.length_le (align_dist t a b)).2

theorem dist_eq_zero_iff (t : Bool) (a b : List Nat) : dist t a b = 0 ↔ a = b := by
  constructor
  · intro h
    have key : ∀ {a b : List Nat} {n : Nat}, Align t a b n → n = 0 → a = b := by
      intro a b n hal
      induction hal with
      | nil => intro _; rfl
      | keep x _ ih => intro h0; rw [ih h0]
      | sub x y _ ih => intro h0; omega
      | del x _ ih => intro h0; omega
      | ins y _ ih => intro h0; omega
      | swap ht x y _ ih => intro h0; omega
    exact key (align_dist t a b) h
  · intro h
    subst h
    exact dist_self t a

/-! ## The rolling column of `fc_levenshtein0` -/

theorem distCell_zero_left (t : Bool) (a b : List Nat) (j : Nat) : distCell t a b 0 j = j := by
  rw [distCell]

theorem distCell_zero_right (t : Bool) (a b : List Nat) (i : Nat) : distCell t a b i 0 = i := by
  cases i with
  | zero => rw [distCell]
  | succ i => rw [distCell]

theorem distCell_succ_false (a b : List Nat) (i j : Nat) :
    distCell false a b (i + 1) (j + 1) =
      if a.getD i 0 = b.getD j 0 then distCell false a b i j
      else min (distCell false a b (i + 1) j + 1)
        (min (distCell false a b i (j + 1) + 1) (distCell false a b i j + 1)) := by
  rw [distCell]
  simp

theorem fillIota_length : ∀ (n j : Nat) (column : List Nat),
    (fillIota n j column).length = column.length := by
  intro n
  induction n with
  | zero => intro j column; rfl
  | succ n ih => intro j column; simp [fillIota, ih]

theorem fillIota_getD : ∀ (n j : Nat) (column : List Nat) (k : Nat),
    j + n ≤ column.length →
    (fillIota n j column).getD k 0 = if j ≤ k ∧ k < j + n then k else column.getD k 0 := by
  intro n
  induction n with
  | zero => intro j column k _; rw [fillIota, if_neg (by omega)]
  | succ n ih =>
    intro j column k h
    rw [fillIota, ih _ _ _ (by simp; omega)]
    by_cases hk : j = k
    · subst hk
      rw [getD_set_eq _ _ _ (show j < column.length by omega), if_neg (by omega),
        if_pos (by omega)]
    · rw [getD_set_ne _ _ _ _ hk]
      by_cases h1 : j + 1 ≤ k ∧ k < j + 1 + n
      · rw [if_pos h1, if_pos (by omega)]
      · rw [if_neg h1, if_neg (by omega)]

theorem levInner_spec (a b : List Nat) (i : Nat) (hi : 1 ≤ i) :
    ∀ (n j : Nat) (col : List Nat) (last : Nat),
      j + n = b.length + 1 → 1 ≤ j → b.length < col.length →
      (∀ k, k < j → col.getD k 0 = distCell false a b i k) →
      (∀ k, j ≤ k → k ≤ b.length → col.getD k 0 = distCell false a b (i - 1) k) →
      last = distCell false a b (i - 1) (j - 1) →
      (levInner a b i n j col last).length = col.length ∧
      ∀ k, k ≤ b.length → (levInner a b i n j col last).getD k 0 = distCell false a b i k := by
  intro n
  induction n with
  | zero =>
    intro j col last hn _ _ h1 _ _
    refine ⟨rfl, ?_⟩
    intro k hk
    exact h1 k (by omega)
  | succ n ih =>
    intro j col last hn hj hlen h1 h2 hlast
    obtain ⟨i0, rfl⟩ : ∃ i0, i = i0 + 1 := ⟨i - 1, by omega⟩
    obtain ⟨j0, rfl⟩ : ∃ j0, j = j0 + 1 := ⟨j - 1, by omega⟩
    simp only [Nat.add_sub_cancel] at h2 hlast ⊢
    have hjl : j0 + 1 < col.length := by omega
    have key : (if a.getD i0 0 = b.getD j0 0 then col.set (j0 + 1) last
        else col.set (j0 + 1) (FC_MIN3 (col.getD j0 0 + 1) (col.getD (j0 + 1) 0 + 1) (last + 1)))
        = col.set (j0 + 1) (distCell false a b (i0 + 1) (j0 + 1)) := by
      rw [distCell_succ_false]
      split
      · rw [hlast]
      · rw [FC_MIN3_eq, h1 j0 (by omega), h2 (j0 + 1) (by omega) (by omega), hlast]
    rw [levInner]
    simp only [Nat.add_sub_cancel]
    rw [key]
    have := ih (j0 + 1 + 1) (col.set (j0 + 1) (distCell false a b (i0 + 1) (j0 + 1)))
      (col.getD (j0 + 1) 0) (by omega) (by omega) (by simp; omega)
      (by
        intro k hk
        by_cases hkj : j0 + 1 = k
        · subst hkj
          rw [getD_set_eq _ _ _ hjl]
        · rw [getD_set_ne _ _ _ _ hkj]
          exact h1 k (by omega))
      (by
        intro k hk hk2
        rw [getD_set_ne _ _ _ _ (by omega)]
        simpa using h2 k (by omega) hk2)
      (by
        simpa using h2 (j0 + 1) (by omega) (by omega))
    simpa using this

theorem levOuter_spec (a b : List Nat) :
    ∀ (n i : Nat) (col : List Nat),
      1 ≤ i → b.length < col.length →
      (∀ k, 1 ≤ k → k ≤ b.length → col.getD k 0 = distCell false a b (i - 1) k) →
      ∀ k, 1 ≤ k → k ≤ b.length →
        (levOuter a b n i col).getD k 0 = distCell false a b (i - 1 + n) k := by
  intro n
  induction n with
  | zero => intro i col _ _ h k hk1 hk2; simpa [levOuter] using h k hk1 hk2
  | succ n ih =>
    intro i col hi hlen h k hk1 hk2
    rw [levOuter]
    have hs := levInner_spec a b i hi b.length 1 (col.set 0 i) (i - 1) (by omega) (by omega)
      (by simp; omega)
      (by
        intro k hk
        have : k = 0 := by omega
        subst this
        rw [getD_set_eq _ _ _ (by omega), distCell_zero_right])
      (by
        intro k hk hk2
        rw [getD_set_ne _ _ _ _ (by omega)]
        exact h k hk hk2)
      (by simp [distCell_zero_right])
    have := ih (i + 1) _ (by omega) (by rw [hs.1]; simp; omega)
      (by
        intro k hk hk2
        simpa using hs.2 k hk2) k hk1 hk2
    rw [this]
    congr 1
    omega

/-- The loops of `fc_levenshtein0` after `STRIP`, run on any buffer with
enough room, leave the last cell of the full recurrence in `column[len2]`. -/
theorem levOuter_result (col a b : List Nat) (hb : b.length ≠ 0) (hlen : b.length < col.length) :
    (levOuter a b a.length 1 (fillIota b.length 1 col)).getD b.length 0
      = distCell false a b a.length b.length := by
  have := levOuter_spec a b a.length 1 (fillIota b.length 1 col) (by omega)
    (by rw [fillIota_length]; exact hlen)
    (by
      intro k hk1 hk2
      rw [fillIota_getD _ _ _ _ (by omega), if_pos (by omega)]
      simp [distCell_zero_left])
    b.length (by omega) (by omega)
  simpa using this

/-! ## The matrix of edit operations and the distance on lists -/

theorem reverse_take_succ (l : List Nat) (i : Nat) (h : i < l.length) :
    (l.take (i + 1)).reverse = l.getD i 0 :: (l.take i).reverse := by
  rw [List.take_succ, List.reverse_append]
  simp [List.getD_eq_getElem?_getD, List.getElem?_eq_getElem h]

theorem head?_reverse_take (l : List Nat) (i : Nat) (h : i ≤ l.length) :
    (l.take i).reverse.head? = if i = 0 then none else some (l.getD (i - 1) 0) := by
  cases i with
  | zero => simp
  | succ i => rw [reverse_take_succ l i (by omega)]; simp

theorem tail_reverse_take (l : List Nat) (i : Nat) (h : i ≤ l.length) :
    (l.take i).reverse.tail = (l.take (i - 1)).reverse := by
  cases i with
  | zero => simp
  | succ i => rw [reverse_take_succ l i (by omega)]; simp

theorem transposed_iff (a b : List Nat) (i j : Nat) (hi : i ≤ a.length) (hj : j ≤ b.length) :
    TRANSPOSED a b (i + 1) (j + 1) = true ↔
      ((a.take i).reverse.head? = some (b.getD j 0) ∧
        (b.take j).reverse.head? = some (a.getD i 0)) := by
  rw [head?_reverse_take a i hi, head?_reverse_take b j hj]
  unfold TRANSPOSED
  cases i with
  | zero => simp
  | succ i =>
    cases j with
    | zero => simp
    | succ j =>
      have e1 : i + 1 + 1 - 2 = i := by omega
      have e2 : j + 1 + 1 - 2 = j := by omega
      rw [if_neg (Nat.succ_ne_zero _), if_neg (Nat.succ_ne_zero _), decide_eq_true_eq, e1, e2]
      simp only [Nat.add_sub_cancel, Option.some.injEq]
      constructor
      · rintro ⟨_, _, h1, h2⟩
        exact ⟨h1, h2.symm⟩
      · rintro ⟨h1, h2⟩
        exact ⟨by omega, by omega, h1, h2.symm⟩

theorem distCell_eq_dist_aux (t : Bool) (a b : List Nat) : ∀ (n i j : Nat),
    i + j = n → i ≤ a.length → j ≤ b.length →
      distCell t a b i j = dist t (a.take i).reverse (b.take j).reverse := by
  intro n
  induction n using Nat.strong_induction_on with
  | _ n ih =>
    intro i j hn hi hj
    cases i with
    | zero =>
      rw [distCell_zero_left, List.take_zero, List.reverse_nil, dist_nil_left,
        List.length_reverse, List.length_take]
      omega
    | succ i =>
      cases j with
      | zero =>
        rw [distCell_zero_right, List.take_zero, List.reverse_nil, dist_nil_right,
          List.length_reverse, List.length_take]
        omega
      | succ j =>
        have h1 := ih (i + j) (by omega) i j rfl (by omega) (by omega)
        have h2 := ih (i + 1 + j) (by omega) (i + 1) j rfl hi (by omega)
        have h3 := ih (i + (j + 1)) (by omega) i (j + 1) rfl (by omega) hj
        have h4 := ih (i - 1 + (j - 1)) (by omega) (i - 1) (j - 1) rfl (by omega) (by omega)
        have hc := transposed_iff a b i j (by omega) (by omega)
        rw [distCell]
        simp only []
        rw [h1, h2, h3, h4]
        rw [reverse_take_succ a i (by omega), reverse_take_succ b j (by omega)]
        rw [dist_cons_cons, tail_reverse_take a i (by omega), tail_reverse_take b j (by omega)]
        by_cases hxy : a.getD i 0 = b.getD j 0
        · rw [if_pos hxy, if_pos hxy]
        · rw [if_neg hxy, if_neg hxy]
          by_cases hcc : t = true ∧ TRANSPOSED a b (i + 1) (j + 1) = true
          · rw [if_pos hcc, if_pos ⟨hcc.1, hc.1 hcc.2⟩]
          · rw [if_neg hcc, if_neg (fun h => hcc ⟨h.1, hc.2 h.2⟩)]

theorem distCell_eq_dist (t : Bool) (a b : List Nat) :
    distCell t a b a.length b.length = dist t a b := by
  rw [distCell_eq_dist_aux t a b _ a.length b.length rfl (Nat.le_refl _) (Nat.le_refl _),
    List.take_length, List.take_length, dist_reverse]

/-! ## The macro `STRIP` -/

theorem stripHead_spec : ∀ (a b : List Nat),
    ∃ p, a = p ++ (stripHead a b).1 ∧ b = p ++ (stripHead a b).2 ∧
      ((stripHead a b).1 = [] ∨ (stripHead a b).2 = [] ∨
        (stripHead a b).1.head? ≠ (stripHead a b).2.head?) := by
  intro a
  induction a with
  | nil => intro b; exact ⟨[], by simp [stripHead]⟩
  | cons x a ih =>
    intro b
    cases b with
    | nil => exact ⟨[], by simp [stripHead]⟩
    | cons y b =>
      by_cases hxy : x = y
      · subst hxy
        obtain ⟨p, h1, h2, h3⟩ := ih b
        refine ⟨x :: p, ?_, ?_, ?_⟩
        · simp only [stripHead, if_true, List.cons_append]; rw [← h1]
        · simp only [stripHead, if_true, List.cons_append]; rw [← h2]
        · simpa only [stripHead, if_true] using h3
      · refine ⟨[], ?_, ?_, ?_⟩
        · simp [stripHead, hxy]
        · simp [stripHead, hxy]
        · simp [stripHead, hxy]

theorem stripTail_spec : ∀ (n : Nat) (a b : List Nat), b.length ≤ n →
    ∃ s, a = (stripTail n a b).1 ++ s ∧ b = (stripTail n a b).2 ++ s ∧
      ((stripTail n a b).2 = [] ∨ (stripTail n a b).1.getLast? ≠ (stripTail n a b).2.getLast?) := by
  intro n
  induction n with
  | zero =>
    intro a b hb
    refine ⟨[], by simp [stripTail], by simp [stripTail], Or.inl ?_⟩
    simp only [stripTail]
    exact List.length_eq_zero.mp (by omega)
  | succ n ih =>
    intro a b hb
    by_cases hc : b.length ≠ 0 ∧ a.getLast? = b.getLast?
    · simp only [stripTail, if_pos hc]
      obtain ⟨hb0, hab⟩ := hc
      have hbne : b ≠ [] := fun h => hb0 (by simp [h])
      obtain ⟨x, hx⟩ : ∃ x, b.getLast? = some x := by
        cases hq : b.getLast? with
        | none => exact absurd (List.getLast?_eq_none_iff.mp hq) hbne
        | some x => exact ⟨x, rfl⟩
      have hb2 : b.dropLast ++ [x] = b := List.dropLast_append_getLast? x (by simp [hx])
      have ha2 : a.dropLast ++ [x] = a := List.dropLast_append_getLast? x (by simp [hab, hx])
      obtain ⟨s, h1, h2, h3⟩ := ih a.dropLast b.dropLast (by
        rw [List.length_dropLast]; omega)
      refine ⟨s ++ [x], ?_, ?_, h3⟩
      · rw [← List.append_assoc, ← h1, ha2]
      · rw [← List.append_assoc, ← h2, hb2]
    · simp only [stripTail, if_neg hc]
      refine ⟨[], by simp, by simp, ?_⟩
      by_cases hb0 : b.length = 0
      · exact Or.inl (List.length_eq_zero.mp hb0)
      · exact Or.inr (fun h => hc ⟨hb0, h⟩)

/-- What `STRIP` leaves: the two sequences without a common leading part `p`
and a common trailing part `s`; if the second is not exhausted, the last
codepoints differ. -/
theorem STRIP_spec (a b : List Nat) :
    ∃ p s, a = p ++ (STRIP a b).1 ++ s ∧ b = p ++ (STRIP a b).2 ++ s ∧
      ((STRIP a b).2 = [] ∨ (STRIP a b).1.getLast? ≠ (STRIP a b).2.getLast?) := by
  obtain ⟨p, h1, h2, _⟩ := stripHead_spec a b
  obtain ⟨s, h3, h4, h5⟩ := stripTail_spec (stripHead a b).2.length (stripHead a b).1
    (stripHead a b).2 (Nat.le_refl _)
  refine ⟨p, s, ?_, ?_, h5⟩
  · rw [List.append_assoc]
    unfold STRIP
    rw [← h3, ← h1]
  · rw [List.append_assoc]
    unfold STRIP
    rw [← h4, ← h2]

theorem dist_STRIP (t : Bool) (a b : List Nat) :
    dist t (STRIP a b).1 (STRIP a b).2 = dist t a b := by
  obtain ⟨p, s, h1, h2, _⟩ := STRIP_spec a b
  have key : ∀ a1 b1 : List Nat, a = p ++ a1 ++ s → b = p ++ b1 ++ s →
      dist t a1 b1 = dist t a b := by
    intro a1 b1 e1 e2
    rw [e1, e2, dist_append_right, dist_append_left]
  exact key _ _ h1 h2

theorem STRIP_length (a b : List Nat) :
    (STRIP a b).1.length + b.length = (STRIP a b).2.length + a.length := by
  obtain ⟨p, s, h1, h2, _⟩ := STRIP_spec a b
  have e1 := congrArg List.length h1
  have e2 := congrArg List.length h2
  simp only [List.length_append] at e1 e2
  omega

/-! ## `fc_levenshtein` computes the edit distance -/

theorem fc_levenshtein0_eq (col a b : List Nat) (hlen : b.length < col.length) :
    fc_levenshtein0 col a b = dist false a b := by
  have hs := STRIP_length a b
  unfold fc_levenshtein0
  simp only []
  split
  · rename_i h0
    rw [← dist_STRIP false a b, List.length_eq_zero.mp h0, dist_nil_right]
  · rename_i h0
    rw [levOuter_result _ _ _ h0 (by
      obtain ⟨p, s, h1, h2, _⟩ := STRIP_spec a b
      have e2 := congrArg List.length h2
      simp only [List.length_append] at e2
      omega), distCell_eq_dist, dist_STRIP]

theorem fc_levenshtein_eq (a b : List Nat) : fc_levenshtein a b = dist false a b := by
  unfold fc_levenshtein
  simp only []
  by_cases h : a.length < b.length
  · simp only [if_pos h]
    rw [fc_levenshtein0_eq, dist_comm]
    split
    · rw [length_scratch]; omega
    · rw [length_scratch]; omega
  · simp only [if_neg h]
    rw [fc_levenshtein0_eq]
    split
    · rw [length_scratch]; omega
    · rw [length_scratch]; omega

/-! ## Sequences of edits and the Levenshtein distance -/

theorem dist_false_cons_cons (x y : Nat) (a b : List Nat) (h : x ≠ y) :
    dist false (x :: a) (y :: b) =
      min (dist false (x :: a) b + 1) (min (dist false a (y :: b) + 1) (dist false a b + 1)) := by
  rw [dist_cons_cons, if_neg h, if_neg (by simp)]

theorem dist_false_subst_right (x y : Nat) (v : List Nat) : ∀ a : List Nat,
    dist false a (y :: v) ≤ dist false a (x :: v) + 1 := by
  intro a
  induction a with
  | nil => rw [dist_nil_left, dist_nil_left]; simp
  | cons z a ih =>
    have hA := dist_cons_left_le false a v z
    have hB := dist_le_cons_right false a v y
    have hL : dist false (z :: a) (y :: v) ≤ dist false a v + 1 :=
      dist_cons_cons_le false a v z y
    have hI : dist false (z :: a) (y :: v) ≤ dist false (z :: a) v + 1 :=
      dist_cons_right_le false (z :: a) v y
    have hD : dist false (z :: a) (y :: v) ≤ dist false a (y :: v) + 1 :=
      dist_cons_left_le false a (y :: v) z
    by_cases hzx : z = x
    · subst hzx
      rw [dist_cons_same]
      exact hL
    · rw [dist_false_cons_cons z x a v hzx]
      omega

theorem dist_false_cons_congr (x : Nat) (b c : List Nat)
    (h : ∀ a, dist false a c ≤ dist false a b + 1) :
    ∀ a, dist false a (x :: c) ≤ dist false a (x :: b) + 1 := by
  intro a
  induction a with
  | nil =>
    have := h []
    rw [dist_nil_left, dist_nil_left] at this
    rw [dist_nil_left, dist_nil_left]
    simp only [List.length_cons]
    omega
  | cons z a ih =>
    by_cases hzx : z = x
    · subst hzx
      rw [dist_cons_same, dist_cons_same]
      exact h a
    · rw [dist_false_cons_cons z x a c hzx, dist_false_cons_cons z x a b hzx]
      have h1 := h (z :: a)
      have h2 := h a
      omega

theorem dist_false_step {b c : List Nat} (h : EditStep false b c) :
    ∀ a, dist false a c ≤ dist false a b + 1 := by
  cases h with
  | ins u v x =>
    induction u with
    | nil => intro a; exact dist_cons_right_le false a v x
    | cons z u ih => exact dist_false_cons_congr z _ _ ih
  | del u v x =>
    induction u with
    | nil => intro a; exact dist_le_cons_right false a v x
    | cons z u ih => exact dist_false_cons_congr z _ _ ih
  | sub u v x y =>
    induction u with
    | nil => intro a; exact dist_false_subst_right x y v a
    | cons z u ih => exact dist_false_cons_congr z _ _ ih
  | swap h u v x y => exact absurd h (by simp)

/-- No sequence of insertions, deletions and substitutions from `a` to `b` is
shorter than `dist false a b`. -/
theorem dist_false_le_of_editSeq {a b : List Nat} {n : Nat} (h : EditSeq false a b n) :
    dist false a b ≤ n := by
  induction h with
  | refl => rw [dist_self]
  | snoc _ hs ih =>
    have := dist_false_step hs a
    omega

theorem editStep_cons {t : Bool} (z : Nat) {b c : List Nat} (h : EditStep t b c) :
    EditStep t (z :: b) (z :: c) := by
  cases h with
  | ins u v x => exact EditStep.ins (z :: u) v x
  | del u v x => exact EditStep.del (z :: u) v x
  | sub u v x y => exact EditStep.sub (z :: u) v x y
  | swap h u v x y => exact EditStep.swap h (z :: u) v x y

theorem editSeq_cons {t : Bool} (z : Nat) {a b : List Nat} {n : Nat} (h : EditSeq t a b n) :
    EditSeq t (z :: a) (z :: b) n := by
  induction h with
  | refl => exact EditSeq.refl _
  | snoc _ hs ih => exact EditSeq.snoc ih (editStep_cons z hs)

/-- The edits of an alignment, made one after the other, are a sequence of
edits of the same length. -/
theorem editSeq_of_align {t : Bool} {a b : List Nat} {n : Nat} (h : Align t a b n) :
    EditSeq t a b n := by
  induction h with
  | nil => exact EditSeq.refl _
  | keep x _ ih => exact editSeq_cons x ih
  | sub x y _ ih => exact EditSeq.snoc (editSeq_cons x ih) (EditStep.sub [] _ x y)
  | del x _ ih => exact EditSeq.snoc (editSeq_cons x ih) (EditStep.del [] _ x)
  | ins y _ ih => exact EditSeq.snoc ih (EditStep.ins [] _ y)
  | swap ht x y _ ih =>
    exact EditSeq.snoc (editSeq_cons x (editSeq_cons y ih)) (EditStep.swap ht [] _ x y)

/-! ## The three rows of `fc_damerau0` -/

theorem distCell_succ_true (a b : List Nat) (i j : Nat) :
    distCell true a b (i + 1) (j + 1) =
      if a.getD i 0 = b.getD j 0 then distCell true a b i j
      else if TRANSPOSED a b (i + 1) (j + 1) = true then
        min (distCell true a b (i - 1) (j - 1) + 1)
          (min (distCell true a b (i + 1) j + 1)
            (min (distCell true a b i (j + 1) + 1) (distCell true a b i j + 1)))
      else min (distCell true a b (i + 1) j + 1)
        (min (distCell true a b i (j + 1) + 1) (distCell true a b i j + 1)) := by
  rw [distCell]
  simp

theorem TRANSPOSED_gt {a b : List Nat} {i j : Nat} (h : TRANSPOSED a b i j = true) :
    1 < i ∧ 1 < j := by
  unfold TRANSPOSED at h
  simp only [decide_eq_true_eq] at h
  exact ⟨h.1, h.2.1⟩

theorem fillIotaAt_length (p : Nat) : ∀ (n j : Nat) (m : List Nat),
    (fillIotaAt p n j m).length = m.length := by
  intro n
  induction n with
  | zero => intro j m; rfl
  | succ n ih => intro j m; simp [fillIotaAt, ih]

theorem fillIotaAt_getD (p : Nat) : ∀ (n j : Nat) (m : List Nat) (k : Nat),
    p + j + n ≤ m.length →
    (fillIotaAt p n j m).getD (p + k) 0 = if j ≤ k ∧ k < j + n then k else m.getD (p + k) 0 := by
  intro n
  induction n with
  | zero => intro j m k _; rw [fillIotaAt, if_neg (by omega)]
  | succ n ih =>
    intro j m k h
    rw [fillIotaAt, ih _ _ _ (by simp; omega)]
    by_cases hk : j = k
    · subst hk
      rw [getD_set_eq _ _ _ (by omega), if_neg (by omega), if_pos (by omega)]
    · rw [getD_set_ne _ _ _ _ (by omega)]
      by_cases h1 : j + 1 ≤ k ∧ k < j + 1 + n
      · rw [if_pos h1, if_pos (by omega)]
      · rw [if_neg h1, if_neg (by omega)]

theorem damInner_spec (a b : List Nat) (i t p c : Nat) (hi : 1 ≤ i)
    (hd : (t + (b.length + 1) ≤ p ∨ p + (b.length + 1) ≤ t) ∧
      (t + (b.length + 1) ≤ c ∨ c + (b.length + 1) ≤ t) ∧
      (p + (b.length + 1) ≤ c ∨ c + (b.length + 1) ≤ p)) :
    ∀ (n j : Nat) (m : List Nat),
      j + n = b.length + 1 → 1 ≤ j →
      (t + (b.length + 1) ≤ m.length ∧ p + (b.length + 1) ≤ m.length ∧
        c + (b.length + 1) ≤ m.length) →
      (∀ k, k < j → m.getD (c + k) 0 = distCell true a b i k) →
      (∀ k, k ≤ b.length → m.getD (p + k) 0 = distCell true a b (i - 1) k) →
      (2 ≤ i → ∀ k, k ≤ b.length → m.getD (t + k) 0 = distCell true a b (i - 2) k) →
      (damInner a b i t p c n j m).length = m.length ∧
      (∀ k, k ≤ b.length → (damInner a b i t p c n j m).getD (c + k) 0 = distCell true a b i k) ∧
      (∀ k, k ≤ b.length →
        (damInner a b i t p c n j m).getD (p + k) 0 = distCell true a b (i - 1) k) := by
  intro n
  induction n with
  | zero =>
    intro j m hn _ _ h1 h2 _
    exact ⟨rfl, fun k hk => h1 k (by omega), h2⟩
  | succ n ih =>
    intro j m hn hj hL h1 h2 h3
    obtain ⟨i0, rfl⟩ : ∃ i0, i = i0 + 1 := ⟨i - 1, by omega⟩
    obtain ⟨j0, rfl⟩ : ∃ j0, j = j0 + 1 := ⟨j - 1, by omega⟩
    simp only [Nat.add_sub_cancel] at h2 ⊢
    have key : (if a.getD i0 0 = b.getD j0 0 then
          m.set (c + (j0 + 1)) (m.getD (p + j0) 0)
        else
          if TRANSPOSED a b (i0 + 1) (j0 + 1) = true then
            (m.set (c + (j0 + 1)) (FC_MIN3 (m.getD (c + j0) 0 + 1) (m.getD (p + (j0 + 1)) 0 + 1)
              (m.getD (p + j0) 0 + 1))).set (c + (j0 + 1))
              (FC_MIN ((m.set (c + (j0 + 1)) (FC_MIN3 (m.getD (c + j0) 0 + 1)
                  (m.getD (p + (j0 + 1)) 0 + 1) (m.getD (p + j0) 0 + 1))).getD
                    (t + (j0 + 1 - 2)) 0 + 1)
                ((m.set (c + (j0 + 1)) (FC_MIN3 (m.getD (c + j0) 0 + 1)
                  (m.getD (p + (j0 + 1)) 0 + 1) (m.getD (p + j0) 0 + 1))).getD
                    (c + (j0 + 1)) 0))
          else
            m.set (c + (j0 + 1)) (FC_MIN3 (m.getD (c + j0) 0 + 1) (m.getD (p + (j0 + 1)) 0 + 1)
              (m.getD (p + j0) 0 + 1)))
        = m.set (c + (j0 + 1)) (distCell true a b (i0 + 1) (j0 + 1)) := by
      rw [distCell_succ_true]
      have e1 := h1 j0 (by omega)
      have e2 := h2 (j0 + 1) (by omega)
      have e3 := h2 j0 (by omega)
      split
      · rw [e3]
      · split
        · rename_i hT
          have hgt := TRANSPOSED_gt hT
          have e4 := h3 (by omega) (j0 + 1 - 2) (by omega)
          have e5 : i0 + 1 - 2 = i0 - 1 := by omega
          have e6 : j0 + 1 - 2 = j0 - 1 := by omega
          rw [List.set_set, getD_set_ne _ _ _ _ (by omega), getD_set_eq _ _ _ (by omega),
            FC_MIN_eq, FC_MIN3_eq, e1, e2, e3, e4, e5, e6]
        · rw [FC_MIN3_eq, e1, e2, e3]
    rw [damInner]
    simp only [Nat.add_sub_cancel]
    rw [key]
    have := ih (j0 + 1 + 1) (m.set (c + (j0 + 1)) (distCell true a b (i0 + 1) (j0 + 1)))
      (by omega) (by omega) (by simp only [List.length_set]; exact hL)
      (by
        intro k hk
        by_cases hkj : j0 + 1 = k
        · subst hkj
          rw [getD_set_eq _ _ _ (by omega)]
        · rw [getD_set_ne _ _ _ _ (by omega)]
          exact h1 k (by omega))
      (by
        intro k hk
        rw [getD_set_ne _ _ _ _ (by omega)]
        simpa using h2 k hk)
      (by
        intro h2i k hk
        rw [getD_set_ne _ _ _ _ (by omega)]
        exact h3 h2i k hk)
    simpa using this

theorem damOuter_spec (a b : List Nat) :
    ∀ (n i t p c : Nat) (m : List Nat),
      1 ≤ i →
      ((t + (b.length + 1) ≤ p ∨ p + (b.length + 1) ≤ t) ∧
        (t + (b.length + 1) ≤ c ∨ c + (b.length + 1) ≤ t) ∧
        (p + (b.length + 1) ≤ c ∨ c + (b.length + 1) ≤ p)) →
      (t + (b.length + 1) ≤ m.length ∧ p + (b.length + 1) ≤ m.length ∧
        c + (b.length + 1) ≤ m.length) →
      (∀ k, k ≤ b.length → m.getD (p + k) 0 = distCell true a b (i - 1) k) →
      (2 ≤ i → ∀ k, k ≤ b.length → m.getD (t + k) 0 = distCell true a b (i - 2) k) →
      ∀ k, k ≤ b.length →
        (damOuter a b n i t p c m).1.getD ((damOuter a b n i t p c m).2 + k) 0
          = distCell true a b (i - 1 + n) k := by
  intro n
  induction n with
  | zero => intro i t p c m _ _ _ h2 _ k hk; simpa [damOuter] using h2 k hk
  | succ n ih =>
    intro i t p c m hi hd hL h2 h3 k hk
    rw [damOuter]
    have hs := damInner_spec a b i t p c hi hd b.length 1 (m.set c i) (by omega) (by omega)
      (by simp only [List.length_set]; exact hL)
      (by
        intro k hk
        have : k = 0 := by omega
        subst this
        rw [Nat.add_zero, getD_set_eq _ _ _ (by omega), distCell_zero_right])
      (by
        intro k hk
        rw [getD_set_ne _ _ _ _ (by omega)]
        exact h2 k hk)
      (by
        intro h2i k hk
        rw [getD_set_ne _ _ _ _ (by omega)]
        exact h3 h2i k hk)
    have := ih (i + 1) p c t _ (by omega)
      ⟨hd.2.2, hd.1.symm, hd.2.1.symm⟩
      (by rw [hs.1]; simp only [List.length_set]; exact ⟨hL.2.1, hL.2.2, hL.1⟩)
      (by
        intro k hk
        simpa using hs.2.1 k hk)
      (by
        intro _ k hk
        have := hs.2.2 k hk
        have e : i + 1 - 2 = i - 1 := by omega
        rw [e]
        exact this) k hk
    rw [this]
    congr 1
    omega

theorem fc_damerau0_eq (m a b : List Nat)
    (hlen : 3 * (b.length + 1) ≤ m.length) :
    fc_damerau0 m a b = dist true a b := by
  have hs := STRIP_length a b
  obtain ⟨q, s, _, hq2, _⟩ := STRIP_spec a b
  have e2 := congrArg List.length hq2
  simp only [List.length_append] at e2
  unfold fc_damerau0
  simp only []
  split
  · rename_i h0
    rw [← dist_STRIP true a b, List.length_eq_zero.mp h0, dist_nil_right]
  · rename_i h0
    have := damOuter_spec (STRIP a b).1 (STRIP a b).2 (STRIP a b).1.length 1 0
      (0 + ((STRIP a b).2.length + 1)) (0 + ((STRIP a b).2.length + 1) + ((STRIP a b).2.length + 1))
      (fillIotaAt (0 + ((STRIP a b).2.length + 1)) ((STRIP a b).2.length + 1) 0 m)
      (by omega) (by omega) (by rw [fillIotaAt_length]; omega)
      (by
        intro k hk
        rw [fillIotaAt_getD _ _ _ _ _ (by omega), if_pos (by omega)]
        simp [distCell_zero_left])
      (by omega) (STRIP a b).2.length (Nat.le_refl _)
    rw [this, show 1 - 1 + (STRIP a b).1.length = (STRIP a b).1.length by omega,
      distCell_eq_dist, dist_STRIP]

theorem fc_damerau_eq (a b : List Nat) : fc_damerau a b = dist true a b := by
  unfold fc_damerau
  simp only []
  by_cases h : a.length < b.length
  · simp only [if_pos h]
    rw [fc_damerau0_eq, dist_comm]
    split
    · rw [length_scratch]
    · rw [length_scratch]; unfold FC_DEFAULT_COLUMN_LEN at *; omega
  · simp only [if_neg h]
    rw [fc_damerau0_eq]
    split
    · rw [length_scratch]
    · rw [length_scratch]; unfold FC_DEFAULT_COLUMN_LEN at *; omega

/-! ## Bounded Levenshtein distance -/

theorem modelCost_nil_left (ops b : List Nat) : modelCost ops [] b = some b.length := by
  rw [modelCost]

theorem modelCost_nil_right (ops a : List Nat) : modelCost ops a [] = some a.length := by
  cases a with
  | nil => rw [modelCost]
  | cons x a => rw [modelCost]; rfl

theorem modelCost_cons_same (ops : List Nat) (x : Nat) (a b : List Nat) :
    modelCost ops (x :: a) (x :: b) = modelCost ops a b := by
  rw [modelCost.eq_def]
  simp

theorem modelCost_cons_nil (x y : Nat) (a b : List Nat) (h : x ≠ y) :
    modelCost [] (x :: a) (y :: b) = none := by
  simp [modelCost, h]

theorem modelCost_cons_op (o : Nat) (ops : List Nat) (x y : Nat) (a b : List Nat) (h : x ≠ y) :
    modelCost (o :: ops) (x :: a) (y :: b) =
      if o = 100 then (modelCost ops a (y :: b)).map (fun n => n + 1)
      else if o = 105 then (modelCost ops (x :: a) b).map (fun n => n + 1)
      else (modelCost ops a b).map (fun n => n + 1) := by
  conv_lhs => rw [modelCost.eq_def]
  simp only [if_neg h]

theorem modelCost_self (ops : List Nat) : ∀ a : List Nat, modelCost ops a a = some 0 := by
  intro a
  induction a with
  | nil => rw [modelCost_nil_left]; rfl
  | cons x a ih => rw [modelCost_cons_same, ih]

/-- The cost of a model is the cost of a script of edits, hence at least the
distance. -/
theorem dist_le_modelCost : ∀ (k : Nat) (ops a b : List Nat) (n : Nat),
    a.length + b.length = k → modelCost ops a b = some n → dist false a b ≤ n := by
  intro k
  induction k using Nat.strong_induction_on with
  | _ k ih =>
    intro ops a b n hk h
    cases a with
    | nil =>
      rw [modelCost_nil_left] at h
      rw [dist_nil_left]
      simp only [Option.some.injEq] at h
      omega
    | cons x a =>
      cases b with
      | nil =>
        rw [modelCost_nil_right] at h
        rw [dist_nil_right]
        simp only [Option.some.injEq] at h
        omega
      | cons y b =>
        simp only [List.length_cons] at hk
        by_cases hxy : x = y
        · subst hxy
          rw [modelCost_cons_same] at h
          rw [dist_cons_same]
          exact ih (a.length + b.length) (by omega) ops a b n rfl h
        · cases ops with
          | nil => rw [modelCost_cons_nil _ _ _ _ hxy] at h; exact absurd h (by simp)
          | cons o ops =>
            rw [modelCost_cons_op _ _ _ _ _ _ hxy] at h
            split at h
            · obtain ⟨n1, h1, rfl⟩ := Option.map_eq_some'.mp h
              have := ih (a.length + (b.length + 1)) (by omega) ops a (y :: b) n1 (by simp) h1
              have := dist_cons_left_le false a (y :: b) x
              omega
            · split at h
              · obtain ⟨n1, h1, rfl⟩ := Option.map_eq_some'.mp h
                have := ih (a.length + 1 + b.length) (by omega) ops (x :: a) b n1 (by simp) h1
                have := dist_cons_right_le false (x :: a) b y
                omega
              · obtain ⟨n1, h1, rfl⟩ := Option.map_eq_some'.mp h
                have := ih (a.length + b.length) (by omega) ops a b n1 rfl h1
                have := dist_cons_cons_le false a b x y
                omega

/-- With one operation left, a model that replaces finds a distance of at
most 1 between sequences of the same length. -/
theorem modelCost_replace (o : Nat) (ops : List Nat) (ho1 : o ≠ 100) (ho2 : o ≠ 105) :
    ∀ (a b : List Nat), a.length = b.length → dist false a b ≤ 1 →
      modelCost (o :: ops) a b = some (dist false a b) := by
  intro a
  induction a with
  | nil => intro b _ _; rw [modelCost_nil_left, dist_nil_left]
  | cons x a ih =>
    intro b hl hd
    cases b with
    | nil => rw [modelCost_nil_right, dist_nil_right]
    | cons y b =>
      simp only [List.length_cons, Nat.add_right_cancel_iff] at hl
      by_cases hxy : x = y
      · subst hxy
        rw [modelCost_cons_same, dist_cons_same]
        rw [dist_cons_same] at hd
        exact ih b hl hd
      · rw [modelCost_cons_op _ _ _ _ _ _ hxy, if_neg ho1, if_neg ho2]
        rw [dist_false_cons_cons _ _ _ _ hxy] at hd ⊢
        have h1 := length_le_dist_add false (x :: a) b
        have h2 := length_le_dist_add_left false a (y :: b)
        simp only [List.length_cons] at h1 h2
        have h0 : dist false a b = 0 := by omega
        have hab : a = b := (dist_eq_zero_iff false a b).mp h0
        subst hab
        rw [modelCost_self]
        simp only [Option.map_some']
        congr 1
        omega

/-- With one operation left, a model that deletes finds a distance of at most
1 when the first sequence is longer by one. -/
theorem modelCost_delete (ops : List Nat) :
    ∀ (a b : List Nat), a.length = b.length + 1 → dist false a b ≤ 1 →
      modelCost (100 :: ops) a b = some (dist false a b) := by
  intro a
  induction a with
  | nil => intro b _ _; rw [modelCost_nil_left, dist_nil_left]
  | cons x a ih =>
    intro b hl hd
    cases b with
    | nil => rw [modelCost_nil_right, dist_nil_right]
    | cons y b =>
      simp only [List.length_cons, Nat.add_right_cancel_iff] at hl
      by_cases hxy : x = y
      · subst hxy
        rw [modelCost_cons_same, dist_cons_same]
        rw [dist_cons_same] at hd
        exact ih b hl hd
      · rw [modelCost_cons_op _ _ _ _ _ _ hxy, if_pos rfl]
        rw [dist_false_cons_cons _ _ _ _ hxy] at hd ⊢
        have h1 := length_le_dist_add false (x :: a) b
        have h2 := length_le_dist_add false a b
        simp only [List.length_cons] at h1 h2
        have h0 : dist false a (y :: b) = 0 := by omega
        have hab : a = y :: b := (dist_eq_zero_iff false a (y :: b)).mp h0
        subst hab
        rw [modelCost_self]
        simp only [Option.map_some']
        congr 1
        omega

/-- With one operation left, a model that inserts finds a distance of at most
1 when the second sequence is longer by one. -/
theorem modelCost_insert (ops : List Nat) :
    ∀ (a b : List Nat), a.length + 1 = b.length → dist false a b ≤ 1 →
      modelCost (105 :: ops) a b = some (dist false a b) := by
  intro a
  induction a with
  | nil => intro b _ _; rw [modelCost_nil_left, dist_nil_left]
  | cons x a ih =>
    intro b hl hd
    cases b with
    | nil => rw [modelCost_nil_right, dist_nil_right]
    | cons y b =>
      simp only [List.length_cons, Nat.add_right_cancel_iff] at hl
      by_cases hxy : x = y
      · subst hxy
        rw [modelCost_cons_same, dist_cons_same]
        rw [dist_cons_same] at hd
        exact ih b hl hd
      · rw [modelCost_cons_op _ _ _ _ _ _ hxy, if_neg (by decide), if_pos rfl]
        rw [dist_false_cons_cons _ _ _ _ hxy] at hd ⊢
        have h1 := length_le_dist_add_left false a (y :: b)
        have h2 := length_le_dist_add_left false a b
        simp only [List.length_cons] at h1 h2
        have h0 : dist false (x :: a) b = 0 := by omega
        have hab : x :: a = b := (dist_eq_zero_iff false (x :: a) b).mp h0
        subst hab
        rw [modelCost_self]
        simp only [Option.map_some']
        congr 1
        omega

theorem modelCost_models0 : ∀ (a b : List Nat), a.length = b.length → dist false a b ≤ 2 →
    modelCost [105, 100] a b = some (dist false a b) ∨
    modelCost [100, 105] a b = some (dist false a b) ∨
    modelCost [114, 114] a b = some (dist false a b) := by
  intro a
  induction a with
  | nil => intro b _ _; left; rw [modelCost_nil_left, dist_nil_left]
  | cons x a ih =>
    intro b hl hd
    cases b with
    | nil => left; rw [modelCost_nil_right, dist_nil_right]
    | cons y b =>
      simp only [List.length_cons, Nat.add_right_cancel_iff] at hl
      by_cases hxy : x = y
      · subst hxy
        rw [modelCost_cons_same, modelCost_cons_same, modelCost_cons_same, dist_cons_same]
        rw [dist_cons_same] at hd
        exact ih b hl hd
      · rw [dist_false_cons_cons _ _ _ _ hxy] at hd ⊢
        rcases (by omega : min (dist false (x :: a) b + 1)
            (min (dist false a (y :: b) + 1) (dist false a b + 1)) = dist false (x :: a) b + 1
          ∨ min (dist false (x :: a) b + 1)
            (min (dist false a (y :: b) + 1) (dist false a b + 1)) = dist false a (y :: b) + 1
          ∨ min (dist false (x :: a) b + 1)
            (min (dist false a (y :: b) + 1) (dist false a b + 1)) = dist false a b + 1)
          with h | h | h
        · left
          rw [h, modelCost_cons_op _ _ _ _ _ _ hxy, if_neg (by decide), if_pos rfl,
            modelCost_delete [] (x :: a) b (by simp [hl]) (by omega)]
          rfl
        · right; left
          rw [h, modelCost_cons_op _ _ _ _ _ _ hxy, if_pos rfl,
            modelCost_insert [] a (y :: b) (by simp [hl]) (by omega)]
          rfl
        · right; right
          rw [h, modelCost_cons_op _ _ _ _ _ _ hxy, if_neg (by decide), if_neg (by decide),
            modelCost_replace 114 [] (by decide) (by decide) a b hl (by omega)]
          rfl

theorem modelCost_models1 : ∀ (a b : List Nat), a.length = b.length + 1 → dist false a b ≤ 2 →
    modelCost [100, 114] a b = some (dist false a b) ∨
    modelCost [114, 100] a b = some (dist false a b) := by
  intro a
  induction a with
  | nil => intro b hl _; simp at hl
  | cons x a ih =>
    intro b hl hd
    cases b with
    | nil => left; rw [modelCost_nil_right, dist_nil_right]
    | cons y b =>
      simp only [List.length_cons, Nat.add_right_cancel_iff] at hl
      by_cases hxy : x = y
      · subst hxy
        rw [modelCost_cons_same, modelCost_cons_same, dist_cons_same]
        rw [dist_cons_same] at hd
        exact ih b hl hd
      · rw [dist_false_cons_cons _ _ _ _ hxy] at hd ⊢
        have h1 := length_le_dist_add false (x :: a) b
        simp only [List.length_cons] at h1
        rcases (by omega : min (dist false (x :: a) b + 1)
            (min (dist false a (y :: b) + 1) (dist false a b + 1)) = dist false a (y :: b) + 1
          ∨ min (dist false (x :: a) b + 1)
            (min (dist false a (y :: b) + 1) (dist false a b + 1)) = dist false a b + 1)
          with h | h
        · left
          rw [h, modelCost_cons_op _ _ _ _ _ _ hxy, if_pos rfl,
            modelCost_replace 114 [] (by decide) (by decide) a (y :: b) (by simp [hl]) (by omega)]
          rfl
        · right
          rw [h, modelCost_cons_op _ _ _ _ _ _ hxy, if_neg (by decide), if_neg (by decide),
            modelCost_delete [] a b hl (by omega)]
          rfl

theorem modelCost_models2 : ∀ (a b : List Nat), a.length = b.length + 2 → dist false a b ≤ 2 →
    modelCost [100, 100] a b = some (dist false a b) := by
  intro a
  induction a with
  | nil => intro b hl _; simp at hl
  | cons x a ih =>
    intro b hl hd
    cases b with
    | nil => rw [modelCost_nil_right, dist_nil_right]
    | cons y b =>
      simp only [List.length_cons, Nat.add_right_cancel_iff] at hl
      by_cases hxy : x = y
      · subst hxy
        rw [modelCost_cons_same, dist_cons_same]
        rw [dist_cons_same] at hd
        exact ih b hl hd
      · rw [dist_false_cons_cons _ _ _ _ hxy] at hd ⊢
        have h1 := length_le_dist_add false (x :: a) b
        have h2 := length_le_dist_add false a b
        simp only [List.length_cons] at h1 h2
        have h : min (dist false (x :: a) b + 1)
            (min (dist false a (y :: b) + 1) (dist false a b + 1)) = dist false a (y :: b) + 1 := by
          omega
        rw [h, modelCost_cons_op _ _ _ _ _ _ hxy, if_pos rfl,
          modelCost_delete [] a (y :: b) (by simp [hl]) (by omega)]
        rfl

/-! ### The scan of `fc_lev_bounded2` and its cost on lists -/

theorem drop_eq_getD_cons (l : List Nat) (i : Nat) (h : i < l.length) :
    l.drop i = l.getD i 0 :: l.drop (i + 1) := by
  rw [List.drop_eq_getElem_cons h]
  simp [List.getD_eq_getElem?_getD, List.getElem?_eq_getElem h]

theorem bounded2Scan_spec (a b model : List Nat) (hm : model.length = 2) :
    ∀ (fuel i j cost : Nat), cost ≤ 2 → i ≤ a.length → j ≤ b.length →
      (a.length - i) + (b.length - j) ≤ fuel →
      (∀ n, modelCost (model.drop cost) (a.drop i) (b.drop j) = some n →
        (bounded2Scan a b model fuel i j cost).2.2 ≤ 2 ∧
        (if (bounded2Scan a b model fuel i j cost).1 < a.length then
            (bounded2Scan a b model fuel i j cost).2.2
              + (a.length - (bounded2Scan a b model fuel i j cost).1)
          else if (bounded2Scan a b model fuel i j cost).2.1 < b.length then
            (bounded2Scan a b model fuel i j cost).2.2
              + (b.length - (bounded2Scan a b model fuel i j cost).2.1)
          else (bounded2Scan a b model fuel i j cost).2.2) = cost + n) ∧
      (modelCost (model.drop cost) (a.drop i) (b.drop j) = none →
        2 < (bounded2Scan a b model fuel i j cost).2.2) := by
  intro fuel
  induction fuel with
  | zero =>
    intro i j cost hc hi hj hf
    have hi2 : i = a.length := by omega
    have hj2 : j = b.length := by omega
    subst hi2 hj2
    simp only [bounded2Scan, List.drop_length, modelCost_nil_left]
    simp
    exact hc
  | succ fuel ih =>
    intro i j cost hc hi hj hf
    rw [bounded2Scan]
    by_cases hij : i < a.length ∧ j < b.length
    · rw [if_pos hij]
      rw [drop_eq_getD_cons a i hij.1, drop_eq_getD_cons b j hij.2]
      by_cases hxy : a.getD i 0 = b.getD j 0
      · rw [if_pos hxy, hxy, modelCost_cons_same]
        exact ih (i + 1) (j + 1) cost hc (by omega) (by omega) (by omega)
      · rw [if_neg hxy]
        simp only []
        by_cases hc2 : cost + 1 > 2
        · rw [if_pos hc2]
          have hdrop : model.drop cost = [] := by
            apply List.drop_eq_nil_of_le
            omega
          rw [hdrop, modelCost_cons_nil _ _ _ _ hxy]
          simp
          omega
        · rw [if_neg hc2]
          have hdrop : model.drop cost = model.getD cost 0 :: model.drop (cost + 1) :=
            drop_eq_getD_cons model cost (by omega)
          rw [hdrop, modelCost_cons_op _ _ _ _ _ _ hxy]
          simp only [Nat.add_sub_cancel]
          by_cases ho1 : model.getD cost 0 = 100
          · rw [if_pos ho1, if_pos ho1]
            have := ih (i + 1) j (cost + 1) (by omega) (by omega) (by omega) (by omega)
            rw [← drop_eq_getD_cons b j hij.2]
            constructor
            · intro n hn
              obtain ⟨n1, h1, rfl⟩ := Option.map_eq_some'.mp hn
              have := this.1 n1 h1
              omega
            · intro hn
              exact this.2 (Option.map_eq_none'.mp hn)
          · rw [if_neg ho1, if_neg ho1]
            by_cases ho2 : model.getD cost 0 = 105
            · rw [if_pos ho2, if_pos ho2]
              have := ih i (j + 1) (cost + 1) (by omega) (by omega) (by omega) (by omega)
              rw [← drop_eq_getD_cons a i hij.1]
              constructor
              · intro n hn
                obtain ⟨n1, h1, rfl⟩ := Option.map_eq_some'.mp hn
                have := this.1 n1 h1
                omega
              · intro hn
                exact this.2 (Option.map_eq_none'.mp hn)
            · rw [if_neg ho2, if_neg ho2]
              have := ih (i + 1) (j + 1) (cost + 1) (by omega) (by omega) (by omega) (by omega)
              constructor
              · intro n hn
                obtain ⟨n1, h1, rfl⟩ := Option.map_eq_some'.mp hn
                have := this.1 n1 h1
                omega
              · intro hn
                exact this.2 (Option.map_eq_none'.mp hn)
    · rw [if_neg hij]
      simp only []
      by_cases hi2 : i < a.length
      · have hj2 : j = b.length := by omega
        subst hj2
        rw [List.drop_length, modelCost_nil_right, List.length_drop, if_pos hi2]
        simp
        omega
      · have hi3 : i = a.length := by omega
        subst hi3
        rw [List.drop_length, modelCost_nil_left, List.length_drop, if_neg hi2]
        simp
        constructor
        · exact hc
        · omega

theorem dist_le_max (t : Bool) : ∀ (a b : List Nat), dist t a b ≤ max a.length b.length := by
  intro a
  induction a with
  | nil => intro b; rw [dist_nil_left]; simp
  | cons x a ih =>
    intro b
    cases b with
    | nil => rw [dist_nil_right]; simp
    | cons y b =>
      have h1 := dist_cons_cons_le t a b x y
      have h2 := ih b
      simp only [List.length_cons]
      omega

theorem bounded2Model_some (a b model : List Nat) (hm : model.length = 2) (d n : Nat)
    (h : modelCost model a b = some n) :
    bounded2Model a b d model = if n < d then n else d := by
  have hs := (bounded2Scan_spec a b model hm (a.length + b.length) 0 0 0 (by omega) (by omega)
    (by omega) (by omega)).1 n (by simpa using h)
  unfold bounded2Model
  simp only []
  rw [if_pos hs.1, hs.2, Nat.zero_add]

theorem bounded2Model_none (a b model : List Nat) (hm : model.length = 2) (d : Nat)
    (h : modelCost model a b = none) :
    bounded2Model a b d model = d := by
  have hs := (bounded2Scan_spec a b model hm (a.length + b.length) 0 0 0 (by omega) (by omega)
    (by omega) (by omega)).2 (by simpa using h)
  unfold bounded2Model
  simp only []
  rw [if_neg (by omega)]

/-- One model either leaves `dist` as it is or lowers it to the cost of a
script of edits; it lowers it to the distance when its cost is the
distance. -/
theorem bounded2Model_bounds (a b model : List Nat) (hm : model.length = 2) (d : Nat) :
    (bounded2Model a b d model = d ∨ dist false a b ≤ bounded2Model a b d model) ∧
    bounded2Model a b d model ≤ d ∧
    (modelCost model a b = some (dist false a b) →
      bounded2Model a b d model = min d (dist false a b)) := by
  cases h : modelCost model a b with
  | none =>
    rw [bounded2Model_none a b model hm d h]
    exact ⟨Or.inl rfl, Nat.le_refl _, fun h2 => by simp at h2⟩
  | some n =>
    rw [bounded2Model_some a b model hm d n h]
    have hle := dist_le_modelCost _ model a b n rfl h
    refine ⟨?_, ?_, ?_⟩
    · split
      · exact Or.inr hle
      · exact Or.inl rfl
    · split <;> omega
    · intro h2
      simp only [Option.some.injEq] at h2
      subst h2
      split <;> omega

theorem bounded2_fold (a b : List Nat) (hl : b.length ≤ a.length)
    (hdiff : a.length - b.length ≤ 2) :
    (dist false a b ≤ 2 →
      (models.getD (a.length - b.length) []).foldl (bounded2Model a b) 3 = dist false a b) ∧
    (2 < dist false a b →
      (models.getD (a.length - b.length) []).foldl (bounded2Model a b) 3 = 3) := by
  have hcases : a.length - b.length = 0 ∨ a.length - b.length = 1 ∨ a.length - b.length = 2 := by
    omega
  rcases hcases with h | h | h
  · rw [h]
    have hc := modelCost_models0 a b (by omega)
    have b1 := bounded2Model_bounds a b [105, 100] rfl 3
    have b2 := bounded2Model_bounds a b [100, 105] rfl (bounded2Model a b 3 [105, 100])
    have b3 := bounded2Model_bounds a b [114, 114] rfl
      (bounded2Model a b (bounded2Model a b 3 [105, 100]) [100, 105])
    simp only [models, List.getD_cons_zero, List.foldl_cons, List.foldl_nil]
    constructor
    · intro hd
      rcases hc hd with e | e | e
      · have := b1.2.2 e
        omega
      · have := b2.2.2 e
        omega
      · have := b3.2.2 e
        omega
    · intro hd
      omega
  · rw [h]
    have hc := modelCost_models1 a b (by omega)
    have b1 := bounded2Model_bounds a b [100, 114] rfl 3
    have b2 := bounded2Model_bounds a b [114, 100] rfl (bounded2Model a b 3 [100, 114])
    simp only [models, List.getD_cons_succ, List.getD_cons_zero, List.foldl_cons, List.foldl_nil]
    constructor
    · intro hd
      rcases hc hd with e | e
      · have := b1.2.2 e
        omega
      · have := b2.2.2 e
        omega
    · intro hd
      omega
  · rw [h]
    have hc := modelCost_models2 a b (by omega)
    have b1 := bounded2Model_bounds a b [100, 100] rfl 3
    simp only [models, List.getD_cons_succ, List.getD_cons_zero, List.foldl_cons, List.foldl_nil]
    constructor
    · intro hd
      have := b1.2.2 (hc hd)
      omega
    · intro hd
      omega

/-- What `fc_lev_bounded2` returns when its first argument is not the shorter
one. -/
theorem fc_lev_bounded2_ordered (a b : List Nat) (hl : b.length ≤ a.length) :
    (dist false a b ≤ 2 →
      (if (STRIP a b).1.length - (STRIP a b).2.length > 2 then INT32_MAX
        else if (STRIP a b).2.length = 0 then (STRIP a b).1.length
        else (models.getD ((STRIP a b).1.length - (STRIP a b).2.length) []).foldl
          (bounded2Model (STRIP a b).1 (STRIP a b).2) 3) = dist false a b) ∧
    (2 < dist false a b →
      (if (STRIP a b).1.length - (STRIP a b).2.length > 2 then INT32_MAX
        else if (STRIP a b).2.length = 0 then (STRIP a b).1.length
        else (models.getD ((STRIP a b).1.length - (STRIP a b).2.length) []).foldl
          (bounded2Model (STRIP a b).1 (STRIP a b).2) 3)
        = if a.length - b.length > 2 then INT32_MAX else 3) := by
  have hs := STRIP_length a b
  have hd := dist_STRIP false a b
  have h1 := length_le_dist_add false (STRIP a b).1 (STRIP a b).2
  have hdiff : (STRIP a b).1.length - (STRIP a b).2.length = a.length - b.length := by omega
  by_cases hgt : (STRIP a b).1.length - (STRIP a b).2.length > 2
  · rw [if_pos hgt, if_pos (show a.length - b.length > 2 by omega)]
    exact ⟨fun h => by omega, fun _ => rfl⟩
  · rw [if_neg hgt, if_neg (show ¬ a.length - b.length > 2 by omega)]
    by_cases h0 : (STRIP a b).2.length = 0
    · rw [if_pos h0]
      have e : dist false a b = (STRIP a b).1.length := by
        rw [← hd, List.length_eq_zero.mp h0, dist_nil_right]
      exact ⟨fun _ => e.symm, fun h => by omega⟩
    · rw [if_neg h0]
      have := bounded2_fold (STRIP a b).1 (STRIP a b).2 (by omega) (by omega)
      rw [hd] at this
      exact this

theorem fc_lev_bounded2_spec (a b : List Nat) :
    (dist false a b ≤ 2 → fc_lev_bounded2 a b = dist false a b) ∧
    (2 < dist false a b → fc_lev_bounded2 a b =
      if a.length - b.length > 2 ∨ b.length - a.length > 2 then INT32_MAX else 3) := by
  unfold fc_lev_bounded2
  simp only []
  by_cases h : a.length < b.length
  · simp only [if_pos h]
    have := fc_lev_bounded2_ordered b a (by omega)
    rw [dist_comm false b a] at this
    refine ⟨this.1, fun hd => ?_⟩
    rw [this.2 hd]
    by_cases hg : b.length - a.length > 2
    · rw [if_pos hg, if_pos (Or.inr hg)]
    · rw [if_neg hg, if_neg (by omega)]
  · simp only [if_neg h]
    have := fc_lev_bounded2_ordered a b (by omega)
    refine ⟨this.1, fun hd => ?_⟩
    rw [this.2 hd]
    by_cases hg : a.length - b.length > 2
    · rw [if_pos hg, if_pos (Or.inl hg)]
    · rw [if_neg hg, if_neg (by omega)]

theorem heads_after_stripTail (a1 b1 a2 b2 s : List Nat) (h4 : a1 = a2 ++ s) (h5 : b1 = b2 ++ s)
    (h3 : a1 = [] ∨ b1 = [] ∨ a1.head? ≠ b1.head?) (hb2 : b2 ≠ [])
    (hlen : b1.length ≤ a1.length) :
    a2.head? ≠ b2.head? := by
  subst h4 h5
  simp only [List.length_append] at hlen
  have hb2len : b2.length ≠ 0 := fun h => hb2 (List.length_eq_zero.mp h)
  have ha2 : a2 ≠ [] := by
    intro h
    subst h
    simp only [List.length_nil] at hlen
    omega
  rcases h3 with h | h | h
  · have := congrArg List.length h
    simp only [List.length_append, List.length_nil] at this
    omega
  · have := congrArg List.length h
    simp only [List.length_append, List.length_nil] at this
    omega
  · rw [List.head?_append_of_ne_nil _ ha2, List.head?_append_of_ne_nil _ hb2] at h
    exact h

theorem STRIP_head (a b : List Nat) (hl : b.length ≤ a.length) :
    (STRIP a b).2 = [] ∨ (STRIP a b).1.head? ≠ (STRIP a b).2.head? := by
  obtain ⟨p, h1, h2, h3⟩ := stripHead_spec a b
  obtain ⟨s, h4, h5, _⟩ := stripTail_spec (stripHead a b).2.length (stripHead a b).1
    (stripHead a b).2 (Nat.le_refl _)
  have e1 := congrArg List.length h1
  have e2 := congrArg List.length h2
  simp only [List.length_append] at e1 e2
  by_cases hb2 : (STRIP a b).2 = []
  · exact Or.inl hb2
  · exact Or.inr (heads_after_stripTail _ _ _ _ s h4 h5 h3 hb2 (by omega))

/-- Two sequences without a common first and a common last codepoint, the
second one not empty and not the longer one: the length of the first is the
distance if this is at most 1, and is larger than 1 otherwise. -/
theorem length_eq_dist_of_ends (a b : List Nat) (hb : b ≠ []) (hl : b.length ≤ a.length)
    (hh : a.head? ≠ b.head?) (ht : a.getLast? ≠ b.getLast?) :
    (dist false a b ≤ 1 → a.length = dist false a b) ∧
    (1 < dist false a b → 1 < a.length) := by
  constructor
  · intro hd
    cases a with
    | nil => simp at hl; exact absurd hl hb
    | cons x a =>
      cases b with
      | nil => exact absurd rfl hb
      | cons y b =>
        have hxy : x ≠ y := by
          intro h
          apply hh
          simp [h]
        rw [dist_false_cons_cons _ _ _ _ hxy] at hd ⊢
        simp only [List.length_cons] at hl ⊢
        have h1 := length_le_dist_add_left false (x :: a) b
        simp only [List.length_cons] at h1
        rcases (by omega : dist false (x :: a) b = 0 ∨ dist false a (y :: b) = 0
            ∨ dist false a b = 0) with h | h | h
        · have := (dist_eq_zero_iff false _ _).mp h
          have e := congrArg List.length this
          simp only [List.length_cons] at e
          omega
        · have := (dist_eq_zero_iff false _ _).mp h
          subst this
          exact absurd (List.getLast?_cons_cons) ht
        · have := (dist_eq_zero_iff false _ _).mp h
          subst this
          cases a with
          | nil => simp only [List.length_nil]; omega
          | cons z a =>
            exfalso
            apply ht
            rw [List.getLast?_cons_cons, List.getLast?_cons_cons]
  · intro hd
    have := dist_le_max false a b
    omega

theorem fc_lev_bounded1_ordered (a b : List Nat) (hl : b.length ≤ a.length) :
    (dist false a b ≤ 1 → (STRIP a b).1.length = dist false a b) ∧
    (1 < dist false a b → 1 < (STRIP a b).1.length) ∧
    (STRIP a b).1.length ≤ a.length := by
  have hs := STRIP_length a b
  have hd := dist_STRIP false a b
  obtain ⟨p, s, e1, _, hlast⟩ := STRIP_spec a b
  have hle : (STRIP a b).1.length ≤ a.length := by
    have := congrArg List.length e1
    simp only [List.length_append] at this
    omega
  by_cases h0 : (STRIP a b).2 = []
  · have e : dist false a b = (STRIP a b).1.length := by
      rw [← hd, h0, dist_nil_right]
    exact ⟨fun _ => e.symm, fun h => by omega, hle⟩
  · have hhead := (STRIP_head a b hl).resolve_left h0
    have := length_eq_dist_of_ends (STRIP a b).1 (STRIP a b).2 h0 (by omega) hhead
      (hlast.resolve_left h0)
    rw [hd] at this
    exact ⟨this.1, this.2, hle⟩

theorem fc_lev_bounded1_spec (a b : List Nat) :
    (dist false a b ≤ 1 → fc_lev_bounded1 a b = dist false a b) ∧
    (1 < dist false a b → 1 < fc_lev_bounded1 a b) ∧
    fc_lev_bounded1 a b ≤ max a.length b.length := by
  unfold fc_lev_bounded1
  simp only []
  by_cases h : a.length < b.length
  · simp only [if_pos h]
    have := fc_lev_bounded1_ordered b a (by omega)
    rw [dist_comm false b a] at this
    exact ⟨this.1, this.2.1, by omega⟩
  · simp only [if_neg h]
    have := fc_lev_bounded1_ordered a b (by omega)
    exact ⟨this.1, this.2.1, by omega⟩

theorem fc_lev_bounded0_spec (a b : List Nat) :
    (dist false a b ≤ 0 → fc_lev_bounded0 a b = dist false a b) ∧
    (0 < dist false a b →
      fc_lev_bounded0 a b = if a.length = b.length then 1 else INT32_MAX) := by
  unfold fc_lev_bounded0
  constructor
  · intro h
    have h0 : dist false a b = 0 := by omega
    have := (dist_eq_zero_iff false a b).mp h0
    subst this
    rw [h0]
    simp
  · intro h
    have hne : a ≠ b := by
      intro e
      rw [(dist_eq_zero_iff false a b).mpr e] at h
      omega
    by_cases hl : a.length = b.length
    · rw [if_pos hl, if_pos hl, if_pos hne]
    · rw [if_neg hl, if_neg hl]

/-! ## The matrix of the memoized metrics -/

theorem cell_ne {m i j i' j' : Nat} (hj : j < m) (hj' : j' < m) (h : i ≠ i' ∨ j ≠ j') :
    i * m + j ≠ i' * m + j' := by
  intro e
  have hm : 0 < m := by omega
  have e1 : (i * m + j) / m = (i' * m + j') / m := by rw [e]
  have e2 : (i * m + j) % m = (i' * m + j') % m := by rw [e]
  rw [Nat.mul_comm i m, Nat.mul_comm i' m, Nat.mul_add_div hm, Nat.mul_add_div hm,
    Nat.div_eq_of_lt hj, Nat.div_eq_of_lt hj'] at e1
  rw [Nat.mul_comm i m, Nat.mul_comm i' m, Nat.mul_add_mod, Nat.mul_add_mod,
    Nat.mod_eq_of_lt hj, Nat.mod_eq_of_lt hj'] at e2
  omega

theorem cell_lt {m n i j : Nat} (hi : i < n) (hj : j < m) : i * m + j < n * m := by
  have h1 : (i + 1) * m ≤ n * m := Nat.mul_le_mul_right m hi
  rw [Nat.succ_mul] at h1
  omega

/-- The cell `(i, j)` of the full recurrence only depends on the first `j`
codepoints of the second sequence. -/
theorem distCell_congr (t : Bool) (a b c : List Nat) : ∀ (n i j : Nat), i + j = n →
    (∀ k, k < j → b.getD k 0 = c.getD k 0) → distCell t a b i j = distCell t a c i j := by
  intro n
  induction n using Nat.strong_induction_on with
  | _ n ih =>
    intro i j hn h
    cases i with
    | zero => rw [distCell_zero_left, distCell_zero_left]
    | succ i =>
      cases j with
      | zero => rw [distCell_zero_right, distCell_zero_right]
      | succ j =>
        have h1 := ih (i + j) (by omega) i j rfl (fun k hk => h k (by omega))
        have h2 := ih (i + 1 + j) (by omega) (i + 1) j rfl (fun k hk => h k (by omega))
        have h3 := ih (i + (j + 1)) (by omega) i (j + 1) rfl h
        have h4 := ih (i - 1 + (j - 1)) (by omega) (i - 1) (j - 1) rfl
          (fun k hk => h k (by omega))
        have hT : TRANSPOSED a b (i + 1) (j + 1) = TRANSPOSED a c (i + 1) (j + 1) := by
          unfold TRANSPOSED
          by_cases hj : j + 1 > 1
          · rw [h (j + 1 - 1) (by omega), h (j + 1 - 2) (by omega)]
          · simp [hj]
        rw [distCell, distCell.eq_def t a c (i + 1) (j + 1)]
        simp only []
        rw [h1, h2, h3, h4, hT, h j (by omega)]

theorem memoDistInner_spec (r q : List Nat) (mdim : Nat) (t : Bool) (i : Nat)
    (hi : 1 ≤ i) (hi2 : i < mdim) (hq : q.length < mdim) :
    ∀ (n j : Nat) (M : List Nat),
      j + n = q.length + 1 → 1 ≤ j → mdim * mdim ≤ M.length →
      (∀ i' j', i' < i → j' ≤ q.length → M.getD (i' * mdim + j') 0 = distCell t r q i' j') →
      (∀ j', j' < j → M.getD (i * mdim + j') 0 = distCell t r q i j') →
      (memoDistInner r q mdim t i n j M).length = M.length ∧
      (∀ j', j' ≤ q.length →
        (memoDistInner r q mdim t i n j M).getD (i * mdim + j') 0 = distCell t r q i j') ∧
      (∀ idx, (∀ j', j ≤ j' → j' ≤ q.length → idx ≠ i * mdim + j') →
        (memoDistInner r q mdim t i n j M).getD idx 0 = M.getD idx 0) := by
  intro n
  induction n with
  | zero =>
    intro j M hn _ _ _ h2
    exact ⟨rfl, fun j' hj' => h2 j' (by omega), fun _ _ => rfl⟩
  | succ n ih =>
    intro j M hn hj hM h1 h2
    obtain ⟨i0, rfl⟩ : ∃ i0, i = i0 + 1 := ⟨i - 1, by omega⟩
    obtain ⟨j0, rfl⟩ : ∃ j0, j = j0 + 1 := ⟨j - 1, by omega⟩
    have hidx : (i0 + 1) * mdim + (j0 + 1) < M.length :=
      Nat.lt_of_lt_of_le (cell_lt hi2 (by omega)) hM
    have key : (if r.getD (i0 + 1 - 1) 0 = q.getD (j0 + 1 - 1) 0 then
          M.set ((i0 + 1) * mdim + (j0 + 1)) (M.getD ((i0 + 1 - 1) * mdim + (j0 + 1 - 1)) 0)
        else
          if (t && TRANSPOSED r q (i0 + 1) (j0 + 1)) = true then
            (M.set ((i0 + 1) * mdim + (j0 + 1))
              (FC_MIN3 (M.getD ((i0 + 1) * mdim + (j0 + 1 - 1)) 0 + 1)
                (M.getD ((i0 + 1 - 1) * mdim + (j0 + 1)) 0 + 1)
                (M.getD ((i0 + 1 - 1) * mdim + (j0 + 1 - 1)) 0 + 1))).set
              ((i0 + 1) * mdim + (j0 + 1))
              (FC_MIN ((M.set ((i0 + 1) * mdim + (j0 + 1))
                  (FC_MIN3 (M.getD ((i0 + 1) * mdim + (j0 + 1 - 1)) 0 + 1)
                    (M.getD ((i0 + 1 - 1) * mdim + (j0 + 1)) 0 + 1)
                    (M.getD ((i0 + 1 - 1) * mdim + (j0 + 1 - 1)) 0 + 1))).getD
                      ((i0 + 1) * mdim + (j0 + 1)) 0)
                ((M.set ((i0 + 1) * mdim + (j0 + 1))
                  (FC_MIN3 (M.getD ((i0 + 1) * mdim + (j0 + 1 - 1)) 0 + 1)
                    (M.getD ((i0 + 1 - 1) * mdim + (j0 + 1)) 0 + 1)
                    (M.getD ((i0 + 1 - 1) * mdim + (j0 + 1 - 1)) 0 + 1))).getD
                      ((i0 + 1 - 2) * mdim + (j0 + 1 - 2)) 0 + 1))
          else
            M.set ((i0 + 1) * mdim + (j0 + 1))
              (FC_MIN3 (M.getD ((i0 + 1) * mdim + (j0 + 1 - 1)) 0 + 1)
                (M.getD ((i0 + 1 - 1) * mdim + (j0 + 1)) 0 + 1)
                (M.getD ((i0 + 1 - 1) * mdim + (j0 + 1 - 1)) 0 + 1)))
        = M.set ((i0 + 1) * mdim + (j0 + 1)) (distCell t r q (i0 + 1) (j0 + 1)) := by
      simp only [Nat.add_sub_cancel]
      have e1 := h2 j0 (by omega)
      have e2 := h1 i0 (j0 + 1) (by omega) (by omega)
      have e3 := h1 i0 j0 (by omega) (by omega)
      rw [distCell]
      simp only []
      split
      · rw [e3]
      · by_cases hT : t = true ∧ TRANSPOSED r q (i0 + 1) (j0 + 1) = true
        · have hgt := TRANSPOSED_gt hT.2
          have e4 := h1 (i0 + 1 - 2) (j0 + 1 - 2) (by omega) (by omega)
          have e5 : i0 + 1 - 2 = i0 - 1 := by omega
          have e6 : j0 + 1 - 2 = j0 - 1 := by omega
          rw [if_pos (by simp [hT.1, hT.2]), if_pos hT, List.set_set,
            getD_set_eq _ _ _ hidx,
            getD_set_ne _ _ _ _ (cell_ne (by omega) (by omega) (Or.inl (by omega))),
            FC_MIN_eq, FC_MIN3_eq, e1, e2, e3, e4, e5, e6, Nat.min_comm]
        · rw [if_neg (by simpa using hT), if_neg hT, FC_MIN3_eq, e1, e2, e3]
    rw [memoDistInner]
    simp only []
    rw [key]
    have := ih (j0 + 1 + 1) (M.set ((i0 + 1) * mdim + (j0 + 1)) (distCell t r q (i0 + 1) (j0 + 1)))
      (by omega) (by omega) (by simp only [List.length_set]; exact hM)
      (by
        intro i' j' hi' hj'
        rw [getD_set_ne _ _ _ _ (cell_ne (by omega) (by omega) (Or.inl (by omega)))]
        exact h1 i' j' hi' hj')
      (by
        intro j' hj'
        by_cases hjj : j0 + 1 = j'
        · subst hjj
          rw [getD_set_eq _ _ _ hidx]
        · rw [getD_set_ne _ _ _ _ (cell_ne (by omega) (by omega) (Or.inr hjj))]
          exact h2 j' (by omega))
    refine ⟨by simpa using this.1, this.2.1, ?_⟩
    intro idx hidx2
    rw [this.2.2 idx (fun j' h1' h2' => hidx2 j' (by omega) h2'),
      getD_set_ne _ _ _ _ (Ne.symm (hidx2 (j0 + 1) (by omega) (by omega)))]

theorem memoDistOuter_spec (r q : List Nat) (mdim skip : Nat) (t : Bool)
    (hr : r.length < mdim) (hq : q.length < mdim) (hs : skip ≤ q.length) :
    ∀ (n i : Nat) (M : List Nat),
      i + n = r.length + 1 → 1 ≤ i → mdim * mdim ≤ M.length →
      (∀ i' j', i' < i → j' ≤ q.length → M.getD (i' * mdim + j') 0 = distCell t r q i' j') →
      (∀ i' j', i' ≤ r.length → j' ≤ skip →
        M.getD (i' * mdim + j') 0 = distCell t r q i' j') →
      (memoDistOuter r q mdim skip t n i M).length = M.length ∧
      (∀ i' j', i' ≤ r.length → j' ≤ q.length →
        (memoDistOuter r q mdim skip t n i M).getD (i' * mdim + j') 0 = distCell t r q i' j') ∧
      (∀ idx, (∀ i' j', 1 ≤ i' → i' ≤ r.length → skip < j' → j' ≤ q.length →
          idx ≠ i' * mdim + j') →
        (memoDistOuter r q mdim skip t n i M).getD idx 0 = M.getD idx 0) := by
  intro n
  induction n with
  | zero =>
    intro i M hn _ _ h1 _
    exact ⟨rfl, fun i' j' hi' hj' => h1 i' j' (by omega) hj', fun _ _ => rfl⟩
  | succ n ih =>
    intro i M hn hi hM h1 h2
    rw [memoDistOuter]
    have hs1 := memoDistInner_spec r q mdim t i hi (by omega) hq (q.length - skip) (skip + 1) M
      (by omega) (by omega) hM h1 (fun j' hj' => h2 i j' (by omega) (by omega))
    have := ih (i + 1) _ (by omega) (by omega) (by rw [hs1.1]; exact hM)
      (by
        intro i' j' hi' hj'
        by_cases hii : i' = i
        · subst hii
          exact hs1.2.1 j' hj'
        · rw [hs1.2.2 _ (fun j'' _ _ => cell_ne (by omega) (by omega) (Or.inl hii))]
          exact h1 i' j' (by omega) hj')
      (by
        intro i' j' hi' hj'
        by_cases hii : i' = i
        · subst hii
          exact hs1.2.1 j' (by omega)
        · rw [hs1.2.2 _ (fun j'' _ _ => cell_ne (by omega) (by omega) (Or.inl hii))]
          exact h2 i' j' hi' hj')
    refine ⟨by rw [this.1, hs1.1], this.2.1, ?_⟩
    intro idx hidx
    rw [this.2.2 idx hidx, hs1.2.2 idx (fun j' h1' h2' => hidx i j' hi (by omega) (by omega) h2')]

/-! ## The common part of the memoized metrics -/

theorem memoSkip_spec (old q : List Nat) (minl : Nat) : ∀ (fuel skip : Nat),
    skip ≤ minl →
    skip ≤ memoSkip old q minl fuel skip ∧ memoSkip old q minl fuel skip ≤ minl ∧
    ((∀ k, k < skip → old.getD k 0 = q.getD k 0) →
      ∀ k, k < memoSkip old q minl fuel skip → old.getD k 0 = q.getD k 0) := by
  intro fuel
  induction fuel with
  | zero => intro skip h; exact ⟨Nat.le_refl _, h, fun hk => hk⟩
  | succ fuel ih =>
    intro skip h
    rw [memoSkip]
    split
    · rename_i hc
      have := ih (skip + 1) (by omega)
      refine ⟨by omega, this.2.1, fun hk => this.2.2 ?_⟩
      intro k hk2
      by_cases e : k = skip
      · subst e; exact hc.2
      · exact hk k (by omega)
    · exact ⟨Nat.le_refl _, h, fun hk => hk⟩

theorem memcpyAt_length (dst src : List Nat) (off : Nat) (h1 : off ≤ src.length)
    (h2 : src.length ≤ dst.length) :
    (memcpyAt dst off src (src.length - off)).length = dst.length := by
  unfold memcpyAt
  simp only [List.length_append, List.length_take, List.length_drop]
  omega

theorem memcpyAt_getD (dst src : List Nat) (off k : Nat) (h1 : off ≤ src.length)
    (h2 : src.length ≤ dst.length) :
    (memcpyAt dst off src (src.length - off)).getD k 0 =
      if off ≤ k ∧ k < src.length then src.getD k 0 else dst.getD k 0 := by
  unfold memcpyAt
  simp only [List.getD_eq_getElem?_getD]
  by_cases hk1 : k < off
  · rw [if_neg (by omega), List.append_assoc, List.getElem?_append_left (by
      rw [List.length_take]; omega), List.getElem?_take_of_lt hk1]
  · rw [List.append_assoc, List.getElem?_append_right (by rw [List.length_take]; omega)]
    have e1 : (List.take off dst).length = off := by rw [List.length_take]; omega
    rw [e1]
    by_cases hk2 : k < src.length
    · rw [if_pos ⟨by omega, hk2⟩, List.getElem?_append_left (by
        rw [List.length_take, List.length_drop]; omega),
        List.getElem?_take_of_lt (by omega), List.getElem?_drop]
      congr 2
      omega
    · rw [if_neg (by omega), List.getElem?_append_right (by
        rw [List.length_take, List.length_drop]; omega), List.getElem?_drop]
      congr 2
      rw [List.length_take, List.length_drop]
      omega

theorem memoColMin_spec (M : List Nat) (mdim skip : Nat) : ∀ (n i v : Nat),
    memoColMin M mdim skip n i v ≤ v ∧
    (∀ i', i ≤ i' → i' < i + n → memoColMin M mdim skip n i v ≤ M.getD (i' * mdim + skip) 0) ∧
    (memoColMin M mdim skip n i v = v ∨
      ∃ i', i ≤ i' ∧ i' < i + n ∧ memoColMin M mdim skip n i v = M.getD (i' * mdim + skip) 0) := by
  intro n
  induction n with
  | zero => intro i v; exact ⟨Nat.le_refl _, fun i' h1 h2 => by omega, Or.inl rfl⟩
  | succ n ih =>
    intro i v
    rw [memoColMin]
    by_cases hlt : M.getD (i * mdim + skip) 0 < v
    · simp only [if_pos hlt]
      have := ih (i + 1) (M.getD (i * mdim + skip) 0)
      refine ⟨by omega, ?_, ?_⟩
      · intro i' h1 h2
        by_cases e : i' = i
        · subst e
          exact this.1
        · exact this.2.1 i' (by omega) (by omega)
      · rcases this.2.2 with h | ⟨i', h1, h2, h3⟩
        · exact Or.inr ⟨i, Nat.le_refl _, by omega, h⟩
        · exact Or.inr ⟨i', by omega, by omega, h3⟩
    · simp only [if_neg hlt]
      have := ih (i + 1) v
      refine ⟨this.1, ?_, ?_⟩
      · intro i' h1 h2
        by_cases e : i' = i
        · subst e
          omega
        · exact this.2.1 i' (by omega) (by omega)
      · rcases this.2.2 with h | ⟨i', h1, h2, h3⟩
        · exact Or.inl h
        · exact Or.inr ⟨i', by omega, by omega, h3⟩

/-- The minimum of a column of the matrix of edit operations is at most any
cell of a column further to the right. -/
theorem distCell_column_le (t : Bool) (a b : List Nat) : ∀ (n i j k : Nat), i + j = n →
    i ≤ a.length → j ≤ b.length → k ≤ j →
    ∃ i', i' ≤ i ∧ distCell t a b i' k ≤ distCell t a b i j := by
  intro n
  induction n using Nat.strong_induction_on with
  | _ n ih =>
    intro i j k hn hi hj hk
    by_cases hkj : k = j
    · subst hkj
      exact ⟨i, Nat.le_refl _, Nat.le_refl _⟩
    · cases j with
      | zero => omega
      | succ j =>
        cases i with
        | zero =>
          refine ⟨0, Nat.le_refl _, ?_⟩
          rw [distCell_zero_left, distCell_zero_left]
          exact hk
        | succ i =>
          have c1 := ih (i + j) (by omega) i j k rfl (by omega) (by omega) (by omega)
          have c2 := ih (i + 1 + j) (by omega) (i + 1) j k rfl hi (by omega) (by omega)
          have c3 := ih (i + (j + 1)) (by omega) i (j + 1) k rfl (by omega) hj hk
          obtain ⟨i1, hi1, hc1⟩ := c1
          obtain ⟨i2, hi2, hc2⟩ := c2
          obtain ⟨i3, hi3, hc3⟩ := c3
          rw [distCell]
          simp only []
          split
          · exact ⟨i1, by omega, hc1⟩
          · have hbase : ∃ i', i' ≤ i + 1 ∧ distCell t a b i' k ≤
                min (distCell t a b (i + 1) j + 1)
                  (min (distCell t a b i (j + 1) + 1) (distCell t a b i j + 1)) := by
              rcases (by omega : min (distCell t a b (i + 1) j + 1)
                    (min (distCell t a b i (j + 1) + 1) (distCell t a b i j + 1))
                      = distCell t a b (i + 1) j + 1
                  ∨ min (distCell t a b (i + 1) j + 1)
                    (min (distCell t a b i (j + 1) + 1) (distCell t a b i j + 1))
                      = distCell t a b i (j + 1) + 1
                  ∨ min (distCell t a b (i + 1) j + 1)
                    (min (distCell t a b i (j + 1) + 1) (distCell t a b i j + 1))
                      = distCell t a b i j + 1) with h | h | h
              · exact ⟨i2, hi2, by omega⟩
              · exact ⟨i3, by omega, by omega⟩
              · exact ⟨i1, by omega, by omega⟩
            split
            · rename_i hT
              have hgt := TRANSPOSED_gt hT.2
              rcases Nat.le_total (distCell t a b (i - 1) (j - 1) + 1)
                (min (distCell t a b (i + 1) j + 1)
                  (min (distCell t a b i (j + 1) + 1) (distCell t a b i j + 1))) with hle | hle
              · rw [Nat.min_eq_left hle]
                by_cases hk2 : k ≤ j - 1
                · obtain ⟨i4, hi4, hc4⟩ := ih (i - 1 + (j - 1)) (by omega) (i - 1) (j - 1) k rfl
                    (by omega) (by omega) hk2
                  exact ⟨i4, by omega, by omega⟩
                · have hkj2 : k = j := by omega
                  subst hkj2
                  refine ⟨i - 1, by omega, ?_⟩
                  have e1 := distCell_eq_dist_aux t a b _ (i - 1) k rfl (by omega) (by omega)
                  have e2 := distCell_eq_dist_aux t a b _ (i - 1) (k - 1) rfl (by omega)
                    (by omega)
                  have e3 : k = k - 1 + 1 := by omega
                  rw [e1, e2]
                  conv_lhs => rw [e3, reverse_take_succ b (k - 1) (by omega)]
                  exact dist_cons_right_le t _ _ _
              · rw [Nat.min_eq_right hle]
                exact hbase
            · exact hbase

/-! ## `fc_memo_distance` -/

theorem fc_memo_distance_step (t : Bool) (max_len : Nat) (r q : List Nat) (ctx : fc_memo)
    (h1 : ctx.mdim = max_len + 1) (h2 : ctx.seq1 = some r) (h3 : ctx.len1 = r.length)
    (h4 : r.length ≤ max_len) (h5 : ctx.seq2.length = max_len) (h6 : ctx.len2 ≤ max_len)
    (hM : ctx.mdim * ctx.mdim ≤ ctx.matrix.length)
    (hc0 : ∀ i, i < ctx.mdim → ctx.matrix.getD (i * ctx.mdim + 0) 0 = i)
    (hr0 : ∀ j, j < ctx.mdim → ctx.matrix.getD (0 * ctx.mdim + j) 0 = j)
    (hcells : ∀ i j, i ≤ r.length → j ≤ ctx.len2 →
      ctx.matrix.getD (i * ctx.mdim + j) 0 = distCell t r ctx.seq2 i j)
    (hq : q.length ≤ max_len) :
    ∃ v ctx', fc_memo_distance ctx q t = some (v, ctx') ∧
      ctx'.compute = ctx.compute ∧ ctx'.mdim = ctx.mdim ∧ ctx'.seq1 = ctx.seq1 ∧
      ctx'.len1 = ctx.len1 ∧ ctx'.max_dist = ctx.max_dist ∧
      ctx'.seq2.length = max_len ∧ ctx'.len2 ≤ max_len ∧
      ctx'.mdim * ctx'.mdim ≤ ctx'.matrix.length ∧
      (∀ i, i < ctx'.mdim → ctx'.matrix.getD (i * ctx'.mdim + 0) 0 = i) ∧
      (∀ j, j < ctx'.mdim → ctx'.matrix.getD (0 * ctx'.mdim + j) 0 = j) ∧
      (∀ i j, i ≤ r.length → j ≤ ctx'.len2 →
        ctx'.matrix.getD (i * ctx'.mdim + j) 0 = distCell t r ctx'.seq2 i j) ∧
      (v = distCell t r q r.length q.length ∨
        (v = INT32_MAX ∧ ctx.max_dist < ((distCell t r q r.length q.length : Nat) : Int))) := by
  have hd1 := length_le_dist_add t r q
  have hd2 := length_le_dist_add_left t r q
  have hD := distCell_eq_dist t r q
  unfold fc_memo_distance
  rw [h2]
  simp only []
  rw [if_neg (by omega)]
  by_cases habs : (Int.natAbs ((ctx.len1 : Int) - (q.length : Int)) : Int) > ctx.max_dist
  · rw [if_pos habs]
    refine ⟨INT32_MAX, ctx, rfl, rfl, rfl, h2, rfl, rfl, h5, h6, hM, hc0, hr0, hcells,
      Or.inr ⟨rfl, ?_⟩⟩
    rw [hD]
    rw [h3] at habs
    omega
  · rw [if_neg habs]
    have hsk := memoSkip_spec ctx.seq2 q (FC_MIN ctx.len2 q.length) (FC_MIN ctx.len2 q.length) 0
      (Nat.zero_le _)
    have hskip1 := hsk.2.1
    have hpre := hsk.2.2 (fun k hk => by omega)
    generalize memoSkip ctx.seq2 q (FC_MIN ctx.len2 q.length) (FC_MIN ctx.len2 q.length) 0
      = skip at hskip1 hpre ⊢
    rw [FC_MIN_eq] at hskip1
    -- the cells of the columns up to `skip` are those of the new sequence
    have hold : ∀ i j, i ≤ r.length → j ≤ skip →
        ctx.matrix.getD (i * ctx.mdim + j) 0 = distCell t r q i j := by
      intro i j hi hj
      rw [hcells i j hi (by omega)]
      exact distCell_congr t r ctx.seq2 q _ i j rfl (fun k hk => hpre k (by omega))
    by_cases hrej : skip ≠ 0 ∧
        ((memoColMin ctx.matrix ctx.mdim skip (ctx.len1 + 1) 0 INT32_MAX : Nat) : Int)
          > ctx.max_dist
    · rw [if_pos hrej]
      refine ⟨INT32_MAX, ctx, rfl, rfl, rfl, h2, rfl, rfl, h5, h6, hM, hc0, hr0, hcells,
        Or.inr ⟨rfl, ?_⟩⟩
      obtain ⟨i', hi', hle⟩ := distCell_column_le t r q _ r.length q.length skip rfl
        (Nat.le_refl _) (Nat.le_refl _) (by omega)
      have hmin := (memoColMin_spec ctx.matrix ctx.mdim skip (ctx.len1 + 1) 0 INT32_MAX).2.1 i'
        (Nat.zero_le _) (by omega)
      rw [hold i' skip hi' (Nat.le_refl _)] at hmin
      have := hrej.2
      omega
    · rw [if_neg hrej]
      have hsp := memoDistOuter_spec r q ctx.mdim skip t (by omega) (by omega) (by omega)
        ctx.len1 1 ctx.matrix (by omega) (by omega) hM
        (by
          intro i' j' hi' hj'
          have e : i' = 0 := by omega
          subst e
          rw [hr0 j' (by omega), distCell_zero_left])
        hold
      have hbuf : ∀ k, k < q.length →
          (memcpyAt ctx.seq2 skip q (q.length - skip)).getD k 0 = q.getD k 0 := by
        intro k hk
        rw [memcpyAt_getD _ _ _ _ (by omega) (by omega)]
        split
        · rfl
        · exact hpre k (by omega)
      refine ⟨_, _, rfl, rfl, rfl, rfl, rfl, rfl, ?_, ?_, ?_, ?_, ?_, ?_, Or.inl ?_⟩
      · exact (memcpyAt_length _ _ _ (by omega) (by omega)).trans h5
      · exact hq
      · show ctx.mdim * ctx.mdim ≤ _
        rw [hsp.1]
        exact hM
      · intro i hi
        have hi' : i < ctx.mdim := hi
        show (memoDistOuter r q ctx.mdim skip t ctx.len1 1 ctx.matrix).getD
          (i * ctx.mdim + 0) 0 = i
        rw [hsp.2.2 _ (fun i' j' _ _ _ _ => cell_ne (by omega) (by omega) (Or.inr (by omega)))]
        exact hc0 i hi'
      · intro j hj
        have hj' : j < ctx.mdim := hj
        show (memoDistOuter r q ctx.mdim skip t ctx.len1 1 ctx.matrix).getD
          (0 * ctx.mdim + j) 0 = j
        rw [hsp.2.2 _ (fun i' j' _ _ _ _ => cell_ne (by omega) (by omega) (Or.inl (by omega)))]
        exact hr0 j hj'
      · intro i j hi hj
        have hj' : j ≤ q.length := hj
        show (memoDistOuter r q ctx.mdim skip t ctx.len1 1 ctx.matrix).getD
          (i * ctx.mdim + j) 0 = distCell t r (memcpyAt ctx.seq2 skip q (q.length - skip)) i j
        rw [hsp.2.1 i j hi hj']
        exact distCell_congr t r q _ _ i j rfl (fun k hk => (hbuf k (by omega)).symm)
      · show (memoDistOuter r q ctx.mdim skip t ctx.len1 1 ctx.matrix).getD
          (ctx.len1 * ctx.mdim + q.length) 0 = distCell t r q r.length q.length
        rw [h3]
        rw [h3] at hsp
        exact hsp.2.1 r.length q.length (Nat.le_refl _) (Nat.le_refl _)

/-! ## Longest common subsequence -/

theorem lcsCell_zero_left (a b : List Nat) (j : Nat) : lcsCell a b 0 j = 0 := by
  rw [lcsCell]

theorem lcsCell_zero_right (a b : List Nat) (i : Nat) : lcsCell a b i 0 = 0 := by
  cases i with
  | zero => rw [lcsCell]
  | succ i => rw [lcsCell]

theorem lcsCell_succ (a b : List Nat) (i j : Nat) :
    lcsCell a b (i + 1) (j + 1) =
      if a.getD i 0 = b.getD j 0 then lcsCell a b i j + 1
      else max (lcsCell a b (i + 1) j) (lcsCell a b i (j + 1)) := by
  rw [lcsCell]

theorem lcsCell_comm (a b : List Nat) : ∀ (n i j : Nat), i + j = n →
    lcsCell a b i j = lcsCell b a j i := by
  intro n
  induction n using Nat.strong_induction_on with
  | _ n ih =>
    intro i j hn
    cases i with
    | zero => rw [lcsCell_zero_left, lcsCell_zero_right]
    | succ i =>
      cases j with
      | zero => rw [lcsCell_zero_left, lcsCell_zero_right]
      | succ j =>
        rw [lcsCell_succ, lcsCell_succ, ih (i + j) (by omega) i j rfl,
          ih (i + 1 + j) (by omega) (i + 1) j rfl, ih (i + (j + 1)) (by omega) i (j + 1) rfl]
        by_cases h : a.getD i 0 = b.getD j 0
        · rw [if_pos h, if_pos h.symm]
        · rw [if_neg h, if_neg (Ne.symm h), Nat.max_comm]

theorem lcsCell_congr (a b c : List Nat) : ∀ (n i j : Nat), i + j = n →
    (∀ k, k < j → b.getD k 0 = c.getD k 0) → lcsCell a b i j = lcsCell a c i j := by
  intro n
  induction n using Nat.strong_induction_on with
  | _ n ih =>
    intro i j hn h
    cases i with
    | zero => rw [lcsCell_zero_left, lcsCell_zero_left]
    | succ i =>
      cases j with
      | zero => rw [lcsCell_zero_right, lcsCell_zero_right]
      | succ j =>
        rw [lcsCell_succ, lcsCell_succ,
          ih (i + j) (by omega) i j rfl (fun k hk => h k (by omega)),
          ih (i + 1 + j) (by omega) (i + 1) j rfl (fun k hk => h k (by omega)),
          ih (i + (j + 1)) (by omega) i (j + 1) rfl h, h j (by omega)]

theorem memsetZero_length (buf : List Nat) (n : Nat) : (memsetZero buf n).length = buf.length := by
  unfold memsetZero
  simp only [List.length_append, List.length_replicate, List.length_drop]
  omega

theorem memsetZero_getD (buf : List Nat) (n k : Nat) (h : k < n) :
    (memsetZero buf n).getD k 0 = 0 := by
  unfold memsetZero
  rw [List.getD_eq_getElem?_getD]
  by_cases hk : k < min n buf.length
  · rw [List.getElem?_append_left (by rw [List.length_replicate]; exact hk),
      List.getElem?_replicate, if_pos hk]
    rfl
  · rw [List.getElem?_eq_none (by
      simp only [List.length_append, List.length_replicate, List.length_drop]
      omega)]
    rfl

theorem lcsubseqInner_spec (a b : List Nat) (i : Nat) (hi : 1 ≤ i) :
    ∀ (n j : Nat) (col : List Nat) (last : Nat),
      j + n = b.length + 1 → 1 ≤ j → b.length < col.length →
      (∀ k, k < j → col.getD k 0 = lcsCell a b i k) →
      (∀ k, j ≤ k → k ≤ b.length → col.getD k 0 = lcsCell a b (i - 1) k) →
      last = lcsCell a b (i - 1) (j - 1) →
      (lcsubseqInner a b i n j col last).length = col.length ∧
      ∀ k, k ≤ b.length → (lcsubseqInner a b i n j col last).getD k 0 = lcsCell a b i k := by
  intro n
  induction n with
  | zero =>
    intro j col last hn _ _ h1 _ _
    exact ⟨rfl, fun k hk => h1 k (by omega)⟩
  | succ n ih =>
    intro j col last hn hj hlen h1 h2 hlast
    obtain ⟨i0, rfl⟩ : ∃ i0, i = i0 + 1 := ⟨i - 1, by omega⟩
    obtain ⟨j0, rfl⟩ : ∃ j0, j = j0 + 1 := ⟨j - 1, by omega⟩
    simp only [Nat.add_sub_cancel] at h2 hlast ⊢
    have hjl : j0 + 1 < col.length := by omega
    have e1 := h1 j0 (by omega)
    have e2 := h2 (j0 + 1) (by omega) (by omega)
    have key : ∀ col1 : List Nat,
        col1 = (if a.getD i0 0 = b.getD j0 0 then col.set (j0 + 1) (last + 1)
          else if col.getD (j0 + 1) 0 < col.getD j0 0 then col.set (j0 + 1) (col.getD j0 0)
          else col) →
        col1.length = col.length ∧ col1.getD (j0 + 1) 0 = lcsCell a b (i0 + 1) (j0 + 1) ∧
        ∀ k, k ≠ j0 + 1 → col1.getD k 0 = col.getD k 0 := by
      intro col1 hc
      rw [lcsCell_succ, hc]
      split
      · refine ⟨by simp, ?_, fun k hk => getD_set_ne _ _ _ _ (Ne.symm hk)⟩
        rw [getD_set_eq _ _ _ hjl, hlast]
      · split
        · rename_i hlt
          refine ⟨by simp, ?_, fun k hk => getD_set_ne _ _ _ _ (Ne.symm hk)⟩
          rw [getD_set_eq _ _ _ hjl, e1]
          rw [e1, e2] at hlt
          omega
        · rename_i hlt
          refine ⟨rfl, ?_, fun _ _ => rfl⟩
          rw [e1, e2] at hlt
          rw [e2]
          omega
    rw [lcsubseqInner]
    simp only [Nat.add_sub_cancel]
    obtain ⟨k1, k2, k3⟩ := key _ rfl
    have := ih (j0 + 1 + 1) _ (col.getD (j0 + 1) 0) (by omega) (by omega)
      (by rw [k1]; omega)
      (by
        intro k hk
        by_cases hkj : k = j0 + 1
        · subst hkj
          exact k2
        · rw [k3 k hkj]
          exact h1 k (by omega))
      (by
        intro k hk hk2
        rw [k3 k (by omega)]
        simpa using h2 k (by omega) hk2)
      (by simpa using e2)
    exact ⟨by rw [this.1, k1], this.2⟩

theorem lcsubseqOuter_spec (a b : List Nat) :
    ∀ (n i : Nat) (col : List Nat),
      1 ≤ i → b.length < col.length →
      (∀ k, k ≤ b.length → col.getD k 0 = lcsCell a b (i - 1) k) →
      ∀ k, k ≤ b.length →
        (lcsubseqOuter a b n i col).getD k 0 = lcsCell a b (i - 1 + n) k := by
  intro n
  induction n with
  | zero => intro i col _ _ h k hk; simpa [lcsubseqOuter] using h k hk
  | succ n ih =>
    intro i col hi hlen h k hk
    rw [lcsubseqOuter]
    have hs := lcsubseqInner_spec a b i hi b.length 1 col 0 (by omega) (by omega) hlen
      (by
        intro k hk
        have : k = 0 := by omega
        subst this
        rw [h 0 (by omega), lcsCell_zero_right, lcsCell_zero_right])
      (by
        intro k hk hk2
        exact h k hk2)
      (by simp [lcsCell_zero_right])
    have := ih (i + 1) _ (by omega) (by rw [hs.1]; exact hlen)
      (by
        intro k hk
        simpa using hs.2 k hk) k hk
    rw [this]
    congr 1
    omega

theorem fc_lcsubseq0_eq (col a b : List Nat) (hlen : b.length < col.length) :
    fc_lcsubseq0 col a b = lcsCell a b a.length b.length := by
  unfold fc_lcsubseq0
  split
  · rename_i h0
    rw [h0, lcsCell_zero_right]
  · have := lcsubseqOuter_spec a b a.length 1 (memsetZero col (b.length + 1)) (by omega)
      (by rw [memsetZero_length]; exact hlen)
      (by
        intro k hk
        rw [memsetZero_getD _ _ _ (by omega)]
        simp [lcsCell_zero_left])
      b.length (Nat.le_refl _)
    simpa using this

theorem fc_lcsubseq_eq (a b : List Nat) : fc_lcsubseq a b = lcsCell a b a.length b.length := by
  unfold fc_lcsubseq
  simp only []
  by_cases h : a.length < b.length
  · simp only [if_pos h]
    rw [fc_lcsubseq0_eq, lcsCell_comm b a _ _ _ rfl]
    split
    · rw [length_scratch]; omega
    · rw [length_scratch]; omega
  · simp only [if_neg h]
    rw [fc_lcsubseq0_eq]
    split
    · rw [length_scratch]; omega
    · rw [length_scratch]; omega

/-! ## `fc_memo_lcsubseq` -/

theorem memoLcsubseqInner_spec (r q : List Nat) (mdim : Nat) (i : Nat)
    (hi : 1 ≤ i) (hi2 : i < mdim) (hq : q.length < mdim) :
    ∀ (n j : Nat) (M : List Nat),
      j + n = q.length + 1 → 1 ≤ j → mdim * mdim ≤ M.length →
      (∀ i' j', i' < i → j' ≤ q.length → M.getD (i' * mdim + j') 0 = lcsCell r q i' j') →
      (∀ j', j' < j → M.getD (i * mdim + j') 0 = lcsCell r q i j') →
      (memoLcsubseqInner r q mdim i n j M).length = M.length ∧
      (∀ j', j' ≤ q.length →
        (memoLcsubseqInner r q mdim i n j M).getD (i * mdim + j') 0 = lcsCell r q i j') ∧
      (∀ idx, (∀ j', j ≤ j' → j' ≤ q.length → idx ≠ i * mdim + j') →
        (memoLcsubseqInner r q mdim i n j M).getD idx 0 = M.getD idx 0) := by
  intro n
  induction n with
  | zero =>
    intro j M hn _ _ _ h2
    exact ⟨rfl, fun j' hj' => h2 j' (by omega), fun _ _ => rfl⟩
  | succ n ih =>
    intro j M hn hj hM h1 h2
    obtain ⟨i0, rfl⟩ : ∃ i0, i = i0 + 1 := ⟨i - 1, by omega⟩
    obtain ⟨j0, rfl⟩ : ∃ j0, j = j0 + 1 := ⟨j - 1, by omega⟩
    have hidx : (i0 + 1) * mdim + (j0 + 1) < M.length :=
      Nat.lt_of_lt_of_le (cell_lt hi2 (by omega)) hM
    have key : (if r.getD (i0 + 1 - 1) 0 = q.getD (j0 + 1 - 1) 0 then
          M.set ((i0 + 1) * mdim + (j0 + 1)) (M.getD ((i0 + 1 - 1) * mdim + (j0 + 1 - 1)) 0 + 1)
        else
          M.set ((i0 + 1) * mdim + (j0 + 1))
            (FC_MAX (M.getD ((i0 + 1) * mdim + (j0 + 1 - 1)) 0)
              (M.getD ((i0 + 1 - 1) * mdim + (j0 + 1)) 0)))
        = M.set ((i0 + 1) * mdim + (j0 + 1)) (lcsCell r q (i0 + 1) (j0 + 1)) := by
      simp only [Nat.add_sub_cancel]
      have e1 := h2 j0 (by omega)
      have e2 := h1 i0 (j0 + 1) (by omega) (by omega)
      have e3 := h1 i0 j0 (by omega) (by omega)
      rw [lcsCell_succ]
      split
      · rw [e3]
      · rw [FC_MAX_eq, e1, e2]
    rw [memoLcsubseqInner]
    simp only []
    rw [key]
    have := ih (j0 + 1 + 1) (M.set ((i0 + 1) * mdim + (j0 + 1)) (lcsCell r q (i0 + 1) (j0 + 1)))
      (by omega) (by omega) (by simp only [List.length_set]; exact hM)
      (by
        intro i' j' hi' hj'
        rw [getD_set_ne _ _ _ _ (cell_ne (by omega) (by omega) (Or.inl (by omega)))]
        exact h1 i' j' hi' hj')
      (by
        intro j' hj'
        by_cases hjj : j0 + 1 = j'
        · subst hjj
          rw [getD_set_eq _ _ _ hidx]
        · rw [getD_set_ne _ _ _ _ (cell_ne (by omega) (by omega) (Or.inr hjj))]
          exact h2 j' (by omega))
    refine ⟨by simpa using this.1, this.2.1, ?_⟩
    intro idx hidx2
    rw [this.2.2 idx (fun j' h1' h2' => hidx2 j' (by omega) h2'),
      getD_set_ne _ _ _ _ (Ne.symm (hidx2 (j0 + 1) (by omega) (by omega)))]

theorem memoLcsubseqOuter_spec (r q : List Nat) (mdim skip : Nat)
    (hr : r.length < mdim) (hq : q.length < mdim) (hs : skip ≤ q.length) :
    ∀ (n i : Nat) (M : List Nat),
      i + n = r.length + 1 → 1 ≤ i → mdim * mdim ≤ M.length →
      (∀ i' j', i' < i → j' ≤ q.length → M.getD (i' * mdim + j') 0 = lcsCell r q i' j') →
      (∀ i' j', i' ≤ r.length → j' ≤ skip →
        M.getD (i' * mdim + j') 0 = lcsCell r q i' j') →
      (memoLcsubseqOuter r q mdim skip n i M).length = M.length ∧
      (∀ i' j', i' ≤ r.length → j' ≤ q.length →
        (memoLcsubseqOuter r q mdim skip n i M).getD (i' * mdim + j') 0 = lcsCell r q i' j') ∧
      (∀ idx, (∀ i' j', 1 ≤ i' → i' ≤ r.length → skip < j' → j' ≤ q.length →
          idx ≠ i' * mdim + j') →
        (memoLcsubseqOuter r q mdim skip n i M).getD idx 0 = M.getD idx 0) := by
  intro n
  induction n with
  | zero =>
    intro i M hn _ _ h1 _
    exact ⟨rfl, fun i' j' hi' hj' => h1 i' j' (by omega) hj', fun _ _ => rfl⟩
  | succ n ih =>
    intro i M hn hi hM h1 h2
    rw [memoLcsubseqOuter]
    have hs1 := memoLcsubseqInner_spec r q mdim i hi (by omega) hq (q.length - skip) (skip + 1) M
      (by omega) (by omega) hM h1 (fun j' hj' => h2 i j' (by omega) (by omega))
    have := ih (i + 1) _ (by omega) (by omega) (by rw [hs1.1]; exact hM)
      (by
        intro i' j' hi' hj'
        by_cases hii : i' = i
        · subst hii
          exact hs1.2.1 j' hj'
        · rw [hs1.2.2 _ (fun j'' _ _ => cell_ne (by omega) (by omega) (Or.inl hii))]
          exact h1 i' j' (by omega) hj')
      (by
        intro i' j' hi' hj'
        by_cases hii : i' = i
        · subst hii
          exact hs1.2.1 j' (by omega)
        · rw [hs1.2.2 _ (fun j'' _ _ => cell_ne (by omega) (by omega) (Or.inl hii))]
          exact h2 i' j' hi' hj')
    refine ⟨by rw [this.1, hs1.1], this.2.1, ?_⟩
    intro idx hidx
    rw [this.2.2 idx hidx, hs1.2.2 idx (fun j' h1' h2' => hidx i j' hi (by omega) (by omega) h2')]

theorem fc_memo_lcsubseq_step (max_len : Nat) (r q : List Nat) (ctx : fc_memo)
    (hcomp : ctx.compute = fc_metric.FC_LCSUBSEQ)
    (h1 : ctx.mdim = max_len + 1) (h2 : ctx.seq1 = some r) (h3 : ctx.len1 = r.length)
    (h4 : r.length ≤ max_len) (h5 : ctx.seq2.length = max_len)
    (hM : ctx.mdim * ctx.mdim ≤ ctx.matrix.length)
    (hc0 : ∀ i, i < ctx.mdim → ctx.matrix.getD (i * ctx.mdim + 0) 0 = 0)
    (hr0 : ∀ j, j < ctx.mdim → ctx.matrix.getD (0 * ctx.mdim + j) 0 = 0)
    (hcells : ∀ i j, i ≤ r.length → j ≤ ctx.len2 →
      ctx.matrix.getD (i * ctx.mdim + j) 0 = lcsCell r ctx.seq2 i j)
    (hq : q.length ≤ max_len) :
    ∃ v ctx', fc_memo_lcsubseq ctx q = some (v, ctx') ∧
      ctx'.compute = ctx.compute ∧ ctx'.mdim = ctx.mdim ∧ ctx'.seq1 = ctx.seq1 ∧
      ctx'.len1 = ctx.len1 ∧ ctx'.max_dist = ctx.max_dist ∧
      ctx'.seq2.length = max_len ∧ ctx'.len2 ≤ max_len ∧
      ctx'.mdim * ctx'.mdim ≤ ctx'.matrix.length ∧
      (∀ i, i < ctx'.mdim → ctx'.matrix.getD (i * ctx'.mdim + 0) 0 = 0) ∧
      (∀ j, j < ctx'.mdim → ctx'.matrix.getD (0 * ctx'.mdim + j) 0 = 0) ∧
      (∀ i j, i ≤ r.length → j ≤ ctx'.len2 →
        ctx'.matrix.getD (i * ctx'.mdim + j) 0 = lcsCell r ctx'.seq2 i j) ∧
      v = lcsCell r q r.length q.length := by
  unfold fc_memo_lcsubseq
  rw [h2]
  simp only []
  rw [if_neg (by simp only [hcomp, and_true]; omega)]
  have hsk := memoSkip_spec ctx.seq2 q (FC_MIN ctx.len2 q.length) (FC_MIN ctx.len2 q.length) 0
    (Nat.zero_le _)
  have hskip1 := hsk.2.1
  have hpre := hsk.2.2 (fun k hk => by omega)
  generalize memoSkip ctx.seq2 q (FC_MIN ctx.len2 q.length) (FC_MIN ctx.len2 q.length) 0
    = skip at hskip1 hpre ⊢
  rw [FC_MIN_eq] at hskip1
  have hold : ∀ i j, i ≤ r.length → j ≤ skip →
      ctx.matrix.getD (i * ctx.mdim + j) 0 = lcsCell r q i j := by
    intro i j hi hj
    rw [hcells i j hi (by omega)]
    exact lcsCell_congr r ctx.seq2 q _ i j rfl (fun k hk => hpre k (by omega))
  have hsp := memoLcsubseqOuter_spec r q ctx.mdim skip (by omega) (by omega) (by omega)
    ctx.len1 1 ctx.matrix (by omega) (by omega) hM
    (by
      intro i' j' hi' hj'
      have e : i' = 0 := by omega
      subst e
      rw [hr0 j' (by omega), lcsCell_zero_left])
    hold
  have hbuf : ∀ k, k < q.length →
      (memcpyAt ctx.seq2 skip q (q.length - skip)).getD k 0 = q.getD k 0 := by
    intro k hk
    rw [memcpyAt_getD _ _ _ _ (by omega) (by omega)]
    split
    · rfl
    · exact hpre k (by omega)
  refine ⟨_, _, rfl, rfl, rfl, rfl, rfl, rfl, ?_, ?_, ?_, ?_, ?_, ?_, ?_⟩
  · exact (memcpyAt_length _ _ _ (by omega) (by omega)).trans h5
  · exact hq
  · show ctx.mdim * ctx.mdim ≤ _
    rw [hsp.1]
    exact hM
  · intro i hi
    have hi' : i < ctx.mdim := hi
    show (memoLcsubseqOuter r q ctx.mdim skip ctx.len1 1 ctx.matrix).getD
      (i * ctx.mdim + 0) 0 = 0
    rw [hsp.2.2 _ (fun i' j' _ _ _ _ => cell_ne (by omega) (by omega) (Or.inr (by omega)))]
    exact hc0 i hi'
  · intro j hj
    have hj' : j < ctx.mdim := hj
    show (memoLcsubseqOuter r q ctx.mdim skip ctx.len1 1 ctx.matrix).getD
      (0 * ctx.mdim + j) 0 = 0
    rw [hsp.2.2 _ (fun i' j' _ _ _ _ => cell_ne (by omega) (by omega) (Or.inl (by omega)))]
    exact hr0 j hj'
  · intro i j hi hj
    have hj' : j ≤ q.length := hj
    show (memoLcsubseqOuter r q ctx.mdim skip ctx.len1 1 ctx.matrix).getD
      (i * ctx.mdim + j) 0 = lcsCell r (memcpyAt ctx.seq2 skip q (q.length - skip)) i j
    rw [hsp.2.1 i j hi hj']
    exact lcsCell_congr r q _ _ i j rfl (fun k hk => (hbuf k (by omega)).symm)
  · show (memoLcsubseqOuter r q ctx.mdim skip ctx.len1 1 ctx.matrix).getD
      (ctx.len1 * ctx.mdim + q.length) 0 = lcsCell r q r.length q.length
    rw [h3]
    rw [h3] at hsp
    exact hsp.2.1 r.length q.length (Nat.le_refl _) (Nat.le_refl _)

/-! ## Longest common substring -/

theorem csCell_zero_left (a b : List Nat) (j : Nat) : csCell a b 0 j = 0 := by
  rw [csCell]

theorem csCell_zero_right (a b : List Nat) (i : Nat) : csCell a b i 0 = 0 := by
  cases i with
  | zero => rw [csCell]
  | succ i => rw [csCell]

theorem csCell_succ (a b : List Nat) (i j : Nat) :
    csCell a b (i + 1) (j + 1) = if a.getD i 0 = b.getD j 0 then csCell a b i j + 1 else 0 := by
  rw [csCell]

theorem csCell_congr (a b c : List Nat) : ∀ (i j : Nat),
    (∀ k, k < j → b.getD k 0 = c.getD k 0) → csCell a b i j = csCell a c i j := by
  intro i
  induction i with
  | zero => intro j _; rw [csCell_zero_left, csCell_zero_left]
  | succ i ih =>
    intro j h
    cases j with
    | zero => rw [csCell_zero_right, csCell_zero_right]
    | succ j =>
      rw [csCell_succ, csCell_succ, ih j (fun k hk => h k (by omega)), h j (by omega)]

theorem lcsubstrInner_spec (a b : List Nat) (i : Nat) :
    ∀ (n j : Nat) (st : LcsubstrState) (last : Nat),
      j + n = b.length → b.length ≤ st.column.length →
      (∀ k, k < j → st.column.getD k 0 = csCell a b (i + 1) (k + 1)) →
      (∀ k, j ≤ k → k < b.length → st.column.getD k 0 = csCell a b i (k + 1)) →
      last = csCell a b i j →
      (∀ i' j', i' ≤ i → j' ≤ b.length → csCell a b i' j' ≤ st.max_len) →
      (∀ j', j' ≤ j → csCell a b (i + 1) j' ≤ st.max_len) →
      (∃ i' j', ((i' ≤ i ∧ j' ≤ b.length) ∨ (i' = i + 1 ∧ j' ≤ j)) ∧
        csCell a b i' j' = st.max_len) →
      (lcsubstrInner a b i n j st last).column.length = st.column.length ∧
      (∀ k, k < b.length →
        (lcsubstrInner a b i n j st last).column.getD k 0 = csCell a b (i + 1) (k + 1)) ∧
      (∀ i' j', i' ≤ i + 1 → j' ≤ b.length →
        csCell a b i' j' ≤ (lcsubstrInner a b i n j st last).max_len) ∧
      (∃ i' j', i' ≤ i + 1 ∧ j' ≤ b.length ∧
        csCell a b i' j' = (lcsubstrInner a b i n j st last).max_len) := by
  intro n
  induction n with
  | zero =>
    intro j st last hn _ h1 _ _ hub1 hub2 hatt
    refine ⟨rfl, fun k hk => h1 k (by omega), ?_, ?_⟩
    · intro i' j' hi' hj'
      by_cases e : i' = i + 1
      · subst e
        exact hub2 j' (by omega)
      · exact hub1 i' j' (by omega) hj'
    · obtain ⟨i', j', hreg, hv⟩ := hatt
      exact ⟨i', j', by omega, by omega, hv⟩
  | succ n ih =>
    intro j st last hn hlen h1 h2 hlast hub1 hub2 hatt
    have hjl : j < st.column.length := by omega
    have e2 := h2 j (Nat.le_refl _) (by omega)
    have key : ∀ st1 : LcsubstrState,
        st1 = (if a.getD i 0 = b.getD j 0 then
            (if st.max_len < (st.column.set j (last + 1)).getD j 0 then
              (⟨st.column.set j (last + 1), (st.column.set j (last + 1)).getD j 0, i⟩ :
                LcsubstrState)
            else ⟨st.column.set j (last + 1), st.max_len, st.my_pos⟩)
          else ⟨st.column.set j 0, st.max_len, st.my_pos⟩) →
        st1.column = st.column.set j (csCell a b (i + 1) (j + 1)) ∧
        st1.max_len = max st.max_len (csCell a b (i + 1) (j + 1)) := by
      intro st1 hst
      rw [csCell_succ, hst]
      split
      · rw [getD_set_eq _ _ _ hjl, hlast]
        split
        · refine ⟨rfl, ?_⟩
          show csCell a b i j + 1 = _
          omega
        · refine ⟨rfl, ?_⟩
          show st.max_len = _
          omega
      · exact ⟨rfl, by simp⟩
    rw [lcsubstrInner]
    simp only []
    obtain ⟨k1, k2⟩ := key _ rfl
    have := ih (j + 1) _ (st.column.getD j 0) (by omega)
      (by rw [k1, List.length_set]; exact hlen)
      (by
        intro k hk
        rw [k1]
        by_cases hkj : j = k
        · subst hkj
          rw [getD_set_eq _ _ _ hjl]
        · rw [getD_set_ne _ _ _ _ hkj]
          exact h1 k (by omega))
      (by
        intro k hk hk2
        rw [k1, getD_set_ne _ _ _ _ (by omega)]
        exact h2 k (by omega) hk2)
      e2
      (by
        intro i' j' hi' hj'
        rw [k2]
        have := hub1 i' j' hi' hj'
        omega)
      (by
        intro j' hj'
        rw [k2]
        by_cases e : j' = j + 1
        · subst e
          omega
        · have := hub2 j' (by omega)
          omega)
      (by
        rw [k2]
        rcases Nat.le_total st.max_len (csCell a b (i + 1) (j + 1)) with hle | hle
        · exact ⟨i + 1, j + 1, Or.inr ⟨rfl, Nat.le_refl _⟩, by omega⟩
        · obtain ⟨i', j', hreg, hv⟩ := hatt
          exact ⟨i', j', by omega, by omega⟩)
    refine ⟨?_, this.2.1, this.2.2.1, this.2.2.2⟩
    rw [this.1, k1, List.length_set]

theorem lcsubstrOuter_spec (a b : List Nat) :
    ∀ (n i : Nat) (st : LcsubstrState),
      b.length ≤ st.column.length →
      (∀ k, k < b.length → st.column.getD k 0 = csCell a b i (k + 1)) →
      (∀ i' j', i' ≤ i → j' ≤ b.length → csCell a b i' j' ≤ st.max_len) →
      (∃ i' j', i' ≤ i ∧ j' ≤ b.length ∧ csCell a b i' j' = st.max_len) →
      (∀ i' j', i' ≤ i + n → j' ≤ b.length →
        csCell a b i' j' ≤ (lcsubstrOuter a b n i st).max_len) ∧
      (∃ i' j', i' ≤ i + n ∧ j' ≤ b.length ∧
        csCell a b i' j' = (lcsubstrOuter a b n i st).max_len) := by
  intro n
  induction n with
  | zero => intro i st _ _ hub hatt; exact ⟨hub, hatt⟩
  | succ n ih =>
    intro i st hlen h1 hub hatt
    rw [lcsubstrOuter]
    have hs := lcsubstrInner_spec a b i b.length 0 st 0 (by omega) hlen
      (fun k hk => by omega) (fun k _ hk => h1 k hk) (by rw [csCell_zero_right]) hub
      (by
        intro j' hj'
        have : j' = 0 := by omega
        subst this
        rw [csCell_zero_right]
        exact Nat.zero_le _)
      (by
        obtain ⟨i', j', hi', hj', hv⟩ := hatt
        exact ⟨i', j', Or.inl ⟨hi', hj'⟩, hv⟩)
    have := ih (i + 1) _ (by rw [hs.1]; exact hlen) hs.2.1 hs.2.2.1 hs.2.2.2
    have e : i + 1 + n = i + (n + 1) := by omega
    rw [e] at this
    exact this

/-- The value of `fc_lcsubstr` is the largest cell of the matrix of common
suffix lengths. -/
theorem fc_lcsubstr_spec (a b : List Nat) :
    (∀ i j, i ≤ a.length → j ≤ b.length → csCell a b i j ≤ fc_lcsubstr a b) ∧
    (∃ i j, i ≤ a.length ∧ j ≤ b.length ∧ csCell a b i j = fc_lcsubstr a b) := by
  have hcol : b.length ≤ (memsetZero (if b.length ≥ FC_DEFAULT_COLUMN_LEN then scratch b.length
      else scratch FC_DEFAULT_COLUMN_LEN) b.length).length := by
    rw [memsetZero_length]
    split
    · rw [length_scratch]
    · rw [length_scratch]; omega
  have := lcsubstrOuter_spec a b a.length 0
    ⟨memsetZero (if b.length ≥ FC_DEFAULT_COLUMN_LEN then scratch b.length
      else scratch FC_DEFAULT_COLUMN_LEN) b.length, 0, INT32_MAX⟩ hcol
    (by
      intro k hk
      show (memsetZero _ b.length).getD k 0 = _
      rw [memsetZero_getD _ _ _ hk, csCell_zero_left])
    (by
      intro i' j' hi' _
      have : i' = 0 := by omega
      subst this
      rw [csCell_zero_left])
    ⟨0, 0, Nat.le_refl _, Nat.zero_le _, by rw [csCell_zero_left]⟩
  simp only [Nat.zero_add] at this
  exact this

/-! ## `fc_memo_lcsubstr` -/

theorem CsMax.unique {a b : List Nat} {n m v w : Nat} (h1 : CsMax a b n m v)
    (h2 : CsMax a b n m w) : v = w := by
  obtain ⟨i, j, hi, hj, e⟩ := h1.2
  obtain ⟨i', j', hi', hj', e'⟩ := h2.2
  have := h1.1 i' j' hi' hj'
  have := h2.1 i j hi hj
  omega

theorem CsMax.congr {a b c : List Nat} {n m v : Nat} (h : CsMax a b n m v)
    (hbc : ∀ k, k < m → b.getD k 0 = c.getD k 0) : CsMax a c n m v := by
  have e : ∀ i j, j ≤ m → csCell a b i j = csCell a c i j :=
    fun i j hj => csCell_congr a b c i j (fun k hk => hbc k (by omega))
  refine ⟨fun i j hi hj => by rw [← e i j hj]; exact h.1 i j hi hj, ?_⟩
  obtain ⟨i, j, hi, hj, hv⟩ := h.2
  exact ⟨i, j, hi, hj, by rw [← e i j hj]; exact hv⟩

theorem fc_lcsubstr_csMax (a b : List Nat) : CsMax a b a.length b.length (fc_lcsubstr a b) :=
  fc_lcsubstr_spec a b

theorem memoLcsubstrInner_spec (r q : List Nat) (mdim : Nat) (i : Nat)
    (hi : 1 ≤ i) (hi2 : i < mdim) (hr : r.length < mdim) :
    ∀ (n j : Nat) (M : List Nat) (mx : Nat),
      j + n = r.length + 1 → 1 ≤ j → mdim * mdim ≤ M.length →
      (∀ j', j' ≤ r.length → M.getD ((i - 1) * mdim + j') 0 = csCell r q j' (i - 1)) →
      (∀ j', j' < j → M.getD (i * mdim + j') 0 = csCell r q j' i) →
      (∀ i' j', j' ≤ r.length → i' < i → csCell r q j' i' ≤ mx) →
      (∀ j', j' < j → csCell r q j' i ≤ mx) →
      (∃ i' j', ((i' < i ∧ j' ≤ r.length) ∨ (i' = i ∧ j' < j)) ∧ csCell r q j' i' = mx) →
      (memoLcsubstrInner r q mdim i n j M mx).1.length = M.length ∧
      (∀ j', j' ≤ r.length →
        (memoLcsubstrInner r q mdim i n j M mx).1.getD (i * mdim + j') 0 = csCell r q j' i) ∧
      (∀ idx, (∀ j', j ≤ j' → j' ≤ r.length → idx ≠ i * mdim + j') →
        (memoLcsubstrInner r q mdim i n j M mx).1.getD idx 0 = M.getD idx 0) ∧
      CsMax r q r.length i (memoLcsubstrInner r q mdim i n j M mx).2 := by
  intro n
  induction n with
  | zero =>
    intro j M mx hn _ _ _ h2 hub1 hub2 hatt
    refine ⟨rfl, fun j' hj' => h2 j' (by omega), fun _ _ => rfl, ?_, ?_⟩
    · intro j' i' hj' hi'
      by_cases e : i' = i
      · subst e
        exact hub2 j' (by omega)
      · exact hub1 i' j' hj' (by omega)
    · obtain ⟨i', j', hreg, hv⟩ := hatt
      exact ⟨j', i', by omega, by omega, hv⟩
  | succ n ih =>
    intro j M mx hn hj hM h1 h2 hub1 hub2 hatt
    obtain ⟨i0, rfl⟩ : ∃ i0, i = i0 + 1 := ⟨i - 1, by omega⟩
    obtain ⟨j0, rfl⟩ : ∃ j0, j = j0 + 1 := ⟨j - 1, by omega⟩
    simp only [Nat.add_sub_cancel] at h1
    have hidx : (i0 + 1) * mdim + (j0 + 1) < M.length :=
      Nat.lt_of_lt_of_le (cell_lt hi2 (by omega)) hM
    have e3 := h1 j0 (by omega)
    have hcell := csCell_succ r q j0 i0
    rw [memoLcsubstrInner]
    simp only [Nat.add_sub_cancel]
    -- the new cell and the new running maximum
    have hstep : ∀ (M1 : List Nat) (mx1 : Nat),
        M1 = M.set ((i0 + 1) * mdim + (j0 + 1)) (csCell r q (j0 + 1) (i0 + 1)) →
        mx1 = max mx (csCell r q (j0 + 1) (i0 + 1)) →
        (memoLcsubstrInner r q mdim (i0 + 1) n (j0 + 1 + 1) M1 mx1).1.length = M.length ∧
        (∀ j', j' ≤ r.length →
          (memoLcsubstrInner r q mdim (i0 + 1) n (j0 + 1 + 1) M1 mx1).1.getD
            ((i0 + 1) * mdim + j') 0 = csCell r q j' (i0 + 1)) ∧
        (∀ idx, (∀ j', j0 + 1 ≤ j' → j' ≤ r.length → idx ≠ (i0 + 1) * mdim + j') →
          (memoLcsubstrInner r q mdim (i0 + 1) n (j0 + 1 + 1) M1 mx1).1.getD idx 0
            = M.getD idx 0) ∧
        CsMax r q r.length (i0 + 1)
          (memoLcsubstrInner r q mdim (i0 + 1) n (j0 + 1 + 1) M1 mx1).2 := by
      intro M1 mx1 hM1 hmx1
      subst hM1 hmx1
      have := ih (j0 + 1 + 1)
        (M.set ((i0 + 1) * mdim + (j0 + 1)) (csCell r q (j0 + 1) (i0 + 1)))
        (max mx (csCell r q (j0 + 1) (i0 + 1)))
        (by omega) (by omega) (by simp only [List.length_set]; exact hM)
        (by
          intro j' hj'
          simp only [Nat.add_sub_cancel]
          rw [getD_set_ne _ _ _ _ (cell_ne (by omega) (by omega) (Or.inl (by omega)))]
          exact h1 j' hj')
        (by
          intro j' hj'
          by_cases hjj : j0 + 1 = j'
          · subst hjj
            rw [getD_set_eq _ _ _ hidx]
          · rw [getD_set_ne _ _ _ _ (cell_ne (by omega) (by omega) (Or.inr hjj))]
            exact h2 j' (by omega))
        (by
          intro i' j' hj' hi'
          have := hub1 i' j' hj' hi'
          omega)
        (by
          intro j' hj'
          by_cases e : j' = j0 + 1
          · subst e
            omega
          · have := hub2 j' (by omega)
            omega)
        (by
          rcases Nat.le_total mx (csCell r q (j0 + 1) (i0 + 1)) with hle | hle
          · exact ⟨i0 + 1, j0 + 1, Or.inr ⟨rfl, by omega⟩, by omega⟩
          · obtain ⟨i', j', hreg, hv⟩ := hatt
            exact ⟨i', j', by omega, by omega⟩)
      refine ⟨by simpa using this.1, this.2.1, ?_, this.2.2.2⟩
      intro idx hidx2
      rw [this.2.2.1 idx (fun j' h1' h2' => hidx2 j' (by omega) h2'),
        getD_set_ne _ _ _ _ (Ne.symm (hidx2 (j0 + 1) (by omega) (by omega)))]
    by_cases hm : r.getD j0 0 = q.getD i0 0
    · rw [if_pos hm]
      rw [if_pos hm] at hcell
      exact hstep _ _ (by rw [hcell, e3]) (by rw [hcell, e3]; split <;> omega)
    · rw [if_neg hm]
      rw [if_neg hm] at hcell
      exact hstep _ _ (by rw [hcell]) (by rw [hcell]; omega)

theorem memoLcsubstrOuter_spec (r q : List Nat) (mdim : Nat)
    (hr : r.length < mdim) (hq : q.length < mdim) :
    ∀ (n i : Nat) (M : List Nat) (mx : Nat),
      i + n = q.length + 1 → 1 ≤ i → (mdim + 1) * mdim ≤ M.length →
      (∀ i' j', i' < i → j' ≤ r.length → M.getD (i' * mdim + j') 0 = csCell r q j' i') →
      (∀ i', i' < mdim → M.getD (i' * mdim + 0) 0 = 0) →
      (∀ i', i' < i → CsMax r q r.length i' (M.getD (mdim * mdim + i') 0)) →
      CsMax r q r.length (i - 1) mx →
      (memoLcsubstrOuter r q mdim r.length mdim n i M mx).1.length = M.length ∧
      (∀ i' j', i' ≤ q.length → j' ≤ r.length →
        (memoLcsubstrOuter r q mdim r.length mdim n i M mx).1.getD (i' * mdim + j') 0
          = csCell r q j' i') ∧
      (∀ i', i' ≤ q.length → CsMax r q r.length i'
        ((memoLcsubstrOuter r q mdim r.length mdim n i M mx).1.getD (mdim * mdim + i') 0)) ∧
      CsMax r q r.length q.length (memoLcsubstrOuter r q mdim r.length mdim n i M mx).2 ∧
      (∀ idx, (∀ i' j', i ≤ i' → i' ≤ q.length → 1 ≤ j' → j' ≤ r.length →
          idx ≠ i' * mdim + j') →
        (∀ i', i ≤ i' → i' ≤ q.length → idx ≠ mdim * mdim + i') →
        (memoLcsubstrOuter r q mdim r.length mdim n i M mx).1.getD idx 0 = M.getD idx 0) := by
  intro n
  induction n with
  | zero =>
    intro i M mx hn _ _ h1 _ h3 h4
    have e : i - 1 = q.length := by omega
    rw [e] at h4
    exact ⟨rfl, fun i' j' hi' hj' => h1 i' j' (by omega) hj', fun i' hi' => h3 i' (by omega),
      h4, fun _ _ _ => rfl⟩
  | succ n ih =>
    intro i M mx hn hi hM h1 h2 h3 h4
    have hmul : (mdim + 1) * mdim = mdim * mdim + mdim := Nat.succ_mul mdim mdim
    have hMM : mdim * mdim ≤ M.length := by omega
    rw [memoLcsubstrOuter]
    have hs := memoLcsubstrInner_spec r q mdim i hi (by omega) hr r.length 1 M mx
      (by omega) (by omega) hMM
      (fun j' hj' => h1 (i - 1) j' (by omega) hj')
      (by
        intro j' hj'
        have : j' = 0 := by omega
        subst this
        rw [h2 i (by omega), csCell_zero_left])
      (by
        intro i' j' hj' hi'
        exact h4.1 j' i' hj' (by omega))
      (by
        intro j' hj'
        have : j' = 0 := by omega
        subst this
        rw [csCell_zero_left]
        exact Nat.zero_le _)
      (by
        obtain ⟨j', i', hj', hi', hv⟩ := h4.2
        exact ⟨i', j', Or.inl ⟨by omega, hj'⟩, hv⟩)
    have hcellidx : ∀ i' j', i' < mdim → j' < mdim → i' * mdim + j' ≠ mdim * mdim + i := by
      intro i' j' hi' hj'
      have := @cell_lt mdim mdim i' j' hi' hj'
      omega
    have hmaxidx : mdim * mdim + i <
        (memoLcsubstrInner r q mdim i r.length 1 M mx).1.length := by
      rw [hs.1]
      omega
    have := ih (i + 1)
      ((memoLcsubstrInner r q mdim i r.length 1 M mx).1.set (mdim * mdim + i)
        (memoLcsubstrInner r q mdim i r.length 1 M mx).2)
      (memoLcsubstrInner r q mdim i r.length 1 M mx).2
      (by omega) (by omega) (by rw [List.length_set, hs.1]; exact hM)
      (by
        intro i' j' hi' hj'
        rw [getD_set_ne _ _ _ _ (Ne.symm (hcellidx i' j' (by omega) (by omega)))]
        by_cases hii : i' = i
        · subst hii
          exact hs.2.1 j' hj'
        · rw [hs.2.2.1 _ (fun j'' _ _ => cell_ne (by omega) (by omega) (Or.inl hii))]
          exact h1 i' j' (by omega) hj')
      (by
        intro i' hi'
        rw [getD_set_ne _ _ _ _ (Ne.symm (hcellidx i' 0 hi' (by omega))),
          hs.2.2.1 _ (fun j'' _ _ => cell_ne (by omega) (by omega) (Or.inr (by omega)))]
        exact h2 i' hi')
      (by
        intro i' hi'
        by_cases hii : i' = i
        · subst hii
          rw [getD_set_eq _ _ _ hmaxidx]
          exact hs.2.2.2
        · rw [getD_set_ne _ _ _ _ (by omega),
            hs.2.2.1 _ (fun j'' _ _ => Ne.symm (by
              have := @cell_lt mdim mdim i j'' (by omega) (by omega)
              omega))]
          exact h3 i' (by omega))
      (by simpa using hs.2.2.2)
    refine ⟨by rw [this.1, List.length_set, hs.1], this.2.1, this.2.2.1, this.2.2.2.1, ?_⟩
    intro idx hidx1 hidx2
    rw [this.2.2.2.2 idx (fun i' j' a1 a2 a3 a4 => hidx1 i' j' (by omega) a2 a3 a4)
      (fun i' a1 a2 => hidx2 i' (by omega) a2),
      getD_set_ne _ _ _ _ (Ne.symm (hidx2 i (Nat.le_refl _) (by omega))),
      hs.2.2.1 idx (fun j' a1 a2 => hidx1 i j' (Nat.le_refl _) (by omega) a1 a2)]

theorem fc_memo_lcsubstr_step (max_len : Nat) (r q : List Nat) (ctx : fc_memo)
    (hcomp : ctx.compute = fc_metric.FC_LCSUBSTR)
    (h1 : ctx.mdim = max_len + 1) (h2 : ctx.seq1 = some r) (h3 : ctx.len1 = r.length)
    (h4 : r.length ≤ max_len) (h5 : ctx.seq2.length = max_len)
    (hM : (ctx.mdim + 1) * ctx.mdim ≤ ctx.matrix.length)
    (hc0 : ∀ i, i < ctx.mdim → ctx.matrix.getD (i * ctx.mdim + 0) 0 = 0)
    (hr0 : ∀ j, j < ctx.mdim → ctx.matrix.getD (0 * ctx.mdim + j) 0 = 0)
    (hcells : ∀ i j, i ≤ ctx.len2 → j ≤ r.length →
      ctx.matrix.getD (i * ctx.mdim + j) 0 = csCell r ctx.seq2 j i)
    (hmax : ∀ i, i ≤ ctx.len2 →
      CsMax r ctx.seq2 r.length i (ctx.matrix.getD (ctx.mdim * ctx.mdim + i) 0))
    (hq : q.length ≤ max_len) :
    ∃ v ctx', fc_memo_lcsubstr ctx q = some (v, ctx') ∧
      ctx'.compute = ctx.compute ∧ ctx'.mdim = ctx.mdim ∧ ctx'.seq1 = ctx.seq1 ∧
      ctx'.len1 = ctx.len1 ∧ ctx'.max_dist = ctx.max_dist ∧
      ctx'.seq2.length = max_len ∧ ctx'.len2 ≤ max_len ∧
      (ctx'.mdim + 1) * ctx'.mdim ≤ ctx'.matrix.length ∧
      (∀ i, i < ctx'.mdim → ctx'.matrix.getD (i * ctx'.mdim + 0) 0 = 0) ∧
      (∀ j, j < ctx'.mdim → ctx'.matrix.getD (0 * ctx'.mdim + j) 0 = 0) ∧
      (∀ i j, i ≤ ctx'.len2 → j ≤ r.length →
        ctx'.matrix.getD (i * ctx'.mdim + j) 0 = csCell r ctx'.seq2 j i) ∧
      (∀ i, i ≤ ctx'.len2 →
        CsMax r ctx'.seq2 r.length i (ctx'.matrix.getD (ctx'.mdim * ctx'.mdim + i) 0)) ∧
      v = fc_lcsubstr r q := by
  unfold fc_memo_lcsubstr
  rw [h2]
  simp only []
  rw [if_neg (by simp only [hcomp, and_true]; omega), h3]
  have hsk := memoSkip_spec ctx.seq2 q (FC_MIN ctx.len2 q.length) (FC_MIN ctx.len2 q.length) 0
    (Nat.zero_le _)
  have hskip1 := hsk.2.1
  have hpre := hsk.2.2 (fun k hk => by omega)
  generalize memoSkip ctx.seq2 q (FC_MIN ctx.len2 q.length) (FC_MIN ctx.len2 q.length) 0
    = skip at hskip1 hpre ⊢
  rw [FC_MIN_eq] at hskip1
  have hmul : (ctx.mdim + 1) * ctx.mdim = ctx.mdim * ctx.mdim + ctx.mdim :=
    Nat.succ_mul ctx.mdim ctx.mdim
  have hsp := memoLcsubstrOuter_spec r q ctx.mdim (by omega) (by omega)
    (q.length - skip) (skip + 1) ctx.matrix (ctx.matrix.getD (ctx.mdim * ctx.mdim + skip) 0)
    (by omega) (by omega) hM
    (by
      intro i' j' hi' hj'
      rw [hcells i' j' (by omega) hj']
      exact csCell_congr r ctx.seq2 q j' i' (fun k hk => hpre k (by omega)))
    hc0
    (by
      intro i' hi'
      exact (hmax i' (by omega)).congr (fun k hk => hpre k (by omega)))
    (by
      simp only [Nat.add_sub_cancel]
      exact (hmax skip (by omega)).congr (fun k hk => hpre k (by omega)))
  have hbuf : ∀ k, k < q.length →
      (memcpyAt ctx.seq2 skip q (q.length - skip)).getD k 0 = q.getD k 0 := by
    intro k hk
    rw [memcpyAt_getD _ _ _ _ (by omega) (by omega)]
    split
    · rfl
    · exact hpre k (by omega)
  refine ⟨_, _, rfl, rfl, rfl, rfl, rfl, rfl, ?_, ?_, ?_, ?_, ?_, ?_, ?_, ?_⟩
  · exact (memcpyAt_length _ _ _ (by omega) (by omega)).trans h5
  · exact hq
  · show (ctx.mdim + 1) * ctx.mdim ≤ _
    rw [hsp.1]
    exact hM
  · intro i hi
    have hi' : i < ctx.mdim := hi
    show (memoLcsubstrOuter r q ctx.mdim r.length ctx.mdim (q.length - skip) (skip + 1)
      ctx.matrix (ctx.matrix.getD (ctx.mdim * ctx.mdim + skip) 0)).1.getD
        (i * ctx.mdim + 0) 0 = 0
    rw [hsp.2.2.2.2 _
      (fun i' j' _ _ _ _ => cell_ne (by omega) (by omega) (Or.inr (by omega)))
      (fun i' _ _ => by
        have := @cell_lt ctx.mdim ctx.mdim i 0 hi' (by omega)
        omega)]
    exact hc0 i hi'
  · intro j hj
    have hj' : j < ctx.mdim := hj
    show (memoLcsubstrOuter r q ctx.mdim r.length ctx.mdim (q.length - skip) (skip + 1)
      ctx.matrix (ctx.matrix.getD (ctx.mdim * ctx.mdim + skip) 0)).1.getD
        (0 * ctx.mdim + j) 0 = 0
    rw [hsp.2.2.2.2 _
      (fun i' j' _ _ _ _ => cell_ne (by omega) (by omega) (Or.inl (by omega)))
      (fun i' _ _ => by
        have := @cell_lt ctx.mdim ctx.mdim 0 j (by omega) hj'
        omega)]
    exact hr0 j hj'
  · intro i j hi hj
    have hi' : i ≤ q.length := hi
    show (memoLcsubstrOuter r q ctx.mdim r.length ctx.mdim (q.length - skip) (skip + 1)
      ctx.matrix (ctx.matrix.getD (ctx.mdim * ctx.mdim + skip) 0)).1.getD
        (i * ctx.mdim + j) 0 = csCell r (memcpyAt ctx.seq2 skip q (q.length - skip)) j i
    rw [hsp.2.1 i j hi' hj]
    exact csCell_congr r q _ j i (fun k hk => (hbuf k (by omega)).symm)
  · intro i hi
    have hi' : i ≤ q.length := hi
    show CsMax r (memcpyAt ctx.seq2 skip q (q.length - skip)) r.length i
      ((memoLcsubstrOuter r q ctx.mdim r.length ctx.mdim (q.length - skip) (skip + 1)
        ctx.matrix (ctx.matrix.getD (ctx.mdim * ctx.mdim + skip) 0)).1.getD
          (ctx.mdim * ctx.mdim + i) 0)
    exact (hsp.2.2.1 i hi').congr (fun k hk => (hbuf k (by omega)).symm)
  · exact CsMax.unique hsp.2.2.2.1 (fc_lcsubstr_csMax r q)

/-! ## The memoizer from `fc_memo_init` on -/

theorem memoInitCol_spec (mdim : Nat) (hm : 0 < mdim) : ∀ (n i : Nat) (M : List Nat),
    i + n ≤ mdim → mdim * mdim ≤ M.length →
    (memoInitCol mdim n i M).length = M.length ∧
    (∀ i', i ≤ i' → i' < i + n → (memoInitCol mdim n i M).getD (i' * mdim + 0) 0 = i') ∧
    (∀ idx, (∀ i', i ≤ i' → i' < i + n → idx ≠ i' * mdim + 0) →
      (memoInitCol mdim n i M).getD idx 0 = M.getD idx 0) := by
  intro n
  induction n with
  | zero =>
    intro i M _ _
    exact ⟨rfl, fun i' h1 h2 => by omega, fun _ _ => rfl⟩
  | succ n ih =>
    intro i M hin hM
    rw [memoInitCol]
    have := ih (i + 1) (M.set (i * mdim + 0) i) (by omega) (by rw [List.length_set]; exact hM)
    have hidx : i * mdim + 0 < M.length := by
      have := @cell_lt mdim mdim i 0 (by omega) hm
      omega
    refine ⟨by rw [this.1, List.length_set], ?_, ?_⟩
    · intro i' h1 h2
      by_cases e : i' = i
      · subst e
        rw [this.2.2 _ (fun i'' a1 a2 => cell_ne hm hm (Or.inl (by omega))),
          getD_set_eq _ _ _ hidx]
      · exact this.2.1 i' (by omega) (by omega)
    · intro idx hidx2
      rw [this.2.2 idx (fun i' a1 a2 => hidx2 i' (by omega) (by omega)),
        getD_set_ne _ _ _ _ (Ne.symm (hidx2 i (Nat.le_refl _) (by omega)))]

theorem memoInitRow_spec (mdim : Nat) : ∀ (n j : Nat) (M : List Nat),
    j + n ≤ mdim → mdim * mdim ≤ M.length → 0 < mdim →
    (memoInitRow mdim n j M).length = M.length ∧
    ∀ idx, (memoInitRow mdim n j M).getD idx 0 =
      if j ≤ idx ∧ idx < j + n then idx else M.getD idx 0 := by
  intro n
  induction n with
  | zero =>
    intro j M _ _ _
    refine ⟨rfl, fun idx => ?_⟩
    rw [if_neg (by omega)]
    rfl
  | succ n ih =>
    intro j M hjn hM hm
    rw [memoInitRow]
    have := ih (j + 1) (M.set (0 * mdim + j) j) (by omega) (by rw [List.length_set]; exact hM) hm
    refine ⟨by rw [this.1, List.length_set], fun idx => ?_⟩
    rw [this.2 idx]
    have hjM : j < M.length := by
      have : mdim ≤ mdim * mdim := Nat.le_mul_of_pos_left mdim hm
      omega
    by_cases h : j + 1 ≤ idx ∧ idx < j + 1 + n
    · rw [if_pos h, if_pos (by omega)]
    · rw [if_neg h]
      by_cases e : idx = j
      · subst e
        rw [if_pos (by omega), Nat.zero_mul, Nat.zero_add, getD_set_eq _ _ _ hjM]
      · rw [if_neg (by omega), Nat.zero_mul, Nat.zero_add, getD_set_ne _ _ _ _ (Ne.symm e)]

/-- The matrix that `fc_memo_init` builds for the two edit distances: its first
row and its first column count from 0. -/
theorem memo_init_dist_matrix (mdim : Nat) (hm : 0 < mdim) :
    (memoInitRow mdim (mdim - 1) 1 (memoInitCol mdim mdim 0 (scratch (mdim * mdim)))).length
      = mdim * mdim ∧
    (∀ i, i < mdim → (memoInitRow mdim (mdim - 1) 1
      (memoInitCol mdim mdim 0 (scratch (mdim * mdim)))).getD (i * mdim + 0) 0 = i) ∧
    (∀ j, j < mdim → (memoInitRow mdim (mdim - 1) 1
      (memoInitCol mdim mdim 0 (scratch (mdim * mdim)))).getD (0 * mdim + j) 0 = j) := by
  have hc := memoInitCol_spec mdim hm mdim 0 (scratch (mdim * mdim)) (by omega)
    (by rw [length_scratch])
  have hr := memoInitRow_spec mdim (mdim - 1) 1 (memoInitCol mdim mdim 0 (scratch (mdim * mdim)))
    (by omega) (by rw [hc.1, length_scratch]) hm
  refine ⟨by rw [hr.1, hc.1, length_scratch], ?_, ?_⟩
  · intro i hi
    rw [hr.2]
    by_cases hi0 : i = 0
    · subst hi0
      rw [if_neg (by omega)]
      exact hc.2.1 0 (Nat.le_refl _) (by omega)
    · have hlt : mdim ≤ i * mdim + 0 := by
        have : 1 * mdim ≤ i * mdim := Nat.mul_le_mul_right mdim (by omega)
        omega
      rw [if_neg (by omega)]
      exact hc.2.1 i (Nat.zero_le _) (by omega)
  · intro j hj
    rw [hr.2, Nat.zero_mul, Nat.zero_add]
    by_cases hj0 : j = 0
    · subst hj0
      rw [if_neg (by omega)]
      have := hc.2.1 0 (Nat.le_refl _) (by omega)
      rw [Nat.zero_mul, Nat.zero_add] at this
      exact this
    · rw [if_pos (by omega)]

theorem memsetZero_scratch_getD (n k : Nat) : (memsetZero (scratch n) n).getD k 0 = 0 := by
  by_cases h : k < n
  · exact memsetZero_getD _ _ _ h
  · rw [List.getD_eq_getElem?_getD, List.getElem?_eq_none (by
      rw [memsetZero_length, length_scratch]; omega)]
    rfl

/-- After `fc_memo_init` and `fc_memo_set_ref` the memoizer is in a state
between two calls, whatever the structure held before. -/
theorem MemoInv_init (ctx : fc_memo) (metric : fc_metric) (max_len : Nat) (max_dist : Int)
    (r : List Nat) (hr : r.length ≤ max_len) :
    MemoInv metric max_len r (fc_memo_set_ref (fc_memo_init ctx metric max_len max_dist) r) ∧
    (fc_memo_set_ref (fc_memo_init ctx metric max_len max_dist) r).max_dist = max_dist := by
  have hd := memo_init_dist_matrix (max_len + 1) (by omega)
  cases metric with
  | FC_LEVENSHTEIN =>
    refine ⟨⟨rfl, rfl, rfl, rfl, hr, by simp [fc_memo_set_ref, fc_memo_init, length_scratch],
      Nat.zero_le _, ?_⟩, rfl⟩
    refine ⟨Nat.le_of_eq hd.1.symm, hd.2.1, hd.2.2, ?_⟩
    intro i j hi hj
    have hj0 : j = 0 := Nat.le_zero.mp hj
    subst hj0
    rw [distCell_zero_right]
    exact hd.2.1 i (by show i < max_len + 1; omega)
  | FC_DAMERAU =>
    refine ⟨⟨rfl, rfl, rfl, rfl, hr, by simp [fc_memo_set_ref, fc_memo_init, length_scratch],
      Nat.zero_le _, ?_⟩, rfl⟩
    refine ⟨Nat.le_of_eq hd.1.symm, hd.2.1, hd.2.2, ?_⟩
    intro i j hi hj
    have hj0 : j = 0 := Nat.le_zero.mp hj
    subst hj0
    rw [distCell_zero_right]
    exact hd.2.1 i (by show i < max_len + 1; omega)
  | FC_LCSUBSTR =>
    refine ⟨⟨rfl, rfl, rfl, rfl, hr, by simp [fc_memo_set_ref, fc_memo_init, length_scratch],
      Nat.zero_le _, ?_⟩, rfl⟩
    refine ⟨?_, fun i _ => memsetZero_scratch_getD _ _, fun j _ => memsetZero_scratch_getD _ _,
      ?_, ?_⟩
    · show _ ≤ (memsetZero _ _).length
      rw [memsetZero_length, length_scratch]
      exact Nat.le_refl _
    · intro i j hi hj
      have hi0 : i = 0 := Nat.le_zero.mp hi
      subst hi0
      rw [csCell_zero_right]
      exact memsetZero_scratch_getD _ _
    · intro i hi
      have hi0 : i = 0 := Nat.le_zero.mp hi
      subst hi0
      have e : (fc_memo_set_ref (fc_memo_init ctx fc_metric.FC_LCSUBSTR max_len max_dist)
          r).matrix.getD ((fc_memo_set_ref (fc_memo_init ctx fc_metric.FC_LCSUBSTR max_len
            max_dist) r).mdim * (fc_memo_set_ref (fc_memo_init ctx fc_metric.FC_LCSUBSTR
              max_len max_dist) r).mdim + 0) 0 = 0 := memsetZero_scratch_getD _ _
      rw [e]
      refine ⟨fun i' j' _ hj' => ?_, ⟨0, 0, Nat.zero_le _, Nat.le_refl _, ?_⟩⟩
      · have : j' = 0 := Nat.le_zero.mp hj'
        subst this
        rw [csCell_zero_right]
      · rw [csCell_zero_right]
  | FC_LCSUBSEQ =>
    refine ⟨⟨rfl, rfl, rfl, rfl, hr, by simp [fc_memo_set_ref, fc_memo_init, length_scratch],
      Nat.zero_le _, ?_⟩, rfl⟩
    refine ⟨?_, fun i _ => memsetZero_scratch_getD _ _, fun j _ => memsetZero_scratch_getD _ _,
      ?_⟩
    · show _ ≤ (memsetZero _ _).length
      rw [memsetZero_length, length_scratch]
      exact Nat.le_refl _
    · intro i j hi hj
      have hj0 : j = 0 := Nat.le_zero.mp hj
      subst hj0
      rw [lcsCell_zero_right]
      exact memsetZero_scratch_getD _ _

/-- One call of `fc_memo_compute` on a memoizer between two calls: the call
returns, leaves the memoizer in such a state again, and its value is the
one-shot value or, for the two edit distances, `INT32_MAX` with a one-shot
value above `max_dist`. -/
theorem MemoInv_compute (metric : fc_metric) (max_len : Nat) (r q : List Nat) (ctx : fc_memo)
    (h : MemoInv metric max_len r ctx) (hq : q.length ≤ max_len) :
    ∃ v ctx', fc_memo_compute ctx q = some (v, ctx') ∧ MemoInv metric max_len r ctx' ∧
      ctx'.max_dist = ctx.max_dist ∧
      (v = oneShot metric r q ∨
        ((metric = fc_metric.FC_LEVENSHTEIN ∨ metric = fc_metric.FC_DAMERAU) ∧
          v = INT32_MAX ∧ ctx.max_dist < ((oneShot metric r q : Nat) : Int))) := by
  obtain ⟨hcomp, h1, h2, h3, h4, h5, h6, hrest⟩ := h
  cases metric with
  | FC_LEVENSHTEIN =>
    obtain ⟨hM, hc0, hr0, hcells⟩ := hrest
    obtain ⟨v, ctx', e, c1, c2, c3, c4, c5, c6, c7, c8, c9, c10, c11, hv⟩ :=
      fc_memo_distance_step false max_len r q ctx h1 h2 h3 h4 h5 h6 hM hc0 hr0 hcells hq
    refine ⟨v, ctx', ?_, ⟨c1.trans hcomp, c2.trans h1, c3.trans h2, c4.trans h3, h4, c6, c7,
      c8, c9, c10, c11⟩, c5, ?_⟩
    · unfold fc_memo_compute fc_memo_levenshtein
      rw [hcomp]
      simp only [if_true]
      exact e
    · show v = fc_levenshtein r q ∨ _
      rw [distCell_eq_dist] at hv
      rw [fc_levenshtein_eq]
      rcases hv with hv | hv
      · exact Or.inl hv
      · exact Or.inr ⟨Or.inl rfl, hv.1, by
          show ctx.max_dist < ((fc_levenshtein r q : Nat) : Int)
          rw [fc_levenshtein_eq]
          exact hv.2⟩
  | FC_DAMERAU =>
    obtain ⟨hM, hc0, hr0, hcells⟩ := hrest
    obtain ⟨v, ctx', e, c1, c2, c3, c4, c5, c6, c7, c8, c9, c10, c11, hv⟩ :=
      fc_memo_distance_step true max_len r q ctx h1 h2 h3 h4 h5 h6 hM hc0 hr0 hcells hq
    refine ⟨v, ctx', ?_, ⟨c1.trans hcomp, c2.trans h1, c3.trans h2, c4.trans h3, h4, c6, c7,
      c8, c9, c10, c11⟩, c5, ?_⟩
    · unfold fc_memo_compute fc_memo_damerau
      rw [hcomp]
      simp only [if_true]
      exact e
    · show v = fc_damerau r q ∨ _
      rw [distCell_eq_dist] at hv
      rw [fc_damerau_eq]
      rcases hv with hv | hv
      · exact Or.inl hv
      · exact Or.inr ⟨Or.inr rfl, hv.1, by
          show ctx.max_dist < ((fc_damerau r q : Nat) : Int)
          rw [fc_damerau_eq]
          exact hv.2⟩
  | FC_LCSUBSTR =>
    obtain ⟨hM, hc0, hr0, hcells, hmax⟩ := hrest
    obtain ⟨v, ctx', e, c1, c2, c3, c4, c5, c6, c7, c8, c9, c10, c11, c12, hv⟩ :=
      fc_memo_lcsubstr_step max_len r q ctx hcomp h1 h2 h3 h4 h5 hM hc0 hr0 hcells hmax hq
    refine ⟨v, ctx', ?_, ⟨c1.trans hcomp, c2.trans h1, c3.trans h2, c4.trans h3, h4, c6, c7,
      c8, c9, c10, c11, c12⟩, c5, Or.inl hv⟩
    unfold fc_memo_compute
    rw [hcomp]
    exact e
  | FC_LCSUBSEQ =>
    obtain ⟨hM, hc0, hr0, hcells⟩ := hrest
    obtain ⟨v, ctx', e, c1, c2, c3, c4, c5, c6, c7, c8, c9, c10, c11, hv⟩ :=
      fc_memo_lcsubseq_step max_len r q ctx hcomp h1 h2 h3 h4 h5 hM hc0 hr0 hcells hq
    refine ⟨v, ctx', ?_, ⟨c1.trans hcomp, c2.trans h1, c3.trans h2, c4.trans h3, h4, c6, c7,
      c8, c9, c10, c11⟩, c5, Or.inl ?_⟩
    · unfold fc_memo_compute
      rw [hcomp]
      exact e
    · show v = fc_lcsubseq r q
      rw [fc_lcsubseq_eq]
      exact hv

/-- A run of queries on a memoizer between two calls returns, query by query,
the one-shot value or, for the two edit distances, `INT32_MAX` with a
one-shot value above `max_dist`. -/
theorem memoRun_spec (metric : fc_metric) (max_len : Nat) (r : List Nat) :
    ∀ (qs : List (List Nat)) (ctx : fc_memo),
      MemoInv metric max_len r ctx → (∀ q, q ∈ qs → q.length ≤ max_len) →
      ∃ vs, memoRun ctx qs = some vs ∧
        List.Forall₂ (fun q v => v = oneShot metric r q ∨
          ((metric = fc_metric.FC_LEVENSHTEIN ∨ metric = fc_metric.FC_DAMERAU) ∧
            v = INT32_MAX ∧ ctx.max_dist < ((oneShot metric r q : Nat) : Int))) qs vs := by
  intro qs
  induction qs with
  | nil => intro ctx _ _; exact ⟨[], rfl, List.Forall₂.nil⟩
  | cons q qs ih =>
    intro ctx h hq
    obtain ⟨v, ctx', e, hinv, hmd, hv⟩ := MemoInv_compute metric max_len r q ctx h
      (hq q (List.mem_cons_self _ _))
    obtain ⟨vs, e2, hvs⟩ := ih ctx' hinv (fun q' hq' => hq q' (List.mem_cons_of_mem _ hq'))
    refine ⟨v :: vs, ?_, List.Forall₂.cons hv ?_⟩
    · rw [memoRun, e]
      simp only []
      rw [e2]
    · rw [hmd] at hvs
      exact hvs

theorem memoRun_last (metric : fc_metric) (max_len : Nat) (r : List Nat) :
    ∀ (qs : List (List Nat)) (ctx : fc_memo) (q : List Nat),
      MemoInv metric max_len r ctx → (∀ q', q' ∈ qs → q'.length ≤ max_len) →
      q.length ≤ max_len →
      ∃ vs v, memoRun ctx (qs ++ [q]) = some (vs ++ [v]) ∧ vs.length = qs.length ∧
        (v = oneShot metric r q ∨
          ((metric = fc_metric.FC_LEVENSHTEIN ∨ metric = fc_metric.FC_DAMERAU) ∧
            v = INT32_MAX ∧ ctx.max_dist < ((oneShot metric r q : Nat) : Int))) := by
  intro qs
  induction qs with
  | nil =>
    intro ctx q h _ hq
    obtain ⟨v, ctx', e, _, _, hv⟩ := MemoInv_compute metric max_len r q ctx h hq
    refine ⟨[], v, ?_, rfl, hv⟩
    rw [List.nil_append, memoRun, e]
    rfl
  | cons q0 qs ih =>
    intro ctx q h hqs hq
    obtain ⟨v0, ctx', e, hinv, hmd, _⟩ := MemoInv_compute metric max_len r q0 ctx h
      (hqs q0 (List.mem_cons_self _ _))
    obtain ⟨vs, v, e2, hl, hv⟩ := ih ctx' q hinv
      (fun q' hq' => hqs q' (List.mem_cons_of_mem _ hq')) hq
    refine ⟨v0 :: vs, v, ?_, by simp [hl], ?_⟩
    · rw [List.cons_append, memoRun, e]
      simp only []
      rw [e2]
      rfl
    · rw [hmd] at hv
      exact hv

theorem csCell_le (a b : List Nat) : ∀ (i j : Nat), csCell a b i j ≤ i := by
  intro i
  induction i with
  | zero => intro j; rw [csCell_zero_left]
  | succ i ih =>
    intro j
    cases j with
    | zero => rw [csCell_zero_right]; omega
    | succ j =>
      rw [csCell_succ]
      split
      · have := ih j
        omega
      · omega

theorem lcsCell_le (a b : List Nat) : ∀ (n i j : Nat), i + j = n → lcsCell a b i j ≤ i := by
  intro n
  induction n using Nat.strong_induction_on with
  | _ n ih =>
    intro i j hn
    cases i with
    | zero => rw [lcsCell_zero_left]
    | succ i =>
      cases j with
      | zero => rw [lcsCell_zero_right]; omega
      | succ j =>
        rw [lcsCell_succ]
        have h1 := ih (i + j) (by omega) i j rfl
        have h2 := ih (i + 1 + j) (by omega) (i + 1) j rfl
        have h3 := ih (i + (j + 1)) (by omega) i (j + 1) rfl
        split
        · omega
        · exact max_le h2 (by omega)

theorem oneShot_le (metric : fc_metric) (r q : List Nat) :
    oneShot metric r q ≤ max r.length q.length := by
  cases metric with
  | FC_LEVENSHTEIN =>
    show fc_levenshtein r q ≤ _
    rw [fc_levenshtein_eq]
    exact dist_le_max false r q
  | FC_DAMERAU =>
    show fc_damerau r q ≤ _
    rw [fc_damerau_eq]
    exact dist_le_max true r q
  | FC_LCSUBSTR =>
    show fc_lcsubstr r q ≤ _
    obtain ⟨_, i, j, hi, _, e⟩ := fc_lcsubstr_csMax r q
    have := csCell_le r q i j
    have := le_max_left r.length q.length
    omega
  | FC_LCSUBSEQ =>
    show fc_lcsubseq r q ≤ _
    rw [fc_lcsubseq_eq]
    have := lcsCell_le r q _ r.length q.length rfl
    have := le_max_left r.length q.length
    omega

/-! ## Common substrings and the matrix of common suffix lengths -/

theorem csCell_le_right (a b : List Nat) : ∀ (i j : Nat), csCell a b i j ≤ j := by
  intro i
  induction i with
  | zero => intro j; rw [csCell_zero_left]; exact Nat.zero_le _
  | succ i ih =>
    intro j
    cases j with
    | zero => rw [csCell_zero_right]
    | succ j =>
      rw [csCell_succ]
      split
      · have := ih j
        omega
      · omega

theorem csCell_getD (a b : List Nat) : ∀ (i j k : Nat), k < csCell a b i j →
    a.getD (i - 1 - k) 0 = b.getD (j - 1 - k) 0 := by
  intro i
  induction i with
  | zero => intro j k h; rw [csCell_zero_left] at h; omega
  | succ i ih =>
    intro j k h
    cases j with
    | zero => rw [csCell_zero_right] at h; omega
    | succ j =>
      rw [csCell_succ] at h
      split at h
      · rename_i e
        cases k with
        | zero => exact e
        | succ k =>
          have := ih j k (by omega)
          have e1 : i + 1 - 1 - (k + 1) = i - 1 - k := by omega
          have e2 : j + 1 - 1 - (k + 1) = j - 1 - k := by omega
          rw [e1, e2]
          exact this
      · omega

theorem csCell_ge_of_common (a b : List Nat) (p q : Nat) : ∀ (l : Nat),
    (∀ k, k < l → a.getD (p + k) 0 = b.getD (q + k) 0) → l ≤ csCell a b (p + l) (q + l) := by
  intro l
  induction l with
  | zero => intro _; exact Nat.zero_le _
  | succ l ih =>
    intro h
    have h1 := ih (fun k hk => h k (by omega))
    have e1 : p + (l + 1) = (p + l) + 1 := by omega
    have e2 : q + (l + 1) = (q + l) + 1 := by omega
    rw [e1, e2, csCell_succ, if_pos (h l (by omega))]
    omega

theorem getD_append_mid (l1 s l2 : List Nat) (k : Nat) (hk : k < s.length) :
    (l1 ++ s ++ l2).getD (l1.length + k) 0 = s.getD k 0 := by
  rw [List.getD_eq_getElem?_getD, List.getD_eq_getElem?_getD, List.append_assoc,
    List.getElem?_append_right (by omega)]
  have e : l1.length + k - l1.length = k := by omega
  rw [e, List.getElem?_append_left hk]

theorem getD_take_drop (a : List Nat) (p l k : Nat) (hk : k < l) :
    ((a.drop p).take l).getD k 0 = a.getD (p + k) 0 := by
  rw [List.getD_eq_getElem?_getD, List.getD_eq_getElem?_getD, List.getElem?_take_of_lt hk,
    List.getElem?_drop]

theorem infix_iff_getD (s a : List Nat) :
    s <:+: a ↔ ∃ p, p + s.length ≤ a.length ∧ ∀ k, k < s.length → a.getD (p + k) 0 = s.getD k 0 := by
  constructor
  · rintro ⟨l1, l2, rfl⟩
    refine ⟨l1.length, ?_, fun k hk => getD_append_mid l1 s l2 k hk⟩
    simp only [List.length_append]
    omega
  · rintro ⟨p, hp, h⟩
    have e : s = (a.drop p).take s.length := by
      apply List.ext_getElem?
      intro k
      by_cases hk : k < s.length
      · have h1 := h k hk
        rw [List.getD_eq_getElem?_getD, List.getD_eq_getElem?_getD] at h1
        rw [List.getElem?_take_of_lt hk, List.getElem?_drop]
        have h2 : p + k < a.length := by omega
        rw [List.getElem?_eq_getElem h2] at h1 ⊢
        rw [List.getElem?_eq_getElem hk] at h1 ⊢
        simp only [Option.getD_some] at h1
        rw [h1]
      · rw [List.getElem?_eq_none (by omega), List.getElem?_eq_none]
        rw [List.length_take, List.length_drop]
        omega
    rw [e]
    exact (List.take_prefix _ _).isInfix.trans (List.drop_suffix _ _).isInfix

theorem length_take_drop (a : List Nat) (p l : Nat) (h : p + l ≤ a.length) :
    ((a.drop p).take l).length = l := by
  rw [List.length_take, List.length_drop]
  omega

theorem csCell_infix (a b : List Nat) (i j : Nat) (hi : i ≤ a.length) (hj : j ≤ b.length) :
    (a.drop (i - csCell a b i j)).take (csCell a b i j) <:+: b := by
  have h1 := csCell_le a b i j
  have h2 := csCell_le_right a b i j
  have hl := length_take_drop a (i - csCell a b i j) (csCell a b i j) (by omega)
  rw [infix_iff_getD]
  refine ⟨j - csCell a b i j, by rw [hl]; omega, ?_⟩
  intro k hk
  rw [hl] at hk
  rw [getD_take_drop _ _ _ _ hk]
  have := csCell_getD a b i j (csCell a b i j - 1 - k) (by omega)
  have e1 : i - 1 - (csCell a b i j - 1 - k) = i - csCell a b i j + k := by omega
  have e2 : j - 1 - (csCell a b i j - 1 - k) = j - csCell a b i j + k := by omega
  rw [e1, e2] at this
  exact this.symm

theorem csCell_ge_of_infix (a b : List Nat) (p l : Nat) (hp : p + l ≤ a.length)
    (h : (a.drop p).take l <:+: b) :
    ∃ j, j ≤ b.length ∧ l ≤ csCell a b (p + l) j := by
  have hl := length_take_drop a p l hp
  rw [infix_iff_getD] at h
  obtain ⟨q, hq, hk⟩ := h
  rw [hl] at hq hk
  refine ⟨q + l, hq, csCell_ge_of_common a b p q l ?_⟩
  intro k hk1
  rw [hk k hk1, getD_take_drop _ _ _ _ hk1]

/-! ## The position recorded by `fc_lcsubstr0` -/

theorem lcsubstrStep_spec (a b : List Nat) (i j : Nat) (st : LcsubstrState) (last : Nat)
    (hjl : j < st.column.length) (hlast : last = csCell a b i j) :
    ∀ st1 : LcsubstrState,
      st1 = (if a.getD i 0 = b.getD j 0 then
          (if st.max_len < (st.column.set j (last + 1)).getD j 0 then
            (⟨st.column.set j (last + 1), (st.column.set j (last + 1)).getD j 0, i⟩ :
              LcsubstrState)
          else ⟨st.column.set j (last + 1), st.max_len, st.my_pos⟩)
        else ⟨st.column.set j 0, st.max_len, st.my_pos⟩) →
      st1.column = st.column.set j (csCell a b (i + 1) (j + 1)) ∧
      st1.max_len = max st.max_len (csCell a b (i + 1) (j + 1)) ∧
      st1.my_pos = if st.max_len < csCell a b (i + 1) (j + 1) then i else st.my_pos := by
  intro st1 hst
  rw [csCell_succ, hst]
  split
  · rw [getD_set_eq _ _ _ hjl, hlast]
    split
    · rename_i h
      refine ⟨rfl, ?_, ?_⟩
      · show csCell a b i j + 1 = _
        omega
      · rfl
    · rename_i h
      refine ⟨rfl, ?_, ?_⟩
      · show st.max_len = _
        omega
      · rfl
  · refine ⟨rfl, by simp, ?_⟩
    rw [if_neg (Nat.not_lt_zero _)]

theorem lcsubstrInner_pos (a b : List Nat) (i : Nat) :
    ∀ (n j : Nat) (st : LcsubstrState) (last : Nat),
      j + n = b.length → b.length ≤ st.column.length →
      (∀ k, j ≤ k → k < b.length → st.column.getD k 0 = csCell a b i (k + 1)) →
      last = csCell a b i j →
      (∀ i' j', i' ≤ i → j' ≤ b.length → csCell a b i' j' ≤ st.max_len) →
      (st.max_len ≠ 0 → st.my_pos < i + 1 ∧
        (∃ j', j' ≤ b.length ∧ csCell a b (st.my_pos + 1) j' = st.max_len) ∧
        (∀ i' j', i' ≤ st.my_pos → j' ≤ b.length → csCell a b i' j' < st.max_len)) →
      ((lcsubstrInner a b i n j st last).max_len ≠ 0 →
        (lcsubstrInner a b i n j st last).my_pos < i + 1 ∧
        (∃ j', j' ≤ b.length ∧ csCell a b ((lcsubstrInner a b i n j st last).my_pos + 1) j'
          = (lcsubstrInner a b i n j st last).max_len) ∧
        (∀ i' j', i' ≤ (lcsubstrInner a b i n j st last).my_pos → j' ≤ b.length →
          csCell a b i' j' < (lcsubstrInner a b i n j st last).max_len)) := by
  intro n
  induction n with
  | zero => intro j st last _ _ _ _ _ hpos; exact hpos
  | succ n ih =>
    intro j st last hn hlen h2 hlast hub1 hpos
    have hjl : j < st.column.length := by omega
    have e2 := h2 j (Nat.le_refl _) (by omega)
    rw [lcsubstrInner]
    simp only []
    obtain ⟨k1, k2, k3⟩ := lcsubstrStep_spec a b i j st last hjl hlast _ rfl
    refine ih (j + 1) _ (st.column.getD j 0) (by omega)
      (by rw [k1, List.length_set]; exact hlen)
      (by
        intro k hk hk2
        rw [k1, getD_set_ne _ _ _ _ (by omega)]
        exact h2 k (by omega) hk2)
      e2
      (by
        intro i' j' hi' hj'
        rw [k2]
        have := hub1 i' j' hi' hj'
        omega)
      ?_
    rw [k2, k3]
    intro hne
    by_cases hlt : st.max_len < csCell a b (i + 1) (j + 1)
    · rw [if_pos hlt]
      have em : max st.max_len (csCell a b (i + 1) (j + 1)) = csCell a b (i + 1) (j + 1) := by
        omega
      rw [em]
      refine ⟨by omega, ⟨j + 1, by omega, rfl⟩, ?_⟩
      intro i' j' hi' hj'
      have := hub1 i' j' hi' hj'
      omega
    · rw [if_neg hlt]
      have em : max st.max_len (csCell a b (i + 1) (j + 1)) = st.max_len := by omega
      rw [em] at hne ⊢
      exact hpos hne

theorem lcsubstrOuter_pos (a b : List Nat) :
    ∀ (n i : Nat) (st : LcsubstrState),
      b.length ≤ st.column.length →
      (∀ k, k < b.length → st.column.getD k 0 = csCell a b i (k + 1)) →
      (∀ i' j', i' ≤ i → j' ≤ b.length → csCell a b i' j' ≤ st.max_len) →
      (∃ i' j', i' ≤ i ∧ j' ≤ b.length ∧ csCell a b i' j' = st.max_len) →
      (st.max_len ≠ 0 → st.my_pos < i ∧
        (∃ j', j' ≤ b.length ∧ csCell a b (st.my_pos + 1) j' = st.max_len) ∧
        (∀ i' j', i' ≤ st.my_pos → j' ≤ b.length → csCell a b i' j' < st.max_len)) →
      ((lcsubstrOuter a b n i st).max_len ≠ 0 →
        (lcsubstrOuter a b n i st).my_pos < i + n ∧
        (∃ j', j' ≤ b.length ∧ csCell a b ((lcsubstrOuter a b n i st).my_pos + 1) j'
          = (lcsubstrOuter a b n i st).max_len) ∧
        (∀ i' j', i' ≤ (lcsubstrOuter a b n i st).my_pos → j' ≤ b.length →
          csCell a b i' j' < (lcsubstrOuter a b n i st).max_len)) := by
  intro n
  induction n with
  | zero => intro i st _ _ _ _ hpos; exact hpos
  | succ n ih =>
    intro i st hlen h1 hub hatt hpos
    rw [lcsubstrOuter]
    have hs := lcsubstrInner_spec a b i b.length 0 st 0 (by omega) hlen
      (fun k hk => by omega) (fun k _ hk => h1 k hk) (by rw [csCell_zero_right]) hub
      (by
        intro j' hj'
        have : j' = 0 := by omega
        subst this
        rw [csCell_zero_right]
        exact Nat.zero_le _)
      (by
        obtain ⟨i', j', hi', hj', hv⟩ := hatt
        exact ⟨i', j', Or.inl ⟨hi', hj'⟩, hv⟩)
    have hp := lcsubstrInner_pos a b i b.length 0 st 0 (by omega) hlen
      (fun k _ hk => h1 k hk) (by rw [csCell_zero_right]) hub
      (by
        intro hne
        obtain ⟨p1, p2, p3⟩ := hpos hne
        exact ⟨by omega, p2, p3⟩)
    have := ih (i + 1) _ (by rw [hs.1]; exact hlen) hs.2.1 hs.2.2.1 hs.2.2.2 hp
    have e : i + 1 + n = i + (n + 1) := by omega
    rw [e] at this
    exact this

/-- The pair returned by `fc_lcsubstr_extract`, told on the matrix of common
suffix lengths: the length is `fc_lcsubstr`, and when it is not 0 the offset
plus the length is the first row of the matrix that holds this length. -/
theorem fc_lcsubstr_extract_spec (a b : List Nat) :
    (fc_lcsubstr_extract a b).1 = fc_lcsubstr a b ∧
    (fc_lcsubstr a b = 0 → (fc_lcsubstr_extract a b).2 = a.length) ∧
    (fc_lcsubstr a b ≠ 0 →
      (fc_lcsubstr_extract a b).2 + fc_lcsubstr a b ≤ a.length ∧
      (∃ j, j ≤ b.length ∧
        csCell a b ((fc_lcsubstr_extract a b).2 + fc_lcsubstr a b) j = fc_lcsubstr a b) ∧
      (∀ i j, i < (fc_lcsubstr_extract a b).2 + fc_lcsubstr a b → j ≤ b.length →
        csCell a b i j < fc_lcsubstr a b)) := by
  have hcol : b.length ≤ (memsetZero (if b.length ≥ FC_DEFAULT_COLUMN_LEN then scratch b.length
      else scratch FC_DEFAULT_COLUMN_LEN) b.length).length := by
    rw [memsetZero_length]
    split
    · rw [length_scratch]
    · rw [length_scratch]; omega
  have hp := lcsubstrOuter_pos a b a.length 0
    ⟨memsetZero (if b.length ≥ FC_DEFAULT_COLUMN_LEN then scratch b.length
      else scratch FC_DEFAULT_COLUMN_LEN) b.length, 0, INT32_MAX⟩ hcol
    (by
      intro k hk
      show (memsetZero _ b.length).getD k 0 = _
      rw [memsetZero_getD _ _ _ hk, csCell_zero_left])
    (by
      intro i' j' hi' _
      have : i' = 0 := by omega
      subst this
      rw [csCell_zero_left])
    ⟨0, 0, Nat.le_refl _, Nat.zero_le _, by rw [csCell_zero_left]⟩
    (fun h => absurd rfl h)
  simp only [Nat.zero_add] at hp
  refine ⟨rfl, ?_, ?_⟩
  · intro h0
    unfold fc_lcsubstr fc_lcsubstr_extract fc_lcsubstr0 at h0
    simp only [] at h0
    unfold fc_lcsubstr_extract fc_lcsubstr0
    simp only []
    rw [if_neg (by rw [h0]; exact fun h => h rfl)]
  · intro hne
    unfold fc_lcsubstr fc_lcsubstr_extract fc_lcsubstr0 at hne
    simp only [] at hne
    obtain ⟨p1, ⟨j, hj, p2⟩, p3⟩ := hp hne
    unfold fc_lcsubstr fc_lcsubstr_extract fc_lcsubstr0
    simp only []
    rw [if_pos hne]
    generalize (lcsubstrOuter a b a.length 0 _).max_len = l at *
    generalize (lcsubstrOuter a b a.length 0 _).my_pos = mp at *
    have hle := csCell_le a b (mp + 1) j
    rw [p2] at hle
    have e : ((mp : Int) - (l : Int) + 1).toNat + l = mp + 1 := by omega
    rw [e]
    exact ⟨by omega, ⟨j, hj, p2⟩, fun i j hi hj => p3 i j (by omega) hj⟩

theorem fc_lcsubstr_common_run (a b : List Nat) :
    ∃ s, s.length = fc_lcsubstr a b ∧ s <:+: a ∧ s <:+: b := by
  obtain ⟨_, i, j, hi, hj, e⟩ := fc_lcsubstr_csMax a b
  have h1 := csCell_le a b i j
  refine ⟨(a.drop (i - csCell a b i j)).take (csCell a b i j), ?_, ?_, ?_⟩
  · rw [length_take_drop _ _ _ (by omega), e]
  · exact (List.take_prefix _ _).isInfix.trans (List.drop_suffix _ _).isInfix
  · exact csCell_infix a b i j hi hj

theorem fc_lcsubstr_longest (a b s : List Nat) (ha : s <:+: a) (hb : s <:+: b) :
    s.length ≤ fc_lcsubstr a b := by
  obtain ⟨hub, _⟩ := fc_lcsubstr_csMax a b
  rw [infix_iff_getD] at ha hb
  obtain ⟨p, hp, h1⟩ := ha
  obtain ⟨q, hq, h2⟩ := hb
  have := csCell_ge_of_common a b p q s.length (fun k hk => by rw [h1 k hk, h2 k hk])
  exact Nat.le_trans this (hub _ _ hp hq)

theorem fc_lcsubstr_extract_run (a b : List Nat) :
    (fc_lcsubstr_extract a b).2 + fc_lcsubstr a b ≤ a.length ∧
    (a.drop (fc_lcsubstr_extract a b).2).take (fc_lcsubstr a b) <:+: b := by
  obtain ⟨_, h0, h1⟩ := fc_lcsubstr_extract_spec a b
  by_cases hl : fc_lcsubstr a b = 0
  · rw [h0 hl, hl]
    exact ⟨Nat.le_refl _, by rw [List.take_zero]; exact List.nil_infix⟩
  · obtain ⟨p1, ⟨j, hj, p2⟩, _⟩ := h1 hl
    refine ⟨p1, ?_⟩
    have := csCell_infix a b _ j p1 hj
    rw [p2, Nat.add_sub_cancel] at this
    exact this

theorem fc_lcsubstr_extract_first (a b : List Nat) (p : Nat)
    (hl : 0 < fc_lcsubstr a b) (hp : p + fc_lcsubstr a b ≤ a.length)
    (h : (a.drop p).take (fc_lcsubstr a b) <:+: b) :
    (fc_lcsubstr_extract a b).2 ≤ p := by
  obtain ⟨_, _, h1⟩ := fc_lcsubstr_extract_spec a b
  obtain ⟨_, _, p3⟩ := h1 (by omega)
  obtain ⟨j, hj, hge⟩ := csCell_ge_of_infix a b p _ hp h
  by_contra hlt
  have := p3 (p + fc_lcsubstr a b) j (by omega) hj
  omega

/-! ## Common subsequences and the matrix of `fc_lcsubseq0` -/

theorem tail_sublist_of_cons (s l : List Nat) (x : Nat) (h : List.Sublist s (x :: l)) : List.Sublist s.tail l := by
  rw [List.sublist_cons_iff] at h
  rcases h with h | ⟨r, rfl, h⟩
  · exact (List.tail_sublist s).trans h
  · exact h

theorem length_le_tail_succ (s : List Nat) : s.length ≤ s.tail.length + 1 := by
  cases s with
  | nil => exact Nat.zero_le _
  | cons x s => exact Nat.le_refl _

theorem lcsCell_reverse_take (a b : List Nat) : ∀ (n i j : Nat), i + j = n →
    i ≤ a.length → j ≤ b.length →
    (∀ s, List.Sublist s (a.take i).reverse → List.Sublist s (b.take j).reverse →
      s.length ≤ lcsCell a b i j) ∧
    (∃ s, List.Sublist s (a.take i).reverse ∧ List.Sublist s (b.take j).reverse ∧
      s.length = lcsCell a b i j) := by
  intro n
  induction n using Nat.strong_induction_on with
  | _ n ih =>
    intro i j hn hi hj
    cases i with
    | zero =>
      rw [lcsCell_zero_left]
      refine ⟨?_, [], List.nil_sublist _, List.nil_sublist _, rfl⟩
      intro s h _
      rw [List.take_zero, List.reverse_nil, List.sublist_nil] at h
      rw [h]
      exact Nat.le_refl _
    | succ i =>
      cases j with
      | zero =>
        rw [lcsCell_zero_right]
        refine ⟨?_, [], List.nil_sublist _, List.nil_sublist _, rfl⟩
        intro s _ h
        rw [List.take_zero, List.reverse_nil, List.sublist_nil] at h
        rw [h]
        exact Nat.le_refl _
      | succ j =>
        obtain ⟨u1, s1, e1a, e1b, e1c⟩ := ih (i + j) (by omega) i j rfl (by omega) (by omega)
        obtain ⟨u2, s2, e2a, e2b, e2c⟩ :=
          ih (i + 1 + j) (by omega) (i + 1) j rfl hi (by omega)
        obtain ⟨u3, s3, e3a, e3b, e3c⟩ :=
          ih (i + (j + 1)) (by omega) i (j + 1) rfl (by omega) hj
        rw [reverse_take_succ a i (by omega)] at e2a u2 ⊢
        rw [reverse_take_succ b j (by omega)] at e3b u3 ⊢
        rw [lcsCell_succ]
        by_cases hxy : a.getD i 0 = b.getD j 0
        · rw [if_pos hxy]
          constructor
          · intro s ha hb
            rw [← hxy] at hb
            have := u1 s.tail (tail_sublist_of_cons _ _ _ ha) (tail_sublist_of_cons _ _ _ hb)
            have := length_le_tail_succ s
            omega
          · refine ⟨a.getD i 0 :: s1, e1a.cons₂ _, ?_, by rw [List.length_cons, e1c]⟩
            rw [← hxy]
            exact e1b.cons₂ _
        · rw [if_neg hxy]
          constructor
          · intro s ha hb
            rw [List.sublist_cons_iff] at ha
            rcases ha with ha | ⟨r, rfl, ha⟩
            · exact Nat.le_trans (u3 s ha hb) (Nat.le_max_right _ _)
            · have hb2 := hb
              rw [List.sublist_cons_iff] at hb2
              rcases hb2 with hb2 | ⟨r2, e, _⟩
              · exact Nat.le_trans (u2 _ (ha.cons₂ _) hb2) (Nat.le_max_left _ _)
              · exact absurd (List.cons.inj e).1 hxy
          · rcases Nat.le_total (lcsCell a b (i + 1) j) (lcsCell a b i (j + 1)) with h | h
            · refine ⟨s3, e3a.cons _, e3b, ?_⟩
              rw [e3c]
              omega
            · refine ⟨s2, e2a, e2b.cons _, ?_⟩
              rw [e2c]
              omega

theorem fc_lcsubseq_common (a b : List Nat) :
    ∃ s, List.Sublist s a ∧ List.Sublist s b ∧ s.length = fc_lcsubseq a b := by
  obtain ⟨_, s, h1, h2, h3⟩ :=
    lcsCell_reverse_take a b _ a.length b.length rfl (Nat.le_refl _) (Nat.le_refl _)
  rw [List.take_length] at h1 h2
  refine ⟨s.reverse, ?_, ?_, ?_⟩
  · have := h1.reverse
    rw [List.reverse_reverse] at this
    exact this
  · have := h2.reverse
    rw [List.reverse_reverse] at this
    exact this
  · rw [List.length_reverse, h3, fc_lcsubseq_eq]

theorem fc_lcsubseq_longest (a b s : List Nat) (ha : List.Sublist s a) (hb : List.Sublist s b) :
    s.length ≤ fc_lcsubseq a b := by
  obtain ⟨h, _⟩ :=
    lcsCell_reverse_take a b _ a.length b.length rfl (Nat.le_refl _) (Nat.le_refl _)
  rw [List.take_length] at h
  rw [List.take_length] at h
  have := h s.reverse ha.reverse hb.reverse
  rw [List.length_reverse] at this
  rw [fc_lcsubseq_eq]
  exact this

/-! ## Symmetry, identity and bounds of the integer metrics -/

theorem fc_levenshtein_comm (a b : List Nat) : fc_levenshtein a b = fc_levenshtein b a := by
  rw [fc_levenshtein_eq, fc_levenshtein_eq, dist_comm]

theorem fc_damerau_comm (a b : List Nat) : fc_damerau a b = fc_damerau b a := by
  rw [fc_damerau_eq, fc_damerau_eq, dist_comm]

theorem fc_lcsubseq_comm (a b : List Nat) : fc_lcsubseq a b = fc_lcsubseq b a := by
  rw [fc_lcsubseq_eq, fc_lcsubseq_eq, lcsCell_comm a b _ _ _ rfl]

theorem fc_lcsubstr_le_swap (a b : List Nat) : fc_lcsubstr a b ≤ fc_lcsubstr b a := by
  obtain ⟨s, e, ha, hb⟩ := fc_lcsubstr_common_run a b
  rw [← e]
  exact fc_lcsubstr_longest b a s hb ha

theorem fc_lcsubstr_comm (a b : List Nat) : fc_lcsubstr a b = fc_lcsubstr b a :=
  Nat.le_antisymm (fc_lcsubstr_le_swap a b) (fc_lcsubstr_le_swap b a)

theorem fc_lcsubstr_self (s : List Nat) : fc_lcsubstr s s = s.length := by
  apply Nat.le_antisymm
  · obtain ⟨r, e, ha, _⟩ := fc_lcsubstr_common_run s s
    rw [← e]
    exact ha.length_le
  · exact fc_lcsubstr_longest s s s (List.infix_refl s) (List.infix_refl s)

theorem fc_lcsubseq_self (s : List Nat) : fc_lcsubseq s s = s.length := by
  apply Nat.le_antisymm
  · obtain ⟨r, ha, _, e⟩ := fc_lcsubseq_common s s
    rw [← e]
    exact ha.length_le
  · exact fc_lcsubseq_longest s s s (List.Sublist.refl s) (List.Sublist.refl s)

theorem align_true_of_false {a b : List Nat} {n : Nat} (h : Align false a b n) :
    Align true a b n := by
  induction h with
  | nil => exact Align.nil
  | keep x _ ih => exact Align.keep x ih
  | sub x y _ ih => exact Align.sub x y ih
  | del x _ ih => exact Align.del x ih
  | ins y _ ih => exact Align.ins y ih
  | swap h x y _ _ => exact absurd h (by decide)

theorem dist_true_le_false (a b : List Nat) : dist true a b ≤ dist false a b :=
  dist_le_of_align true (align_true_of_false (align_dist false a b))

/-! ## Normalization by the length of the longer sequence -/

theorem fc_nlevenshtein0_lseq (col a b : List Nat) (hlen : b.length < col.length)
    (hab : b.length ≤ a.length) :
    fc_nlevenshtein0 col fc_norm_method.FC_NORM_LSEQ a b
      = if a.length = 0 then 0 else ((dist false a b : Nat) : ℚ) / ((a.length : Nat) : ℚ) := by
  unfold fc_nlevenshtein0
  by_cases hb : b.length = 0
  · rw [if_pos hb]
    by_cases ha : a.length = 0
    · rw [if_pos ha, if_pos ha]
    · rw [if_neg ha, if_neg ha, List.length_eq_zero.mp hb, dist_nil_right]
      have : ((a.length : Nat) : ℚ) ≠ 0 := by exact_mod_cast ha
      rw [div_self this]
  · rw [if_neg hb, if_neg (by omega)]
    simp only []
    rw [fc_levenshtein0_eq col a b hlen]

theorem fc_ndamerau0_lseq (m a b : List Nat) (hlen : 3 * (b.length + 1) ≤ m.length)
    (hab : b.length ≤ a.length) :
    fc_ndamerau0 m fc_norm_method.FC_NORM_LSEQ a b
      = if a.length = 0 then 0 else ((dist true a b : Nat) : ℚ) / ((a.length : Nat) : ℚ) := by
  unfold fc_ndamerau0
  by_cases hb : b.length = 0
  · rw [if_pos hb]
    by_cases ha : a.length = 0
    · rw [if_pos ha, if_pos ha]
    · rw [if_neg ha, if_neg ha, List.length_eq_zero.mp hb, dist_nil_right]
      have : ((a.length : Nat) : ℚ) ≠ 0 := by exact_mod_cast ha
      rw [div_self this]
  · rw [if_neg hb, if_neg (by omega)]
    simp only []
    rw [fc_damerau0_eq m a b hlen]

theorem fc_nlevenshtein_lseq (a b : List Nat) :
    fc_nlevenshtein fc_norm_method.FC_NORM_LSEQ a b
      = if a.length = 0 ∧ b.length = 0 then 0
        else ((fc_levenshtein a b : Nat) : ℚ) / ((max a.length b.length : Nat) : ℚ) := by
  rw [fc_levenshtein_eq]
  unfold fc_nlevenshtein
  simp only []
  by_cases h : a.length < b.length
  · simp only [if_pos h]
    rw [fc_nlevenshtein0_lseq _ b a (by
      split
      · rw [length_scratch]; omega
      · rw [length_scratch]; unfold FC_DEFAULT_COLUMN_LEN at *; omega) (by omega)]
    rw [if_neg (by omega), if_neg (by omega), dist_comm, Nat.max_eq_right (by omega)]
  · simp only [if_neg h]
    rw [fc_nlevenshtein0_lseq _ a b (by
      split
      · rw [length_scratch]; omega
      · rw [length_scratch]; unfold FC_DEFAULT_COLUMN_LEN at *; omega) (by omega)]
    rw [Nat.max_eq_left (by omega)]
    by_cases ha : a.length = 0
    · rw [if_pos ha, if_pos ⟨ha, by omega⟩]
    · rw [if_neg ha, if_neg (fun h => ha h.1)]

theorem fc_ndamerau_lseq (a b : List Nat) :
    fc_ndamerau fc_norm_method.FC_NORM_LSEQ a b
      = if a.length = 0 ∧ b.length = 0 then 0
        else ((fc_damerau a b : Nat) : ℚ) / ((max a.length b.length : Nat) : ℚ) := by
  rw [fc_damerau_eq]
  unfold fc_ndamerau
  simp only []
  by_cases h : a.length < b.length
  · simp only [if_pos h]
    rw [fc_ndamerau0_lseq _ b a (by
      split
      · rw [length_scratch]; omega
      · rw [length_scratch]; unfold FC_DEFAULT_COLUMN_LEN at *; omega) (by omega)]
    rw [if_neg (by omega), if_neg (by omega), dist_comm, Nat.max_eq_right (by omega)]
  · simp only [if_neg h]
    rw [fc_ndamerau0_lseq _ a b (by
      split
      · rw [length_scratch]; omega
      · rw [length_scratch]; unfold FC_DEFAULT_COLUMN_LEN at *; omega) (by omega)]
    rw [Nat.max_eq_left (by omega)]
    by_cases ha : a.length = 0
    · rw [if_pos ha, if_pos ⟨ha, by omega⟩]
    · rw [if_neg ha, if_neg (fun h => ha h.1)]

theorem dist_div_max_of_one_empty (t : Bool) (a b : List Nat)
    (h : (a.length = 0 ∧ b.length ≠ 0) ∨ (a.length ≠ 0 ∧ b.length = 0)) :
    ((dist t a b : Nat) : ℚ) / ((max a.length b.length : Nat) : ℚ) = 1 := by
  rcases h with ⟨ha, hb⟩ | ⟨ha, hb⟩
  · rw [List.length_eq_zero.mp ha, dist_nil_left, List.length_nil, Nat.max_eq_right (by omega)]
    have : ((b.length : Nat) : ℚ) ≠ 0 := by exact_mod_cast hb
    rw [div_self this]
  · rw [List.length_eq_zero.mp hb, dist_nil_right, List.length_nil, Nat.max_eq_left (by omega)]
    have : ((a.length : Nat) : ℚ) ≠ 0 := by exact_mod_cast ha
    rw [div_self this]

/-! ## The two rolling columns of `fc_nlevenshtein0` -/

theorem FC_MAX3_eq (a b c : Nat) : FC_MAX3 a b c = max a (max b c) := by
  simp only [FC_MAX3, FC_MAX_eq]

theorem lalignCell_zero_left (a b : List Nat) (j : Nat) : lalignCell a b 0 j = (j, j) := by
  rw [lalignCell]

theorem lalignCell_zero_right (a b : List Nat) (i : Nat) : lalignCell a b i 0 = (i, i) := by
  cases i with
  | zero => rw [lalignCell]
  | succ i => rw [lalignCell]

theorem lalignCell_succ_fst (a b : List Nat) (i j : Nat) :
    (lalignCell a b (i + 1) (j + 1)).1 =
      min ((lalignCell a b (i + 1) j).1 + 1) (min ((lalignCell a b i (j + 1)).1 + 1)
        ((lalignCell a b i j).1 + (if a.getD i 0 ≠ b.getD j 0 then 1 else 0))) := by
  rw [lalignCell]

theorem lalignCell_succ_snd (a b : List Nat) (i j : Nat) :
    (lalignCell a b (i + 1) (j + 1)).2 =
      max (if (lalignCell a b (i + 1) j).1 + 1 = (lalignCell a b (i + 1) (j + 1)).1
          then (lalignCell a b (i + 1) j).2 + 1 else 0)
        (max (if (lalignCell a b i (j + 1)).1 + 1 = (lalignCell a b (i + 1) (j + 1)).1
            then (lalignCell a b i (j + 1)).2 + 1 else 0)
          (if (lalignCell a b i j).1 + (if a.getD i 0 ≠ b.getD j 0 then 1 else 0)
              = (lalignCell a b (i + 1) (j + 1)).1
            then (lalignCell a b i j).2 + 1 else 0)) := by
  rw [lalignCell_succ_fst]
  rw [lalignCell]

theorem nlevFill_spec (l : Nat) : ∀ (n j : Nat) (column : List Nat),
    j + n ≤ l → l + j + n ≤ column.length →
    (nlevFill l n j column).length = column.length ∧
    ∀ x, (nlevFill l n j column).getD x 0 =
      if j ≤ x ∧ x < j + n then x
      else if l + j ≤ x ∧ x < l + j + n then x - l else column.getD x 0 := by
  intro n
  induction n with
  | zero =>
    intro j column _ _
    refine ⟨rfl, fun x => ?_⟩
    rw [nlevFill, if_neg (by omega), if_neg (by omega)]
  | succ n ih =>
    intro j column h1 h2
    rw [nlevFill]
    obtain ⟨e1, e2⟩ := ih (j + 1) ((column.set (l + j) j).set j j) (by omega)
      (by rw [List.length_set, List.length_set]; omega)
    refine ⟨by rw [e1, List.length_set, List.length_set], fun x => ?_⟩
    rw [e2]
    by_cases hx1 : j + 1 ≤ x ∧ x < j + 1 + n
    · rw [if_pos hx1, if_pos (by omega)]
    · rw [if_neg hx1]
      by_cases hx2 : l + (j + 1) ≤ x ∧ x < l + (j + 1) + n
      · rw [if_pos hx2, if_neg (by omega), if_pos (by omega)]
      · rw [if_neg hx2]
        by_cases hx3 : x = j
        · subst hx3
          rw [getD_set_eq _ _ _ (by rw [List.length_set]; omega), if_pos (by omega)]
        · rw [getD_set_ne _ _ _ _ (Ne.symm hx3), if_neg (by omega)]
          by_cases hx4 : x = l + j
          · subst hx4
            rw [getD_set_eq _ _ _ (by omega), if_pos (by omega)]
            omega
          · rw [getD_set_ne _ _ _ _ (Ne.symm hx4), if_neg (by omega)]

theorem nlevBody_spec (a b : List Nat) (i j l : Nat) (col : List Nat) (last llast : Nat)
    (hjl : j + 1 < l) (hlen : l + (j + 1) < col.length)
    (h1 : col.getD j 0 = (lalignCell a b (i + 1) j).1)
    (h1l : col.getD (l + j) 0 = (lalignCell a b (i + 1) j).2)
    (h2 : col.getD (j + 1) 0 = (lalignCell a b i (j + 1)).1)
    (h2l : col.getD (l + (j + 1)) 0 = (lalignCell a b i (j + 1)).2)
    (hlast : last = (lalignCell a b i j).1) (hllast : llast = (lalignCell a b i j).2) :
    nlevBody a b (i + 1) l (j + 1) col last llast =
      ((col.set (j + 1) (lalignCell a b (i + 1) (j + 1)).1).set (l + (j + 1))
          (lalignCell a b (i + 1) (j + 1)).2,
        (lalignCell a b i (j + 1)).1, (lalignCell a b i (j + 1)).2) := by
  unfold nlevBody
  simp only [Nat.add_sub_cancel]
  rw [getD_set_eq _ _ _ (by omega), getD_set_ne _ _ _ _ (by omega),
    getD_set_ne _ _ _ _ (by omega), h1, h1l, h2, h2l, hlast, hllast, FC_MIN3_eq, FC_MAX3_eq,
    ← lalignCell_succ_fst, ← lalignCell_succ_snd]

theorem nlevInner_spec (a b : List Nat) (i l : Nat) (hi : 1 ≤ i) (hl : l = b.length + 1) :
    ∀ (n j : Nat) (col : List Nat) (last llast : Nat),
      j + n = b.length + 1 → 1 ≤ j → l + b.length < col.length →
      (∀ k, k < j → col.getD k 0 = (lalignCell a b i k).1 ∧
        col.getD (l + k) 0 = (lalignCell a b i k).2) →
      (∀ k, j ≤ k → k ≤ b.length → col.getD k 0 = (lalignCell a b (i - 1) k).1 ∧
        col.getD (l + k) 0 = (lalignCell a b (i - 1) k).2) →
      last = (lalignCell a b (i - 1) (j - 1)).1 → llast = (lalignCell a b (i - 1) (j - 1)).2 →
      (nlevInner a b i l n j col last llast).length = col.length ∧
      ∀ k, k ≤ b.length →
        (nlevInner a b i l n j col last llast).getD k 0 = (lalignCell a b i k).1 ∧
        (nlevInner a b i l n j col last llast).getD (l + k) 0 = (lalignCell a b i k).2 := by
  intro n
  induction n with
  | zero =>
    intro j col last llast hn _ _ h1 _ _ _
    exact ⟨rfl, fun k hk => h1 k (by omega)⟩
  | succ n ih =>
    intro j col last llast hn hj hlen h1 h2 hlast hllast
    obtain ⟨i0, rfl⟩ : ∃ i0, i = i0 + 1 := ⟨i - 1, by omega⟩
    obtain ⟨j0, rfl⟩ : ∃ j0, j = j0 + 1 := ⟨j - 1, by omega⟩
    simp only [Nat.add_sub_cancel] at h2 hlast hllast ⊢
    rw [nlevInner]
    rw [nlevBody_spec a b i0 j0 l col last llast (by omega) (by omega) (h1 j0 (by omega)).1
      (h1 j0 (by omega)).2 (h2 (j0 + 1) (by omega) (by omega)).1
      (h2 (j0 + 1) (by omega) (by omega)).2 hlast hllast]
    have := ih (j0 + 1 + 1) _ (lalignCell a b i0 (j0 + 1)).1 (lalignCell a b i0 (j0 + 1)).2
      (by omega) (by omega)
      (show l + b.length < ((col.set (j0 + 1) (lalignCell a b (i0 + 1) (j0 + 1)).1).set
        (l + (j0 + 1)) (lalignCell a b (i0 + 1) (j0 + 1)).2).length by
        rw [List.length_set, List.length_set]; exact hlen)
      (by
        intro k hk
        by_cases hkj : k = j0 + 1
        · subst hkj
          rw [getD_set_ne _ _ _ _ (by omega), getD_set_eq _ _ _ (by omega),
            getD_set_eq _ _ _ (by rw [List.length_set]; omega)]
          exact ⟨rfl, rfl⟩
        · rw [getD_set_ne _ _ _ _ (by omega), getD_set_ne _ _ _ _ (by omega),
            getD_set_ne _ _ _ _ (by omega), getD_set_ne _ _ _ _ (by omega)]
          exact h1 k (by omega))
      (by
        intro k hk hk2
        simp only [Nat.add_sub_cancel]
        rw [getD_set_ne _ _ _ _ (by omega), getD_set_ne _ _ _ _ (by omega),
          getD_set_ne _ _ _ _ (by omega), getD_set_ne _ _ _ _ (by omega)]
        exact h2 k (by omega) hk2)
      rfl rfl
    refine ⟨?_, this.2⟩
    rw [this.1, List.length_set, List.length_set]

theorem nlevOuter_spec (a b : List Nat) (l : Nat) (hl : l = b.length + 1) :
    ∀ (n i : Nat) (col : List Nat),
      1 ≤ i → l + b.length < col.length →
      (∀ k, 1 ≤ k → k ≤ b.length → col.getD k 0 = (lalignCell a b (i - 1) k).1 ∧
        col.getD (l + k) 0 = (lalignCell a b (i - 1) k).2) →
      ∀ k, 1 ≤ k → k ≤ b.length →
        (nlevOuter a b l n i col).getD k 0 = (lalignCell a b (i - 1 + n) k).1 ∧
        (nlevOuter a b l n i col).getD (l + k) 0 = (lalignCell a b (i - 1 + n) k).2 := by
  intro n
  induction n with
  | zero => intro i col _ _ h k hk1 hk2; simpa [nlevOuter] using h k hk1 hk2
  | succ n ih =>
    intro i col hi hlen h k hk1 hk2
    rw [nlevOuter]
    have hs := nlevInner_spec a b i l hi hl b.length 1 ((col.set l i).set 0 i) (i - 1) (i - 1)
      (by omega) (by omega) (by rw [List.length_set, List.length_set]; exact hlen)
      (by
        intro k hk
        have : k = 0 := by omega
        subst this
        rw [getD_set_eq _ _ _ (by rw [List.length_set]; omega), Nat.add_zero,
          getD_set_ne _ _ _ _ (by omega), getD_set_eq _ _ _ (by omega),
          lalignCell_zero_right]
        exact ⟨rfl, rfl⟩)
      (by
        intro k hk hk2
        rw [getD_set_ne _ _ _ _ (by omega), getD_set_ne _ _ _ _ (by omega),
          getD_set_ne _ _ _ _ (by omega), getD_set_ne _ _ _ _ (by omega)]
        exact h k hk hk2)
      (by rw [lalignCell_zero_right]) (by rw [lalignCell_zero_right])
    have := ih (i + 1) _ (by omega)
      (by rw [hs.1, List.length_set, List.length_set]; exact hlen)
      (by
        intro k _ hk2
        simpa using hs.2 k hk2) k hk1 hk2
    have e : i + 1 - 1 + n = i - 1 + (n + 1) := by omega
    rw [e] at this
    exact this

/-- The loops of `fc_nlevenshtein0` under `FC_NORM_LALIGN`, run on any buffer
with enough room, leave the last cell of the recurrence in `column[len2]` and
`length[len2]`. -/
theorem nlevOuter_result (col a b : List Nat) (hb : b.length ≠ 0)
    (hlen : 2 * (b.length + 1) ≤ col.length) :
    (nlevOuter a b (b.length + 1) a.length 1
        (nlevFill (b.length + 1) b.length 1 col)).getD b.length 0
      = (lalignCell a b a.length b.length).1 ∧
    (nlevOuter a b (b.length + 1) a.length 1
        (nlevFill (b.length + 1) b.length 1 col)).getD (b.length + 1 + b.length) 0
      = (lalignCell a b a.length b.length).2 := by
  obtain ⟨f1, f2⟩ := nlevFill_spec (b.length + 1) b.length 1 col (by omega) (by omega)
  have := nlevOuter_spec a b (b.length + 1) rfl a.length 1
    (nlevFill (b.length + 1) b.length 1 col) (by omega) (by rw [f1]; omega)
    (by
      intro k hk1 hk2
      rw [f2, f2, if_pos (by omega), if_neg (by omega), if_pos (by omega),
        lalignCell_zero_left]
      exact ⟨rfl, by simp⟩)
    b.length (by omega) (by omega)
  simpa using this

/-! ## Alignments with their length -/

theorem alignPath_nil_left : ∀ (b : List Nat), AlignPath [] b b.length b.length := by
  intro b
  induction b with
  | nil => exact AlignPath.nil
  | cons y b ih => exact AlignPath.ins y ih

theorem alignPath_nil_right : ∀ (a : List Nat), AlignPath a [] a.length a.length := by
  intro a
  induction a with
  | nil => exact AlignPath.nil
  | cons x a ih => exact AlignPath.del x ih

theorem alignPath_of_nil_left {a b : List Nat} {n m : Nat} (h : AlignPath a b n m) :
    a = [] → n = b.length ∧ m = b.length := by
  induction h with
  | nil => intro _; exact ⟨rfl, rfl⟩
  | keep x _ _ => intro e; exact absurd e (List.cons_ne_nil _ _)
  | sub x y _ _ => intro e; exact absurd e (List.cons_ne_nil _ _)
  | del x _ _ => intro e; exact absurd e (List.cons_ne_nil _ _)
  | ins y _ ih =>
    intro e
    obtain ⟨h1, h2⟩ := ih e
    rw [List.length_cons, h1, h2]
    exact ⟨rfl, rfl⟩

theorem alignPath_of_nil_right {a b : List Nat} {n m : Nat} (h : AlignPath a b n m) :
    b = [] → n = a.length ∧ m = a.length := by
  induction h with
  | nil => intro _; exact ⟨rfl, rfl⟩
  | keep x _ _ => intro e; exact absurd e (List.cons_ne_nil _ _)
  | sub x y _ _ => intro e; exact absurd e (List.cons_ne_nil _ _)
  | ins y _ _ => intro e; exact absurd e (List.cons_ne_nil _ _)
  | del x _ ih =>
    intro e
    obtain ⟨h1, h2⟩ := ih e
    rw [List.length_cons, h1, h2]
    exact ⟨rfl, rfl⟩

theorem alignPath_flip {a b : List Nat} {n m : Nat} (h : AlignPath a b n m) :
    AlignPath b a n m := by
  induction h with
  | nil => exact AlignPath.nil
  | keep x _ ih => exact AlignPath.keep x ih
  | sub x y _ ih => exact AlignPath.sub y x ih
  | del x _ ih => exact AlignPath.ins x ih
  | ins y _ ih => exact AlignPath.del y ih

theorem alignPath_append {a b c d : List Nat} {n m n' m' : Nat} (h : AlignPath a b n m)
    (h' : AlignPath c d n' m') : AlignPath (a ++ c) (b ++ d) (n + n') (m + m') := by
  induction h with
  | nil => simpa using h'
  | keep x _ ih =>
    have := AlignPath.keep x ih
    rw [show ∀ k : Nat, k + m' + 1 = k + 1 + m' by intro k; omega] at this
    exact this
  | sub x y _ ih =>
    have := AlignPath.sub x y ih
    rw [show ∀ k : Nat, k + m' + 1 = k + 1 + m' by intro k; omega,
      show ∀ k : Nat, k + n' + 1 = k + 1 + n' by intro k; omega] at this
    exact this
  | del x _ ih =>
    have := AlignPath.del x ih
    rw [show ∀ k : Nat, k + m' + 1 = k + 1 + m' by intro k; omega,
      show ∀ k : Nat, k + n' + 1 = k + 1 + n' by intro k; omega] at this
    exact this
  | ins y _ ih =>
    have := AlignPath.ins y ih
    rw [show ∀ k : Nat, k + m' + 1 = k + 1 + m' by intro k; omega,
      show ∀ k : Nat, k + n' + 1 = k + 1 + n' by intro k; omega] at this
    exact this

theorem alignPath_reverse {a b : List Nat} {n m : Nat} (h : AlignPath a b n m) :
    AlignPath a.reverse b.reverse n m := by
  induction h with
  | nil => exact AlignPath.nil
  | keep x _ ih =>
    rw [List.reverse_cons, List.reverse_cons]
    exact alignPath_append ih (AlignPath.keep x AlignPath.nil)
  | sub x y _ ih =>
    rw [List.reverse_cons, List.reverse_cons]
    exact alignPath_append ih (AlignPath.sub x y AlignPath.nil)
  | del x _ ih =>
    rw [List.reverse_cons]
    have := alignPath_append ih (AlignPath.del x AlignPath.nil)
    rw [List.append_nil] at this
    exact this
  | ins y _ ih =>
    rw [List.reverse_cons]
    have := alignPath_append ih (AlignPath.ins y AlignPath.nil)
    rw [List.append_nil] at this
    exact this

theorem align_of_alignPath {a b : List Nat} {n m : Nat} (h : AlignPath a b n m) :
    Align false a b n := by
  induction h with
  | nil => exact Align.nil
  | keep x _ ih => exact Align.keep x ih
  | sub x y _ ih => exact Align.sub x y ih
  | del x _ ih => exact Align.del x ih
  | ins y _ ih => exact Align.ins y ih

theorem alignPath_of_align {a b : List Nat} {n : Nat} (h : Align false a b n) :
    ∃ m, AlignPath a b n m := by
  induction h with
  | nil => exact ⟨0, AlignPath.nil⟩
  | keep x _ ih => obtain ⟨m, hm⟩ := ih; exact ⟨m + 1, AlignPath.keep x hm⟩
  | sub x y _ ih => obtain ⟨m, hm⟩ := ih; exact ⟨m + 1, AlignPath.sub x y hm⟩
  | del x _ ih => obtain ⟨m, hm⟩ := ih; exact ⟨m + 1, AlignPath.del x hm⟩
  | ins y _ ih => obtain ⟨m, hm⟩ := ih; exact ⟨m + 1, AlignPath.ins y hm⟩
  | swap h x y _ _ => exact absurd h (by decide)

theorem alignPath_cons_cons_cases {x y : Nat} {A B : List Nat} {n m : Nat}
    (h : AlignPath (x :: A) (y :: B) n m) :
    (x = y ∧ ∃ m', m = m' + 1 ∧ AlignPath A B n m') ∨
    (∃ n' m', n = n' + 1 ∧ m = m' + 1 ∧ AlignPath A B n' m') ∨
    (∃ n' m', n = n' + 1 ∧ m = m' + 1 ∧ AlignPath A (y :: B) n' m') ∨
    (∃ n' m', n = n' + 1 ∧ m = m' + 1 ∧ AlignPath (x :: A) B n' m') := by
  cases h with
  | keep _ h => exact Or.inl ⟨rfl, _, rfl, h⟩
  | sub _ _ h => exact Or.inr (Or.inl ⟨_, _, rfl, rfl, h⟩)
  | del _ h => exact Or.inr (Or.inr (Or.inl ⟨_, _, rfl, rfl, h⟩))
  | ins _ h => exact Or.inr (Or.inr (Or.inr ⟨_, _, rfl, rfl, h⟩))

theorem max3_if_cases (p1 p2 p3 : Prop) [Decidable p1] [Decidable p2] [Decidable p3]
    (v1 v2 v3 : Nat) (h : p1 ∨ p2 ∨ p3) :
    (p1 ∧ max (if p1 then v1 + 1 else 0) (max (if p2 then v2 + 1 else 0)
        (if p3 then v3 + 1 else 0)) = v1 + 1) ∨
    (p2 ∧ max (if p1 then v1 + 1 else 0) (max (if p2 then v2 + 1 else 0)
        (if p3 then v3 + 1 else 0)) = v2 + 1) ∨
    (p3 ∧ max (if p1 then v1 + 1 else 0) (max (if p2 then v2 + 1 else 0)
        (if p3 then v3 + 1 else 0)) = v3 + 1) := by
  by_cases h1 : p1 <;> by_cases h2 : p2 <;> by_cases h3 : p3 <;>
    simp only [h1, h2, h3, if_true, if_false, true_and, false_and, false_or, or_false] <;>
    first
      | omega
      | (exfalso; rcases h with h | h | h <;> contradiction)

theorem max3_if_le (p1 p2 p3 : Prop) [Decidable p1] [Decidable p2] [Decidable p3]
    (v1 v2 v3 : Nat) :
    (p1 → v1 + 1 ≤ max (if p1 then v1 + 1 else 0) (max (if p2 then v2 + 1 else 0)
        (if p3 then v3 + 1 else 0))) ∧
    (p2 → v2 + 1 ≤ max (if p1 then v1 + 1 else 0) (max (if p2 then v2 + 1 else 0)
        (if p3 then v3 + 1 else 0))) ∧
    (p3 → v3 + 1 ≤ max (if p1 then v1 + 1 else 0) (max (if p2 then v2 + 1 else 0)
        (if p3 then v3 + 1 else 0))) := by
  refine ⟨fun h => ?_, fun h => ?_, fun h => ?_⟩
  · rw [if_pos h]; exact Nat.le_max_left _ _
  · rw [if_pos h]; exact Nat.le_trans (Nat.le_max_left _ _) (Nat.le_max_right _ _)
  · rw [if_pos h]; exact Nat.le_trans (Nat.le_max_right _ _) (Nat.le_max_right _ _)

theorem longestOptimal_step (x y : Nat) (A B : List Nat) (d1 l1 d2 l2 d3 l3 D : Nat)
    (H1 : LongestOptimal (x :: A) B d1 l1) (H2 : LongestOptimal A (y :: B) d2 l2)
    (H3 : LongestOptimal A B d3 l3)
    (hD : D = min (d1 + 1) (min (d2 + 1) (d3 + (if x ≠ y then 1 else 0)))) :
    LongestOptimal (x :: A) (y :: B) D
      (max (if d1 + 1 = D then l1 + 1 else 0)
        (max (if d2 + 1 = D then l2 + 1 else 0)
          (if d3 + (if x ≠ y then 1 else 0) = D then l3 + 1 else 0))) := by
  obtain ⟨e, he⟩ : ∃ e, e = (if x ≠ y then 1 else 0) := ⟨_, rfl⟩
  rw [← he] at hD ⊢
  have hD1 : D ≤ d1 + 1 := by omega
  have hD2 : D ≤ d2 + 1 := by omega
  have hD3 : D ≤ d3 + e := by omega
  have hmin : d1 + 1 = D ∨ d2 + 1 = D ∨ d3 + e = D := by omega
  clear hD
  have he0 : x = y → e = 0 := by
    intro h
    rw [he, if_neg (by rw [h]; exact fun h => h rfl)]
  have he1 : x ≠ y → e = 1 := by
    intro h
    rw [he, if_pos h]
  clear he
  have hle : e ≤ 1 := by
    by_cases h : x = y
    · rw [he0 h]
      exact Nat.zero_le _
    · rw [he1 h]
  obtain ⟨u1, u2, u3⟩ := max3_if_le (d1 + 1 = D) (d2 + 1 = D) (d3 + e = D) l1 l2 l3
  have hcases := max3_if_cases (d1 + 1 = D) (d2 + 1 = D) (d3 + e = D) l1 l2 l3 hmin
  obtain ⟨L, hL⟩ : ∃ L, L = max (if d1 + 1 = D then l1 + 1 else 0)
      (max (if d2 + 1 = D then l2 + 1 else 0) (if d3 + e = D then l3 + 1 else 0)) := ⟨_, rfl⟩
  rw [← hL] at u1 u2 u3 hcases ⊢
  clear hL hmin
  constructor
  · rcases hcases with ⟨c, hm⟩ | ⟨c, hm⟩ | ⟨c, hm⟩
    · rw [hm, ← c]
      exact AlignPath.ins y H1.1
    · rw [hm, ← c]
      exact AlignPath.del x H2.1
    · rw [hm, ← c]
      by_cases h : x = y
      · rw [he0 h, h]
        exact AlignPath.keep y (by simpa using H3.1)
      · rw [he1 h]
        exact AlignPath.sub x y H3.1
  · clear hcases
    intro n m h
    rcases alignPath_cons_cons_cases h with ⟨hxy, m', rfl, hp⟩ | ⟨n', m', rfl, rfl, hp⟩ |
      ⟨n', m', rfl, rfl, hp⟩ | ⟨n', m', rfl, rfl, hp⟩
    · obtain ⟨b1, b2⟩ := H3.2 n m' hp
      have e0 := he0 hxy
      clear he0 he1 u1 u2 h hp H1 H2 H3
      refine ⟨Nat.le_trans hD3 (by omega), fun hn => ?_⟩
      have hb := b2 (by omega)
      have hu := u3 (by omega)
      clear b2 u3
      omega
    · obtain ⟨b1, b2⟩ := H3.2 n' m' hp
      clear he0 he1 u1 u2 h hp H1 H2 H3
      refine ⟨Nat.le_trans hD3 (by omega), fun hn => ?_⟩
      have hb := b2 (by omega)
      have hu := u3 (by omega)
      clear b2 u3
      omega
    · obtain ⟨b1, b2⟩ := H2.2 n' m' hp
      clear he0 he1 u1 u3 h hp H1 H2 H3
      refine ⟨Nat.le_trans hD2 (by omega), fun hn => ?_⟩
      have hb := b2 (by omega)
      have hu := u2 (by omega)
      clear b2 u2
      omega
    · obtain ⟨b1, b2⟩ := H1.2 n' m' hp
      clear he0 he1 u2 u3 h hp H1 H2 H3
      refine ⟨Nat.le_trans hD1 (by omega), fun hn => ?_⟩
      have hb := b2 (by omega)
      have hu := u1 (by omega)
      clear b2 u1
      omega

theorem longestOptimal_nil_left (b : List Nat) : LongestOptimal [] b b.length b.length := by
  refine ⟨alignPath_nil_left b, fun n m h => ?_⟩
  obtain ⟨h1, h2⟩ := alignPath_of_nil_left h rfl
  omega

theorem longestOptimal_nil_right (a : List Nat) : LongestOptimal a [] a.length a.length := by
  refine ⟨alignPath_nil_right a, fun n m h => ?_⟩
  obtain ⟨h1, h2⟩ := alignPath_of_nil_right h rfl
  omega

theorem lalignCell_spec (a b : List Nat) : ∀ (n i j : Nat), i + j = n →
    i ≤ a.length → j ≤ b.length →
    LongestOptimal (a.take i).reverse (b.take j).reverse
      (lalignCell a b i j).1 (lalignCell a b i j).2 := by
  intro n
  induction n using Nat.strong_induction_on with
  | _ n ih =>
    intro i j hn hi hj
    cases i with
    | zero =>
      rw [lalignCell_zero_left, List.take_zero, List.reverse_nil]
      have := longestOptimal_nil_left (b.take j).reverse
      rw [List.length_reverse, List.length_take, Nat.min_eq_left hj] at this
      exact this
    | succ i =>
      cases j with
      | zero =>
        rw [lalignCell_zero_right, List.take_zero, List.reverse_nil]
        have := longestOptimal_nil_right (a.take (i + 1)).reverse
        rw [List.length_reverse, List.length_take, Nat.min_eq_left hi] at this
        exact this
      | succ j =>
        have H3 := ih (i + j) (by omega) i j rfl (by omega) (by omega)
        have H1 := ih (i + 1 + j) (by omega) (i + 1) j rfl hi (by omega)
        have H2 := ih (i + (j + 1)) (by omega) i (j + 1) rfl (by omega) hj
        rw [reverse_take_succ a i (by omega)] at H1 ⊢
        rw [reverse_take_succ b j (by omega)] at H2 ⊢
        rw [lalignCell_succ_snd]
        exact longestOptimal_step _ _ _ _ _ _ _ _ _ _ _ H1 H2 H3 (lalignCell_succ_fst a b i j)

theorem longestOptimal_reverse {a b : List Nat} {d l : Nat}
    (h : LongestOptimal a.reverse b.reverse d l) : LongestOptimal a b d l := by
  refine ⟨?_, fun n m hp => h.2 n m (alignPath_reverse hp)⟩
  have := alignPath_reverse h.1
  rw [List.reverse_reverse, List.reverse_reverse] at this
  exact this

theorem longestOptimal_flip {a b : List Nat} {d l : Nat}
    (h : LongestOptimal a b d l) : LongestOptimal b a d l :=
  ⟨alignPath_flip h.1, fun n m hp => h.2 n m (alignPath_flip hp)⟩

theorem longestOptimal_dist {a b : List Nat} {d l : Nat}
    (h : LongestOptimal a b d l) : d = dist false a b := by
  apply Nat.le_antisymm
  · obtain ⟨m, hm⟩ := alignPath_of_align (align_dist false a b)
    exact (h.2 _ _ hm).1
  · exact dist_le_of_align false (align_of_alignPath h.1)

theorem longestOptimal_pos {a b : List Nat} {d l : Nat}
    (h : LongestOptimal a b d l) (ha : a ≠ []) : 0 < l := by
  have key : ∀ {a b : List Nat} {n m : Nat}, AlignPath a b n m → a ≠ [] → 0 < m := by
    intro a b n m hp
    induction hp with
    | nil => intro h; exact absurd rfl h
    | keep x _ _ => intro _; omega
    | sub x y _ _ => intro _; omega
    | del x _ _ => intro _; omega
    | ins y _ _ => intro _; omega
  exact key h.1 ha

theorem lalignCell_full (a b : List Nat) :
    LongestOptimal a b (lalignCell a b a.length b.length).1
      (lalignCell a b a.length b.length).2 := by
  have := lalignCell_spec a b _ a.length b.length rfl (Nat.le_refl _) (Nat.le_refl _)
  rw [List.take_length, List.take_length] at this
  exact longestOptimal_reverse this

/-! ## Normalization by the length of the longest optimal alignment -/

theorem fc_nlevenshtein0_lalign (col a b : List Nat) (hb : b.length ≠ 0)
    (hlen : 2 * (b.length + 1) ≤ col.length) :
    fc_nlevenshtein0 col fc_norm_method.FC_NORM_LALIGN a b
      = (((lalignCell a b a.length b.length).1 : Nat) : ℚ)
        / (((lalignCell a b a.length b.length).2 : Nat) : ℚ) := by
  unfold fc_nlevenshtein0
  rw [if_neg hb]
  simp only []
  obtain ⟨h1, h2⟩ := nlevOuter_result col a b hb hlen
  rw [h1, h2]

theorem fc_nlevenshtein_lalign (a b : List Nat) (ha : a ≠ []) (hb : b ≠ []) :
    ∃ l, LongestOptimal a b (fc_levenshtein a b) l ∧ 0 < l ∧
      fc_nlevenshtein fc_norm_method.FC_NORM_LALIGN a b
        = ((fc_levenshtein a b : Nat) : ℚ) / ((l : Nat) : ℚ) := by
  have ha' : a.length ≠ 0 := fun h => ha (List.length_eq_zero.mp h)
  have hb' : b.length ≠ 0 := fun h => hb (List.length_eq_zero.mp h)
  rw [fc_levenshtein_eq]
  unfold fc_nlevenshtein
  simp only []
  by_cases h : a.length < b.length
  · simp only [if_pos h]
    rw [fc_nlevenshtein0_lalign _ b a ha' (by
      split
      · rw [length_scratch]
      · rw [length_scratch]; unfold FC_DEFAULT_COLUMN_LEN at *; omega)]
    have hopt := longestOptimal_flip (lalignCell_full b a)
    have hd := longestOptimal_dist hopt
    rw [hd] at hopt ⊢
    exact ⟨_, hopt, longestOptimal_pos hopt ha, rfl⟩
  · simp only [if_neg h]
    rw [fc_nlevenshtein0_lalign _ a b hb' (by
      split
      · rw [length_scratch]
      · rw [length_scratch]; unfold FC_DEFAULT_COLUMN_LEN at *; omega)]
    have hopt := lalignCell_full a b
    have hd := longestOptimal_dist hopt
    rw [hd] at hopt ⊢
    exact ⟨_, hopt, longestOptimal_pos hopt ha, rfl⟩

/-! ## The greedy pairing of the Jaro distance -/

theorem jaroValid_swap {a b : List Nat} {w : Int} {i j : Nat} (h : JaroValid a b w i j) :
    JaroValid b a w j i := by
  obtain ⟨h1, h2, h3, h4, h5⟩ := h
  exact ⟨h2, h1, h3.symm, by omega, by omega⟩

theorem jaroGreedy_unique {a b : List Nat} {w : Int} {n : Nat} {R R' : Nat → Nat → Prop}
    (h : JaroGreedy a b w n R) (h' : JaroGreedy a b w n R') :
    ∀ i j, R i j ↔ R' i j := by
  have key : ∀ (R R' : Nat → Nat → Prop), JaroGreedy a b w n R → JaroGreedy a b w n R' →
      ∀ i, (∀ i', i' < i → ∀ j, R i' j ↔ R' i' j) → ∀ j, R i j → R' i j := by
    intro R R' h h' i ih j hr
    obtain ⟨v, f, g, c, d⟩ := h
    obtain ⟨v', f', g', c', d'⟩ := h'
    obtain ⟨hin, hval⟩ := v i j hr
    by_cases hex : ∃ j2, R' i j2
    · obtain ⟨j2, hr2⟩ := hex
      rcases Nat.lt_trichotomy j2 j with hlt | heq | hgt
      · obtain ⟨i', hi', hr3⟩ := c i j hr j2 hlt (v' i j2 hr2).2
        have := g' _ _ _ ((ih i' hi' j2).mp hr3) hr2
        omega
      · rw [← heq]
        exact hr2
      · obtain ⟨i', hi', hr3⟩ := c' i j2 hr2 j hgt hval
        have := g _ _ _ ((ih i' hi' j).mpr hr3) hr
        omega
    · obtain ⟨i', hi', hr3⟩ := d' i hin (fun j2 hj2 => hex ⟨j2, hj2⟩) j hval
      have := g _ _ _ ((ih i' hi' j).mpr hr3) hr
      omega
  intro i
  induction i using Nat.strong_induction_on with
  | _ i ih =>
    intro j
    exact ⟨key R R' h h' i ih j, key R' R h' h i (fun i' hi' j => (ih i' hi' j).symm) j⟩

theorem jaroGreedy_swap {a b : List Nat} {w : Int} {R : Nat → Nat → Prop}
    (h : JaroGreedy a b w a.length R) : JaroGreedy b a w b.length (fun j i => R i j) := by
  obtain ⟨v, f, g, c, d⟩ := h
  refine ⟨?_, ?_, ?_, ?_, ?_⟩
  · intro j i hr
    have := (v i j hr).2
    exact ⟨this.2.1, jaroValid_swap this⟩
  · intro j i i' hr hr'
    exact g _ _ _ hr hr'
  · intro j j' i hr hr'
    exact f _ _ _ hr hr'
  · intro j i hr i' hlt hval
    have hval' := jaroValid_swap hval
    by_cases hex : ∃ j2, R i' j2
    · obtain ⟨j2, hr2⟩ := hex
      rcases Nat.lt_trichotomy j2 j with hlt2 | heq | hgt
      · exact ⟨j2, hlt2, hr2⟩
      · rw [heq] at hr2
        have := g _ _ _ hr2 hr
        omega
      · obtain ⟨i2, hi2, hr3⟩ := c i' j2 hr2 j hgt hval'
        have := g _ _ _ hr3 hr
        omega
    · obtain ⟨i2, hi2, hr3⟩ := d i' hval'.1 (fun j2 hj2 => hex ⟨j2, hj2⟩) j hval'
      have := g _ _ _ hr3 hr
      omega
  · intro j _ hun i' hval
    have hval' := jaroValid_swap hval
    by_cases hex : ∃ j2, R i' j2
    · obtain ⟨j2, hr2⟩ := hex
      rcases Nat.lt_trichotomy j2 j with hlt2 | heq | hgt
      · exact ⟨j2, hlt2, hr2⟩
      · rw [heq] at hr2
        exact absurd hr2 (hun i')
      · obtain ⟨i2, _, hr3⟩ := c i' j2 hr2 j hgt hval'
        exact absurd hr3 (hun i2)
    · obtain ⟨i2, _, hr3⟩ := d i' hval'.1 (fun j2 hj2 => hex ⟨j2, hj2⟩) j hval'
      exact absurd hr3 (hun i2)

theorem mismatches_comm : ∀ (xs ys : List Nat), mismatches xs ys = mismatches ys xs := by
  intro xs
  induction xs with
  | nil => intro ys; cases ys <;> rfl
  | cons x xs ih =>
    intro ys
    cases ys with
    | nil => rfl
    | cons y ys =>
      rw [mismatches, mismatches, ih ys]
      by_cases h : x = y
      · rw [if_neg (fun hn => hn h), if_neg (fun hn => hn h.symm)]
      · rw [if_pos h, if_pos (fun hn => h hn.symm)]

theorem mismatches_self : ∀ (xs : List Nat), mismatches xs xs = 0 := by
  intro xs
  induction xs with
  | nil => rfl
  | cons x xs ih => rw [mismatches, ih, if_neg (fun hn => hn rfl)]

theorem flaggedFrom_congr (seq F F' : List Nat) (off off' : Nat) : ∀ (n i : Nat),
    (∀ k, i ≤ k → k < i + n → (F.getD (off + k) 0 ≠ 0 ↔ F'.getD (off' + k) 0 ≠ 0)) →
    flaggedFrom seq F off n i = flaggedFrom seq F' off' n i := by
  intro n
  induction n with
  | zero => intro i _; rfl
  | succ n ih =>
    intro i h
    rw [flaggedFrom, flaggedFrom, ih (i + 1) (fun k hk1 hk2 => h k (by omega) (by omega))]
    by_cases hf : F.getD (off + i) 0 ≠ 0
    · rw [if_pos hf, if_pos ((h i (Nat.le_refl _) (by omega)).mp hf)]
    · rw [if_neg hf, if_neg (fun hn => hf ((h i (Nat.le_refl _) (by omega)).mpr hn))]

/-! ## The matching phase of `fc_jaro0` -/

theorem flaggedFrom_length_set (seq F : List Nat) (off p : Nat) (hp : p < F.length)
    (h0 : F.getD p 0 = 0) : ∀ (n i : Nat),
    (flaggedFrom seq (F.set p 1) off n i).length
      = (flaggedFrom seq F off n i).length
        + (if off + i ≤ p ∧ p < off + i + n then 1 else 0) := by
  intro n
  induction n with
  | zero =>
    intro i
    rw [flaggedFrom, flaggedFrom, if_neg (by omega)]
    rfl
  | succ n ih =>
    intro i
    rw [flaggedFrom, flaggedFrom]
    by_cases hpi : off + i = p
    · subst hpi
      rw [getD_set_eq _ _ _ hp, if_pos (by decide), if_neg (fun h => h h0), List.length_cons,
        ih (i + 1), if_neg (by omega), if_pos (by omega)]
    · rw [getD_set_ne _ _ _ _ (Ne.symm hpi)]
      have e : (if off + (i + 1) ≤ p ∧ p < off + (i + 1) + n then 1 else 0)
          = (if off + i ≤ p ∧ p < off + i + (n + 1) then 1 else 0) := by
        by_cases hc : off + (i + 1) ≤ p ∧ p < off + (i + 1) + n
        · rw [if_pos hc, if_pos (by omega)]
        · rw [if_neg hc, if_neg (by omega)]
      split
      · rw [List.length_cons, List.length_cons, ih (i + 1), e]
        omega
      · rw [ih (i + 1), e]

theorem flaggedFrom_length_le (seq F : List Nat) (off : Nat) : ∀ (n i : Nat),
    (flaggedFrom seq F off n i).length ≤ n := by
  intro n
  induction n with
  | zero => intro i; rw [flaggedFrom]; exact Nat.le_refl _
  | succ n ih =>
    intro i
    rw [flaggedFrom]
    have := ih (i + 1)
    split
    · rw [List.length_cons]
      omega
    · omega

theorem jaroFind_spec (a b : List Nat) (i : Nat) : ∀ (n j : Nat) (F : List Nat) (m : Nat),
    (jaroFind a b i n j F m = (F, m) ∧
      ∀ j', j ≤ j' → j' < j + n →
        ¬ (F.getD (a.length + j') 0 = 0 ∧ a.getD i 0 = b.getD j' 0)) ∨
    (∃ j0, j ≤ j0 ∧ j0 < j + n ∧ F.getD (a.length + j0) 0 = 0 ∧ a.getD i 0 = b.getD j0 0 ∧
      (∀ j', j ≤ j' → j' < j0 →
        ¬ (F.getD (a.length + j') 0 = 0 ∧ a.getD i 0 = b.getD j' 0)) ∧
      jaroFind a b i n j F m = ((F.set i 1).set (a.length + j0) 1, m + 1)) := by
  intro n
  induction n with
  | zero =>
    intro j F m
    exact Or.inl ⟨rfl, fun j' h1 h2 => by omega⟩
  | succ n ih =>
    intro j F m
    rw [jaroFind]
    by_cases hc : F.getD (a.length + j) 0 = 0 ∧ a.getD i 0 = b.getD j 0
    · rw [if_pos hc]
      exact Or.inr ⟨j, Nat.le_refl _, by omega, hc.1, hc.2, fun j' h1 h2 => by omega, rfl⟩
    · rw [if_neg hc]
      rcases ih (j + 1) F m with ⟨e, hn⟩ | ⟨j0, h1, h2, h3, h4, h5, e⟩
      · refine Or.inl ⟨e, fun j' h1 h2 => ?_⟩
        by_cases hj : j' = j
        · rw [hj]
          exact hc
        · exact hn j' (by omega) (by omega)
      · refine Or.inr ⟨j0, by omega, by omega, h3, h4, fun j' h6 h7 => ?_, e⟩
        by_cases hj : j' = j
        · rw [hj]
          exact hc
        · exact h5 j' (by omega) h7

theorem jaroRow_inv (a b : List Nat) (w : Int) (i n j : Nat) (F : List Nat) (m : Nat)
    (hi : i < a.length)
    (hrange : ∀ j', (j ≤ j' ∧ j' < j + n) ↔
      (j' < b.length ∧ (i : Int) - w ≤ (j' : Int) ∧ (j' : Int) ≤ (i : Int) + w))
    (h : JaroInv a b w i F m) :
    JaroInv a b w (i + 1) (jaroFind a b i n j F m).1 (jaroFind a b i n j F m).2 := by
  obtain ⟨hlen, ⟨R, ⟨v, f, g, c, d⟩, fl1, fl2⟩, hm1, hm2⟩ := h
  have hFi : F.getD i 0 = 0 := by
    by_contra hne
    obtain ⟨j2, hr⟩ := (fl1 i hi).mp hne
    have := (v i j2 hr).1
    omega
  have hvr : ∀ j', JaroValid a b w i j' → j ≤ j' ∧ j' < j + n :=
    fun j' hv => (hrange j').mpr ⟨hv.2.1, hv.2.2.2.1, hv.2.2.2.2⟩
  rcases jaroFind_spec a b i n j F m with ⟨e, hn⟩ | ⟨j0, h1, h2, h3, h4, h5, e⟩
  · rw [e]
    refine ⟨hlen, ⟨R, ⟨?_, f, g, c, ?_⟩, fl1, fl2⟩, hm1, hm2⟩
    · intro i' j' hr
      have := v i' j' hr
      exact ⟨by omega, this.2⟩
    · intro i' hi' hun j' hval
      by_cases hii : i' = i
      · rw [hii] at hval
        obtain ⟨r1, r2⟩ := hvr j' hval
        have hnz : F.getD (a.length + j') 0 ≠ 0 := fun h0 => hn j' r1 r2 ⟨h0, hval.2.2.1⟩
        obtain ⟨i2, hr⟩ := (fl2 j' hval.2.1).mp hnz
        exact ⟨i2, by rw [hii]; exact (v i2 j' hr).1, hr⟩
      · exact d i' (by omega) hun j' hval
  · rw [e]
    show JaroInv a b w (i + 1) ((F.set i 1).set (a.length + j0) 1) (m + 1)
    have hr0 := (hrange j0).mp ⟨h1, h2⟩
    have hj0 : j0 < b.length := hr0.1
    have hval0 : JaroValid a b w i j0 := ⟨hi, hj0, h4, hr0.2.1, hr0.2.2⟩
    refine ⟨by rw [List.length_set, List.length_set]; exact hlen,
      ⟨fun i' j' => R i' j' ∨ (i' = i ∧ j' = j0), ⟨?_, ?_, ?_, ?_, ?_⟩, ?_, ?_⟩, ?_, ?_⟩
    · intro i' j' hr
      rcases hr with hr | ⟨e1, e2⟩
      · have := v i' j' hr
        exact ⟨by omega, this.2⟩
      · rw [e1, e2]
        exact ⟨by omega, hval0⟩
    · intro i' j1 j2 hr1 hr2
      rcases hr1 with hr1 | ⟨e1, e2⟩ <;> rcases hr2 with hr2 | ⟨e3, e4⟩
      · exact f _ _ _ hr1 hr2
      · have := (v _ _ hr1).1
        omega
      · have := (v _ _ hr2).1
        omega
      · omega
    · intro i1 i2 j' hr1 hr2
      rcases hr1 with hr1 | ⟨e1, e2⟩ <;> rcases hr2 with hr2 | ⟨e3, e4⟩
      · exact g _ _ _ hr1 hr2
      · exfalso
        rw [e4] at hr1
        exact (fl2 j0 hj0).mpr ⟨i1, hr1⟩ h3
      · exfalso
        rw [e2] at hr2
        exact (fl2 j0 hj0).mpr ⟨i2, hr2⟩ h3
      · omega
    · intro i' j' hr j2 hlt hval
      rcases hr with hr | ⟨e1, e2⟩
      · obtain ⟨i2, hi2, hr2⟩ := c i' j' hr j2 hlt hval
        exact ⟨i2, hi2, Or.inl hr2⟩
      · rw [e1] at hval
        rw [e2] at hlt
        obtain ⟨r1, _⟩ := hvr j2 hval
        have hnz : F.getD (a.length + j2) 0 ≠ 0 := fun h0 => h5 j2 r1 hlt ⟨h0, hval.2.2.1⟩
        obtain ⟨i2, hr2⟩ := (fl2 j2 hval.2.1).mp hnz
        exact ⟨i2, by rw [e1]; exact (v i2 j2 hr2).1, Or.inl hr2⟩
    · intro i' hi' hun j' hval
      have hne : i' ≠ i := fun h => hun j0 (Or.inr ⟨h, rfl⟩)
      obtain ⟨i2, hi2, hr2⟩ := d i' (by omega) (fun j2 hr => hun j2 (Or.inl hr)) j' hval
      exact ⟨i2, hi2, Or.inl hr2⟩
    · intro i' hi'
      by_cases hii : i' = i
      · rw [hii, getD_set_ne _ _ _ _ (by omega), getD_set_eq _ _ _ (by omega)]
        exact ⟨fun _ => ⟨j0, Or.inr ⟨rfl, rfl⟩⟩, fun _ => by decide⟩
      · rw [getD_set_ne _ _ _ _ (by omega), getD_set_ne _ _ _ _ (Ne.symm hii)]
        constructor
        · intro hnz
          obtain ⟨j2, hr⟩ := (fl1 i' hi').mp hnz
          exact ⟨j2, Or.inl hr⟩
        · rintro ⟨j2, hr | ⟨e1, _⟩⟩
          · exact (fl1 i' hi').mpr ⟨j2, hr⟩
          · exact absurd e1 hii
    · intro j' hj'
      by_cases hjj : j' = j0
      · rw [hjj, getD_set_eq _ _ _ (by rw [List.length_set]; omega)]
        exact ⟨fun _ => ⟨i, Or.inr ⟨rfl, rfl⟩⟩, fun _ => by decide⟩
      · rw [getD_set_ne _ _ _ _ (by omega), getD_set_ne _ _ _ _ (by omega)]
        constructor
        · intro hnz
          obtain ⟨i2, hr⟩ := (fl2 j' hj').mp hnz
          exact ⟨i2, Or.inl hr⟩
        · rintro ⟨i2, hr | ⟨_, e2⟩⟩
          · exact (fl2 j' hj').mpr ⟨i2, hr⟩
          · exact absurd e2 hjj
    · rw [flaggedFrom_length_set a (F.set i 1) 0 (a.length + j0)
        (by rw [List.length_set]; omega)
        (by rw [getD_set_ne _ _ _ _ (by omega)]; exact h3),
        flaggedFrom_length_set a F 0 i (by omega) hFi, if_pos (by omega), if_neg (by omega),
        ← hm1]
    · rw [flaggedFrom_length_set b (F.set i 1) a.length (a.length + j0)
        (by rw [List.length_set]; omega)
        (by rw [getD_set_ne _ _ _ _ (by omega)]; exact h3),
        flaggedFrom_length_set b F a.length i (by omega) hFi, if_neg (by omega),
        if_pos (by omega), ← hm2]

theorem flaggedFrom_zero (seq F : List Nat) (off : Nat) : ∀ (n i : Nat),
    (∀ k, i ≤ k → k < i + n → F.getD (off + k) 0 = 0) → flaggedFrom seq F off n i = [] := by
  intro n
  induction n with
  | zero => intro i _; rfl
  | succ n ih =>
    intro i h
    rw [flaggedFrom, if_neg (fun hn => hn (h i (Nat.le_refl _) (by omega)))]
    exact ih (i + 1) (fun k h1 h2 => h k (by omega) (by omega))

theorem jaroInv_init (a b buf : List Nat) (w : Int) (hbuf : a.length + b.length ≤ buf.length) :
    JaroInv a b w 0 (memsetZero buf (a.length + b.length)) 0 := by
  have hz : ∀ k, k < a.length + b.length →
      (memsetZero buf (a.length + b.length)).getD k 0 = 0 :=
    fun k hk => memsetZero_getD _ _ _ hk
  refine ⟨by rw [memsetZero_length]; exact hbuf, ⟨fun _ _ => False, ⟨?_, ?_, ?_, ?_, ?_⟩, ?_, ?_⟩,
    ?_, ?_⟩
  · intro i j h
    exact absurd h id
  · intro i j j' h
    exact absurd h id
  · intro i i' j h
    exact absurd h id
  · intro i j h
    exact absurd h id
  · intro i hi
    omega
  · intro i hi
    rw [hz i (by omega)]
    exact ⟨fun h => absurd rfl h, fun ⟨_, h⟩ => absurd h id⟩
  · intro j hj
    rw [hz _ (by omega)]
    exact ⟨fun h => absurd rfl h, fun ⟨_, h⟩ => absurd h id⟩
  · rw [flaggedFrom_zero _ _ _ _ _ (fun k _ hk => hz _ (by omega))]
    rfl
  · rw [flaggedFrom_zero _ _ _ _ _ (fun k _ hk => hz _ (by omega))]
    rfl

theorem jaroMatch_inv (a b : List Nat) (w : Int) (hw : 0 ≤ w) :
    ∀ (n i : Nat) (F : List Nat) (m : Nat), i + n = a.length → JaroInv a b w i F m →
    JaroInv a b w a.length (jaroMatch a b w n i F m).1 (jaroMatch a b w n i F m).2 := by
  intro n
  induction n with
  | zero =>
    intro i F m hn h
    have e : i = a.length := by omega
    rw [jaroMatch, ← e]
    exact h
  | succ n ih =>
    intro i F m hn h
    rw [jaroMatch]
    refine ih (i + 1) _ _ (by omega) (jaroRow_inv a b w i _ _ F m (by omega) ?_ h)
    intro j'
    by_cases c1 : (i : Int) - w < 0 <;>
      by_cases c2 : (i : Int) + w + 1 > (b.length : Int) <;>
      simp only [c1, c2, if_true, if_false] <;> omega

theorem jaroWindow_nonneg (len1 len2 : Nat) : 0 ≤ jaroWindow len1 len2 := by
  unfold jaroWindow
  split <;> omega

theorem jaroWindow_comm (len1 len2 : Nat) : jaroWindow len1 len2 = jaroWindow len2 len1 := by
  unfold jaroWindow
  rw [FC_MAX_eq, FC_MAX_eq, Nat.max_comm]

/-! ## The transposition phase of `fc_jaro0` -/

theorem mismatches_nil_left (ys : List Nat) : mismatches [] ys = 0 := by
  cases ys <;> rfl

theorem mismatches_cons (x y : Nat) (xs ys : List Nat) :
    mismatches (x :: xs) (y :: ys) = (if x ≠ y then 1 else 0) + mismatches xs ys := by
  rw [mismatches]

theorem get?_eq_some_getD (l : List Nat) (j : Nat) (h : j < l.length) :
    l.get? j = some (l.getD j 0) := by
  rw [List.get?_eq_getElem?, List.getD_eq_getElem?_getD, List.getElem?_eq_getElem h]
  rfl

theorem get?_length (l : List Nat) : l.get? l.length = none := by
  rw [List.get?_eq_getElem?, List.getElem?_eq_none (Nat.le_refl _)]

theorem jaroNext_spec (b F : List Nat) (len1 : Nat) : ∀ (n j k : Nat), j + n = b.length →
    (flaggedFrom b F len1 n j = [] ∧ (jaroNext F len1 n j k).1 = b.length) ∨
    (∃ j', j ≤ j' ∧ j' < b.length ∧ jaroNext F len1 n j k = (j', j' + 1) ∧
      flaggedFrom b F len1 n j
        = b.getD j' 0 :: flaggedFrom b F len1 (b.length - (j' + 1)) (j' + 1)) := by
  intro n
  induction n with
  | zero =>
    intro j k hn
    exact Or.inl ⟨rfl, by rw [jaroNext]; omega⟩
  | succ n ih =>
    intro j k hn
    rw [jaroNext, flaggedFrom]
    by_cases hf : F.getD (len1 + j) 0 ≠ 0
    · rw [if_pos hf, if_pos hf]
      refine Or.inr ⟨j, Nat.le_refl _, by omega, rfl, ?_⟩
      have e : b.length - (j + 1) = n := by omega
      rw [e]
    · rw [if_neg hf, if_neg hf]
      rcases ih (j + 1) k (by omega) with h | ⟨j', h1, h2, h3, h4⟩
      · exact Or.inl h
      · exact Or.inr ⟨j', by omega, h2, h3, h4⟩

theorem jaroTranspos_spec (a b F : List Nat) : ∀ (n i T k : Nat),
    i + n = a.length → k ≤ b.length →
    (flaggedFrom a F 0 n i).length ≤ (flaggedFrom b F a.length (b.length - k) k).length →
    jaroTranspos a b F n i T k
      = some (T + mismatches (flaggedFrom a F 0 n i)
          (flaggedFrom b F a.length (b.length - k) k)) := by
  intro n
  induction n with
  | zero =>
    intro i T k _ _ _
    rw [jaroTranspos, flaggedFrom, mismatches_nil_left]
    rfl
  | succ n ih =>
    intro i T k hn hk hlen
    rw [jaroTranspos]
    rw [flaggedFrom] at hlen ⊢
    rw [Nat.zero_add] at hlen ⊢
    by_cases hf : F.getD i 0 ≠ 0
    · rw [if_pos hf] at hlen ⊢
      rw [if_pos hf]
      simp only []
      rcases jaroNext_spec b F a.length (b.length - k) k k (by omega) with ⟨h0, _⟩ |
        ⟨j', h1, h2, h3, h4⟩
      · rw [h0] at hlen
        simp at hlen
      · rw [h3]
        simp only []
        rw [get?_eq_some_getD b j' h2]
        simp only []
        rw [h4] at hlen ⊢
        rw [List.length_cons, List.length_cons] at hlen
        rw [ih (i + 1) _ (j' + 1) (by omega) (by omega) (by omega), mismatches_cons]
        by_cases hc : a.getD i 0 ≠ b.getD j' 0
        · rw [if_pos hc, if_pos hc]
          congr 1
          omega
        · rw [if_neg hc, if_neg hc]
          congr 1
          omega
    · rw [if_neg hf] at hlen ⊢
      rw [if_neg hf]
      exact ih (i + 1) T k (by omega) hk hlen

/-! ## The value of `fc_jaro` -/

theorem jaroFlags_inv (a b : List Nat) :
    JaroInv a b (jaroWindow a.length b.length) a.length (jaroFlags a b).1 (jaroFlags a b).2 := by
  unfold jaroFlags
  simp only []
  refine jaroMatch_inv a b (jaroWindow a.length b.length) (jaroWindow_nonneg _ _)
    a.length 0 _ 0 (by omega) (jaroInv_init a b _ _ ?_)
  split
  · rw [length_scratch]
  · rw [length_scratch]
    omega

theorem jaroTransposCount_eq (a b : List Nat) :
    jaroTransposCount a b
      = some (mismatches (flaggedFrom a (jaroFlags a b).1 0 a.length 0)
          (flaggedFrom b (jaroFlags a b).1 a.length b.length 0) / 2) := by
  obtain ⟨_, _, hm1, hm2⟩ := jaroFlags_inv a b
  have ht := jaroTranspos_spec a b (jaroFlags a b).1 a.length 0 0 0 (by omega) (Nat.zero_le _)
    (by rw [Nat.sub_zero, ← hm1, ← hm2])
  rw [Nat.sub_zero, Nat.zero_add] at ht
  unfold jaroTransposCount
  rw [ht]
  rfl

theorem fc_jaro_phases (a b : List Nat) :
    fc_jaro a b = if (jaroFlags a b).2 = 0 then some 0
      else (jaroTransposCount a b).map (fun t =>
        1 - (1 / 3 * (((jaroFlags a b).2 : ℚ) / (a.length : ℚ)
          + ((jaroFlags a b).2 : ℚ) / (b.length : ℚ)
          + (((jaroFlags a b).2 : ℚ) - (t : ℚ)) / ((jaroFlags a b).2 : ℚ)))) := by
  by_cases h0 : (jaroFlags a b).2 = 0
  · rw [if_pos h0]
    unfold jaroFlags jaroWindow at h0
    unfold fc_jaro fc_jaro0
    simp only []
    rw [if_pos h0]
  · rw [if_neg h0]
    unfold jaroTransposCount
    unfold jaroFlags jaroWindow at h0 ⊢
    unfold fc_jaro fc_jaro0
    simp only []
    rw [if_neg h0]
    generalize jaroTranspos a b _ a.length 0 0 0 = o
    cases o with
    | none => rfl
    | some t => rfl

theorem fc_jaro_eq (a b : List Nat) :
    fc_jaro a b = some (jaroValue a.length b.length (jaroFlags a b).2
      (mismatches (flaggedFrom a (jaroFlags a b).1 0 a.length 0)
        (flaggedFrom b (jaroFlags a b).1 a.length b.length 0))) := by
  rw [fc_jaro_phases, jaroTransposCount_eq]
  unfold jaroValue
  split
  · rfl
  · rfl

theorem jaroValue_comm (len1 len2 m t : Nat) : jaroValue len1 len2 m t = jaroValue len2 len1 m t := by
  unfold jaroValue
  split
  · rfl
  · rw [add_comm ((m : ℚ) / (len1 : ℚ)) ((m : ℚ) / (len2 : ℚ))]

/-- The flags left by the matching phase are the same when the two sequences
are exchanged: the flags of either sequence select the same codepoints, and
the number of matches is the same. -/
theorem jaroFlags_swap (a b : List Nat) :
    (∀ i j, i < a.length → j < b.length →
      ((jaroFlags a b).1.getD i 0 ≠ 0 ↔ (jaroFlags b a).1.getD (b.length + i) 0 ≠ 0) ∧
      ((jaroFlags a b).1.getD (a.length + j) 0 ≠ 0 ↔ (jaroFlags b a).1.getD j 0 ≠ 0)) ∧
    flaggedFrom a (jaroFlags a b).1 0 a.length 0
      = flaggedFrom a (jaroFlags b a).1 b.length a.length 0 ∧
    flaggedFrom b (jaroFlags a b).1 a.length b.length 0
      = flaggedFrom b (jaroFlags b a).1 0 b.length 0 ∧
    (jaroFlags a b).2 = (jaroFlags b a).2 := by
  obtain ⟨_, ⟨R, hg, fl1, fl2⟩, hm1, _⟩ := jaroFlags_inv a b
  obtain ⟨_, ⟨R', hg', fl1', fl2'⟩, _, hm2'⟩ := jaroFlags_inv b a
  rw [jaroWindow_comm b.length a.length] at hg'
  have hR := jaroGreedy_unique hg' (jaroGreedy_swap hg)
  have h1 : ∀ k, k < a.length →
      ((jaroFlags a b).1.getD k 0 ≠ 0 ↔ (jaroFlags b a).1.getD (b.length + k) 0 ≠ 0) := by
    intro k hk
    rw [fl1 k hk, fl2' k hk]
    exact ⟨fun ⟨j, h⟩ => ⟨j, (hR j k).mpr h⟩, fun ⟨j, h⟩ => ⟨j, (hR j k).mp h⟩⟩
  have h2 : ∀ k, k < b.length →
      ((jaroFlags a b).1.getD (a.length + k) 0 ≠ 0 ↔ (jaroFlags b a).1.getD k 0 ≠ 0) := by
    intro k hk
    rw [fl2 k hk, fl1' k hk]
    exact ⟨fun ⟨i, h⟩ => ⟨i, (hR k i).mpr h⟩, fun ⟨i, h⟩ => ⟨i, (hR k i).mp h⟩⟩
  have ha : flaggedFrom a (jaroFlags a b).1 0 a.length 0
      = flaggedFrom a (jaroFlags b a).1 b.length a.length 0 := by
    apply flaggedFrom_congr
    intro k _ hk
    rw [Nat.zero_add] at hk ⊢
    exact h1 k hk
  have hb : flaggedFrom b (jaroFlags a b).1 a.length b.length 0
      = flaggedFrom b (jaroFlags b a).1 0 b.length 0 := by
    apply flaggedFrom_congr
    intro k _ hk
    rw [Nat.zero_add] at hk ⊢
    exact h2 k hk
  exact ⟨fun i j hi hj => ⟨h1 i hi, h2 j hj⟩, ha, hb, by rw [hm1, hm2', ha]⟩

theorem fc_jaro_comm (a b : List Nat) : fc_jaro a b = fc_jaro b a := by
  obtain ⟨hR, ha, hb, hmm⟩ := jaroFlags_swap a b
  rw [fc_jaro_eq a b, fc_jaro_eq b a, ← ha, ← hb, ← hmm,
    mismatches_comm (flaggedFrom b (jaroFlags a b).1 a.length b.length 0), jaroValue_comm]

theorem flaggedFrom_length_all (seq F : List Nat) (off : Nat) : ∀ (n i : Nat),
    (∀ k, i ≤ k → k < i + n → F.getD (off + k) 0 ≠ 0) →
    (flaggedFrom seq F off n i).length = n := by
  intro n
  induction n with
  | zero => intro i _; rfl
  | succ n ih =>
    intro i h
    rw [flaggedFrom, if_pos (h i (Nat.le_refl _) (by omega)), List.length_cons,
      ih (i + 1) (fun k h1 h2 => h k (by omega) (by omega))]

theorem jaroGreedy_diagonal (s : List Nat) (w : Int) (hw : 0 ≤ w) :
    JaroGreedy s s w s.length (fun i j => i = j ∧ i < s.length) := by
  refine ⟨?_, ?_, ?_, ?_, ?_⟩
  · rintro i j ⟨rfl, hi⟩
    exact ⟨hi, hi, hi, rfl, by omega, by omega⟩
  · rintro i j j' ⟨rfl, _⟩ ⟨rfl, _⟩
    rfl
  · rintro i i' j ⟨rfl, _⟩ ⟨rfl, _⟩
    rfl
  · rintro i j ⟨rfl, _⟩ j' hlt hval
    exact ⟨j', hlt, rfl, hval.2.1⟩
  · intro i hi hun
    exact absurd ⟨rfl, hi⟩ (hun i)

theorem jaroValue_self (n : Nat) : jaroValue n n n 0 = 0 := by
  unfold jaroValue
  split
  · rfl
  · rename_i h
    have hn : (n : ℚ) ≠ 0 := by exact_mod_cast h
    rw [div_self hn]
    norm_num
    rw [div_self hn]
    norm_num

/-- The matching phase on a sequence and itself flags every position of both
copies. -/
theorem jaroFlags_self (s : List Nat) :
    (∀ k, k < s.length → (jaroFlags s s).1.getD k 0 ≠ 0 ∧
      (jaroFlags s s).1.getD (s.length + k) 0 ≠ 0) ∧
    (jaroFlags s s).2 = s.length ∧
    flaggedFrom s (jaroFlags s s).1 0 s.length 0
      = flaggedFrom s (jaroFlags s s).1 s.length s.length 0 := by
  obtain ⟨_, ⟨R, hg, fl1, fl2⟩, hm1, _⟩ := jaroFlags_inv s s
  have hR := jaroGreedy_unique hg (jaroGreedy_diagonal s _ (jaroWindow_nonneg _ _))
  have h1 : ∀ k, k < s.length → (jaroFlags s s).1.getD k 0 ≠ 0 :=
    fun k hk => (fl1 k hk).mpr ⟨k, (hR k k).mpr ⟨rfl, hk⟩⟩
  have h2 : ∀ k, k < s.length → (jaroFlags s s).1.getD (s.length + k) 0 ≠ 0 :=
    fun k hk => (fl2 k hk).mpr ⟨k, (hR k k).mpr ⟨rfl, hk⟩⟩
  refine ⟨fun k hk => ⟨h1 k hk, h2 k hk⟩, ?_, ?_⟩
  · rw [hm1]
    apply flaggedFrom_length_all
    intro k _ hk
    rw [Nat.zero_add] at hk ⊢
    exact h1 k hk
  · apply flaggedFrom_congr
    intro k _ hk
    rw [Nat.zero_add] at hk ⊢
    exact ⟨fun _ => h2 k hk, fun _ => h1 k hk⟩

theorem fc_jaro_self (s : List Nat) : fc_jaro s s = some 0 := by
  obtain ⟨_, hm, hs⟩ := jaroFlags_self s
  rw [fc_jaro_eq, ← hs, mismatches_self, hm, jaroValue_self]

theorem jaroTransposCount_self (s : List Nat) : jaroTransposCount s s = some 0 := by
  obtain ⟨_, _, hs⟩ := jaroFlags_self s
  rw [jaroTransposCount_eq, ← hs, mismatches_self]

theorem jaroTransposCount_comm (a b : List Nat) :
    jaroTransposCount a b = jaroTransposCount b a := by
  obtain ⟨_, ha, hb, _⟩ := jaroFlags_swap a b
  rw [jaroTransposCount_eq, jaroTransposCount_eq, ← ha, ← hb,
    mismatches_comm (flaggedFrom b (jaroFlags a b).1 a.length b.length 0)]

/-! ## Bounds of the longest common substring and subsequence -/

theorem fc_lcsubstr_le_min (a b : List Nat) : fc_lcsubstr a b ≤ min a.length b.length := by
  obtain ⟨_, i, j, hi, hj, e⟩ := fc_lcsubstr_csMax a b
  have h1 := csCell_le a b i j
  have h2 := csCell_le_right a b i j
  omega

theorem fc_lcsubseq_le_min (a b : List Nat) : fc_lcsubseq a b ≤ min a.length b.length := by
  have h1 : fc_lcsubseq a b ≤ a.length := by
    rw [fc_lcsubseq_eq]
    exact lcsCell_le a b _ a.length b.length rfl
  have h2 : fc_lcsubseq a b ≤ b.length := by
    rw [fc_lcsubseq_comm, fc_lcsubseq_eq]
    exact lcsCell_le b a _ b.length a.length rfl
  omega

/-! ## The normalized longest common subsequence -/

theorem fc_nlcsubseq_eq (a b : List Nat) :
    fc_nlcsubseq a b = if a.length = 0 ∧ b.length = 0 then 1
      else 1 - 2 * ((fc_lcsubseq a b : Nat) : ℚ) / (((a.length + b.length : Nat)) : ℚ) := by
  unfold fc_nlcsubseq
  rfl

theorem fc_nlcsubseq_range (a b : List Nat) : 0 ≤ fc_nlcsubseq a b ∧ fc_nlcsubseq a b ≤ 1 := by
  rw [fc_nlcsubseq_eq]
  by_cases h : a.length = 0 ∧ b.length = 0
  · rw [if_pos h]
    exact ⟨by norm_num, le_refl _⟩
  · rw [if_neg h]
    have hle := fc_lcsubseq_le_min a b
    have hpos : (0 : ℚ) < (((a.length + b.length : Nat)) : ℚ) := by
      have : 0 < a.length + b.length := by omega
      exact_mod_cast this
    have h2 : 2 * ((fc_lcsubseq a b : Nat) : ℚ) ≤ (((a.length + b.length : Nat)) : ℚ) := by
      have : 2 * fc_lcsubseq a b ≤ a.length + b.length := by omega
      exact_mod_cast this
    have h3 : 2 * ((fc_lcsubseq a b : Nat) : ℚ) / (((a.length + b.length : Nat)) : ℚ) ≤ 1 :=
      (div_le_one hpos).mpr h2
    have h4 : 0 ≤ 2 * ((fc_lcsubseq a b : Nat) : ℚ) / (((a.length + b.length : Nat)) : ℚ) :=
      div_nonneg (by positivity) (le_of_lt hpos)
    constructor
    · linarith
    · linarith

theorem fc_nlcsubseq_self (s : List Nat) (hs : s ≠ []) : fc_nlcsubseq s s = 0 := by
  have hl : s.length ≠ 0 := fun h => hs (List.length_eq_zero.mp h)
  rw [fc_nlcsubseq_eq, if_neg (fun h => hl h.1), fc_lcsubseq_self]
  have hne : ((s.length : Nat) : ℚ) ≠ 0 := by exact_mod_cast hl
  push_cast
  field_simp
  ring

/-! ## The range of `fc_jaro` -/

theorem mismatches_le_left : ∀ (xs ys : List Nat), mismatches xs ys ≤ xs.length := by
  intro xs
  induction xs with
  | nil => intro ys; rw [mismatches_nil_left]; exact Nat.zero_le _
  | cons x xs ih =>
    intro ys
    cases ys with
    | nil =>
      have e : mismatches (x :: xs) [] = 0 := rfl
      rw [e]
      exact Nat.zero_le _
    | cons y ys =>
      rw [mismatches_cons, List.length_cons]
      have := ih ys
      split <;> omega

theorem jaroFlags_le_min (a b : List Nat) : (jaroFlags a b).2 ≤ min a.length b.length := by
  obtain ⟨_, _, hm1, hm2⟩ := jaroFlags_inv a b
  have h1 := flaggedFrom_length_le a (jaroFlags a b).1 0 a.length 0
  have h2 := flaggedFrom_length_le b (jaroFlags a b).1 a.length b.length 0
  omega

theorem jaroTransposCount_le (a b : List Nat) :
    ∃ t, jaroTransposCount a b = some t ∧ t ≤ (jaroFlags a b).2 := by
  refine ⟨_, jaroTransposCount_eq a b, ?_⟩
  obtain ⟨_, _, hm1, _⟩ := jaroFlags_inv a b
  have := mismatches_le_left (flaggedFrom a (jaroFlags a b).1 0 a.length 0)
    (flaggedFrom b (jaroFlags a b).1 a.length b.length 0)
  rw [← hm1] at this
  exact Nat.le_trans (Nat.div_le_self _ _) this

theorem jaroValue_range (len1 len2 m T : Nat) (h1 : m ≤ len1) (h2 : m ≤ len2)
    (hT : T / 2 ≤ m) : 0 ≤ jaroValue len1 len2 m T ∧ jaroValue len1 len2 m T ≤ 1 := by
  unfold jaroValue
  by_cases hm : m = 0
  · rw [if_pos hm]
    exact ⟨le_refl _, by norm_num⟩
  · rw [if_neg hm]
    have hmpos : (0 : ℚ) < (m : ℚ) := by
      have : 0 < m := by omega
      exact_mod_cast this
    have hl1 : (0 : ℚ) < (len1 : ℚ) := by
      have : 0 < len1 := by omega
      exact_mod_cast this
    have hl2 : (0 : ℚ) < (len2 : ℚ) := by
      have : 0 < len2 := by omega
      exact_mod_cast this
    have c1 : (m : ℚ) ≤ (len1 : ℚ) := by exact_mod_cast h1
    have c2 : (m : ℚ) ≤ (len2 : ℚ) := by exact_mod_cast h2
    have c3 : ((T / 2 : Nat) : ℚ) ≤ (m : ℚ) := by exact_mod_cast hT
    have c4 : (0 : ℚ) ≤ ((T / 2 : Nat) : ℚ) := by positivity
    have a1 : (m : ℚ) / (len1 : ℚ) ≤ 1 := (div_le_one hl1).mpr c1
    have a2 : (m : ℚ) / (len2 : ℚ) ≤ 1 := (div_le_one hl2).mpr c2
    have a3 : ((m : ℚ) - ((T / 2 : Nat) : ℚ)) / (m : ℚ) ≤ 1 :=
      (div_le_one hmpos).mpr (by linarith)
    have b1 : 0 ≤ (m : ℚ) / (len1 : ℚ) := div_nonneg (le_of_lt hmpos) (le_of_lt hl1)
    have b2 : 0 ≤ (m : ℚ) / (len2 : ℚ) := div_nonneg (le_of_lt hmpos) (le_of_lt hl2)
    have b3 : 0 ≤ ((m : ℚ) - ((T / 2 : Nat) : ℚ)) / (m : ℚ) :=
      div_nonneg (by linarith) (le_of_lt hmpos)
    constructor
    · linarith
    · linarith

theorem fc_jaro_range (a b : List Nat) :
    ∃ v, fc_jaro a b = some v ∧ 0 ≤ v ∧ v ≤ 1 := by
  refine ⟨_, fc_jaro_eq a b, ?_⟩
  have hm := jaroFlags_le_min a b
  obtain ⟨_, _, hm1, _⟩ := jaroFlags_inv a b
  have ht := mismatches_le_left (flaggedFrom a (jaroFlags a b).1 0 a.length 0)
    (flaggedFrom b (jaroFlags a b).1 a.length b.length 0)
  rw [← hm1] at ht
  exact jaroValue_range _ _ _ _ (by omega) (by omega)
    (Nat.le_trans (Nat.div_le_self _ _) ht)

/-! ## Glob matching: literals, `?` and classes -/

theorem cstr_cons (c : Nat) (s : List Nat) : cstr (c :: s) = c :: cstr s := rfl

theorem cstr_nil : cstr [] = [0] := rfl

theorem fc_globAux_nul (fuel : Nat) (pat str : List Nat) :
    fc_globAux (fuel + 1) (0 :: pat) str =
      match str with
      | [] => GlobResult.outOfBounds
      | c :: _ => GlobResult.ret (decide (c = 0)) := by
  conv_lhs => unfold fc_globAux
  simp

theorem fc_globAux_default (fuel p : Nat) (pat str : List Nat)
    (hp : p ≠ 0 ∧ p ≠ 63 ∧ p ≠ 42 ∧ p ≠ 91) :
    fc_globAux (fuel + 1) (p :: pat) str =
      match str with
      | [] => GlobResult.outOfBounds
      | c :: str1 => if c ≠ p then GlobResult.ret false else fc_globAux fuel pat str1 := by
  conv_lhs => unfold fc_globAux
  simp only [if_neg hp.1, if_neg hp.2.1, if_neg hp.2.2.1, if_neg hp.2.2.2]

theorem fc_globAux_question (fuel : Nat) (pat str : List Nat) :
    fc_globAux (fuel + 1) (63 :: pat) str =
      match str with
      | [] => GlobResult.outOfBounds
      | c :: str1 => if c = 0 then GlobResult.ret false else fc_globAux fuel pat str1 := by
  conv_lhs => unfold fc_globAux
  simp

theorem fc_globAux_class (fuel q c : Nat) (pat1 str1 : List Nat) :
    fc_globAux (fuel + 1) (91 :: q :: pat1) (c :: str1) =
      match globClassFind (decide (q = 94)) c (if q = 94 then pat1 else q :: pat1) with
      | ClassScan.reject => GlobResult.ret false
      | ClassScan.outOfBounds => GlobResult.outOfBounds
      | ClassScan.next pat3 =>
        match globClassSkip pat3 with
        | ClassScan.reject => GlobResult.ret false
        | ClassScan.outOfBounds => GlobResult.outOfBounds
        | ClassScan.next pat4 => fc_globAux fuel pat4.tail str1 := by
  conv_lhs => unfold fc_globAux
  simp

theorem fc_globAux_end (fuel : Nat) (pat s : List Nat) (hs : ∀ c, c ∈ s → c ≠ 0) :
    fc_globAux (fuel + 1) (0 :: pat) (cstr s) = GlobResult.ret (decide (s = [])) := by
  rw [fc_globAux_nul]
  cases s with
  | nil => rfl
  | cons c s =>
    rw [cstr_cons]
    simp only []
    have hc : c ≠ 0 := hs c (List.mem_cons_self _ _)
    simp [hc]

theorem fc_globAux_literal_step (fuel p : Nat) (pat s : List Nat)
    (hp : p ≠ 0 ∧ p ≠ 63 ∧ p ≠ 42 ∧ p ≠ 91) :
    fc_globAux (fuel + 1) (p :: pat) (cstr s) =
      match s with
      | [] => GlobResult.ret false
      | c :: s1 => if c = p then fc_globAux fuel pat (cstr s1) else GlobResult.ret false := by
  rw [fc_globAux_default _ _ _ _ hp]
  cases s with
  | nil =>
    rw [cstr_nil]
    simp only []
    rw [if_pos (Ne.symm hp.1)]
  | cons c s1 =>
    rw [cstr_cons]
    simp only []
    by_cases h : c = p
    · rw [if_neg (fun hn => hn h), if_pos h]
    · rw [if_pos h, if_neg h]

theorem fc_globAux_question_step (fuel : Nat) (pat s : List Nat) (hs : ∀ c, c ∈ s → c ≠ 0) :
    fc_globAux (fuel + 1) (63 :: pat) (cstr s) =
      match s with
      | [] => GlobResult.ret false
      | _ :: s1 => fc_globAux fuel pat (cstr s1) := by
  rw [fc_globAux_question]
  cases s with
  | nil => rfl
  | cons c s1 =>
    rw [cstr_cons]
    simp only []
    rw [if_neg (hs c (List.mem_cons_self _ _))]

theorem fc_globAux_literal : ∀ (p s : List Nat) (fuel : Nat),
    (∀ c, c ∈ p → c ≠ 0 ∧ c ≠ 63 ∧ c ≠ 42 ∧ c ≠ 91) → (∀ c, c ∈ s → c ≠ 0) →
    p.length + 1 ≤ fuel →
    fc_globAux fuel (cstr p) (cstr s) = GlobResult.ret (decide (s = p)) := by
  intro p
  induction p with
  | nil =>
    intro s fuel _ hs hf
    obtain ⟨f, rfl⟩ : ∃ f, fuel = f + 1 := ⟨fuel - 1, by simp at hf; omega⟩
    rw [cstr_nil, fc_globAux_end f [] s hs]
  | cons x p ih =>
    intro s fuel hp hs hf
    obtain ⟨f, rfl⟩ : ∃ f, fuel = f + 1 := ⟨fuel - 1, by simp at hf; omega⟩
    rw [cstr_cons, fc_globAux_literal_step f x (cstr p) s (hp x (List.mem_cons_self _ _))]
    cases s with
    | nil => simp
    | cons c s1 =>
      simp only []
      by_cases h : c = x
      · rw [if_pos h, ih s1 f (fun c hc => hp c (List.mem_cons_of_mem _ hc))
          (fun c hc => hs c (List.mem_cons_of_mem _ hc)) (by simp at hf; omega)]
        simp [h]
      · rw [if_neg h]
        simp [h]

theorem fc_glob_literal (p s : List Nat)
    (hp : ∀ c, c ∈ p → c ≠ 0 ∧ c ≠ 63 ∧ c ≠ 42 ∧ c ≠ 91) (hs : ∀ c, c ∈ s → c ≠ 0) :
    fc_glob (cstr p) (cstr s) = GlobResult.ret (decide (s = p)) := by
  unfold fc_glob
  exact fc_globAux_literal p s _ hp hs (by simp [cstr])

theorem fc_glob_a_question_b (s : List Nat) (hs : ∀ c, c ∈ s → c ≠ 0) :
    fc_glob (cstr [97, 63, 98]) (cstr s)
      = GlobResult.ret (decide (s.length = 3 ∧ s.getD 0 0 = 97 ∧ s.getD 2 0 = 98)) := by
  unfold fc_glob
  have e : (cstr [97, 63, 98]).length + 1 = 4 + 1 := rfl
  rw [e, cstr_cons, fc_globAux_literal_step 4 97 _ s (by decide)]
  cases s with
  | nil => simp
  | cons a s1 =>
    simp only []
    by_cases ha : a = 97
    · rw [if_pos ha, cstr_cons,
        fc_globAux_question_step 3 _ s1 (fun c hc => hs c (List.mem_cons_of_mem _ hc))]
      cases s1 with
      | nil => simp
      | cons x s2 =>
        simp only []
        have hs2 : ∀ c, c ∈ s2 → c ≠ 0 :=
          fun c hc => hs c (List.mem_cons_of_mem _ (List.mem_cons_of_mem _ hc))
        have := fc_globAux_literal [98] s2 3 (by decide) hs2 (by decide)
        rw [this]
        cases s2 with
        | nil => simp
        | cons b s3 =>
          cases s3 with
          | nil => simp [ha]
          | cons y s4 => simp
    · rw [if_neg ha]
      simp [ha]

/-! ## Glob matching: the two loops of a class -/

theorem globClassFind_cons (invert : Bool) (c p : Nat) (pat : List Nat) :
    globClassFind invert c (p :: pat) =
      if (decide (p = c)) = invert then
        if p = 0 ∨ p = 93 then ClassScan.reject else globClassFind invert c pat
      else ClassScan.next (p :: pat) := by
  conv_lhs => unfold globClassFind

theorem globClassSkip_cons_cons (p q : Nat) (rest : List Nat) :
    globClassSkip (p :: q :: rest) =
      if p = 0 then ClassScan.reject
      else if q ≠ 93 then globClassSkip (q :: rest) else ClassScan.next (q :: rest) := by
  conv_lhs => unfold globClassSkip

theorem globClassSkip_nul (rest : List Nat) : globClassSkip (0 :: rest) = ClassScan.reject := by
  unfold globClassSkip
  rw [if_pos rfl]

theorem globClassSkip_unterminated : ∀ (l : List Nat), (∀ x, x ∈ l → x ≠ 93 ∧ x ≠ 0) →
    globClassSkip (cstr l) = ClassScan.reject := by
  intro l
  induction l with
  | nil => intro _; exact globClassSkip_nul []
  | cons x l ih =>
    intro h
    have hl : ∀ y, y ∈ l → y ≠ 93 ∧ y ≠ 0 := fun y hy => h y (List.mem_cons_of_mem _ hy)
    have hx := h x (List.mem_cons_self _ _)
    cases l with
    | nil =>
      show globClassSkip (x :: 0 :: []) = _
      rw [globClassSkip_cons_cons, if_neg hx.2, if_pos (by decide)]
      exact globClassSkip_nul []
    | cons y l1 =>
      show globClassSkip (x :: y :: cstr l1) = _
      rw [globClassSkip_cons_cons, if_neg hx.2, if_pos (hl y (List.mem_cons_self _ _)).1]
      exact ih hl

theorem globClassFind_unterminated (invert : Bool) (c : Nat) : ∀ (l : List Nat),
    (∀ x, x ∈ l → x ≠ 93 ∧ x ≠ 0) →
    globClassFind invert c (cstr l) = ClassScan.reject ∨
    ∃ l', (∀ x, x ∈ l' → x ≠ 93 ∧ x ≠ 0) ∧
      globClassFind invert c (cstr l) = ClassScan.next (cstr l') := by
  intro l
  induction l with
  | nil =>
    intro h
    rw [cstr_nil, globClassFind_cons]
    by_cases hc : (decide (0 = c)) = invert
    · rw [if_pos hc, if_pos (Or.inl rfl)]
      exact Or.inl rfl
    · rw [if_neg hc]
      exact Or.inr ⟨[], h, rfl⟩
  | cons x l ih =>
    intro h
    have hl : ∀ y, y ∈ l → y ≠ 93 ∧ y ≠ 0 := fun y hy => h y (List.mem_cons_of_mem _ hy)
    have hx := h x (List.mem_cons_self _ _)
    rw [cstr_cons, globClassFind_cons]
    by_cases hc : (decide (x = c)) = invert
    · rw [if_pos hc, if_neg (by omega)]
      exact ih hl
    · rw [if_neg hc]
      exact Or.inr ⟨x :: l, h, rfl⟩

/-- A class without its closing `]` rejects: the pattern `[` followed by `w`,
where `w` holds no `]`, matches no string. -/
theorem fc_glob_unterminated_class (w s : List Nat) (hw : ∀ x, x ∈ w → x ≠ 93 ∧ x ≠ 0) :
    fc_glob (cstr (91 :: w)) (cstr s) = GlobResult.ret false := by
  unfold fc_glob
  obtain ⟨f, hf⟩ : ∃ f, (cstr (91 :: w)).length + 1 = f + 1 := ⟨_, rfl⟩
  rw [hf]
  obtain ⟨c, str1, hs⟩ : ∃ c str1, cstr s = c :: str1 := by
    cases s with
    | nil => exact ⟨0, [], rfl⟩
    | cons c s1 => exact ⟨c, cstr s1, rfl⟩
  have key : ∀ (invert : Bool) (l : List Nat), (∀ x, x ∈ l → x ≠ 93 ∧ x ≠ 0) →
      (match globClassFind invert c (cstr l) with
        | ClassScan.reject => GlobResult.ret false
        | ClassScan.outOfBounds => GlobResult.outOfBounds
        | ClassScan.next pat3 =>
          match globClassSkip pat3 with
          | ClassScan.reject => GlobResult.ret false
          | ClassScan.outOfBounds => GlobResult.outOfBounds
          | ClassScan.next pat4 => fc_globAux f pat4.tail str1) = GlobResult.ret false := by
    intro invert l hl
    rcases globClassFind_unterminated invert c l hl with e | ⟨l', hl', e⟩
    · rw [e]
    · rw [e]
      simp only []
      rw [globClassSkip_unterminated l' hl']
  rw [hs, cstr_cons]
  cases w with
  | nil =>
    rw [cstr_nil, fc_globAux_class, if_neg (by decide)]
    exact key _ [] hw
  | cons x w1 =>
    rw [cstr_cons, fc_globAux_class]
    have hw1 : ∀ y, y ∈ w1 → y ≠ 93 ∧ y ≠ 0 := fun y hy => hw y (List.mem_cons_of_mem _ hy)
    by_cases hx : x = 94
    · rw [if_pos hx]
      exact key _ w1 hw1
    · rw [if_neg hx]
      exact key _ (x :: w1) hw

/-- The empty class `[]` rejects every string. -/
theorem fc_glob_empty_class (s : List Nat) :
    fc_glob (cstr [91, 93]) (cstr s) = GlobResult.ret false := by
  unfold fc_glob
  obtain ⟨c, str1, hs⟩ : ∃ c str1, cstr s = c :: str1 := by
    cases s with
    | nil => exact ⟨0, [], rfl⟩
    | cons c s1 => exact ⟨c, cstr s1, rfl⟩
  have e : (cstr [91, 93]).length + 1 = 3 + 1 := rfl
  rw [hs, e]
  show fc_globAux (3 + 1) (91 :: 93 :: [0]) (c :: str1) = _
  rw [fc_globAux_class, if_neg (by decide), globClassFind_cons]
  by_cases hc : (decide (93 = c)) = decide (93 = 94)
  · rw [if_pos hc, if_pos (Or.inr rfl)]
  · rw [if_neg hc]
    simp only []
    rw [globClassSkip_cons_cons, if_neg (by decide), if_pos (by decide), globClassSkip_nul]

theorem globClassFind_member (c : Nat) : ∀ (l : List Nat), (∀ x, x ∈ l → x ≠ 93 ∧ x ≠ 0) →
    (c ∈ l → ∃ x l2, x ≠ 0 ∧ (∀ y, y ∈ l2 → y ≠ 93 ∧ y ≠ 0) ∧
      globClassFind false c (l ++ [93, 0]) = ClassScan.next (x :: (l2 ++ [93, 0]))) ∧
    (c ∉ l → globClassFind false c (l ++ [93, 0])
      = if c = 93 then ClassScan.next [93, 0] else ClassScan.reject) := by
  intro l
  induction l with
  | nil =>
    intro _
    refine ⟨fun h => absurd h (List.not_mem_nil _), fun _ => ?_⟩
    rw [List.nil_append, globClassFind_cons]
    by_cases hc : c = 93
    · rw [if_neg (by rw [hc]; decide), if_pos hc]
    · rw [if_pos (by simp; omega), if_pos (Or.inr rfl), if_neg hc]
  | cons x l ih =>
    intro h
    have hl : ∀ y, y ∈ l → y ≠ 93 ∧ y ≠ 0 := fun y hy => h y (List.mem_cons_of_mem _ hy)
    have hx := h x (List.mem_cons_self _ _)
    rw [List.cons_append, globClassFind_cons]
    by_cases hxc : x = c
    · rw [if_neg (by simp [hxc])]
      refine ⟨fun _ => ⟨x, l, hx.2, hl, rfl⟩, fun hn => ?_⟩
      exact absurd (by rw [hxc]; exact List.mem_cons_self _ _) hn
    · rw [if_pos (by simp [hxc]), if_neg (by omega)]
      refine ⟨fun hm => (ih hl).1 ?_, fun hn => (ih hl).2 ?_⟩
      · rcases List.mem_cons.mp hm with e | e
        · exact absurd e.symm hxc
        · exact e
      · exact fun hm => hn (List.mem_cons_of_mem _ hm)

theorem globClassSkip_to_bracket : ∀ (l : List Nat) (x : Nat), x ≠ 0 →
    (∀ y, y ∈ l → y ≠ 93 ∧ y ≠ 0) →
    globClassSkip (x :: (l ++ [93, 0])) = ClassScan.next [93, 0] := by
  intro l
  induction l with
  | nil =>
    intro x hx _
    rw [List.nil_append, globClassSkip_cons_cons, if_neg hx, if_neg (by decide)]
  | cons y l ih =>
    intro x hx h
    have hy := h y (List.mem_cons_self _ _)
    rw [List.cons_append, globClassSkip_cons_cons, if_neg hx, if_pos hy.1]
    exact ih y hy.2 (fun z hz => h z (List.mem_cons_of_mem _ hz))

/-- A class `[w]` without negation, where `w` is not empty and holds no `]`,
matches exactly the strings made of one codepoint of `w`. -/
theorem fc_glob_class (w s : List Nat) (hne : w ≠ [])
    (hw : ∀ x, x ∈ w → x ≠ 93 ∧ x ≠ 0) (hhead : w.head? ≠ some 94)
    (hs : ∀ c, c ∈ s → c ≠ 0) :
    fc_glob (cstr (91 :: (w ++ [93]))) (cstr s)
      = GlobResult.ret (decide (s.length = 1 ∧ s.getD 0 0 ∈ w)) := by
  unfold fc_glob
  obtain ⟨f, hf⟩ : ∃ f, (cstr (91 :: (w ++ [93]))).length + 1 = f + 1 + 1 :=
    ⟨(w ++ [93]).length + 1, by simp [cstr]⟩
  rw [hf]
  obtain ⟨q, w1, rfl⟩ : ∃ q w1, w = q :: w1 := by
    cases w with
    | nil => exact absurd rfl hne
    | cons q w1 => exact ⟨q, w1, rfl⟩
  have hq : q ≠ 94 := fun h => hhead (by rw [h]; rfl)
  have e1 : cstr (91 :: ((q :: w1) ++ [93])) = 91 :: q :: (w1 ++ [93, 0]) := by
    simp [cstr]
  have e2 : q :: (w1 ++ [93, 0]) = (q :: w1) ++ [93, 0] := rfl
  rw [e1]
  cases s with
  | nil =>
    rw [cstr_nil, fc_globAux_class, if_neg hq, decide_eq_false hq, e2,
      ((globClassFind_member 0 (q :: w1) hw).2 (fun hm => (hw 0 hm).2 rfl)),
      if_neg (by decide)]
    simp
  | cons c s1 =>
    have hs1 : ∀ y, y ∈ s1 → y ≠ 0 := fun y hy => hs y (List.mem_cons_of_mem _ hy)
    have hget : (c :: s1).getD 0 0 = c := rfl
    rw [cstr_cons, fc_globAux_class, if_neg hq, decide_eq_false hq, e2, hget]
    by_cases hc : c ∈ q :: w1
    · obtain ⟨x, l2, hx, hl2, e⟩ := (globClassFind_member c (q :: w1) hw).1 hc
      rw [e]
      simp only []
      rw [globClassSkip_to_bracket l2 x hx hl2]
      simp only [List.tail_cons]
      rw [fc_globAux_end f [] s1 hs1]
      congr 1
      by_cases h1 : s1 = []
      · simp [h1, hc]
      · have : s1.length ≠ 0 := fun h => h1 (List.length_eq_zero.mp h)
        simp [h1, this]
    · rw [(globClassFind_member c (q :: w1) hw).2 hc]
      have hf : ¬ ((c :: s1).length = 1 ∧ c ∈ q :: w1) := fun h => hc h.2
      by_cases h93 : c = 93
      · rw [if_pos h93]
        simp only []
        rw [globClassSkip_cons_cons, if_neg (by decide), if_pos (by decide),
          globClassSkip_nul]
        simp only []
        rw [decide_eq_false hf]
      · rw [if_neg h93]
        simp only []
        rw [decide_eq_false hf]

/-! ## The metric of a memoizer along its calls -/

theorem fc_memo_metric_index_eq (ctx : fc_memo) :
    fc_memo_metric_index ctx = some (fc_memo_metric ctx).val := by
  unfold fc_memo_metric_index fc_memo_metric memoFuncs
  cases ctx.compute <;> rfl

theorem fc_metric_val_injective (m m' : fc_metric) (h : m.val = m'.val) : m = m' := by
  cases m <;> cases m' <;> first | rfl | exact absurd h (by decide)

theorem fc_memo_distance_compute (ctx ctx' : fc_memo) (q : List Nat) (t : Bool) (v : Nat)
    (h : fc_memo_distance ctx q t = some (v, ctx')) : ctx'.compute = ctx.compute := by
  unfold fc_memo_distance at h
  split at h
  · exact absurd h (by simp)
  · split at h
    · exact absurd h (by simp)
    · simp only [] at h
      split at h
      · have := (Prod.mk.inj (Option.some.inj h)).2
        rw [← this]
      · split at h
        · have := (Prod.mk.inj (Option.some.inj h)).2
          rw [← this]
        · have := (Prod.mk.inj (Option.some.inj h)).2
          rw [← this]

theorem fc_memo_compute_compute (ctx ctx' : fc_memo) (q : List Nat) (v : Nat)
    (h : fc_memo_compute ctx q = some (v, ctx')) : ctx'.compute = ctx.compute := by
  unfold fc_memo_compute at h
  split at h
  · unfold fc_memo_levenshtein at h
    split at h
    all_goals exact fc_memo_distance_compute _ _ _ _ _ h
  · unfold fc_memo_damerau at h
    split at h
    all_goals exact fc_memo_distance_compute _ _ _ _ _ h
  · unfold fc_memo_lcsubstr at h
    split at h
    · exact absurd h (by simp)
    · split at h
      · exact absurd h (by simp)
      · have := (Prod.mk.inj (Option.some.inj h)).2
        rw [← this]
  · unfold fc_memo_lcsubseq at h
    split at h
    · exact absurd h (by simp)
    · split at h
      · exact absurd h (by simp)
      · have := (Prod.mk.inj (Option.some.inj h)).2
        rw [← this]

theorem memoOps_compute : ∀ (ops : List MemoOp) (ctx ctx' : fc_memo),
    memoOps ctx ops = some ctx' → ctx'.compute = ctx.compute := by
  intro ops
  induction ops with
  | nil =>
    intro ctx ctx' h
    rw [memoOps] at h
    rw [← Option.some.inj h]
  | cons op ops ih =>
    intro ctx ctx' h
    cases op with
    | set_ref r =>
      rw [memoOps] at h
      rw [ih _ _ h]
      rfl
    | compute q =>
      rw [memoOps] at h
      cases hc : fc_memo_compute ctx q with
      | none => rw [hc] at h; exact absurd h (by simp)
      | some x =>
        rw [hc] at h
        simp only [] at h
        rw [ih _ _ h]
        exact fc_memo_compute_compute ctx x.2 q x.1 hc

theorem MemoInv_set_ref (metric : fc_metric) (max_len : Nat) (r1 r2 : List Nat) (ctx : fc_memo)
    (h : MemoInv metric max_len r1 ctx) (hr : r2.length ≤ max_len) :
    MemoInv metric max_len r2 (fc_memo_set_ref ctx r2) := by
  obtain ⟨hcomp, h1, h2, h3, h4, h5, h6, hrest⟩ := h
  cases metric with
  | FC_LEVENSHTEIN =>
    obtain ⟨hM, hc0, hr0, _⟩ := hrest
    refine ⟨hcomp, h1, rfl, rfl, hr, h5, Nat.zero_le _, hM, hc0, hr0, ?_⟩
    intro i j hi hj
    have hj0 : j = 0 := Nat.le_zero.mp hj
    have hi' : i < ctx.mdim := by rw [h1]; omega
    rw [hj0, distCell_zero_right]
    exact hc0 i hi'
  | FC_DAMERAU =>
    obtain ⟨hM, hc0, hr0, _⟩ := hrest
    refine ⟨hcomp, h1, rfl, rfl, hr, h5, Nat.zero_le _, hM, hc0, hr0, ?_⟩
    intro i j hi hj
    have hj0 : j = 0 := Nat.le_zero.mp hj
    have hi' : i < ctx.mdim := by rw [h1]; omega
    rw [hj0, distCell_zero_right]
    exact hc0 i hi'
  | FC_LCSUBSEQ =>
    obtain ⟨hM, hc0, hr0, _⟩ := hrest
    refine ⟨hcomp, h1, rfl, rfl, hr, h5, Nat.zero_le _, hM, hc0, hr0, ?_⟩
    intro i j hi hj
    have hj0 : j = 0 := Nat.le_zero.mp hj
    have hi' : i < ctx.mdim := by rw [h1]; omega
    rw [hj0, lcsCell_zero_right]
    exact hc0 i hi'
  | FC_LCSUBSTR =>
    obtain ⟨hM, hc0, hr0, _, hmax⟩ := hrest
    refine ⟨hcomp, h1, rfl, rfl, hr, h5, Nat.zero_le _, hM, hc0, hr0, ?_, ?_⟩
    · intro i j hi hj
      have hi0 : i = 0 := Nat.le_zero.mp hi
      have hj' : j < ctx.mdim := by rw [h1]; omega
      rw [hi0, csCell_zero_right]
      exact hr0 j hj'
    · intro i hi
      have hi0 : i = 0 := Nat.le_zero.mp hi
      obtain ⟨_, i1, j1, _, hj1, e⟩ := hmax 0 (Nat.zero_le _)
      have hj10 : j1 = 0 := Nat.le_zero.mp hj1
      rw [hj10, csCell_zero_right] at e
      rw [hi0]
      show CsMax r2 ctx.seq2 r2.length 0 (ctx.matrix.getD (ctx.mdim * ctx.mdim + 0) 0)
      rw [← e]
      refine ⟨fun i j _ hj => ?_, 0, 0, Nat.zero_le _, Nat.le_refl _, csCell_zero_right _ _ _⟩
      have hj0 : j = 0 := Nat.le_zero.mp hj
      rw [hj0, csCell_zero_right]

theorem memoOps_inv (metric : fc_metric) (max_len : Nat) : ∀ (ops : List MemoOp)
    (r : List Nat) (ctx : fc_memo), MemoInv metric max_len r ctx →
    (∀ s, MemoOp.set_ref s ∈ ops → s.length ≤ max_len) →
    (∀ q, MemoOp.compute q ∈ ops → q.length ≤ max_len) →
    ∃ ctx' r', memoOps ctx ops = some ctx' ∧ MemoInv metric max_len r' ctx' := by
  intro ops
  induction ops with
  | nil => intro r ctx h _ _; exact ⟨ctx, r, rfl, h⟩
  | cons op ops ih =>
    intro r ctx h hs hq
    have hs' : ∀ s, MemoOp.set_ref s ∈ ops → s.length ≤ max_len :=
      fun s hm => hs s (List.mem_cons_of_mem _ hm)
    have hq' : ∀ q, MemoOp.compute q ∈ ops → q.length ≤ max_len :=
      fun q hm => hq q (List.mem_cons_of_mem _ hm)
    cases op with
    | set_ref s =>
      rw [memoOps]
      exact ih s _ (MemoInv_set_ref metric max_len r s ctx h (hs s (List.mem_cons_self _ _)))
        hs' hq'
    | compute q =>
      obtain ⟨v, ctx1, e, hinv, _⟩ := MemoInv_compute metric max_len r q ctx h
        (hq q (List.mem_cons_self _ _))
      rw [memoOps, e]
      exact ih r ctx1 hinv hs' hq'

/-! ## The normalized Damerau distance under `FC_NORM_LALIGN` -/

theorem alignPath_cost_le {a b : List Nat} {n m : Nat} (h : AlignPath a b n m) : n ≤ m := by
  induction h with
  | nil => exact Nat.le_refl _
  | keep x _ ih => omega
  | sub x y _ ih => omega
  | del x _ ih => omega
  | ins y _ ih => omega

theorem ndamRows_rotate {W t p c lt lp lc : Nat} (h : NdamRows W t p c lt lp lc) :
    NdamRows W p c t lp lc lt := by
  unfold NdamRows at h ⊢
  omega

theorem getD_set_set_ne (M : List Nat) (x y v w k : Nat) (h1 : x ≠ k) (h2 : y ≠ k) :
    ((M.set x v).set y w).getD k 0 = M.getD k 0 := by
  rw [getD_set_ne _ _ _ _ h2, getD_set_ne _ _ _ _ h1]

theorem ndam_arith (tr : Bool) (a b r e x la lb lr lx : Nat) (ha : a ≤ la) (hb : b ≤ lb)
    (hr : r ≤ lr) (he : e ≤ 1) (hx : tr = true → x ≤ lx) :
    ndamCost tr (a + 1) (b + 1) (r + e) (x + 1)
      ≤ ndamLen tr (a + 1) (b + 1) (r + e) (x + 1) la lb lr lx ∧
    1 ≤ ndamLen tr (a + 1) (b + 1) (r + e) (x + 1) la lb lr lx := by
  unfold ndamLen ndamCost
  simp only [FC_MIN3_eq, FC_MIN_eq, FC_MAX3_eq, FC_MAX_eq]
  cases tr with
  | false =>
    simp only [Bool.false_eq_true, if_false]
    split_ifs <;> omega
  | true =>
    have hx' := hx rfl
    simp only [if_true]
    split_ifs <;> omega

theorem ndamBody_spec (seq1 seq2 : List Nat) (W i t p c lt lp lc j : Nat) (M : List Nat)
    (hrows : NdamRows W t p c lt lp lc) (hj1 : 1 ≤ j) (hjW : j < W)
    (hlen : 6 * W ≤ M.length) :
    ndamBody seq1 seq2 i t p c lt lp lc j M
      = (M.set (c + j) (ndamCost (TRANSPOSED seq1 seq2 i j)
            (M.getD (c + (j - 1)) 0 + 1) (M.getD (p + j) 0 + 1)
            (M.getD (p + (j - 1)) 0
              + (if seq1.getD (i - 1) 0 ≠ seq2.getD (j - 1) 0 then 1 else 0))
            (M.getD (t + (j - 2)) 0 + 1))).set (lc + j)
          (ndamLen (TRANSPOSED seq1 seq2 i j)
            (M.getD (c + (j - 1)) 0 + 1) (M.getD (p + j) 0 + 1)
            (M.getD (p + (j - 1)) 0
              + (if seq1.getD (i - 1) 0 ≠ seq2.getD (j - 1) 0 then 1 else 0))
            (M.getD (t + (j - 2)) 0 + 1)
            (M.getD (lc + (j - 1)) 0) (M.getD (lp + j) 0) (M.getD (lp + (j - 1)) 0)
            (M.getD (lt + (j - 2)) 0)) := by
  unfold NdamRows at hrows
  have h1 : c + j ≠ t + (j - 2) := by omega
  have h2 : c + j ≠ lc + (j - 1) := by omega
  have h3 : c + j ≠ lp + j := by omega
  have h4 : c + j ≠ lp + (j - 1) := by omega
  have h5 : lc + j ≠ c + j := by omega
  have h6 : lc + j ≠ lt + (j - 2) := by omega
  have h7 : c + j ≠ lt + (j - 2) := by omega
  have hb1 : c + j < M.length := by omega
  have hb2 : lc + j < M.length := by omega
  clear hrows
  unfold ndamBody ndamLen ndamCost
  simp only []
  cases TRANSPOSED seq1 seq2 i j with
  | false =>
    simp only [Bool.false_eq_true, if_false]
    rw [getD_set_eq _ _ _ hb1, getD_set_ne _ _ _ _ h2, getD_set_ne _ _ _ _ h3,
      getD_set_ne _ _ _ _ h4]
  | true =>
    simp only [if_true]
    rw [List.set_set, getD_set_ne _ _ _ _ h1, getD_set_eq _ _ _ hb1, List.set_set,
      getD_set_eq _ _ _ (by rw [List.length_set]; exact hb2),
      getD_set_ne _ _ _ _ h5, getD_set_eq _ _ _ hb1, getD_set_ne _ _ _ _ h2,
      getD_set_ne _ _ _ _ h3, getD_set_ne _ _ _ _ h4, getD_set_ne _ _ _ _ h6,
      getD_set_ne _ _ _ _ h7]


theorem transposed_imp (seq1 seq2 : List Nat) (i j : Nat)
    (h : TRANSPOSED seq1 seq2 i j = true) : 2 ≤ i ∧ 2 ≤ j := by
  unfold TRANSPOSED at h
  have := of_decide_eq_true h
  omega

theorem ndamBody_inv (seq1 seq2 : List Nat) (W i t p c lt lp lc j : Nat) (M : List Nat)
    (hrows : NdamRows W t p c lt lp lc) (hj1 : 1 ≤ j) (hjW : j < W)
    (hinv : NdamInv W i t p c lt lp lc j M) :
    NdamInv W i t p c lt lp lc (j + 1) (ndamBody seq1 seq2 i t p c lt lp lc j M) := by
  obtain ⟨hlen, hc, hp, ht⟩ := hinv
  rw [ndamBody_spec seq1 seq2 W i t p c lt lp lc j M hrows hj1 hjW hlen]
  have harith := ndam_arith (TRANSPOSED seq1 seq2 i j)
    (M.getD (c + (j - 1)) 0) (M.getD (p + j) 0) (M.getD (p + (j - 1)) 0)
    (if seq1.getD (i - 1) 0 ≠ seq2.getD (j - 1) 0 then 1 else 0)
    (M.getD (t + (j - 2)) 0)
    (M.getD (lc + (j - 1)) 0) (M.getD (lp + j) 0) (M.getD (lp + (j - 1)) 0)
    (M.getD (lt + (j - 2)) 0)
    (hc (j - 1) (by omega)).1 (hp j hjW).1 (hp (j - 1) (by omega)).1
    (by split <;> omega)
    (fun htr => by
      obtain ⟨h2i, h2j⟩ := transposed_imp seq1 seq2 i j htr
      exact ht h2i (j - 2) (by omega))
  generalize ndamCost (TRANSPOSED seq1 seq2 i j) _ _ _ _ = D at harith ⊢
  generalize ndamLen (TRANSPOSED seq1 seq2 i j) _ _ _ _ _ _ _ _ = L at harith ⊢
  unfold NdamRows at hrows
  have hb1 : c + j < M.length := by omega
  have hb2 : lc + j < M.length := by omega
  refine ⟨by rw [List.length_set, List.length_set]; exact hlen, ?_, ?_, ?_⟩
  · intro k hk
    by_cases hkj : k = j
    · subst hkj
      unfold NdamGood
      rw [getD_set_ne _ _ _ _ (by omega : lc + k ≠ c + k), getD_set_eq _ _ _ hb1,
        getD_set_eq _ _ _ (by rw [List.length_set]; exact hb2)]
      exact ⟨harith.1, fun _ => harith.2⟩
    · have := hc k (by omega)
      unfold NdamGood at this ⊢
      rw [getD_set_set_ne _ _ _ _ _ _ (by omega) (by omega),
        getD_set_set_ne _ _ _ _ _ _ (by omega) (by omega)]
      exact this
  · intro k hk
    have := hp k hk
    unfold NdamGood at this ⊢
    rw [getD_set_set_ne _ _ _ _ _ _ (by omega) (by omega),
      getD_set_set_ne _ _ _ _ _ _ (by omega) (by omega)]
    exact this
  · intro h2 k hk
    rw [getD_set_set_ne _ _ _ _ _ _ (by omega) (by omega),
      getD_set_set_ne _ _ _ _ _ _ (by omega) (by omega)]
    exact ht h2 k hk

theorem ndamInner_inv (seq1 seq2 : List Nat) (W i t p c lt lp lc : Nat)
    (hrows : NdamRows W t p c lt lp lc) : ∀ (n j : Nat) (M : List Nat), 1 ≤ j → j + n = W →
    NdamInv W i t p c lt lp lc j M →
    NdamInv W i t p c lt lp lc W (ndamInner seq1 seq2 i t p c lt lp lc n j M) := by
  intro n
  induction n with
  | zero =>
    intro j M _ hj hinv
    rw [ndamInner]
    have : j = W := by omega
    subst this
    exact hinv
  | succ n ih =>
    intro j M hj1 hj hinv
    rw [ndamInner]
    exact ih (j + 1) _ (by omega) (by omega)
      (ndamBody_inv seq1 seq2 W i t p c lt lp lc j M hrows hj1 (by omega) hinv)

theorem ndamOuter_inv (seq1 seq2 : List Nat) (W : Nat) (hW : seq2.length + 1 = W) :
    ∀ (n i t p c lt lp lc : Nat) (M : List Nat), NdamRows W t p c lt lp lc →
    6 * W ≤ M.length → (∀ k, k < W → NdamGood M p lp k) →
    (2 ≤ i → ∀ k, k < W → M.getD (t + k) 0 ≤ M.getD (lt + k) 0) →
    ∀ k, k < W →
      NdamGood (ndamOuter seq1 seq2 n i t p c lt lp lc M).1
        (ndamOuter seq1 seq2 n i t p c lt lp lc M).2.1
        (ndamOuter seq1 seq2 n i t p c lt lp lc M).2.2 k := by
  intro n
  induction n with
  | zero =>
    intro i t p c lt lp lc M _ _ hp _
    rw [ndamOuter]
    exact hp
  | succ n ih =>
    intro i t p c lt lp lc M hrows hlen hp ht
    rw [ndamOuter]
    have hrows0 := hrows
    unfold NdamRows at hrows0
    have hb1 : c + 0 < M.length := by omega
    have hb2 : lc + 0 < M.length := by omega
    have h0 : NdamInv W i t p c lt lp lc 1 ((M.set (lc + 0) i).set (c + 0) i) := by
      refine ⟨by rw [List.length_set, List.length_set]; exact hlen, ?_, ?_, ?_⟩
      · intro k hk
        have hk0 : k = 0 := by omega
        subst hk0
        unfold NdamGood
        rw [getD_set_eq _ _ _ (by rw [List.length_set]; exact hb1),
          getD_set_ne _ _ _ _ (by omega : c + 0 ≠ lc + 0), getD_set_eq _ _ _ hb2]
        exact ⟨Nat.le_refl _, fun h => absurd h (by omega)⟩
      · intro k hk
        have := hp k hk
        unfold NdamGood at this ⊢
        rw [getD_set_set_ne _ _ _ _ _ _ (by omega) (by omega),
          getD_set_set_ne _ _ _ _ _ _ (by omega) (by omega)]
        exact this
      · intro h2 k hk
        rw [getD_set_set_ne _ _ _ _ _ _ (by omega) (by omega),
          getD_set_set_ne _ _ _ _ _ _ (by omega) (by omega)]
        exact ht h2 k hk
    obtain ⟨i1, i2, i3, _⟩ := ndamInner_inv seq1 seq2 W i t p c lt lp lc hrows seq2.length 1 _
      (Nat.le_refl _) (by omega) h0
    exact ih (i + 1) p c t lp lc lt _ (ndamRows_rotate hrows) i1 i2
      (fun _ k hk => (i3 k hk).1)

theorem ndamFill_spec (p lp W : Nat) (hsep : lp + W ≤ p) : ∀ (n j : Nat) (M : List Nat),
    j + n = W → p + W ≤ M.length →
    (∀ k, k < j → M.getD (p + k) 0 = k ∧ M.getD (lp + k) 0 = k) →
    (ndamFill p lp n j M).length = M.length ∧
    ∀ k, k < W → (ndamFill p lp n j M).getD (p + k) 0 = k ∧
      (ndamFill p lp n j M).getD (lp + k) 0 = k := by
  intro n
  induction n with
  | zero =>
    intro j M hj _ h
    rw [ndamFill]
    exact ⟨rfl, fun k hk => h k (by omega)⟩
  | succ n ih =>
    intro j M hj hlen h
    rw [ndamFill]
    obtain ⟨e1, e2⟩ := ih (j + 1) ((M.set (lp + j) j).set (p + j) j) (by omega)
      (by rw [List.length_set, List.length_set]; exact hlen)
      (by
        intro k hk
        by_cases hkj : k = j
        · subst hkj
          rw [getD_set_eq _ _ _ (by rw [List.length_set]; omega),
            getD_set_ne _ _ _ _ (by omega : p + k ≠ lp + k), getD_set_eq _ _ _ (by omega)]
          exact ⟨rfl, rfl⟩
        · rw [getD_set_set_ne _ _ _ _ _ _ (by omega) (by omega),
            getD_set_set_ne _ _ _ _ _ _ (by omega) (by omega)]
          exact h k (by omega))
    rw [e1, List.length_set, List.length_set]
    exact ⟨rfl, e2⟩

theorem ndamOperands_spec (m a b : List Nat) (hb : b.length ≠ 0)
    (hlen : 6 * (b.length + 1) ≤ m.length) :
    (ndamOperands m a b).1 ≤ (ndamOperands m a b).2 ∧ 0 < (ndamOperands m a b).2 := by
  unfold ndamOperands
  simp only []
  obtain ⟨f1, f2⟩ := ndamFill_spec
    (0 + (b.length + 1) + (b.length + 1) + (b.length + 1) + (b.length + 1))
    (0 + (b.length + 1)) (b.length + 1) (by omega) (b.length + 1) 0 m (by omega) (by omega)
    (fun k hk => absurd hk (by omega))
  have h := ndamOuter_inv a b (b.length + 1) rfl a.length 1
    (0 + (b.length + 1) + (b.length + 1) + (b.length + 1))
    (0 + (b.length + 1) + (b.length + 1) + (b.length + 1) + (b.length + 1))
    (0 + (b.length + 1) + (b.length + 1) + (b.length + 1) + (b.length + 1) + (b.length + 1))
    0 (0 + (b.length + 1)) (0 + (b.length + 1) + (b.length + 1))
    (ndamFill (0 + (b.length + 1) + (b.length + 1) + (b.length + 1) + (b.length + 1))
      (0 + (b.length + 1)) (b.length + 1) 0 m)
    (by unfold NdamRows; omega) (by rw [f1]; exact hlen)
    (by
      intro k hk
      unfold NdamGood
      rw [(f2 k hk).1, (f2 k hk).2]
      exact ⟨Nat.le_refl _, fun h => h⟩)
    (fun h => absurd h (by omega)) b.length (by omega)
  unfold NdamGood at h
  exact ⟨h.1, h.2 (by omega)⟩

theorem fc_ndamerau0_lalign (m a b : List Nat) (hb : b.length ≠ 0) :
    fc_ndamerau0 m fc_norm_method.FC_NORM_LALIGN a b
      = (((ndamOperands m a b).1 : Nat) : ℚ) / (((ndamOperands m a b).2 : Nat) : ℚ) := by
  unfold fc_ndamerau0 ndamOperands
  rw [if_neg hb]

theorem fc_ndamerau0_empty (m : List Nat) (method : fc_norm_method) (a b : List Nat)
    (hb : b.length = 0) :
    fc_ndamerau0 m method a b = if a.length = 0 then 0 else 1 := by
  unfold fc_ndamerau0
  rw [if_pos hb]

theorem fc_nlevenshtein0_empty (m : List Nat) (method : fc_norm_method) (a b : List Nat)
    (hb : b.length = 0) :
    fc_nlevenshtein0 m method a b = if a.length = 0 then 0 else 1 := by
  unfold fc_nlevenshtein0
  rw [if_pos hb]

/-! ## The cost rows of `fc_ndamerau0` under `FC_NORM_LALIGN` -/

theorem distCell_le_succ_left (t : Bool) (a b : List Nat) (i j : Nat) (hi : i < a.length)
    (hj : j ≤ b.length) : distCell t a b i j ≤ distCell t a b (i + 1) j + 1 := by
  rw [distCell_eq_dist_aux t a b _ i j rfl (by omega) hj,
    distCell_eq_dist_aux t a b _ (i + 1) j rfl (by omega) hj, reverse_take_succ a i hi]
  exact dist_le_cons_left t _ _ _

theorem distCell_le_succ_right (t : Bool) (a b : List Nat) (i j : Nat) (hi : i ≤ a.length)
    (hj : j < b.length) : distCell t a b i j ≤ distCell t a b i (j + 1) + 1 := by
  rw [distCell_eq_dist_aux t a b _ i j rfl hi (by omega),
    distCell_eq_dist_aux t a b _ i (j + 1) rfl hi (by omega), reverse_take_succ b j hj]
  exact dist_le_cons_right t _ _ _

theorem ndamCost_eq (a b : List Nat) (i j : Nat) (hi : i < a.length) (hj : j < b.length) :
    ndamCost (TRANSPOSED a b (i + 1) (j + 1))
        (distCell true a b (i + 1) j + 1) (distCell true a b i (j + 1) + 1)
        (distCell true a b i j + (if a.getD i 0 ≠ b.getD j 0 then 1 else 0))
        (distCell true a b (i - 1) (j - 1) + 1)
      = distCell true a b (i + 1) (j + 1) := by
  have h1 := distCell_le_succ_left true a b i j hi (by omega)
  have h2 := distCell_le_succ_right true a b i j (by omega) hj
  rw [distCell_succ_true]
  unfold ndamCost
  simp only [FC_MIN3_eq, FC_MIN_eq]
  by_cases heq : a.getD i 0 = b.getD j 0
  · rw [if_pos heq, if_neg (not_not.mpr heq)]
    cases htr : TRANSPOSED a b (i + 1) (j + 1) with
    | false =>
      simp only [Bool.false_eq_true, if_false]
      omega
    | true =>
      simp only [if_true]
      unfold TRANSPOSED at htr
      have h := of_decide_eq_true htr
      obtain ⟨p1, p2, p3, p4⟩ := h
      have e1 : i + 1 - 2 = i - 1 := by omega
      have e2 : j + 1 - 2 = j - 1 := by omega
      have e3 : i + 1 - 1 = i := by omega
      have e4 : j + 1 - 1 = j := by omega
      rw [e1, e4] at p3
      rw [e3, e2] at p4
      obtain ⟨i', rfl⟩ : ∃ i', i = i' + 1 := ⟨i - 1, by omega⟩
      obtain ⟨j', rfl⟩ : ∃ j', j = j' + 1 := ⟨j - 1, by omega⟩
      have e : distCell true a b (i' + 1) (j' + 1) = distCell true a b i' j' := by
        rw [distCell_succ_true, if_pos]
        have e5 : i' + 1 - 1 = i' := by omega
        have e6 : j' + 1 - 1 = j' := by omega
        rw [e5] at p3
        rw [e6] at p4
        rw [p3, ← heq, p4]
      have e5 : i' + 1 - 1 = i' := by omega
      have e6 : j' + 1 - 1 = j' := by omega
      rw [e5, e6]
      omega
  · rw [if_neg heq, if_pos heq]
    cases htr : TRANSPOSED a b (i + 1) (j + 1) with
    | false =>
      simp only [Bool.false_eq_true, if_false]
    | true =>
      simp only [if_true]
      omega

theorem ndamBody_dist (seq1 seq2 : List Nat) (W i t p c lt lp lc j : Nat) (M : List Nat)
    (hrows : NdamRows W t p c lt lp lc) (hW : seq2.length + 1 = W) (hi1 : 1 ≤ i)
    (hi : i ≤ seq1.length) (hj1 : 1 ≤ j) (hjW : j < W) (hlen : 6 * W ≤ M.length)
    (hinv : NdamDist seq1 seq2 W i t p c j M) :
    NdamDist seq1 seq2 W i t p c (j + 1) (ndamBody seq1 seq2 i t p c lt lp lc j M) := by
  obtain ⟨hc, hp, ht⟩ := hinv
  rw [ndamBody_spec seq1 seq2 W i t p c lt lp lc j M hrows hj1 hjW hlen]
  have hD : ndamCost (TRANSPOSED seq1 seq2 i j)
      (M.getD (c + (j - 1)) 0 + 1) (M.getD (p + j) 0 + 1)
      (M.getD (p + (j - 1)) 0
        + (if seq1.getD (i - 1) 0 ≠ seq2.getD (j - 1) 0 then 1 else 0))
      (M.getD (t + (j - 2)) 0 + 1) = distCell true seq1 seq2 i j := by
    obtain ⟨i', rfl⟩ : ∃ i', i = i' + 1 := ⟨i - 1, by omega⟩
    obtain ⟨j', rfl⟩ : ∃ j', j = j' + 1 := ⟨j - 1, by omega⟩
    have e1 : i' + 1 - 1 = i' := by omega
    have e2 : j' + 1 - 1 = j' := by omega
    have e3 : j' + 1 - 2 = j' - 1 := by omega
    have e4 : i' + 1 - 2 = i' - 1 := by omega
    rw [e1, e2, e3, hc j' (by omega), hp (j' + 1) hjW, hp j' (by omega), e1]
    cases htr : TRANSPOSED seq1 seq2 (i' + 1) (j' + 1) with
    | false =>
      have := ndamCost_eq seq1 seq2 i' j' (by omega) (by omega)
      rw [htr] at this
      unfold ndamCost at this ⊢
      simp only [Bool.false_eq_true, if_false] at this ⊢
      exact this
    | true =>
      obtain ⟨h2i, h2j⟩ := transposed_imp seq1 seq2 _ _ htr
      rw [ht h2i (j' - 1) (by omega), e4]
      have := ndamCost_eq seq1 seq2 i' j' (by omega) (by omega)
      rw [htr] at this
      exact this
  rw [hD]
  generalize ndamLen (TRANSPOSED seq1 seq2 i j) _ _ _ _ _ _ _ _ = L
  unfold NdamRows at hrows
  have hb1 : c + j < M.length := by omega
  refine ⟨?_, ?_, ?_⟩
  · intro k hk
    by_cases hkj : k = j
    · subst hkj
      rw [getD_set_ne _ _ _ _ (by omega : lc + k ≠ c + k), getD_set_eq _ _ _ hb1]
    · rw [getD_set_set_ne _ _ _ _ _ _ (by omega) (by omega)]
      exact hc k (by omega)
  · intro k hk
    rw [getD_set_set_ne _ _ _ _ _ _ (by omega) (by omega)]
    exact hp k hk
  · intro h2 k hk
    rw [getD_set_set_ne _ _ _ _ _ _ (by omega) (by omega)]
    exact ht h2 k hk

theorem ndamBody_length (seq1 seq2 : List Nat) (W i t p c lt lp lc j : Nat) (M : List Nat)
    (hrows : NdamRows W t p c lt lp lc) (hj1 : 1 ≤ j) (hjW : j < W)
    (hlen : 6 * W ≤ M.length) :
    (ndamBody seq1 seq2 i t p c lt lp lc j M).length = M.length := by
  rw [ndamBody_spec seq1 seq2 W i t p c lt lp lc j M hrows hj1 hjW hlen, List.length_set,
    List.length_set]

theorem ndamInner_dist (seq1 seq2 : List Nat) (W i t p c lt lp lc : Nat)
    (hrows : NdamRows W t p c lt lp lc) (hW : seq2.length + 1 = W) (hi1 : 1 ≤ i)
    (hi : i ≤ seq1.length) : ∀ (n j : Nat) (M : List Nat), 1 ≤ j → j + n = W →
    6 * W ≤ M.length → NdamDist seq1 seq2 W i t p c j M →
    NdamDist seq1 seq2 W i t p c W (ndamInner seq1 seq2 i t p c lt lp lc n j M) := by
  intro n
  induction n with
  | zero =>
    intro j M _ hj _ hinv
    rw [ndamInner]
    have : j = W := by omega
    subst this
    exact hinv
  | succ n ih =>
    intro j M hj1 hj hlen hinv
    rw [ndamInner]
    exact ih (j + 1) _ (by omega) (by omega)
      (by rw [ndamBody_length seq1 seq2 W i t p c lt lp lc j M hrows hj1 (by omega) hlen]
          exact hlen)
      (ndamBody_dist seq1 seq2 W i t p c lt lp lc j M hrows hW hi1 hi hj1 (by omega) hlen hinv)

theorem ndamInner_length (seq1 seq2 : List Nat) (W i t p c lt lp lc : Nat)
    (hrows : NdamRows W t p c lt lp lc) : ∀ (n j : Nat) (M : List Nat), 1 ≤ j → j + n = W →
    6 * W ≤ M.length →
    (ndamInner seq1 seq2 i t p c lt lp lc n j M).length = M.length := by
  intro n
  induction n with
  | zero =>
    intro j M _ _ _
    rw [ndamInner]
  | succ n ih =>
    intro j M hj1 hj hlen
    have e := ndamBody_length seq1 seq2 W i t p c lt lp lc j M hrows hj1 (by omega) hlen
    rw [ndamInner, ih (j + 1) _ (by omega) (by omega) (by rw [e]; exact hlen), e]

theorem ndamOuter_dist (seq1 seq2 : List Nat) (W : Nat) (hW : seq2.length + 1 = W) :
    ∀ (n i t p c lt lp lc : Nat) (M : List Nat), 1 ≤ i → i + n = seq1.length + 1 →
    NdamRows W t p c lt lp lc → 6 * W ≤ M.length →
    (∀ k, k < W → M.getD (p + k) 0 = distCell true seq1 seq2 (i - 1) k) →
    (2 ≤ i → ∀ k, k < W → M.getD (t + k) 0 = distCell true seq1 seq2 (i - 2) k) →
    ∀ k, k < W →
      (ndamOuter seq1 seq2 n i t p c lt lp lc M).1.getD
          ((ndamOuter seq1 seq2 n i t p c lt lp lc M).2.1 + k) 0
        = distCell true seq1 seq2 seq1.length k := by
  intro n
  induction n with
  | zero =>
    intro i t p c lt lp lc M _ hin _ _ hp _ k hk
    rw [ndamOuter]
    have : i - 1 = seq1.length := by omega
    rw [← this]
    exact hp k hk
  | succ n ih =>
    intro i t p c lt lp lc M hi1 hin hrows hlen hp ht
    rw [ndamOuter]
    have hrows0 := hrows
    unfold NdamRows at hrows0
    have hlen0 : 6 * W ≤ ((M.set (lc + 0) i).set (c + 0) i).length := by
      rw [List.length_set, List.length_set]
      exact hlen
    have h0 : NdamDist seq1 seq2 W i t p c 1 ((M.set (lc + 0) i).set (c + 0) i) := by
      refine ⟨?_, ?_, ?_⟩
      · intro k hk
        have hk0 : k = 0 := by omega
        subst hk0
        rw [getD_set_eq _ _ _ (by rw [List.length_set]; omega), distCell_zero_right]
      · intro k hk
        rw [getD_set_set_ne _ _ _ _ _ _ (by omega) (by omega)]
        exact hp k hk
      · intro h2 k hk
        rw [getD_set_set_ne _ _ _ _ _ _ (by omega) (by omega)]
        exact ht h2 k hk
    obtain ⟨i1, i2, _⟩ := ndamInner_dist seq1 seq2 W i t p c lt lp lc hrows hW hi1 (by omega)
      seq2.length 1 _ (Nat.le_refl _) (by omega) hlen0 h0
    have hlen1 := ndamInner_length seq1 seq2 W i t p c lt lp lc hrows seq2.length 1 _
      (Nat.le_refl _) (by omega) hlen0
    exact ih (i + 1) p c t lp lc lt _ (by omega) (by omega) (ndamRows_rotate hrows)
      (by rw [hlen1]; exact hlen0) i1
      (fun _ k hk => by
        have := i2 k hk
        have e : i + 1 - 2 = i - 1 := by omega
        rw [e]
        exact this)

theorem ndamOperands_fst (m a b : List Nat)
    (hlen : 6 * (b.length + 1) ≤ m.length) :
    (ndamOperands m a b).1 = dist true a b := by
  unfold ndamOperands
  simp only []
  obtain ⟨f1, f2⟩ := ndamFill_spec
    (0 + (b.length + 1) + (b.length + 1) + (b.length + 1) + (b.length + 1))
    (0 + (b.length + 1)) (b.length + 1) (by omega) (b.length + 1) 0 m (by omega) (by omega)
    (fun k hk => absurd hk (by omega))
  have h := ndamOuter_dist a b (b.length + 1) rfl a.length 1
    (0 + (b.length + 1) + (b.length + 1) + (b.length + 1))
    (0 + (b.length + 1) + (b.length + 1) + (b.length + 1) + (b.length + 1))
    (0 + (b.length + 1) + (b.length + 1) + (b.length + 1) + (b.length + 1) + (b.length + 1))
    0 (0 + (b.length + 1)) (0 + (b.length + 1) + (b.length + 1))
    (ndamFill (0 + (b.length + 1) + (b.length + 1) + (b.length + 1) + (b.length + 1))
      (0 + (b.length + 1)) (b.length + 1) 0 m)
    (Nat.le_refl _) (by omega) (by unfold NdamRows; omega) (by rw [f1]; exact hlen)
    (by
      intro k hk
      rw [(f2 k hk).1, distCell_zero_left])
    (fun h => absurd h (by omega)) b.length (by omega)
  rw [h, distCell_eq_dist]

/-! ## The range of the normalized distances -/

theorem unit_of_nat_le (d l : Nat) (h : d ≤ l) :
    0 ≤ ((d : Nat) : ℚ) / ((l : Nat) : ℚ) ∧ ((d : Nat) : ℚ) / ((l : Nat) : ℚ) ≤ 1 := by
  have h0 : (0 : ℚ) ≤ ((l : Nat) : ℚ) := Nat.cast_nonneg l
  have hd : (0 : ℚ) ≤ ((d : Nat) : ℚ) := Nat.cast_nonneg d
  refine ⟨div_nonneg hd h0, ?_⟩
  by_cases hl : l = 0
  · subst hl
    simp
  · have hpos : (0 : ℚ) < ((l : Nat) : ℚ) := by
      have : 0 < l := Nat.pos_of_ne_zero hl
      exact_mod_cast this
    exact (div_le_one hpos).mpr (by exact_mod_cast h)

theorem column_room (k n : Nat) :
    k * (n + 1) ≤ (if k * (n + 1) > FC_DEFAULT_COLUMN_LEN * k then scratch (k * (n + 1))
      else scratch (FC_DEFAULT_COLUMN_LEN * k)).length := by
  split
  · rw [length_scratch]
  · rw [length_scratch]
    omega

theorem nlevOperands_eq (col a b : List Nat) (hb : b.length ≠ 0)
    (hlen : 2 * (b.length + 1) ≤ col.length) :
    nlevOperands col a b = lalignCell a b a.length b.length := by
  obtain ⟨e1, e2⟩ := nlevOuter_result col a b hb hlen
  unfold nlevOperands
  simp only []
  rw [e1, e2]

theorem fc_nlevenshtein0_operands (col a b : List Nat) (hb : b.length ≠ 0) :
    fc_nlevenshtein0 col fc_norm_method.FC_NORM_LALIGN a b
      = (((nlevOperands col a b).1 : Nat) : ℚ) / (((nlevOperands col a b).2 : Nat) : ℚ) := by
  unfold fc_nlevenshtein0 nlevOperands
  rw [if_neg hb]

theorem nlevOperands_spec (col a b : List Nat) (ha : a.length ≠ 0) (hb : b.length ≠ 0)
    (hlen : 2 * (b.length + 1) ≤ col.length) :
    (nlevOperands col a b).1 = dist false a b ∧
    (nlevOperands col a b).1 ≤ (nlevOperands col a b).2 ∧ 0 < (nlevOperands col a b).2 := by
  rw [nlevOperands_eq col a b hb hlen]
  have hopt := lalignCell_full a b
  exact ⟨longestOptimal_dist hopt, alignPath_cost_le hopt.1,
    longestOptimal_pos hopt (fun h => ha (by rw [h]; rfl))⟩

theorem fc_nlevenshtein_operands_spec (a b : List Nat) (ha : a ≠ []) (hb : b ≠ []) :
    fc_nlevenshtein fc_norm_method.FC_NORM_LALIGN a b
      = (((fc_nlevenshtein_operands a b).1 : Nat) : ℚ)
        / (((fc_nlevenshtein_operands a b).2 : Nat) : ℚ) ∧
    (fc_nlevenshtein_operands a b).1 = fc_levenshtein a b ∧
    (fc_nlevenshtein_operands a b).1 ≤ (fc_nlevenshtein_operands a b).2 ∧
    0 < (fc_nlevenshtein_operands a b).2 := by
  have ha' : a.length ≠ 0 := fun h => ha (List.length_eq_zero.mp h)
  have hb' : b.length ≠ 0 := fun h => hb (List.length_eq_zero.mp h)
  rw [fc_levenshtein_eq]
  unfold fc_nlevenshtein fc_nlevenshtein_operands
  simp only []
  by_cases h : a.length < b.length
  · simp only [if_pos h]
    have hroom := column_room 2 a.length
    rw [Nat.mul_comm FC_DEFAULT_COLUMN_LEN 2] at hroom
    rw [Nat.mul_comm FC_DEFAULT_COLUMN_LEN 2]
    obtain ⟨s1, s2, s3⟩ := nlevOperands_spec _ b a hb' ha' hroom
    rw [dist_comm] at s1
    exact ⟨fc_nlevenshtein0_operands _ b a ha', s1, s2, s3⟩
  · simp only [if_neg h]
    have hroom := column_room 2 b.length
    rw [Nat.mul_comm FC_DEFAULT_COLUMN_LEN 2] at hroom
    rw [Nat.mul_comm FC_DEFAULT_COLUMN_LEN 2]
    exact ⟨fc_nlevenshtein0_operands _ a b hb', nlevOperands_spec _ a b ha' hb' hroom⟩

theorem fc_ndamerau_operands_spec (a b : List Nat) (ha : a ≠ []) (hb : b ≠ []) :
    fc_ndamerau fc_norm_method.FC_NORM_LALIGN a b
      = (((fc_ndamerau_operands a b).1 : Nat) : ℚ)
        / (((fc_ndamerau_operands a b).2 : Nat) : ℚ) ∧
    (fc_ndamerau_operands a b).1 = fc_damerau a b ∧
    (fc_ndamerau_operands a b).1 ≤ (fc_ndamerau_operands a b).2 ∧
    0 < (fc_ndamerau_operands a b).2 := by
  have ha' : a.length ≠ 0 := fun h => ha (List.length_eq_zero.mp h)
  have hb' : b.length ≠ 0 := fun h => hb (List.length_eq_zero.mp h)
  rw [fc_damerau_eq]
  unfold fc_ndamerau fc_ndamerau_operands
  simp only []
  by_cases h : a.length < b.length
  · simp only [if_pos h]
    have hroom := column_room 6 a.length
    rw [Nat.mul_comm FC_DEFAULT_COLUMN_LEN 6] at hroom
    rw [Nat.mul_comm FC_DEFAULT_COLUMN_LEN 6]
    have s1 := ndamOperands_fst _ b a hroom
    rw [dist_comm] at s1
    exact ⟨fc_ndamerau0_lalign _ b a ha', s1, ndamOperands_spec _ b a ha' hroom⟩
  · simp only [if_neg h]
    have hroom := column_room 6 b.length
    rw [Nat.mul_comm FC_DEFAULT_COLUMN_LEN 6] at hroom
    rw [Nat.mul_comm FC_DEFAULT_COLUMN_LEN 6]
    exact ⟨fc_ndamerau0_lalign _ a b hb', ndamOperands_fst _ a b hroom,
      ndamOperands_spec _ a b hb' hroom⟩

theorem fc_nlevenshtein_empty (method : fc_norm_method) (a b : List Nat)
    (h : a = [] ∨ b = []) :
    fc_nlevenshtein method a b = if a.length = 0 ∧ b.length = 0 then 0 else 1 := by
  unfold fc_nlevenshtein
  simp only []
  by_cases hlt : a.length < b.length
  · simp only [if_pos hlt]
    have ha : a.length = 0 := by
      rcases h with h | h
      · rw [h]; rfl
      · rw [h] at hlt; simp at hlt
    rw [fc_nlevenshtein0_empty _ _ _ _ ha, if_neg (by omega), if_neg (by omega)]
  · simp only [if_neg hlt]
    have hb : b.length = 0 := by
      rcases h with h | h
      · rw [h] at hlt; simp at hlt; rw [hlt]; rfl
      · rw [h]; rfl
    rw [fc_nlevenshtein0_empty _ _ _ _ hb]
    by_cases ha : a.length = 0
    · rw [if_pos ha, if_pos ⟨ha, hb⟩]
    · rw [if_neg ha, if_neg (fun h => ha h.1)]

theorem fc_ndamerau_empty (method : fc_norm_method) (a b : List Nat)
    (h : a = [] ∨ b = []) :
    fc_ndamerau method a b = if a.length = 0 ∧ b.length = 0 then 0 else 1 := by
  unfold fc_ndamerau
  simp only []
  by_cases hlt : a.length < b.length
  · simp only [if_pos hlt]
    have ha : a.length = 0 := by
      rcases h with h | h
      · rw [h]; rfl
      · rw [h] at hlt; simp at hlt
    rw [fc_ndamerau0_empty _ _ _ _ ha, if_neg (by omega), if_neg (by omega)]
  · simp only [if_neg hlt]
    have hb : b.length = 0 := by
      rcases h with h | h
      · rw [h] at hlt; simp at hlt; rw [hlt]; rfl
      · rw [h]; rfl
    rw [fc_ndamerau0_empty _ _ _ _ hb]
    by_cases ha : a.length = 0
    · rw [if_pos ha, if_pos ⟨ha, hb⟩]
    · rw [if_neg ha, if_neg (fun h => ha h.1)]

theorem zero_or_one_range (p : Prop) [Decidable p] :
    (0 : ℚ) ≤ (if p then 0 else 1) ∧ (if p then (0 : ℚ) else 1) ≤ 1 := by
  split <;> norm_num

theorem fc_nlevenshtein_range (method : fc_norm_method) (a b : List Nat) :
    0 ≤ fc_nlevenshtein method a b ∧ fc_nlevenshtein method a b ≤ 1 := by
  by_cases h : a = [] ∨ b = []
  · rw [fc_nlevenshtein_empty method a b h]
    exact zero_or_one_range _
  · have ha : a ≠ [] := fun e => h (Or.inl e)
    have hb : b ≠ [] := fun e => h (Or.inr e)
    cases method with
    | FC_NORM_LSEQ =>
      rw [fc_nlevenshtein_lseq, if_neg (fun e => ha (List.length_eq_zero.mp e.1)),
        fc_levenshtein_eq]
      exact unit_of_nat_le _ _ (dist_le_max false a b)
    | FC_NORM_LALIGN =>
      obtain ⟨e, _, h1, _⟩ := fc_nlevenshtein_operands_spec a b ha hb
      rw [e]
      exact unit_of_nat_le _ _ h1

theorem fc_ndamerau_range (method : fc_norm_method) (a b : List Nat) :
    0 ≤ fc_ndamerau method a b ∧ fc_ndamerau method a b ≤ 1 := by
  by_cases h : a = [] ∨ b = []
  · rw [fc_ndamerau_empty method a b h]
    exact zero_or_one_range _
  · have ha : a ≠ [] := fun e => h (Or.inl e)
    have hb : b ≠ [] := fun e => h (Or.inr e)
    cases method with
    | FC_NORM_LSEQ =>
      rw [fc_ndamerau_lseq, if_neg (fun e => ha (List.length_eq_zero.mp e.1)),
        fc_damerau_eq]
      exact unit_of_nat_le _ _ (dist_le_max true a b)
    | FC_NORM_LALIGN =>
      obtain ⟨e, _, h1, _⟩ := fc_ndamerau_operands_spec a b ha hb
      rw [e]
      exact unit_of_nat_le _ _ h1

/-! ## The Jaro distance without a match -/

theorem flaggedFrom_eq_nil (seq F : List Nat) (off : Nat) : ∀ (n i : Nat),
    flaggedFrom seq F off n i = [] → ∀ k, i ≤ k → k < i + n → F.getD (off + k) 0 = 0 := by
  intro n
  induction n with
  | zero => intro i _ k h1 h2; omega
  | succ n ih =>
    intro i h k h1 h2
    rw [flaggedFrom] at h
    by_cases hf : F.getD (off + i) 0 ≠ 0
    · rw [if_pos hf] at h
      exact absurd h (by simp)
    · rw [if_neg hf] at h
      by_cases hk : k = i
      · subst hk
        exact not_not.mp hf
      · exact ih (i + 1) h k (by omega) (by omega)

theorem jaroFlags_eq_zero_iff (a b : List Nat) :
    (jaroFlags a b).2 = 0 ↔ ∀ i j, ¬ JaroValid a b (jaroWindow a.length b.length) i j := by
  obtain ⟨_, ⟨R, ⟨g1, _, _, _, g5⟩, hf1, _⟩, hm1, _⟩ := jaroFlags_inv a b
  constructor
  · intro h0 i j hv
    rw [h0] at hm1
    have hnil := List.length_eq_zero.mp hm1.symm
    have hz := flaggedFrom_eq_nil a (jaroFlags a b).1 0 a.length 0 hnil
    have hnone : ∀ i' j', ¬ R i' j' := by
      intro i' j' hr
      have hi' := (g1 i' j' hr).1
      have := (hf1 i' hi').mpr ⟨j', hr⟩
      have hz' := hz i' (Nat.zero_le _) (by omega)
      rw [Nat.zero_add] at hz'
      exact this hz'
    obtain ⟨i', _, hr⟩ := g5 i hv.1 (fun j' => hnone i j') j hv
    exact hnone i' j hr
  · intro h
    have hz : ∀ k, 0 ≤ k → k < 0 + a.length → (jaroFlags a b).1.getD (0 + k) 0 = 0 := by
      intro k _ hk
      rw [Nat.zero_add] at hk ⊢
      by_contra hne
      obtain ⟨j, hr⟩ := (hf1 k hk).mp hne
      exact h k j (g1 k j hr).2
    rw [hm1, flaggedFrom_zero a (jaroFlags a b).1 0 a.length 0 hz]
    rfl

theorem fc_jaro_of_no_match (a b : List Nat) (h : (jaroFlags a b).2 = 0) :
    fc_jaro a b = some 0 := by
  rw [fc_jaro_phases, if_pos h]

theorem jaroFlags_of_empty (a b : List Nat) (h : a = [] ∨ b = []) : (jaroFlags a b).2 = 0 := by
  have := jaroFlags_le_min a b
  rcases h with h | h
  · rw [h] at this ⊢
    simpa using this
  · rw [h] at this ⊢
    simpa using this

/-! ## `fc_damerau0` reads no uninitialised cell -/

theorem readCell_set_eq (m : List (Option Nat)) (k : Nat) (v : Option Nat) (h : k < m.length) :
    readCell (m.set k v) k = v := by
  unfold readCell
  simp [List.getD_eq_getElem?_getD, List.getElem?_set, h]

theorem readCell_set_ne (m : List (Option Nat)) (k k' : Nat) (v : Option Nat) (h : k ≠ k') :
    readCell (m.set k v) k' = readCell m k' := by
  unfold readCell
  simp [List.getD_eq_getElem?_getD, List.getElem?_set, h]

theorem fillIotaAtChecked_length (p : Nat) : ∀ (n j : Nat) (m : List (Option Nat)),
    (fillIotaAtChecked p n j m).length = m.length := by
  intro n
  induction n with
  | zero => intro j m; rfl
  | succ n ih => intro j m; simp [fillIotaAtChecked, ih]

theorem fillIotaAtChecked_read (p : Nat) : ∀ (n j : Nat) (m : List (Option Nat)) (k : Nat),
    p + j + n ≤ m.length → j ≤ k → k < j + n →
    readCell (fillIotaAtChecked p n j m) (p + k) = some k := by
  intro n
  induction n with
  | zero => intro j m k _ h1 h2; omega
  | succ n ih =>
    intro j m k h h1 h2
    rw [fillIotaAtChecked]
    by_cases hk : j = k
    · subst hk
      have key : ∀ (n' j' : Nat) (m' : List (Option Nat)), j < j' →
          readCell (fillIotaAtChecked p n' j' m') (p + j) = readCell m' (p + j) := by
        intro n'
        induction n' with
        | zero => intro j' m' _; rfl
        | succ n' ih' =>
          intro j' m' hj'
          rw [fillIotaAtChecked, ih' (j' + 1) _ (by omega), readCell_set_ne _ _ _ _ (by omega)]
      rw [key n (j + 1) _ (by omega), readCell_set_eq _ _ _ (by omega)]
    · exact ih (j + 1) _ k (by rw [List.length_set]; omega) (by omega) (by omega)

theorem damInnerChecked_spec (a b : List Nat) (i t p c : Nat) (hi : 1 ≤ i)
    (hd : (t + (b.length + 1) ≤ p ∨ p + (b.length + 1) ≤ t) ∧
      (t + (b.length + 1) ≤ c ∨ c + (b.length + 1) ≤ t) ∧
      (p + (b.length + 1) ≤ c ∨ c + (b.length + 1) ≤ p)) :
    ∀ (n j : Nat) (m : List (Option Nat)),
      j + n = b.length + 1 → 1 ≤ j →
      (t + (b.length + 1) ≤ m.length ∧ p + (b.length + 1) ≤ m.length ∧
        c + (b.length + 1) ≤ m.length) →
      (∀ k, k < j → readCell m (c + k) = some (distCell true a b i k)) →
      (∀ k, k ≤ b.length → readCell m (p + k) = some (distCell true a b (i - 1) k)) →
      (2 ≤ i → ∀ k, k ≤ b.length → readCell m (t + k) = some (distCell true a b (i - 2) k)) →
      ∃ m', damInnerChecked a b i t p c n j m = some m' ∧ m'.length = m.length ∧
        (∀ k, k ≤ b.length → readCell m' (c + k) = some (distCell true a b i k)) ∧
        (∀ k, k ≤ b.length → readCell m' (p + k) = some (distCell true a b (i - 1) k)) := by
  intro n
  induction n with
  | zero =>
    intro j m hn _ _ h1 h2 _
    exact ⟨m, rfl, rfl, fun k hk => h1 k (by omega), h2⟩
  | succ n ih =>
    intro j m hn hj hL h1 h2 h3
    obtain ⟨i0, rfl⟩ : ∃ i0, i = i0 + 1 := ⟨i - 1, by omega⟩
    obtain ⟨j0, rfl⟩ : ∃ j0, j = j0 + 1 := ⟨j - 1, by omega⟩
    simp only [Nat.add_sub_cancel] at h2 ⊢
    have e1 := h1 j0 (by omega)
    have e2 := h2 (j0 + 1) (by omega)
    have e3 := h2 j0 (by omega)
    have key : (if a.getD i0 0 = b.getD j0 0 then
          match readCell m (p + j0) with
          | some v => some (m.set (c + (j0 + 1)) (some v))
          | none => none
        else
          match readCell m (c + j0), readCell m (p + (j0 + 1)), readCell m (p + j0) with
          | some ic0, some dc0, some rc0 =>
            if TRANSPOSED a b (i0 + 1) (j0 + 1) = true then
              match readCell (m.set (c + (j0 + 1))
                    (some (FC_MIN3 (ic0 + 1) (dc0 + 1) (rc0 + 1)))) (t + (j0 + 1 - 2)),
                readCell (m.set (c + (j0 + 1))
                    (some (FC_MIN3 (ic0 + 1) (dc0 + 1) (rc0 + 1)))) (c + (j0 + 1)) with
              | some tc0, some cur =>
                some ((m.set (c + (j0 + 1))
                    (some (FC_MIN3 (ic0 + 1) (dc0 + 1) (rc0 + 1)))).set (c + (j0 + 1))
                  (some (FC_MIN (tc0 + 1) cur)))
              | _, _ => none
            else some (m.set (c + (j0 + 1)) (some (FC_MIN3 (ic0 + 1) (dc0 + 1) (rc0 + 1))))
          | _, _, _ => none)
        = some (m.set (c + (j0 + 1)) (some (distCell true a b (i0 + 1) (j0 + 1)))) := by
      rw [distCell_succ_true]
      split
      · rw [e3]
      · rw [e1, e2, e3]
        simp only []
        split
        · rename_i hT
          have hgt := TRANSPOSED_gt hT
          have e4 := h3 (by omega) (j0 + 1 - 2) (by omega)
          have e5 : i0 + 1 - 2 = i0 - 1 := by omega
          have e6 : j0 + 1 - 2 = j0 - 1 := by omega
          rw [readCell_set_ne _ _ _ _ (by omega), readCell_set_eq _ _ _ (by omega), e4]
          simp only []
          rw [List.set_set, FC_MIN_eq, FC_MIN3_eq, e5, e6]
        · rw [FC_MIN3_eq]
    rw [damInnerChecked]
    simp only [Nat.add_sub_cancel]
    rw [key]
    simp only []
    obtain ⟨m', r1, r2, r3, r4⟩ :=
      ih (j0 + 1 + 1) (m.set (c + (j0 + 1)) (some (distCell true a b (i0 + 1) (j0 + 1))))
      (by omega) (by omega) (by simp only [List.length_set]; exact hL)
      (by
        intro k hk
        by_cases hkj : j0 + 1 = k
        · subst hkj
          rw [readCell_set_eq _ _ _ (by omega)]
        · rw [readCell_set_ne _ _ _ _ (by omega)]
          exact h1 k (by omega))
      (by
        intro k hk
        rw [readCell_set_ne _ _ _ _ (by omega)]
        simpa using h2 k hk)
      (by
        intro h2i k hk
        rw [readCell_set_ne _ _ _ _ (by omega)]
        exact h3 h2i k hk)
    refine ⟨m', r1, ?_, r3, ?_⟩
    · rw [r2, List.length_set]
    · intro k hk
      simpa using r4 k hk

theorem damOuterChecked_spec (a b : List Nat) :
    ∀ (n i t p c : Nat) (m : List (Option Nat)),
      1 ≤ i →
      ((t + (b.length + 1) ≤ p ∨ p + (b.length + 1) ≤ t) ∧
        (t + (b.length + 1) ≤ c ∨ c + (b.length + 1) ≤ t) ∧
        (p + (b.length + 1) ≤ c ∨ c + (b.length + 1) ≤ p)) →
      (t + (b.length + 1) ≤ m.length ∧ p + (b.length + 1) ≤ m.length ∧
        c + (b.length + 1) ≤ m.length) →
      (∀ k, k ≤ b.length → readCell m (p + k) = some (distCell true a b (i - 1) k)) →
      (2 ≤ i → ∀ k, k ≤ b.length → readCell m (t + k) = some (distCell true a b (i - 2) k)) →
      ∃ r, damOuterChecked a b n i t p c m = some r ∧
        ∀ k, k ≤ b.length → readCell r.1 (r.2 + k) = some (distCell true a b (i - 1 + n) k) := by
  intro n
  induction n with
  | zero =>
    intro i t p c m _ _ _ h2 _
    exact ⟨(m, p), rfl, fun k hk => by simpa using h2 k hk⟩
  | succ n ih =>
    intro i t p c m hi hd hL h2 h3
    rw [damOuterChecked]
    obtain ⟨m', s1, s2, s3, s4⟩ :=
      damInnerChecked_spec a b i t p c hi hd b.length 1 (m.set c (some i)) (by omega) (by omega)
      (by simp only [List.length_set]; exact hL)
      (by
        intro k hk
        have : k = 0 := by omega
        subst this
        rw [Nat.add_zero, readCell_set_eq _ _ _ (by omega), distCell_zero_right])
      (by
        intro k hk
        rw [readCell_set_ne _ _ _ _ (by omega)]
        exact h2 k hk)
      (by
        intro h2i k hk
        rw [readCell_set_ne _ _ _ _ (by omega)]
        exact h3 h2i k hk)
    rw [s1]
    simp only []
    obtain ⟨r, u1, u2⟩ := ih (i + 1) p c t m' (by omega)
      ⟨hd.2.2, hd.1.symm, hd.2.1.symm⟩
      (by rw [s2]; simp only [List.length_set]; exact ⟨hL.2.1, hL.2.2, hL.1⟩)
      (by
        intro k hk
        simpa using s3 k hk)
      (by
        intro _ k hk
        have := s4 k hk
        have e : i + 1 - 2 = i - 1 := by omega
        rw [e]
        exact this)
    refine ⟨r, u1, fun k hk => ?_⟩
    rw [u2 k hk]
    congr 2
    omega

theorem fc_damerau0_checked_eq (m : List (Option Nat)) (a b : List Nat)
    (hlen : 3 * (b.length + 1) ≤ m.length) :
    fc_damerau0_checked m a b = some (dist true a b) := by
  have hs := STRIP_length a b
  obtain ⟨q, s, _, hq2, _⟩ := STRIP_spec a b
  have e2 := congrArg List.length hq2
  simp only [List.length_append] at e2
  unfold fc_damerau0_checked
  simp only []
  split
  · rename_i h0
    rw [← dist_STRIP true a b, List.length_eq_zero.mp h0, dist_nil_right]
  · rename_i h0
    obtain ⟨r, u1, u2⟩ := damOuterChecked_spec (STRIP a b).1 (STRIP a b).2 (STRIP a b).1.length 1 0
      (0 + ((STRIP a b).2.length + 1)) (0 + ((STRIP a b).2.length + 1) + ((STRIP a b).2.length + 1))
      (fillIotaAtChecked (0 + ((STRIP a b).2.length + 1)) ((STRIP a b).2.length + 1) 0 m)
      (by omega) (by omega) (by rw [fillIotaAtChecked_length]; omega)
      (by
        intro k hk
        rw [fillIotaAtChecked_read _ _ _ _ _ (by omega) (by omega) (by omega)]
        simp [distCell_zero_left])
      (by omega)
    rw [u1]
    simp only []
    rw [u2 _ (Nat.le_refl _), show 1 - 1 + (STRIP a b).1.length = (STRIP a b).1.length by omega,
      distCell_eq_dist, dist_STRIP]

theorem fc_damerau_checked_eq (a b : List Nat) :
    fc_damerau_checked a b = some (dist true a b) := by
  unfold fc_damerau_checked
  simp only []
  by_cases h : a.length < b.length
  · simp only [if_pos h]
    rw [fc_damerau0_checked_eq, dist_comm]
    split
    · rw [List.length_replicate]
    · rw [List.length_replicate]
      unfold FC_DEFAULT_COLUMN_LEN at *
      omega
  · simp only [if_neg h]
    rw [fc_damerau0_checked_eq]
    split
    · rw [List.length_replicate]
    · rw [List.length_replicate]
      unfold FC_DEFAULT_COLUMN_LEN at *
      omega

/-! ## The two outcomes of a memoized computation -/

theorem take_eq_of_getD (l q : List Nat) (h : q.length ≤ l.length)
    (hg : ∀ k, k < q.length → l.getD k 0 = q.getD k 0) : l.take q.length = q := by
  apply List.ext_getElem
  · rw [List.length_take]
    omega
  · intro k h1 h2
    have := hg k h2
    rw [List.getD_eq_getElem?_getD, List.getD_eq_getElem?_getD,
      List.getElem?_eq_getElem (by omega), List.getElem?_eq_getElem h2] at this
    rw [List.getElem_take]
    simpa using this

theorem memcpyAt_skip_take (old q : List Nat) (n : Nat) (h : q.length ≤ old.length) :
    (memcpyAt old (memoSkip old q (FC_MIN n q.length) (FC_MIN n q.length) 0) q
      (q.length - memoSkip old q (FC_MIN n q.length) (FC_MIN n q.length) 0)).take q.length
      = q := by
  have hsk := memoSkip_spec old q (FC_MIN n q.length) (FC_MIN n q.length) 0 (Nat.zero_le _)
  have hskip1 := hsk.2.1
  have hpre := hsk.2.2 (fun k hk => by omega)
  generalize memoSkip old q (FC_MIN n q.length) (FC_MIN n q.length) 0 = skip at hskip1 hpre ⊢
  rw [FC_MIN_eq] at hskip1
  apply take_eq_of_getD
  · rw [memcpyAt_length _ _ _ (by omega) h]
    exact h
  · intro k hk
    rw [memcpyAt_getD _ _ _ _ (by omega) h]
    split
    · rfl
    · exact hpre k (by omega)

theorem memoRejects_of_len2_zero (ctx : fc_memo) (q : List Nat) (h : ctx.len2 = 0) :
    memoRejects ctx q
      = decide ((Int.natAbs ((ctx.len1 : Int) - (q.length : Int)) : Int) > ctx.max_dist) := by
  unfold memoRejects
  have e : FC_MIN ctx.len2 q.length = 0 := by
    rw [FC_MIN_eq, h]
    exact Nat.zero_min _
  rw [e]
  have e2 : memoSkip ctx.seq2 q 0 0 0 = 0 := rfl
  rw [e2]
  simp

theorem fc_memo_distance_of_rejects (ctx : fc_memo) (r q : List Nat) (t : Bool)
    (h2 : ctx.seq1 = some r) (hq : q.length < ctx.mdim) (hrej : memoRejects ctx q = true) :
    fc_memo_distance ctx q t = some (INT32_MAX, ctx) := by
  unfold memoRejects at hrej
  unfold fc_memo_distance
  rw [h2]
  simp only []
  rw [if_neg (by omega)]
  by_cases habs : (Int.natAbs ((ctx.len1 : Int) - (q.length : Int)) : Int) > ctx.max_dist
  · rw [if_pos habs]
  · rw [if_neg habs]
    rw [Bool.or_eq_true, decide_eq_true_eq, decide_eq_true_eq] at hrej
    rcases hrej with h | h
    · exact absurd h habs
    · rw [if_pos h]

theorem fc_memo_distance_of_accepts (t : Bool) (max_len : Nat) (r q : List Nat) (ctx : fc_memo)
    (h1 : ctx.mdim = max_len + 1) (h2 : ctx.seq1 = some r) (h3 : ctx.len1 = r.length)
    (h4 : r.length ≤ max_len) (h5 : ctx.seq2.length = max_len)
    (hM : ctx.mdim * ctx.mdim ≤ ctx.matrix.length)
    (hr0 : ∀ j, j < ctx.mdim → ctx.matrix.getD (0 * ctx.mdim + j) 0 = j)
    (hcells : ∀ i j, i ≤ r.length → j ≤ ctx.len2 →
      ctx.matrix.getD (i * ctx.mdim + j) 0 = distCell t r ctx.seq2 i j)
    (hq : q.length ≤ max_len) (hacc : memoRejects ctx q = false) :
    ∃ ctx', fc_memo_distance ctx q t = some (distCell t r q r.length q.length, ctx') ∧
      ctx'.len2 = q.length ∧ ctx'.seq2.take q.length = q := by
  have htake := memcpyAt_skip_take ctx.seq2 q ctx.len2 (by omega)
  unfold memoRejects at hacc
  rw [Bool.or_eq_false_iff, decide_eq_false_iff_not, decide_eq_false_iff_not] at hacc
  obtain ⟨habs, hrej⟩ := hacc
  unfold fc_memo_distance
  rw [h2]
  simp only []
  rw [if_neg (by omega), if_neg habs, if_neg hrej]
  have hsk := memoSkip_spec ctx.seq2 q (FC_MIN ctx.len2 q.length) (FC_MIN ctx.len2 q.length) 0
    (Nat.zero_le _)
  have hskip1 := hsk.2.1
  have hpre := hsk.2.2 (fun k hk => by omega)
  clear hrej
  generalize memoSkip ctx.seq2 q (FC_MIN ctx.len2 q.length) (FC_MIN ctx.len2 q.length) 0
    = skip at hskip1 hpre htake ⊢
  rw [FC_MIN_eq] at hskip1
  have hold : ∀ i j, i ≤ r.length → j ≤ skip →
      ctx.matrix.getD (i * ctx.mdim + j) 0 = distCell t r q i j := by
    intro i j hi hj
    rw [hcells i j hi (by omega)]
    exact distCell_congr t r ctx.seq2 q _ i j rfl (fun k hk => hpre k (by omega))
  have hsp := memoDistOuter_spec r q ctx.mdim skip t (by omega) (by omega) (by omega)
    ctx.len1 1 ctx.matrix (by omega) (by omega) hM
    (by
      intro i' j' hi' hj'
      have e : i' = 0 := by omega
      subst e
      rw [hr0 j' (by omega), distCell_zero_left])
    hold
  refine ⟨{ ctx with
      seq2 := memcpyAt ctx.seq2 skip q (q.length - skip), len2 := q.length,
      matrix := memoDistOuter r q ctx.mdim skip t ctx.len1 1 ctx.matrix }, ?_, rfl, htake⟩
  have hv : (memoDistOuter r q ctx.mdim skip t ctx.len1 1 ctx.matrix).getD
      (ctx.len1 * ctx.mdim + q.length) 0 = distCell t r q r.length q.length := by
    rw [h3]
    rw [h3] at hsp
    exact hsp.2.1 r.length q.length (Nat.le_refl _) (Nat.le_refl _)
  rw [hv, h2]

theorem fc_memo_lcsubseq_prev (ctx ctx' : fc_memo) (q : List Nat) (v : Nat)
    (h5 : q.length ≤ ctx.seq2.length) (h : fc_memo_lcsubseq ctx q = some (v, ctx')) :
    ctx'.len2 = q.length ∧ ctx'.seq2.take q.length = q := by
  have htake := memcpyAt_skip_take ctx.seq2 q ctx.len2 h5
  unfold fc_memo_lcsubseq at h
  split at h
  · exact absurd h (by simp)
  · split at h
    · exact absurd h (by simp)
    · have e := (Prod.mk.inj (Option.some.inj h)).2
      rw [← e]
      exact ⟨rfl, htake⟩

theorem fc_memo_lcsubstr_prev (ctx ctx' : fc_memo) (q : List Nat) (v : Nat)
    (h5 : q.length ≤ ctx.seq2.length) (h : fc_memo_lcsubstr ctx q = some (v, ctx')) :
    ctx'.len2 = q.length ∧ ctx'.seq2.take q.length = q := by
  have htake := memcpyAt_skip_take ctx.seq2 q ctx.len2 h5
  unfold fc_memo_lcsubstr at h
  split at h
  · exact absurd h (by simp)
  · split at h
    · exact absurd h (by simp)
    · have e := (Prod.mk.inj (Option.some.inj h)).2
      rw [← e]
      exact ⟨rfl, htake⟩

theorem fc_memo_compute_distance (ctx : fc_memo) (q : List Nat) (t : Bool)
    (h : ctx.compute = if t = true then fc_metric.FC_DAMERAU else fc_metric.FC_LEVENSHTEIN) :
    fc_memo_compute ctx q = fc_memo_distance ctx q t := by
  unfold fc_memo_compute
  cases t with
  | false =>
    have h' : ctx.compute = fc_metric.FC_LEVENSHTEIN := by simpa using h
    rw [h']
    simp only []
    unfold fc_memo_levenshtein
    rw [if_pos h']
  | true =>
    have h' : ctx.compute = fc_metric.FC_DAMERAU := by simpa using h
    rw [h']
    simp only []
    unfold fc_memo_damerau
    rw [if_pos h']

/-- The outcome of a call of `fc_memo_compute` on a memoizer in a state of the
invariant: for the two edit distances, when one of the early exits is taken,
`INT32_MAX` with the memoizer left as it was; in every other case the
one-shot value, with the sequence stored as the previous one. -/
theorem MemoInv_compute_exact (metric : fc_metric) (max_len : Nat) (r q : List Nat)
    (ctx : fc_memo) (h : MemoInv metric max_len r ctx) (hq : q.length ≤ max_len) :
    ∃ v ctx', fc_memo_compute ctx q = some (v, ctx') ∧ MemoInv metric max_len r ctx' ∧
      ctx'.max_dist = ctx.max_dist ∧
      (((metric = fc_metric.FC_LEVENSHTEIN ∨ metric = fc_metric.FC_DAMERAU) ∧
          memoRejects ctx q = true) → v = INT32_MAX ∧ ctx' = ctx) ∧
      (¬ ((metric = fc_metric.FC_LEVENSHTEIN ∨ metric = fc_metric.FC_DAMERAU) ∧
          memoRejects ctx q = true) →
        v = oneShot metric r q ∧ ctx'.len2 = q.length ∧ ctx'.seq2.take q.length = q) := by
  obtain ⟨v, ctx', e, hinv, hmd, _⟩ := MemoInv_compute metric max_len r q ctx h hq
  refine ⟨v, ctx', e, hinv, hmd, ?_⟩
  obtain ⟨hcomp, h1, h2, h3, h4, h5, h6, hrest⟩ := h
  have key : ∀ (t : Bool),
      metric = (if t = true then fc_metric.FC_DAMERAU else fc_metric.FC_LEVENSHTEIN) →
      ctx.mdim * ctx.mdim ≤ ctx.matrix.length →
      (∀ j, j < ctx.mdim → ctx.matrix.getD (0 * ctx.mdim + j) 0 = j) →
      (∀ i j, i ≤ r.length → j ≤ ctx.len2 →
        ctx.matrix.getD (i * ctx.mdim + j) 0 = distCell t r ctx.seq2 i j) →
      oneShot metric r q = distCell t r q r.length q.length →
      (memoRejects ctx q = true → v = INT32_MAX ∧ ctx' = ctx) ∧
      (¬ memoRejects ctx q = true →
        v = oneShot metric r q ∧ ctx'.len2 = q.length ∧ ctx'.seq2.take q.length = q) := by
    intro t ht hM hr0 hcells hone
    rw [fc_memo_compute_distance ctx q t (by rw [hcomp, ht])] at e
    constructor
    · intro hrej
      rw [fc_memo_distance_of_rejects ctx r q t h2 (by omega) hrej] at e
      have e' := Prod.mk.inj (Option.some.inj e)
      exact ⟨e'.1.symm, e'.2.symm⟩
    · intro hacc
      obtain ⟨c, e1, e2, e3⟩ := fc_memo_distance_of_accepts t max_len r q ctx h1 h2 h3 h4 h5
        hM hr0 hcells hq (by simpa using hacc)
      rw [e1] at e
      have e' := Prod.mk.inj (Option.some.inj e)
      rw [← e'.1, ← e'.2, hone]
      exact ⟨rfl, e2, e3⟩
  cases metric with
  | FC_LEVENSHTEIN =>
    obtain ⟨hM, _, hr0, hcells⟩ := hrest
    obtain ⟨k1, k2⟩ := key false rfl hM hr0 hcells (by
      show fc_levenshtein r q = _
      rw [fc_levenshtein_eq, distCell_eq_dist])
    exact ⟨fun hh => k1 hh.2, fun hh => k2 (fun hr => hh ⟨Or.inl rfl, hr⟩)⟩
  | FC_DAMERAU =>
    obtain ⟨hM, _, hr0, hcells⟩ := hrest
    obtain ⟨k1, k2⟩ := key true rfl hM hr0 hcells (by
      show fc_damerau r q = _
      rw [fc_damerau_eq, distCell_eq_dist])
    exact ⟨fun hh => k1 hh.2, fun hh => k2 (fun hr => hh ⟨Or.inr rfl, hr⟩)⟩
  | FC_LCSUBSTR =>
    refine ⟨fun hh => ?_, fun _ => ?_⟩
    · rcases hh.1 with hh | hh
      · exact absurd hh (by decide)
      · exact absurd hh (by decide)
    · have hv : v = oneShot fc_metric.FC_LCSUBSTR r q := by
        obtain ⟨_, _, e0, _, _, hv0⟩ := MemoInv_compute fc_metric.FC_LCSUBSTR max_len r q ctx
          ⟨hcomp, h1, h2, h3, h4, h5, h6, hrest⟩ hq
        rw [e] at e0
        have e' := Prod.mk.inj (Option.some.inj e0)
        rcases hv0 with hv0 | hv0
        · rw [e'.1, hv0]
        · rcases hv0.1 with hh | hh
          · exact absurd hh (by decide)
          · exact absurd hh (by decide)
      have e0 : fc_memo_lcsubstr ctx q = some (v, ctx') := by
        unfold fc_memo_compute at e
        rw [hcomp] at e
        exact e
      exact ⟨hv, fc_memo_lcsubstr_prev ctx ctx' q v (by omega) e0⟩
  | FC_LCSUBSEQ =>
    refine ⟨fun hh => ?_, fun _ => ?_⟩
    · rcases hh.1 with hh | hh
      · exact absurd hh (by decide)
      · exact absurd hh (by decide)
    · have hv : v = oneShot fc_metric.FC_LCSUBSEQ r q := by
        obtain ⟨_, _, e0, _, _, hv0⟩ := MemoInv_compute fc_metric.FC_LCSUBSEQ max_len r q ctx
          ⟨hcomp, h1, h2, h3, h4, h5, h6, hrest⟩ hq
        rw [e] at e0
        have e' := Prod.mk.inj (Option.some.inj e0)
        rcases hv0 with hv0 | hv0
        · rw [e'.1, hv0]
        · rcases hv0.1 with hh | hh
          · exact absurd hh (by decide)
          · exact absurd hh (by decide)
      have e0 : fc_memo_lcsubseq ctx q = some (v, ctx') := by
        unfold fc_memo_compute at e
        rw [hcomp] at e
        exact e
      exact ⟨hv, fc_memo_lcsubseq_prev ctx ctx' q v (by omega) e0⟩

theorem memoOps_computes_inv (metric : fc_metric) (max_len : Nat) (r : List Nat) :
    ∀ (qs : List (List Nat)) (ctx : fc_memo), MemoInv metric max_len r ctx →
    (∀ q, q ∈ qs → q.length ≤ max_len) →
    ∃ ctx', memoOps ctx (qs.map MemoOp.compute) = some ctx' ∧ MemoInv metric max_len r ctx' ∧
      ctx'.max_dist = ctx.max_dist := by
  intro qs
  induction qs with
  | nil => intro ctx h _; exact ⟨ctx, rfl, h, rfl⟩
  | cons q qs ih =>
    intro ctx h hq
    obtain ⟨v, ctx1, e, hinv, hmd, _⟩ := MemoInv_compute metric max_len r q ctx h
      (hq q (List.mem_cons_self _ _))
    obtain ⟨ctx', e', hinv', hmd'⟩ := ih ctx1 hinv
      (fun q' hq' => hq q' (List.mem_cons_of_mem _ hq'))
    refine ⟨ctx', ?_, hinv', by rw [hmd', hmd]⟩
    rw [List.map_cons, memoOps, e]
    exact e'

theorem memoOps_inv_dist (metric : fc_metric) (max_len : Nat) : ∀ (ops : List MemoOp)
    (r : List Nat) (ctx : fc_memo), MemoInv metric max_len r ctx →
    (∀ s, MemoOp.set_ref s ∈ ops → s.length ≤ max_len) →
    (∀ q, MemoOp.compute q ∈ ops → q.length ≤ max_len) →
    ∃ ctx' r', memoOps ctx ops = some ctx' ∧ MemoInv metric max_len r' ctx' ∧
      ctx'.max_dist = ctx.max_dist := by
  intro ops
  induction ops with
  | nil => intro r ctx h _ _; exact ⟨ctx, r, rfl, h, rfl⟩
  | cons op ops ih =>
    intro r ctx h hs hq
    have hs' : ∀ s, MemoOp.set_ref s ∈ ops → s.length ≤ max_len :=
      fun s hm => hs s (List.mem_cons_of_mem _ hm)
    have hq' : ∀ q, MemoOp.compute q ∈ ops → q.length ≤ max_len :=
      fun q hm => hq q (List.mem_cons_of_mem _ hm)
    cases op with
    | set_ref s =>
      rw [memoOps]
      exact ih s _ (MemoInv_set_ref metric max_len r s ctx h (hs s (List.mem_cons_self _ _)))
        hs' hq'
    | compute q =>
      obtain ⟨v, ctx1, e, hinv, hmd, _⟩ := MemoInv_compute metric max_len r q ctx h
        (hq q (List.mem_cons_self _ _))
      rw [memoOps, e]
      obtain ⟨ctx', r', e', hinv', hmd'⟩ := ih r ctx1 hinv hs' hq'
      exact ⟨ctx', r', e', hinv', by rw [hmd', hmd]⟩

/-! ## The state of a memoizer between two calls -/

theorem getD_take_lt (l : List Nat) (n k : Nat) (h : k < n) :
    (l.take n).getD k 0 = l.getD k 0 := by
  rw [List.getD_eq_getElem?_getD, List.getD_eq_getElem?_getD, List.getElem?_take_of_lt h]

theorem MemoInv_border (metric : fc_metric) (max_len : Nat) (r : List Nat) (ctx : fc_memo)
    (h : MemoInv metric max_len r ctx) :
    (∀ i, i < ctx.mdim → ctx.matrix.getD (i * ctx.mdim + 0) 0 = memoBorder metric i) ∧
    (∀ j, j < ctx.mdim → ctx.matrix.getD (0 * ctx.mdim + j) 0 = memoBorder metric j) := by
  obtain ⟨_, _, _, _, _, _, _, hrest⟩ := h
  cases metric with
  | FC_LEVENSHTEIN => exact ⟨hrest.2.1, hrest.2.2.1⟩
  | FC_DAMERAU => exact ⟨hrest.2.1, hrest.2.2.1⟩
  | FC_LCSUBSTR => exact ⟨hrest.2.1, hrest.2.2.1⟩
  | FC_LCSUBSEQ => exact ⟨hrest.2.1, hrest.2.2.1⟩

theorem MemoInv_cells (metric : fc_metric) (max_len : Nat) (r : List Nat) (ctx : fc_memo)
    (h : MemoInv metric max_len r ctx) :
    ∀ i j, i ≤ r.length → j ≤ ctx.len2 →
      ctx.matrix.getD (memoIndex metric ctx.mdim i j) 0 = memoCell metric r (memoPrev ctx) i j := by
  obtain ⟨_, _, _, _, _, _, _, hrest⟩ := h
  have hp : ∀ j, j ≤ ctx.len2 → ∀ k, k < j → ctx.seq2.getD k 0 = (memoPrev ctx).getD k 0 := by
    intro j hj k hk
    unfold memoPrev
    rw [getD_take_lt _ _ _ (by omega)]
  intro i j hi hj
  cases metric with
  | FC_LEVENSHTEIN =>
    show ctx.matrix.getD (i * ctx.mdim + j) 0 = distCell false r (memoPrev ctx) i j
    rw [hrest.2.2.2 i j hi hj]
    exact distCell_congr false r _ _ _ i j rfl (hp j hj)
  | FC_DAMERAU =>
    show ctx.matrix.getD (i * ctx.mdim + j) 0 = distCell true r (memoPrev ctx) i j
    rw [hrest.2.2.2 i j hi hj]
    exact distCell_congr true r _ _ _ i j rfl (hp j hj)
  | FC_LCSUBSTR =>
    show ctx.matrix.getD (j * ctx.mdim + i) 0 = csCell r (memoPrev ctx) i j
    rw [hrest.2.2.2.1 j i hj hi]
    exact csCell_congr r _ _ i j (hp j hj)
  | FC_LCSUBSEQ =>
    show ctx.matrix.getD (i * ctx.mdim + j) 0 = lcsCell r (memoPrev ctx) i j
    rw [hrest.2.2.2 i j hi hj]
    exact lcsCell_congr r _ _ _ i j rfl (hp j hj)

theorem memoPrev_of_take (ctx : fc_memo) (q : List Nat) (h1 : ctx.len2 = q.length)
    (h2 : ctx.seq2.take q.length = q) : memoPrev ctx = q := by
  unfold memoPrev
  rw [h1, h2]

/-! ## The minimum of a column of the matrix of a memoizer -/

theorem memoColMin_sound (t : Bool) (max_len : Nat) (r : List Nat) (ctx : fc_memo)
    (h : MemoInv (if t = true then fc_metric.FC_DAMERAU else fc_metric.FC_LEVENSHTEIN)
      max_len r ctx) :
    ctx.matrix.getD (ctx.len1 * ctx.mdim + ctx.len2) 0 = dist t r (memoPrev ctx) ∧
    (∀ k k', k ≤ k' → k' ≤ ctx.len2 →
      memoColMin ctx.matrix ctx.mdim k (ctx.len1 + 1) 0 INT32_MAX
        ≤ memoColMin ctx.matrix ctx.mdim k' (ctx.len1 + 1) 0 INT32_MAX) ∧
    (∀ k q, k ≤ ctx.len2 → k ≤ q.length →
      (∀ x, x < k → q.getD x 0 = (memoPrev ctx).getD x 0) →
      memoColMin ctx.matrix ctx.mdim k (ctx.len1 + 1) 0 INT32_MAX ≤ dist t r q) := by
  have hcells : ∀ i j, i ≤ r.length → j ≤ ctx.len2 →
      ctx.matrix.getD (i * ctx.mdim + j) 0 = distCell t r (memoPrev ctx) i j := by
    intro i j hi hj
    have := MemoInv_cells _ max_len r ctx h i j hi hj
    cases t with
    | false => exact this
    | true => exact this
  obtain ⟨_, _, _, h3, _, h5, h6, _⟩ := h
  have hplen : (memoPrev ctx).length = ctx.len2 := by
    unfold memoPrev
    rw [List.length_take]
    omega
  have hq : ∀ k q, k ≤ ctx.len2 → k ≤ q.length →
      (∀ x, x < k → q.getD x 0 = (memoPrev ctx).getD x 0) →
      memoColMin ctx.matrix ctx.mdim k (ctx.len1 + 1) 0 INT32_MAX ≤ dist t r q := by
    intro k q hk hkq hpre
    obtain ⟨i', hi', hle⟩ := distCell_column_le t r q _ r.length q.length k rfl
      (Nat.le_refl _) (Nat.le_refl _) hkq
    have hmin := (memoColMin_spec ctx.matrix ctx.mdim k (ctx.len1 + 1) 0 INT32_MAX).2.1 i'
      (Nat.zero_le _) (by omega)
    rw [hcells i' k hi' hk,
      distCell_congr t r (memoPrev ctx) q _ i' k rfl (fun x hx => (hpre x hx).symm)] at hmin
    rw [distCell_eq_dist] at hle
    omega
  refine ⟨?_, ?_, hq⟩
  · rw [h3, hcells r.length ctx.len2 (Nat.le_refl _) (Nat.le_refl _), ← hplen, distCell_eq_dist]
  · intro k k' hkk hk'
    rcases (memoColMin_spec ctx.matrix ctx.mdim k' (ctx.len1 + 1) 0 INT32_MAX).2.2 with e | e
    · rw [e]
      exact (memoColMin_spec ctx.matrix ctx.mdim k (ctx.len1 + 1) 0 INT32_MAX).1
    · obtain ⟨i', _, hi', e⟩ := e
      rw [e, hcells i' k' (by omega) hk']
      obtain ⟨i2, hi2, hle⟩ := distCell_column_le t r (memoPrev ctx) _ i' k' k rfl
        (by omega) (by omega) hkk
      have hmin := (memoColMin_spec ctx.matrix ctx.mdim k (ctx.len1 + 1) 0 INT32_MAX).2.1 i2
        (Nat.zero_le _) (by omega)
      rw [hcells i2 k (by omega) (by omega)] at hmin
      omega

/-! ## The same sequence computed twice -/

theorem memoRun_twice (metric : fc_metric) (max_len : Nat) (r : List Nat) :
    ∀ (qs : List (List Nat)) (ctx : fc_memo) (q : List Nat),
      MemoInv metric max_len r ctx → (∀ q', q' ∈ qs → q'.length ≤ max_len) →
      q.length ≤ max_len →
      ∃ vs v1 v2, memoRun ctx (qs ++ [q, q]) = some (vs ++ [v1, v2]) ∧ vs.length = qs.length ∧
        (v1 = oneShot metric r q ∨
          ((metric = fc_metric.FC_LEVENSHTEIN ∨ metric = fc_metric.FC_DAMERAU) ∧
            v1 = INT32_MAX ∧ ctx.max_dist < ((oneShot metric r q : Nat) : Int))) ∧
        (v2 = oneShot metric r q ∨
          ((metric = fc_metric.FC_LEVENSHTEIN ∨ metric = fc_metric.FC_DAMERAU) ∧
            v2 = INT32_MAX ∧ ctx.max_dist < ((oneShot metric r q : Nat) : Int))) := by
  intro qs
  induction qs with
  | nil =>
    intro ctx q h _ hq
    obtain ⟨v1, ctx1, e1, hinv1, hmd1, hv1⟩ := MemoInv_compute metric max_len r q ctx h hq
    obtain ⟨v2, ctx2, e2, _, _, hv2⟩ := MemoInv_compute metric max_len r q ctx1 hinv1 hq
    refine ⟨[], v1, v2, ?_, rfl, hv1, ?_⟩
    · rw [List.nil_append, memoRun, e1]
      simp only []
      rw [memoRun, e2]
      rfl
    · rw [hmd1] at hv2
      exact hv2
  | cons q0 qs ih =>
    intro ctx q h hqs hq
    obtain ⟨v0, ctx', e, hinv, hmd, _⟩ := MemoInv_compute metric max_len r q0 ctx h
      (hqs q0 (List.mem_cons_self _ _))
    obtain ⟨vs, v1, v2, e2, hl, hv1, hv2⟩ := ih ctx' q hinv
      (fun q' hq' => hqs q' (List.mem_cons_of_mem _ hq')) hq
    refine ⟨v0 :: vs, v1, v2, ?_, by simp [hl], ?_, ?_⟩
    · rw [List.cons_append, memoRun, e]
      simp only []
      rw [e2]
      rfl
    · rw [hmd] at hv1
      exact hv1
    · rw [hmd] at hv2
      exact hv2

/-! ## Glob matching: the end of a run and the depth of the recursion -/

theorem globClassFind_suffix (invert : Bool) (c : Nat) : ∀ (l l' : List Nat),
    globClassFind invert c l = ClassScan.next l' → l' <:+ l := by
  intro l
  induction l with
  | nil =>
    intro l' h
    unfold globClassFind at h
    exact absurd h (by simp)
  | cons p pat ih =>
    intro l' h
    rw [globClassFind_cons] at h
    by_cases hc : (decide (p = c)) = invert
    · rw [if_pos hc] at h
      by_cases hp : p = 0 ∨ p = 93
      · rw [if_pos hp] at h
        exact absurd h (by simp)
      · rw [if_neg hp] at h
        exact List.IsSuffix.trans (ih l' h) (List.suffix_cons p pat)
    · rw [if_neg hc] at h
      have e : p :: pat = l' := by
        injection h
      rw [← e]

theorem globClassSkip_suffix : ∀ (l l' : List Nat),
    globClassSkip l = ClassScan.next l' → l' <:+ l ∧ l' ≠ l := by
  intro l
  induction l with
  | nil =>
    intro l' h
    unfold globClassSkip at h
    exact absurd h (by simp)
  | cons p pat ih =>
    intro l' h
    cases pat with
    | nil =>
      unfold globClassSkip at h
      by_cases hp : p = 0
      · rw [if_pos hp] at h
        exact absurd h (by simp)
      · rw [if_neg hp] at h
        exact absurd h (by simp)
    | cons q rest =>
      rw [globClassSkip_cons_cons] at h
      by_cases hp : p = 0
      · rw [if_pos hp] at h
        exact absurd h (by simp)
      · rw [if_neg hp] at h
        by_cases hq : q ≠ 93
        · rw [if_pos hq] at h
          obtain ⟨s1, _⟩ := ih l' h
          have hs : l' <:+ p :: q :: rest := List.IsSuffix.trans s1 (List.suffix_cons p _)
          refine ⟨hs, fun e => ?_⟩
          have := List.IsSuffix.length_le s1
          rw [e] at this
          simp at this
        · rw [if_neg hq] at h
          have e : q :: rest = l' := by
            injection h
          rw [← e]
          exact ⟨List.suffix_cons p _, fun e' => by
            have := congrArg List.length e'
            simp at this⟩

theorem suffix_length_lt {l' l : List Nat} (h : l' <:+ l) (hne : l' ≠ l) :
    l'.length < l.length := by
  have h1 := List.IsSuffix.length_le h
  rcases Nat.lt_or_ge l'.length l.length with h2 | h2
  · exact h2
  · exact absurd (List.IsSuffix.eq_of_length h (by omega)) hne

theorem globStar_fuel (rec : List Nat → GlobResult)
    (h : ∀ s, rec s ≠ GlobResult.outOfFuel) : ∀ (str : List Nat),
    globStar rec str ≠ GlobResult.outOfFuel := by
  intro str
  induction str with
  | nil =>
    unfold globStar
    have := h []
    cases hr : rec [] with
    | ret b => cases b <;> simp
    | outOfBounds => simp
    | outOfFuel => exact absurd hr this
  | cons c str ih =>
    unfold globStar
    have := h (c :: str)
    cases hr : rec (c :: str) with
    | ret b =>
      cases b with
      | true => simp
      | false =>
        simp only []
        by_cases hc : c ≠ 0
        · rw [if_pos hc]
          exact ih
        · rw [if_neg hc]
          simp
    | outOfBounds => simp
    | outOfFuel => exact absurd hr this

/-- The loop of `fc_glob` never uses up its iterations: a run on a pattern
buffer of fewer cells than `fuel` ends with a returned boolean or at a read
outside a buffer. -/
theorem fc_globAux_fuel : ∀ (fuel : Nat) (pat str : List Nat), pat.length < fuel →
    fc_globAux fuel pat str ≠ GlobResult.outOfFuel := by
  intro fuel
  induction fuel with
  | zero => intro pat str h; omega
  | succ fuel ih =>
    intro pat str h
    cases pat with
    | nil =>
      unfold fc_globAux
      simp
    | cons p pat =>
      have hl : pat.length < fuel := by
        simp only [List.length_cons] at h
        omega
      conv_lhs => unfold fc_globAux
      by_cases h0 : p = 0
      · rw [if_pos h0]
        cases str with
        | nil => simp
        | cons c str1 => simp
      · rw [if_neg h0]
        by_cases h63 : p = 63
        · rw [if_pos h63]
          cases str with
          | nil => simp
          | cons c str1 =>
            simp only []
            by_cases hc : c = 0
            · rw [if_pos hc]
              simp
            · rw [if_neg hc]
              exact ih pat str1 hl
        · rw [if_neg h63]
          by_cases h42 : p = 42
          · rw [if_pos h42]
            cases pat with
            | nil => simp
            | cons q rest =>
              simp only []
              by_cases hq : q = 0
              · rw [if_pos hq]
                simp
              · rw [if_neg hq]
                exact globStar_fuel _ (fun s => ih (q :: rest) s hl) str
          · rw [if_neg h42]
            by_cases h91 : p = 91
            · rw [if_pos h91]
              cases pat with
              | nil => simp
              | cons q pat1 =>
                simp only []
                cases str with
                | nil => simp
                | cons c str1 =>
                  simp only []
                  cases h3 : globClassFind (decide (q = 94)) c (if q = 94 then pat1 else q :: pat1) with
                  | reject => simp
                  | outOfBounds => simp
                  | next pat3 =>
                    simp only []
                    cases h4 : globClassSkip pat3 with
                    | reject => simp
                    | outOfBounds => simp
                    | next pat4 =>
                      simp only []
                      apply ih
                      have s3 := List.IsSuffix.length_le (globClassFind_suffix _ _ _ _ h3)
                      have s4 := List.IsSuffix.length_le (globClassSkip_suffix _ _ h4).1
                      have s2 : (if q = 94 then pat1 else q :: pat1).length
                          ≤ (q :: pat1).length := by
                        split
                        · simp
                        · exact Nat.le_refl _
                      have s5 : pat4.tail.length ≤ pat4.length := by simp
                      omega
            · rw [if_neg h91]
              cases str with
              | nil => simp
              | cons c str1 =>
                simp only []
                by_cases hc : c ≠ p
                · rw [if_pos hc]
                  simp
                · rw [if_neg hc]
                  exact ih pat str1 hl

theorem fc_glob_fuel (pat str : List Nat) : fc_glob pat str ≠ GlobResult.outOfFuel :=
  fc_globAux_fuel _ pat str (Nat.lt_succ_self _)

theorem globStarDepth_le (rec : List Nat → GlobResult) (depth : List Nat → Nat) (B : Nat)
    (h : ∀ s, depth s ≤ B) : ∀ (str : List Nat), globStarDepth rec depth str ≤ B := by
  intro str
  induction str with
  | nil =>
    unfold globStarDepth
    exact h []
  | cons c str ih =>
    unfold globStarDepth
    split
    · split
      · exact max_le (h _) ih
      · exact h _
    · exact h _

theorem count_tail_le (l : List Nat) (x : Nat) : l.tail.count x ≤ l.count x :=
  List.Sublist.count_le (List.tail_sublist l) x

/-- The depth of the recursion of `fc_glob` is at most the number of `*` in
the pattern. -/
theorem fc_globDepth_le : ∀ (fuel : Nat) (pat str : List Nat),
    fc_globDepth fuel pat str ≤ pat.count 42 := by
  intro fuel
  induction fuel with
  | zero =>
    intro pat str
    unfold fc_globDepth
    exact Nat.zero_le _
  | succ fuel ih =>
    intro pat str
    cases pat with
    | nil =>
      unfold fc_globDepth
      exact Nat.zero_le _
    | cons p pat =>
      have hmono : pat.count 42 ≤ (p :: pat).count 42 :=
        List.Sublist.count_le (List.sublist_cons_self p pat) 42
      conv_lhs => unfold fc_globDepth
      by_cases h0 : p = 0
      · rw [if_pos h0]
        exact Nat.zero_le _
      · rw [if_neg h0]
        by_cases h63 : p = 63
        · rw [if_pos h63]
          cases str with
          | nil => exact Nat.zero_le _
          | cons c str1 =>
            simp only []
            split
            · exact Nat.zero_le _
            · exact Nat.le_trans (ih pat str1) hmono
        · rw [if_neg h63]
          by_cases h42 : p = 42
          · rw [if_pos h42]
            cases pat with
            | nil => exact Nat.zero_le _
            | cons q rest =>
              simp only []
              split
              · exact Nat.zero_le _
              · apply globStarDepth_le
                intro s
                have := ih (q :: rest) s
                rw [h42, List.count_cons_self]
                omega
          · rw [if_neg h42]
            by_cases h91 : p = 91
            · rw [if_pos h91]
              cases pat with
              | nil => exact Nat.zero_le _
              | cons q pat1 =>
                simp only []
                cases str with
                | nil => exact Nat.zero_le _
                | cons c str1 =>
                  simp only []
                  cases h3 : globClassFind (decide (q = 94)) c (if q = 94 then pat1 else q :: pat1) with
                  | reject => exact Nat.zero_le _
                  | outOfBounds => exact Nat.zero_le _
                  | next pat3 =>
                    simp only []
                    cases h4 : globClassSkip pat3 with
                    | reject => exact Nat.zero_le _
                    | outOfBounds => exact Nat.zero_le _
                    | next pat4 =>
                      simp only []
                      have s3 := List.Sublist.count_le
                        (List.IsSuffix.sublist (globClassFind_suffix _ _ _ _ h3)) 42
                      have s4 := List.Sublist.count_le
                        (List.IsSuffix.sublist (globClassSkip_suffix _ _ h4).1) 42
                      have s2 : (if q = 94 then pat1 else q :: pat1).count 42
                          ≤ (q :: pat1).count 42 := by
                        split
                        · exact List.Sublist.count_le (List.sublist_cons_self q pat1) 42
                        · exact Nat.le_refl _
                      have s5 := count_tail_le pat4 42
                      have := ih pat4.tail str1
                      omega
            · rw [if_neg h91]
              cases str with
              | nil => exact Nat.zero_le _
              | cons c str1 =>
                simp only []
                split
                · exact Nat.zero_le _
                · exact Nat.le_trans (ih pat str1) hmono

/-! ## Glob matching: runs that stay inside the string, and one that does not -/

theorem globStar_returns (rec : List Nat → GlobResult)
    (h : ∀ s, (∀ c, c ∈ s → c ≠ 0) → ∃ b, rec (cstr s) = GlobResult.ret b) :
    ∀ (s : List Nat), (∀ c, c ∈ s → c ≠ 0) → ∃ b, globStar rec (cstr s) = GlobResult.ret b := by
  intro s
  induction s with
  | nil =>
    intro hs
    obtain ⟨b, hb⟩ := h [] hs
    rw [cstr_nil] at hb ⊢
    unfold globStar
    rw [hb]
    cases b with
    | true => exact ⟨true, rfl⟩
    | false => exact ⟨false, by simp⟩
  | cons c s ih =>
    intro hs
    have hc : c ≠ 0 := hs c (List.mem_cons_self _ _)
    have hs' : ∀ x, x ∈ s → x ≠ 0 := fun x hx => hs x (List.mem_cons_of_mem _ hx)
    obtain ⟨b, hb⟩ := h (c :: s) hs
    rw [cstr_cons] at hb ⊢
    unfold globStar
    rw [hb]
    cases b with
    | true => exact ⟨true, rfl⟩
    | false =>
      simp only []
      rw [if_pos hc]
      exact ih hs'

theorem fc_globAux_star (fuel : Nat) (pat str : List Nat) :
    fc_globAux (fuel + 1) (42 :: pat) str =
      match pat with
      | [] => GlobResult.outOfBounds
      | q :: _ =>
        if q = 0 then GlobResult.ret true
        else globStar (fc_globAux fuel pat) str := by
  conv_lhs => unfold fc_globAux
  simp

/-- On a pattern without `[`, a run of `fc_glob` reads no cell outside the
two strings and returns. -/
theorem fc_globAux_returns : ∀ (fuel : Nat) (p s : List Nat),
    (∀ x, x ∈ p → x ≠ 0 ∧ x ≠ 91) → (∀ c, c ∈ s → c ≠ 0) → (cstr p).length < fuel →
    ∃ b, fc_globAux fuel (cstr p) (cstr s) = GlobResult.ret b := by
  intro fuel
  induction fuel with
  | zero => intro p s _ _ h; omega
  | succ fuel ih =>
    intro p s hp hs hf
    cases p with
    | nil =>
      rw [cstr_nil, fc_globAux_end fuel [] s hs]
      exact ⟨_, rfl⟩
    | cons x p =>
      have hx := hp x (List.mem_cons_self _ _)
      have hp' : ∀ y, y ∈ p → y ≠ 0 ∧ y ≠ 91 := fun y hy => hp y (List.mem_cons_of_mem _ hy)
      have hf' : (cstr p).length < fuel := by
        rw [cstr_cons, List.length_cons] at hf
        omega
      rw [cstr_cons]
      by_cases h63 : x = 63
      · subst h63
        rw [fc_globAux_question]
        cases s with
        | nil =>
          rw [cstr_nil]
          exact ⟨false, by simp⟩
        | cons c s1 =>
          rw [cstr_cons]
          simp only []
          rw [if_neg (hs c (List.mem_cons_self _ _))]
          exact ih p s1 hp' (fun y hy => hs y (List.mem_cons_of_mem _ hy)) hf'
      · by_cases h42 : x = 42
        · subst h42
          rw [fc_globAux_star]
          cases hcp : cstr p with
          | nil =>
            unfold cstr at hcp
            exact absurd hcp (by simp)
          | cons q rest =>
            simp only []
            by_cases hq : q = 0
            · rw [if_pos hq]
              exact ⟨true, rfl⟩
            · rw [if_neg hq, ← hcp]
              exact globStar_returns _ (fun s' hs' => ih p s' hp' hs' hf') s hs
        · rw [fc_globAux_default fuel x (cstr p) (cstr s) ⟨hx.1, h63, h42, hx.2⟩]
          cases s with
          | nil =>
            rw [cstr_nil]
            simp only []
            rw [if_pos (Ne.symm hx.1)]
            exact ⟨false, rfl⟩
          | cons c s1 =>
            rw [cstr_cons]
            simp only []
            by_cases hc : c ≠ x
            · rw [if_pos hc]
              exact ⟨false, rfl⟩
            · rw [if_neg hc]
              exact ih p s1 hp' (fun y hy => hs y (List.mem_cons_of_mem _ hy)) hf'

theorem fc_glob_returns (p s : List Nat) (hp : ∀ x, x ∈ p → x ≠ 0 ∧ x ≠ 91)
    (hs : ∀ c, c ∈ s → c ≠ 0) : ∃ b, fc_glob (cstr p) (cstr s) = GlobResult.ret b :=
  fc_globAux_returns _ p s hp hs (Nat.lt_succ_self _)

/-- A negated class applied at the end of the string takes the terminator for
a codepoint: the string cursor moves past the terminator, and the cell after
it is read. -/
theorem fc_glob_negated_class_at_end (x : Nat) (l : List Nat) (hx : x ≠ 0)
    (hl : ∀ y, y ∈ l → y ≠ 93 ∧ y ≠ 0) :
    fc_glob (cstr (91 :: 94 :: x :: (l ++ [93]))) (cstr []) = GlobResult.outOfBounds := by
  unfold fc_glob
  obtain ⟨f, hf⟩ : ∃ f, (cstr (91 :: 94 :: x :: (l ++ [93]))).length + 1 = f + 1 + 1 := by
    refine ⟨(cstr (91 :: 94 :: x :: (l ++ [93]))).length - 1, ?_⟩
    simp [cstr]
  rw [hf]
  have e : cstr (91 :: 94 :: x :: (l ++ [93])) = 91 :: 94 :: x :: (l ++ [93, 0]) := by
    simp [cstr]
  rw [e, cstr_nil, fc_globAux_class]
  simp only [if_true, decide_True]
  rw [globClassFind_cons, if_neg (by simpa using hx)]
  simp only []
  rw [globClassSkip_to_bracket l x hx hl]
  simp only [List.tail_cons]
  rw [fc_globAux_nul]

/-- Claim C1: for sequences within `FC_MAX_SEQ_LEN`, `fc_levenshtein(a, b)` is
the Levenshtein distance of `a` and `b`: some sequence of that many
insertions, deletions and substitutions of a single codepoint transforms `a`
into `b`, no such sequence is shorter, and the value is the last cell of the
full Wagner-Fischer recurrence on the inputs as given. -/
theorem fc_levenshtein_is_edit_distance (a b : List Nat)
    (ha : a.length ≤ FC_MAX_SEQ_LEN) (hb : b.length ≤ FC_MAX_SEQ_LEN) :
    EditSeq false a b (fc_levenshtein a b) ∧
      (∀ n, EditSeq false a b n → fc_levenshtein a b ≤ n) ∧
      fc_levenshtein a b = distCell false a b a.length b.length := by
  have _ := ha
  have _ := hb
  rw [fc_levenshtein_eq]
  exact ⟨editSeq_of_align (align_dist false a b), fun n h => dist_false_le_of_editSeq h,
    (distCell_eq_dist false a b).symm⟩

/-- Claim C1 at `kitten` and `sitting`. -/
theorem fc_levenshtein_is_edit_distance_witness :
    EditSeq false (cps "kitten") (cps "sitting") (fc_levenshtein (cps "kitten") (cps "sitting")) ∧
      (∀ n, EditSeq false (cps "kitten") (cps "sitting") n →
        fc_levenshtein (cps "kitten") (cps "sitting") ≤ n) ∧
      fc_levenshtein (cps "kitten") (cps "sitting")
        = distCell false (cps "kitten") (cps "sitting") (cps "kitten").length
          (cps "sitting").length :=
  fc_levenshtein_is_edit_distance (cps "kitten") (cps "sitting") (by decide) (by decide)

/-- Claim C2 (memoizer equivalence): for every metric, every `max_len` within
`FC_MAX_SEQ_LEN`, every `max_dist`, every reference `r` and every list of
queries, all of length at most `max_len`, the calls of `fc_memo_compute` on
the queries, made in order on one memoizer after `fc_memo_init` and
`fc_memo_set_ref(r)`, all return, and each returns either the value of the
one-shot function of the metric on `r` and the query or, for the two edit
distances only, `INT32_MAX`; and whenever the value returned is `INT32_MAX`,
the one-shot value is larger than `max_dist`. -/
theorem memo_equivalence (ctx : fc_memo) (metric : fc_metric) (max_len : Nat) (max_dist : Int)
    (r : List Nat) (qs : List (List Nat)) (hmax : max_len ≤ FC_MAX_SEQ_LEN)
    (hr : r.length ≤ max_len) (hqs : ∀ q, q ∈ qs → q.length ≤ max_len) :
    ∃ vs, memoRun (fc_memo_set_ref (fc_memo_init ctx metric max_len max_dist) r) qs = some vs ∧
      List.Forall₂ (fun q v =>
        (v = oneShot metric r q ∨
          ((metric = fc_metric.FC_LEVENSHTEIN ∨ metric = fc_metric.FC_DAMERAU) ∧
            v = INT32_MAX)) ∧
        (v = INT32_MAX → max_dist < ((oneShot metric r q : Nat) : Int))) qs vs := by
  obtain ⟨hinv, hmd⟩ := MemoInv_init ctx metric max_len max_dist r hr
  obtain ⟨vs, e, hvs⟩ := memoRun_spec metric max_len r qs _ hinv hqs
  rw [hmd] at hvs
  refine ⟨vs, e, ?_⟩
  have hmem : ∀ q, q ∈ qs → oneShot metric r q < INT32_MAX := by
    intro q hq
    have h1 := oneShot_le metric r q
    have h2 := hqs q hq
    have h3 : max r.length q.length ≤ max_len := max_le hr h2
    unfold INT32_MAX
    unfold FC_MAX_SEQ_LEN at hmax
    omega
  clear e hinv hmd hqs
  induction hvs with
  | nil => exact List.Forall₂.nil
  | cons hv _ ih =>
    refine List.Forall₂.cons ?_ (ih (fun q hq => hmem q (List.mem_cons_of_mem _ hq)))
    have hlt := hmem _ (List.mem_cons_self _ _)
    rcases hv with hv | hv
    · refine ⟨Or.inl hv, ?_⟩
      intro h
      omega
    · exact ⟨Or.inr ⟨hv.1, hv.2.1⟩, fun _ => hv.2.2⟩

/-- Claim C2 for the Damerau metric with `max_dist` 1, the reference `ab` and
the queries `ba`, `bac`, `bxyz`. -/
theorem memo_equivalence_witness :
    ∃ vs, memoRun (fc_memo_set_ref (fc_memo_init memo0 fc_metric.FC_DAMERAU 4 1) (cps "ab"))
        [cps "ba", cps "bac", cps "bxyz"] = some vs ∧
      List.Forall₂ (fun q v =>
        (v = oneShot fc_metric.FC_DAMERAU (cps "ab") q ∨
          ((fc_metric.FC_DAMERAU = fc_metric.FC_LEVENSHTEIN ∨
              fc_metric.FC_DAMERAU = fc_metric.FC_DAMERAU) ∧
            v = INT32_MAX)) ∧
        (v = INT32_MAX →
          (1 : Int) < ((oneShot fc_metric.FC_DAMERAU (cps "ab") q : Nat) : Int)))
        [cps "ba", cps "bac", cps "bxyz"] vs :=
  memo_equivalence memo0 fc_metric.FC_DAMERAU 4 1 (cps "ab") [cps "ba", cps "bac", cps "bxyz"]
    (by decide) (by decide) (by decide)

/-- Claim C6 as stated fails: with `max_dist` 1 and the reference `ab`, the
first query `cd`, at Levenshtein distance 2 from the reference, gets the
value 2 and not `INT32_MAX`. -/
theorem memo_levenshtein_above_max_dist_not_sentinel :
    (1 : Int) < ((fc_levenshtein (cps "ab") (cps "cd") : Nat) : Int) ∧
    memoRun (fc_memo_set_ref (fc_memo_init memo0 fc_metric.FC_LEVENSHTEIN 2 1) (cps "ab"))
      [cps "cd"] = some [2] ∧ 2 ≠ INT32_MAX := by
  decide!

/-- Claim C6, amended: for a memoizer of the Levenshtein (`t` false) or of the
Damerau metric (`t` true) with cutoff `max_dist`, a reference and queries of
length at most `max_len`, whatever queries were computed before: when the
distance `dist t r q` that the metric computes exceeds `max_dist`,
`fc_memo_compute` returns a value larger than `max_dist`, which is either
`INT32_MAX` or this distance. -/
theorem memo_compute_above_max_dist (ctx : fc_memo) (t : Bool) (max_len : Nat) (max_dist : Int)
    (r : List Nat) (qs : List (List Nat)) (q : List Nat) (hmax : max_len ≤ FC_MAX_SEQ_LEN)
    (hr : r.length ≤ max_len) (hqs : ∀ q', q' ∈ qs → q'.length ≤ max_len)
    (hq : q.length ≤ max_len) (hd : max_dist < ((dist t r q : Nat) : Int)) :
    ∃ vs v, memoRun (fc_memo_set_ref (fc_memo_init ctx
          (if t = true then fc_metric.FC_DAMERAU else fc_metric.FC_LEVENSHTEIN)
          max_len max_dist) r) (qs ++ [q]) = some (vs ++ [v]) ∧
      vs.length = qs.length ∧ max_dist < ((v : Nat) : Int) ∧
      (v = INT32_MAX ∨ v = dist t r q) := by
  obtain ⟨hinv, hmd⟩ := MemoInv_init ctx
    (if t = true then fc_metric.FC_DAMERAU else fc_metric.FC_LEVENSHTEIN) max_len max_dist r hr
  obtain ⟨vs, v, e, hl, hv⟩ := memoRun_last _ max_len r qs _ q hinv hqs hq
  have hone : oneShot (if t = true then fc_metric.FC_DAMERAU else fc_metric.FC_LEVENSHTEIN) r q
      = dist t r q := by
    cases t with
    | false => exact fc_levenshtein_eq r q
    | true => exact fc_damerau_eq r q
  rw [hone] at hv
  have hle := dist_le_max t r q
  refine ⟨vs, v, e, hl, ?_, ?_⟩
  · rcases hv with hv | hv
    · rw [hv]
      exact hd
    · rw [hv.2.1]
      unfold INT32_MAX
      unfold FC_MAX_SEQ_LEN at hmax
      omega
  · rcases hv with hv | hv
    · exact Or.inr hv
    · exact Or.inl hv.2.1

/-- Claim C6, amended, on the Levenshtein metric with `max_dist` 1, the
reference `ab`, the earlier query `ac` and the query `cd`. -/
theorem memo_compute_above_max_dist_witness :
    ∃ vs v, memoRun (fc_memo_set_ref (fc_memo_init memo0
          (if false = true then fc_metric.FC_DAMERAU else fc_metric.FC_LEVENSHTEIN)
          2 1) (cps "ab")) ([cps "ac"] ++ [cps "cd"]) = some (vs ++ [v]) ∧
      vs.length = [cps "ac"].length ∧ (1 : Int) < ((v : Nat) : Int) ∧
      (v = INT32_MAX ∨ v = dist false (cps "ab") (cps "cd")) :=
  memo_compute_above_max_dist memo0 false 2 1 (cps "ab") [cps "ac"] (cps "cd")
    (by decide) (by decide) (by decide) (by decide)
    (by rw [← fc_levenshtein_eq]; decide)

/-- Claim C3: for sequences within `FC_MAX_SEQ_LEN` and every bound `k` in
{0, 1, 2}, `fc_lev_bounded[k](a, b)` is `fc_levenshtein(a, b)` when this
distance is at most `k`, and is larger than `k` otherwise; in particular
`fc_lev_bounded[0]` returns 0 exactly when `a = b`, and `fc_lev_bounded1`
returns a value larger than 1 exactly when the distance is larger than 1. -/
theorem fc_lev_bounded_agrees (k : Fin 3) (a b : List Nat)
    (ha : a.length ≤ FC_MAX_SEQ_LEN) (hb : b.length ≤ FC_MAX_SEQ_LEN) :
    (fc_levenshtein a b ≤ k.val → fc_lev_bounded k a b = fc_levenshtein a b) ∧
    (k.val < fc_levenshtein a b → k.val < fc_lev_bounded k a b) ∧
    (fc_lev_bounded 0 a b = 0 ↔ a = b) ∧
    (1 < fc_lev_bounded 1 a b ↔ 1 < fc_levenshtein a b) := by
  have _ := ha
  have _ := hb
  rw [fc_levenshtein_eq]
  have h0 := fc_lev_bounded0_spec a b
  have h1 := fc_lev_bounded1_spec a b
  have h2 := fc_lev_bounded2_spec a b
  have hz := dist_eq_zero_iff false a b
  have hgt0 : 0 < dist false a b → 0 < fc_lev_bounded0 a b := by
    intro h
    rw [h0.2 h]
    unfold INT32_MAX
    split <;> omega
  have hgt2 : 2 < dist false a b → 2 < fc_lev_bounded2 a b := by
    intro h
    rw [h2.2 h]
    unfold INT32_MAX
    split <;> omega
  refine ⟨?_, ?_, ?_, ?_⟩
  · fin_cases k
    · exact h0.1
    · exact h1.1
    · exact h2.1
  · fin_cases k
    · exact hgt0
    · exact h1.2.1
    · exact hgt2
  · show fc_lev_bounded0 a b = 0 ↔ a = b
    constructor
    · intro h
      by_contra hne
      have hpos : 0 < dist false a b := by
        rcases Nat.eq_zero_or_pos (dist false a b) with e | e
        · exact absurd (hz.mp e) hne
        · exact e
      have := hgt0 hpos
      omega
    · intro h
      have e := hz.mpr h
      rw [h0.1 (by omega), e]
  · show 1 < fc_lev_bounded1 a b ↔ 1 < dist false a b
    constructor
    · intro h
      by_contra hle
      have := h1.1 (by omega)
      omega
    · exact h1.2.1

/-- Claim C3 at `ab` and `ba` with the bound 2. -/
theorem fc_lev_bounded_agrees_witness :
    (fc_levenshtein (cps "ab") (cps "ba") ≤ (2 : Fin 3).val →
      fc_lev_bounded 2 (cps "ab") (cps "ba") = fc_levenshtein (cps "ab") (cps "ba")) ∧
    ((2 : Fin 3).val < fc_levenshtein (cps "ab") (cps "ba") →
      (2 : Fin 3).val < fc_lev_bounded 2 (cps "ab") (cps "ba")) ∧
    (fc_lev_bounded 0 (cps "ab") (cps "ba") = 0 ↔ cps "ab" = cps "ba") ∧
    (1 < fc_lev_bounded 1 (cps "ab") (cps "ba") ↔ 1 < fc_levenshtein (cps "ab") (cps "ba")) :=
  fc_lev_bounded_agrees 2 (cps "ab") (cps "ba") (by decide) (by decide)

/-- Claim C4 as stated fails: the Levenshtein distance of `abcdef` and
`abXdYf` exceeds 1, and `fc_lev_bounded[1]` does not return `INT32_MAX` on
this pair. -/
theorem fc_lev_bounded1_not_sentinel :
    1 < fc_levenshtein (cps "abcdef") (cps "abXdYf") ∧
      fc_lev_bounded 1 (cps "abcdef") (cps "abXdYf") ≠ INT32_MAX := by
  decide

/-- Claim C4, amended: for sequences within `FC_MAX_SEQ_LEN` whose Levenshtein
distance exceeds the bound `k`, `fc_lev_bounded[k](a, b)` returns a value
larger than `k`: for `k = 0`, 1 when the lengths are equal and `INT32_MAX`
otherwise; for `k = 1`, a length, at most `FC_MAX_SEQ_LEN`; for `k = 2`,
`INT32_MAX` when the lengths differ by more than 2 and 3 otherwise. On
`abcdef` and `abXdYf`, `fc_lev_bounded[2]` returns 2 and `fc_lev_bounded[1]`
returns 3. -/
theorem fc_lev_bounded_exceeds (k : Fin 3) (a b : List Nat)
    (ha : a.length ≤ FC_MAX_SEQ_LEN) (hb : b.length ≤ FC_MAX_SEQ_LEN)
    (h : k.val < fc_levenshtein a b) :
    k.val < fc_lev_bounded k a b ∧
    (k = 0 → fc_lev_bounded k a b = if a.length = b.length then 1 else INT32_MAX) ∧
    (k = 1 → fc_lev_bounded k a b ≤ FC_MAX_SEQ_LEN) ∧
    (k = 2 → fc_lev_bounded k a b =
      if a.length - b.length > 2 ∨ b.length - a.length > 2 then INT32_MAX else 3) ∧
    fc_lev_bounded 2 (cps "abcdef") (cps "abXdYf") = 2 ∧
    fc_lev_bounded 1 (cps "abcdef") (cps "abXdYf") = 3 := by
  rw [fc_levenshtein_eq] at h
  have h0 := fc_lev_bounded0_spec a b
  have h1 := fc_lev_bounded1_spec a b
  have h2 := fc_lev_bounded2_spec a b
  refine ⟨?_, ?_, ?_, ?_, by decide, by decide⟩
  · fin_cases k
    · show 0 < fc_lev_bounded0 a b
      rw [h0.2 h]
      unfold INT32_MAX
      split <;> omega
    · exact h1.2.1 h
    · show 2 < fc_lev_bounded2 a b
      rw [h2.2 h]
      unfold INT32_MAX
      split <;> omega
  · intro hk
    subst hk
    exact h0.2 h
  · intro hk
    subst hk
    have := h1.2.2
    show fc_lev_bounded1 a b ≤ FC_MAX_SEQ_LEN
    omega
  · intro hk
    subst hk
    exact h2.2 h

/-- Claim C4, amended, at `abcdef` and `abXdYf` with the bound 1. -/
theorem fc_lev_bounded_exceeds_witness :
    (1 : Fin 3).val < fc_lev_bounded 1 (cps "abcdef") (cps "abXdYf") ∧
    ((1 : Fin 3) = 0 → fc_lev_bounded 1 (cps "abcdef") (cps "abXdYf") =
      if (cps "abcdef").length = (cps "abXdYf").length then 1 else INT32_MAX) ∧
    ((1 : Fin 3) = 1 → fc_lev_bounded 1 (cps "abcdef") (cps "abXdYf") ≤ FC_MAX_SEQ_LEN) ∧
    ((1 : Fin 3) = 2 → fc_lev_bounded 1 (cps "abcdef") (cps "abXdYf") =
      if (cps "abcdef").length - (cps "abXdYf").length > 2 ∨
        (cps "abXdYf").length - (cps "abcdef").length > 2 then INT32_MAX else 3) ∧
    fc_lev_bounded 2 (cps "abcdef") (cps "abXdYf") = 2 ∧
    fc_lev_bounded 1 (cps "abcdef") (cps "abXdYf") = 3 :=
  fc_lev_bounded_exceeds 1 (cps "abcdef") (cps "abXdYf") (by decide) (by decide) (by decide)

/-- Claim C5 as stated fails: two edits (a swap, then an insertion) transform
`ca` into `abc`, but `fc_damerau` returns 3 on this pair, so it is not the
minimum over all sequences of edits. -/
theorem fc_damerau_not_min_edits :
    ¬ ∀ n, EditSeq true [99, 97] [97, 98, 99] n → fc_damerau [99, 97] [97, 98, 99] ≤ n := by
  intro h
  have h2 : EditSeq true [99, 97] [97, 98, 99] 2 :=
    EditSeq.snoc (EditSeq.snoc (EditSeq.refl _) (EditStep.swap rfl [] [] 99 97))
      (EditStep.ins [97] [99] 98)
  have h3 : fc_damerau [99, 97] [97, 98, 99] = 3 := by decide
  have := h 2 h2
  omega

/-- Claim C5, amended: for sequences within `FC_MAX_SEQ_LEN`, `fc_damerau(a,
b)` is the least number of edits (insertion, deletion, substitution of one
codepoint, swap of two adjacent codepoints) among the edit scripts read off
an alignment of `a` and `b`, in which no codepoint is edited twice; these
edits, made one after the other, transform `a` into `b`. -/
theorem fc_damerau_is_alignment_distance (a b : List Nat)
    (ha : a.length ≤ FC_MAX_SEQ_LEN) (hb : b.length ≤ FC_MAX_SEQ_LEN) :
    Align true a b (fc_damerau a b) ∧
      (∀ n, Align true a b n → fc_damerau a b ≤ n) ∧
      EditSeq true a b (fc_damerau a b) := by
  have _ := ha
  have _ := hb
  rw [fc_damerau_eq]
  exact ⟨align_dist true a b, fun n h => dist_le_of_align true h,
    editSeq_of_align (align_dist true a b)⟩

/-- Claim C5, amended, at `ca` and `ac`. -/
theorem fc_damerau_is_alignment_distance_witness :
    Align true (cps "ca") (cps "ac") (fc_damerau (cps "ca") (cps "ac")) ∧
      (∀ n, Align true (cps "ca") (cps "ac") n → fc_damerau (cps "ca") (cps "ac") ≤ n) ∧
      EditSeq true (cps "ca") (cps "ac") (fc_damerau (cps "ca") (cps "ac")) :=
  fc_damerau_is_alignment_distance (cps "ca") (cps "ac") (by decide) (by decide)

/-! ## Glob matching -/

/-- Claim C8, at the input where the code departs from it: the pattern
`h[^aeiou]llo` matches `hello`, although `e` is listed in the negated
class. -/
theorem fc_glob_negated_class_hello :
    fc_glob (cstr (cps "h[^aeiou]llo")) (cstr (cps "hello")) = GlobResult.ret true := by
  decide

/-- Claim C9, at the input where the code departs from it: the pattern `[]a]`
does not match `a`, although `a` is listed in the class. -/
theorem fc_glob_bracket_first_a :
    fc_glob (cstr (cps "[]a]")) (cstr (cps "a")) = GlobResult.ret false := by
  decide

/-! ## Jaro distance -/

/-- Claim C7, at the input where the code departs from it: the Jaro distance
of `a` and `b`, two sequences without a common codepoint, is computed as 0
and not as 1. -/
theorem fc_jaro_a_b : fc_jaro (cps "a") (cps "b") = some 0 := by
  decide!

/-! ## Memoized metrics on the example of `example.c` -/

/-- Claim C10 as stated fails: the memoizer for `FC_LCSUBSTR` with reference
`expeditor` does not return the lengths 4, 7, 9, 3 on the four queries. -/
theorem memo_lcsubstr_example_not_3 :
    memoRun (fc_memo_set_ref (fc_memo_init memo0 fc_metric.FC_LCSUBSTR 50 0) (cps "expeditor"))
      [cps "expecting", cps "expediter", cps "expeditor", cps "expel"] ≠ some [4, 7, 9, 3] := by
  decide!

/-- Claim C10, amended: whatever the structure held before `fc_memo_init`, the
memoizer for `FC_LCSUBSTR` (`max_len` 50) with reference `expeditor` returns
the lengths 4, 7, 9, 4 on the queries `expecting`, `expediter`, `expeditor`,
`expel` computed in that order. -/
theorem memo_lcsubstr_example (ctx : fc_memo) :
    memoRun (fc_memo_set_ref (fc_memo_init ctx fc_metric.FC_LCSUBSTR 50 0) (cps "expeditor"))
      [cps "expecting", cps "expediter", cps "expeditor", cps "expel"] = some [4, 7, 9, 4] := by
  have h : fc_memo_set_ref (fc_memo_init ctx fc_metric.FC_LCSUBSTR 50 0) (cps "expeditor")
      = fc_memo_set_ref (fc_memo_init memo0 fc_metric.FC_LCSUBSTR 50 0) (cps "expeditor") := rfl
  rw [h]
  decide!

/-! ## Longest common substring and subsequence: main results -/

/-- Claim C11 (witness correctness): `fc_lcsubstr_extract(a, b, &pos)` returns
the length `l` of `fc_lcsubstr` and sets `pos` to an offset `p` into `a` such
that `p + l ≤ |a|` and `a[p..p+l)` is a contiguous run of `b`; no common run
is longer than `l`; when `l > 0`, `p` is the smallest offset into `a` of a
run of length `l` that also occurs in `b`; when `l = 0`, `p` is `|a|`. -/
theorem fc_lcsubstr_extract_leftmost (a b : List Nat) :
    (fc_lcsubstr_extract a b).1 = fc_lcsubstr a b ∧
    (fc_lcsubstr_extract a b).2 + (fc_lcsubstr_extract a b).1 ≤ a.length ∧
    (a.drop (fc_lcsubstr_extract a b).2).take (fc_lcsubstr_extract a b).1 <:+: b ∧
    (∀ s, s <:+: a → s <:+: b → s.length ≤ (fc_lcsubstr_extract a b).1) ∧
    (0 < (fc_lcsubstr_extract a b).1 →
      ∀ p, p + (fc_lcsubstr_extract a b).1 ≤ a.length →
        (a.drop p).take (fc_lcsubstr_extract a b).1 <:+: b → (fc_lcsubstr_extract a b).2 ≤ p) ∧
    ((fc_lcsubstr_extract a b).1 = 0 → (fc_lcsubstr_extract a b).2 = a.length) := by
  obtain ⟨e, h0, _⟩ := fc_lcsubstr_extract_spec a b
  rw [e]
  exact ⟨rfl, (fc_lcsubstr_extract_run a b).1, (fc_lcsubstr_extract_run a b).2,
    fun s ha hb => fc_lcsubstr_longest a b s ha hb,
    fun hl p hp h => fc_lcsubstr_extract_first a b p hl hp h, h0⟩

/-- Claim C12: `fc_lcsubstr(a, b)` is the length of the longest contiguous run
of codepoints that occurs in both `a` and `b`: some common run has this
length and no common run is longer. -/
theorem fc_lcsubstr_is_longest_common_run (a b : List Nat) :
    (∃ s, s.length = fc_lcsubstr a b ∧ s <:+: a ∧ s <:+: b) ∧
    (∀ s, s <:+: a → s <:+: b → s.length ≤ fc_lcsubstr a b) :=
  ⟨fc_lcsubstr_common_run a b, fun s ha hb => fc_lcsubstr_longest a b s ha hb⟩

/-- Claim C13: `fc_lcsubseq(a, b)` is the length of a longest common
subsequence of `a` and `b`: some sequence of this length is a subsequence of
both (its codepoints appear in both in the same relative order, not
necessarily contiguously), and no common subsequence is longer. -/
theorem fc_lcsubseq_is_longest_common_subsequence (a b : List Nat) :
    (∃ s, List.Sublist s a ∧ List.Sublist s b ∧ s.length = fc_lcsubseq a b) ∧
    (∀ s, List.Sublist s a → List.Sublist s b → s.length ≤ fc_lcsubseq a b) :=
  ⟨fc_lcsubseq_common a b, fun s ha hb => fc_lcsubseq_longest a b s ha hb⟩

/-- Claim C14: for non-empty sequences `a` and `b`, read as an exact rational,
`fc_nlevenshtein(FC_NORM_LALIGN, a, b)` is `d / L`, where `d` is
`fc_levenshtein(a, b)`, the least cost of an alignment of `a` with `b`, and
`L > 0` is the largest number of steps (matches, substitutions, insertions
and deletions, one step each) of an alignment of `a` with `b` of cost `d`. -/
theorem fc_nlevenshtein_lalign_longest (a b : List Nat) (ha : a ≠ []) (hb : b ≠ []) :
    ∃ L, 0 < L ∧ AlignPath a b (fc_levenshtein a b) L ∧
      (∀ n m, AlignPath a b n m →
        fc_levenshtein a b ≤ n ∧ (n = fc_levenshtein a b → m ≤ L)) ∧
      fc_nlevenshtein fc_norm_method.FC_NORM_LALIGN a b
        = ((fc_levenshtein a b : Nat) : ℚ) / ((L : Nat) : ℚ) := by
  obtain ⟨l, hopt, hpos, e⟩ := fc_nlevenshtein_lalign a b ha hb
  exact ⟨l, hpos, hopt.1, hopt.2, e⟩

/-- Claim C14 at `kitten` and `sitting`. -/
theorem fc_nlevenshtein_lalign_longest_witness :
    ∃ L, 0 < L ∧ AlignPath (cps "kitten") (cps "sitting")
        (fc_levenshtein (cps "kitten") (cps "sitting")) L ∧
      (∀ n m, AlignPath (cps "kitten") (cps "sitting") n m →
        fc_levenshtein (cps "kitten") (cps "sitting") ≤ n ∧
          (n = fc_levenshtein (cps "kitten") (cps "sitting") → m ≤ L)) ∧
      fc_nlevenshtein fc_norm_method.FC_NORM_LALIGN (cps "kitten") (cps "sitting")
        = ((fc_levenshtein (cps "kitten") (cps "sitting") : Nat) : ℚ) / ((L : Nat) : ℚ) :=
  fc_nlevenshtein_lalign_longest (cps "kitten") (cps "sitting") (by decide) (by decide)

/-! ## Normalized distances: main results -/

/-- Claim C15: read as an exact rational, `fc_nlevenshtein(FC_NORM_LSEQ, a,
b)` is `fc_levenshtein(a, b) / max(|a|, |b|)` when `a` and `b` are not both
empty and 0 when both are empty, hence 1 when exactly one of them is empty;
the same holds for `fc_ndamerau(FC_NORM_LSEQ, a, b)` with `fc_damerau`. -/
theorem normalized_lseq (a b : List Nat) :
    (fc_nlevenshtein fc_norm_method.FC_NORM_LSEQ a b
      = if a.length = 0 ∧ b.length = 0 then 0
        else ((fc_levenshtein a b : Nat) : ℚ) / ((max a.length b.length : Nat) : ℚ)) ∧
    (fc_ndamerau fc_norm_method.FC_NORM_LSEQ a b
      = if a.length = 0 ∧ b.length = 0 then 0
        else ((fc_damerau a b : Nat) : ℚ) / ((max a.length b.length : Nat) : ℚ)) ∧
    ((a.length = 0 ∧ b.length ≠ 0) ∨ (a.length ≠ 0 ∧ b.length = 0) →
      fc_nlevenshtein fc_norm_method.FC_NORM_LSEQ a b = 1 ∧
      fc_ndamerau fc_norm_method.FC_NORM_LSEQ a b = 1) := by
  refine ⟨fc_nlevenshtein_lseq a b, fc_ndamerau_lseq a b, ?_⟩
  intro h
  have hne : ¬ (a.length = 0 ∧ b.length = 0) := by omega
  rw [fc_nlevenshtein_lseq, fc_ndamerau_lseq, if_neg hne, if_neg hne, fc_levenshtein_eq,
    fc_damerau_eq]
  exact ⟨dist_div_max_of_one_empty false a b h, dist_div_max_of_one_empty true a b h⟩

/-! ## Algebraic properties of the integer metrics: main results -/

/-- Claim C16 (symmetry of the integer metrics): `fc_levenshtein`,
`fc_damerau`, `fc_lcsubseq` and `fc_lcsubstr` return the same value when their
two sequences are exchanged, whatever the lengths. -/
theorem integer_metrics_symmetric (a b : List Nat) :
    fc_levenshtein a b = fc_levenshtein b a ∧ fc_damerau a b = fc_damerau b a ∧
    fc_lcsubseq a b = fc_lcsubseq b a ∧ fc_lcsubstr a b = fc_lcsubstr b a :=
  ⟨fc_levenshtein_comm a b, fc_damerau_comm a b, fc_lcsubseq_comm a b, fc_lcsubstr_comm a b⟩

/-- Claim C18 (identity of the integer metrics): for every sequence `s`,
`fc_levenshtein(s, s) = 0`, `fc_damerau(s, s) = 0`, `fc_lcsubstr(s, s) = |s|`
and `fc_lcsubseq(s, s) = |s|`. -/
theorem integer_metrics_identity (s : List Nat) :
    fc_levenshtein s s = 0 ∧ fc_damerau s s = 0 ∧
    fc_lcsubstr s s = s.length ∧ fc_lcsubseq s s = s.length :=
  ⟨by rw [fc_levenshtein_eq, dist_self], by rw [fc_damerau_eq, dist_self],
    fc_lcsubstr_self s, fc_lcsubseq_self s⟩

/-- Claim C20 (bounds of the edit distances): for all sequences `a` and `b`,
`abs(|a| - |b|) ≤ fc_damerau(a, b) ≤ fc_levenshtein(a, b) ≤ max(|a|, |b|)`. -/
theorem edit_distance_bounds (a b : List Nat) :
    ((a.length : Int) - (b.length : Int)).natAbs ≤ fc_damerau a b ∧
    fc_damerau a b ≤ fc_levenshtein a b ∧
    fc_levenshtein a b ≤ max a.length b.length := by
  rw [fc_damerau_eq, fc_levenshtein_eq]
  have h1 := length_le_dist_add true a b
  have h2 := length_le_dist_add_left true a b
  exact ⟨by omega, dist_true_le_false a b, dist_le_max false a b⟩

/-! ## Algebraic properties of the Jaro distance: main results -/

/-- Claim C17 (symmetry of Jaro): `fc_jaro(a, b)` and `fc_jaro(b, a)` return
the same value; the matching phase finds the same number of matches and the
transposition phase the same halved count whichever sequence comes first. -/
theorem fc_jaro_symmetric (a b : List Nat) :
    (∃ v, fc_jaro a b = some v ∧ fc_jaro b a = some v) ∧
    (jaroFlags a b).2 = (jaroFlags b a).2 ∧
    jaroTransposCount a b = jaroTransposCount b a := by
  refine ⟨⟨_, fc_jaro_eq a b, ?_⟩, (jaroFlags_swap a b).2.2.2, jaroTransposCount_comm a b⟩
  rw [← fc_jaro_comm a b]
  exact fc_jaro_eq a b

/-- Claim C19 (identity of Jaro): for every sequence `s`, empty or not, with
or without repeated codepoints, `fc_jaro(s, s) = 0`; the matching phase flags
every position of both copies and counts `|s|` matches, the transposition
count is 0, and the flags are those of a greedy pairing, which pairs every
position with itself. -/
theorem fc_jaro_identity (s : List Nat) :
    fc_jaro s s = some 0 ∧ (jaroFlags s s).2 = s.length ∧ jaroTransposCount s s = some 0 ∧
    (∀ k, k < s.length → (jaroFlags s s).1.getD k 0 ≠ 0 ∧
      (jaroFlags s s).1.getD (s.length + k) 0 ≠ 0) ∧
    JaroInv s s (jaroWindow s.length s.length) s.length (jaroFlags s s).1 (jaroFlags s s).2 ∧
    (∀ R, JaroGreedy s s (jaroWindow s.length s.length) s.length R →
      ∀ i j, R i j ↔ (i = j ∧ i < s.length)) :=
  ⟨fc_jaro_self s, (jaroFlags_self s).2.1, jaroTransposCount_self s, (jaroFlags_self s).1,
    jaroFlags_inv s s,
    fun _ hg => jaroGreedy_unique hg (jaroGreedy_diagonal s _ (jaroWindow_nonneg _ _))⟩

/-! ## Bounds and normalized values: main results -/

/-- Claim C21 (bounds of the LCS metrics): for all sequences `a` and `b`,
`0 ≤ fc_lcsubseq(a, b) ≤ min(|a|, |b|)` and
`0 ≤ fc_lcsubstr(a, b) ≤ min(|a|, |b|)`. -/
theorem lcs_metrics_bounds (a b : List Nat) :
    0 ≤ fc_lcsubseq a b ∧ fc_lcsubseq a b ≤ min a.length b.length ∧
    0 ≤ fc_lcsubstr a b ∧ fc_lcsubstr a b ≤ min a.length b.length :=
  ⟨Nat.zero_le _, fc_lcsubseq_le_min a b, Nat.zero_le _, fc_lcsubstr_le_min a b⟩

/-- Claim C24: read as an exact rational, `fc_nlcsubseq(a, b)` is
`1 - 2 * fc_lcsubseq(a, b) / (|a| + |b|)` when `a` and `b` are not both empty
and 1 when both are empty; it lies in `[0, 1]`, and `fc_nlcsubseq(s, s) = 0`
for every non-empty `s`. -/
theorem fc_nlcsubseq_value (a b : List Nat) :
    (fc_nlcsubseq a b = if a.length = 0 ∧ b.length = 0 then 1
      else 1 - 2 * ((fc_lcsubseq a b : Nat) : ℚ) / (((a.length + b.length : Nat)) : ℚ)) ∧
    0 ≤ fc_nlcsubseq a b ∧ fc_nlcsubseq a b ≤ 1 ∧
    (a ≠ [] → fc_nlcsubseq a a = 0) :=
  ⟨fc_nlcsubseq_eq a b, (fc_nlcsubseq_range a b).1, (fc_nlcsubseq_range a b).2,
    fun h => fc_nlcsubseq_self a h⟩

/-- Claim C22 (normalized range): for both normalization methods and all
sequences `a` and `b`, `fc_nlevenshtein(method, a, b)` and
`fc_ndamerau(method, a, b)`, read as exact rationals, lie in `[0, 1]`. Under
`FC_NORM_LALIGN`, when both sequences are non-empty, each result is the
quotient of the two cells read by the last division of the code; the first is
the distance (`fc_levenshtein(a, b)`, `fc_damerau(a, b)`), the second, the
tracked alignment length, is positive and at least the distance, so that no
division by zero occurs. -/
theorem normalized_range (method : fc_norm_method) (a b : List Nat) :
    (0 ≤ fc_nlevenshtein method a b ∧ fc_nlevenshtein method a b ≤ 1) ∧
    (0 ≤ fc_ndamerau method a b ∧ fc_ndamerau method a b ≤ 1) ∧
    (a ≠ [] → b ≠ [] →
      (fc_nlevenshtein fc_norm_method.FC_NORM_LALIGN a b
          = (((fc_nlevenshtein_operands a b).1 : Nat) : ℚ)
            / (((fc_nlevenshtein_operands a b).2 : Nat) : ℚ) ∧
        (fc_nlevenshtein_operands a b).1 = fc_levenshtein a b ∧
        (fc_nlevenshtein_operands a b).1 ≤ (fc_nlevenshtein_operands a b).2 ∧
        0 < (fc_nlevenshtein_operands a b).2) ∧
      (fc_ndamerau fc_norm_method.FC_NORM_LALIGN a b
          = (((fc_ndamerau_operands a b).1 : Nat) : ℚ)
            / (((fc_ndamerau_operands a b).2 : Nat) : ℚ) ∧
        (fc_ndamerau_operands a b).1 = fc_damerau a b ∧
        (fc_ndamerau_operands a b).1 ≤ (fc_ndamerau_operands a b).2 ∧
        0 < (fc_ndamerau_operands a b).2)) :=
  ⟨fc_nlevenshtein_range method a b, fc_ndamerau_range method a b,
    fun ha hb => ⟨fc_nlevenshtein_operands_spec a b ha hb,
      fc_ndamerau_operands_spec a b ha hb⟩⟩

/-! ## The Jaro distance: range and a worked value -/

/-- Claim C23: read as an exact rational, `fc_jaro(a, b)` lies in `[0, 1]`; the
number of matches `m` is at most `min(|a|, |b|)`, the halved transposition
count `t` satisfies `0 ≤ t ≤ m`, and the denominators `len1`, `len2` and
`matches` of the divisions, which are made only when `m` is not 0, are not
0. -/
theorem fc_jaro_in_unit_interval (a b : List Nat) :
    (∃ v, fc_jaro a b = some v ∧ 0 ≤ v ∧ v ≤ 1) ∧
    (jaroFlags a b).2 ≤ min a.length b.length ∧
    (∃ t, jaroTransposCount a b = some t ∧ 0 ≤ t ∧ t ≤ (jaroFlags a b).2) ∧
    ((jaroFlags a b).2 ≠ 0 → a.length ≠ 0 ∧ b.length ≠ 0) := by
  have hm := jaroFlags_le_min a b
  obtain ⟨t, ht, hle⟩ := jaroTransposCount_le a b
  exact ⟨fc_jaro_range a b, hm, ⟨t, ht, Nat.zero_le _, hle⟩, fun h => by omega⟩

/-- Claim C25: read as an exact rational, `fc_jaro("MARTHA", "MARHTA")` is
`1/18`: the matching phase finds 6 matches, the transposition count is 1
after halving, and the value is `1 - (1 + 1 + 5/6)/3`. -/
theorem fc_jaro_martha :
    fc_jaro (cps "MARTHA") (cps "MARHTA") = some (1 / 18) ∧
    (jaroFlags (cps "MARTHA") (cps "MARHTA")).2 = 6 ∧
    jaroTransposCount (cps "MARTHA") (cps "MARHTA") = some 1 ∧
    (1 / 18 : ℚ) = 1 - (1 + 1 + 5 / 6) / 3 := by
  have hm : (jaroFlags (cps "MARTHA") (cps "MARHTA")).2 = 6 := by decide!
  have ht : jaroTransposCount (cps "MARTHA") (cps "MARHTA") = some 1 := by decide!
  have hl : (cps "MARTHA").length = 6 ∧ (cps "MARHTA").length = 6 := by decide
  refine ⟨?_, hm, ht, by norm_num⟩
  rw [fc_jaro_phases, hm, ht, hl.1, hl.2]
  norm_num

/-! ## Glob matching: main results on literals, `?` and classes -/

/-- Claim C26: for every NUL-terminated string `s`, `fc_glob("a?b", s)`
returns, and it returns true if and only if `|s| = 3`, `s[0] = 'a'` and
`s[2] = 'b'`: the `?` consumes exactly one codepoint and does not match the
end of the string. -/
theorem fc_glob_question_mark (s : List Nat) (hs : ∀ c, c ∈ s → c ≠ 0) :
    (∃ r, fc_glob (cstr (cps "a?b")) (cstr s) = GlobResult.ret r) ∧
    (fc_glob (cstr (cps "a?b")) (cstr s) = GlobResult.ret true ↔
      s.length = 3 ∧ s.getD 0 0 = 97 ∧ s.getD 2 0 = 98) := by
  have hp : cps "a?b" = [97, 63, 98] := by decide
  rw [hp, fc_glob_a_question_b s hs]
  exact ⟨⟨_, rfl⟩, by simp⟩

/-- Claim C26 at the string `axb`. -/
theorem fc_glob_question_mark_witness :
    (∃ r, fc_glob (cstr (cps "a?b")) (cstr (cps "axb")) = GlobResult.ret r) ∧
    (fc_glob (cstr (cps "a?b")) (cstr (cps "axb")) = GlobResult.ret true ↔
      (cps "axb").length = 3 ∧ (cps "axb").getD 0 0 = 97 ∧ (cps "axb").getD 2 0 = 98) :=
  fc_glob_question_mark (cps "axb") (by decide)

/-- Claim C27 (literal, case-sensitive, whole-string matching): for every
pattern `p` without `?`, `*` and `[` and every string `s`, `fc_glob(p, s)`
returns, and it returns true if and only if `s = p`; so `fc_glob(p, p)` is
true, and a `]` that no `[` precedes is matched as itself. -/
theorem fc_glob_literal_pattern (p s : List Nat)
    (hp : ∀ c, c ∈ p → c ≠ 0 ∧ c ≠ 63 ∧ c ≠ 42 ∧ c ≠ 91) (hs : ∀ c, c ∈ s → c ≠ 0) :
    fc_glob (cstr p) (cstr s) = GlobResult.ret (decide (s = p)) ∧
    (fc_glob (cstr p) (cstr s) = GlobResult.ret true ↔ s = p) ∧
    fc_glob (cstr p) (cstr p) = GlobResult.ret true ∧
    fc_glob (cstr (cps "a]")) (cstr (cps "a]")) = GlobResult.ret true ∧
    fc_glob (cstr (cps "a")) (cstr (cps "A")) = GlobResult.ret false := by
  have h1 := fc_glob_literal p s hp hs
  have h2 := fc_glob_literal p p hp (fun c hc => (hp c hc).1)
  refine ⟨h1, ?_, ?_, by decide, by decide⟩
  · rw [h1]
    simp
  · rw [h2]
    simp

/-- Claim C27 at the pattern `x]y` and the string `x]y`. -/
theorem fc_glob_literal_pattern_witness :
    fc_glob (cstr (cps "x]y")) (cstr (cps "x]y"))
      = GlobResult.ret (decide (cps "x]y" = cps "x]y")) ∧
    (fc_glob (cstr (cps "x]y")) (cstr (cps "x]y")) = GlobResult.ret true ↔
      cps "x]y" = cps "x]y") ∧
    fc_glob (cstr (cps "x]y")) (cstr (cps "x]y")) = GlobResult.ret true ∧
    fc_glob (cstr (cps "a]")) (cstr (cps "a]")) = GlobResult.ret true ∧
    fc_glob (cstr (cps "a")) (cstr (cps "A")) = GlobResult.ret false :=
  fc_glob_literal_pattern (cps "x]y") (cps "x]y") (by decide) (by decide)

/-- Claim C28: a class that is not closed, or is empty, makes the matcher
reject: for every string `s` and every class body `w` without `]` (empty or
not, starting with `^` or not), `fc_glob("[" ++ w, s)` is false, and
`fc_glob("[]", s)` is false. -/
theorem fc_glob_invalid_class (w s : List Nat) (hw : ∀ x, x ∈ w → x ≠ 93 ∧ x ≠ 0) :
    fc_glob (cstr (91 :: w)) (cstr s) = GlobResult.ret false ∧
    fc_glob (cstr (cps "[]")) (cstr s) = GlobResult.ret false := by
  have hp : cps "[]" = [91, 93] := by decide
  rw [hp]
  exact ⟨fc_glob_unterminated_class w s hw, fc_glob_empty_class s⟩

/-- Claim C28 at the class body `^ab` and the string `c`. -/
theorem fc_glob_invalid_class_witness :
    fc_glob (cstr (91 :: cps "^ab")) (cstr (cps "c")) = GlobResult.ret false ∧
    fc_glob (cstr (cps "[]")) (cstr (cps "c")) = GlobResult.ret false :=
  fc_glob_invalid_class (cps "^ab") (cps "c") (by decide)

/-- Claim C29: a class without negation matches exactly one codepoint out of
its members, and `[`, `?` and `*` are literals inside it: for every non-empty
class body `w` without `]` that does not start with `^` and every string
`s`, `fc_glob("[" ++ w ++ "]", s)` returns, and it returns true if and only if
`s` is made of exactly one codepoint, which occurs in `w`. -/
theorem fc_glob_plain_class (w s : List Nat) (hne : w ≠ [])
    (hw : ∀ x, x ∈ w → x ≠ 93 ∧ x ≠ 0) (hhead : w.head? ≠ some 94)
    (hs : ∀ c, c ∈ s → c ≠ 0) :
    (∃ r, fc_glob (cstr (91 :: (w ++ [93]))) (cstr s) = GlobResult.ret r) ∧
    (fc_glob (cstr (91 :: (w ++ [93]))) (cstr s) = GlobResult.ret true ↔
      ∃ c, s = [c] ∧ c ∈ w) := by
  rw [fc_glob_class w s hne hw hhead hs]
  refine ⟨⟨_, rfl⟩, ?_⟩
  simp only [GlobResult.ret.injEq, decide_eq_true_eq]
  constructor
  · rintro ⟨hl, hm⟩
    cases s with
    | nil => simp at hl
    | cons c s1 =>
      have : s1 = [] := List.length_eq_zero.mp (by simpa using hl)
      subst this
      exact ⟨c, rfl, hm⟩
  · rintro ⟨c, rfl, hm⟩
    exact ⟨rfl, hm⟩

/-- Claim C29 at the class body `a[?*` and the string `?`. -/
theorem fc_glob_plain_class_witness :
    (∃ r, fc_glob (cstr (91 :: (cps "a[?*" ++ [93]))) (cstr (cps "?")) = GlobResult.ret r) ∧
    (fc_glob (cstr (91 :: (cps "a[?*" ++ [93]))) (cstr (cps "?")) = GlobResult.ret true ↔
      ∃ c, cps "?" = [c] ∧ c ∈ cps "a[?*") :=
  fc_glob_plain_class (cps "a[?*") (cps "?") (by decide) (by decide) (by decide) (by decide)

/-- C30: `fc_memo_metric` returns the chosen metric. For each metric `m` and
any `max_len` and `max_dist`, `fc_memo_metric` on the memoizer initialised by
`fc_memo_init` with `m` returns `m`: the search of `ctx->compute` in the table
`funcs` stops at the index that is the value of `m` in `enum fc_metric`. It
keeps returning `m` on the memoizer left by any sequence of `fc_memo_set_ref`
and `fc_memo_compute` calls. And such a sequence does leave a memoizer, with
no assertion failing, whenever it starts with a `fc_memo_set_ref` and every
sequence passed is no longer than `max_len`. -/
theorem fc_memo_metric_chosen (ctx0 : fc_memo) (m : fc_metric) (max_len : Nat)
    (max_dist : Int) :
    fc_memo_metric (fc_memo_init ctx0 m max_len max_dist) = m ∧
    fc_memo_metric_index (fc_memo_init ctx0 m max_len max_dist) = some m.val ∧
    (∀ ops ctx', memoOps (fc_memo_init ctx0 m max_len max_dist) ops = some ctx' →
      fc_memo_metric ctx' = m ∧ fc_memo_metric_index ctx' = some m.val) ∧
    (∀ r0 ops, r0.length ≤ max_len →
      (∀ s, MemoOp.set_ref s ∈ ops → s.length ≤ max_len) →
      (∀ q, MemoOp.compute q ∈ ops → q.length ≤ max_len) →
      ∃ ctx', memoOps (fc_memo_init ctx0 m max_len max_dist) (MemoOp.set_ref r0 :: ops)
          = some ctx' ∧
        fc_memo_metric ctx' = m ∧ fc_memo_metric_index ctx' = some m.val) := by
  have h0 : fc_memo_metric (fc_memo_init ctx0 m max_len max_dist) = m := by
    cases m <;> rfl
  have hkeep : ∀ ops ctx', memoOps (fc_memo_init ctx0 m max_len max_dist) ops = some ctx' →
      fc_memo_metric ctx' = m ∧ fc_memo_metric_index ctx' = some m.val := by
    intro ops ctx' h
    have e : fc_memo_metric ctx' = m := by
      have := memoOps_compute ops _ ctx' h
      unfold fc_memo_metric at h0 ⊢
      rw [this, h0]
    exact ⟨e, by rw [fc_memo_metric_index_eq, e]⟩
  refine ⟨h0, by rw [fc_memo_metric_index_eq, h0], hkeep, ?_⟩
  intro r0 ops hr hs hq
  obtain ⟨ctx', r', e, _⟩ := memoOps_inv m max_len ops r0 _
    (MemoInv_init ctx0 m max_len max_dist r0 hr).1 hs hq
  have e' : memoOps (fc_memo_init ctx0 m max_len max_dist) (MemoOp.set_ref r0 :: ops)
      = some ctx' := by
    rw [memoOps]
    exact e
  exact ⟨ctx', e', hkeep _ _ e'⟩

/-! ## Memoized metrics: main results on the state of a memoizer -/

/-- Claim C31: the reference can be changed without a new `fc_memo_init`. For
every metric, after `fc_memo_init`, `fc_memo_set_ref(r1)` and any list of
calls of `fc_memo_compute` (all sequences of length at most `max_len`), the
call `fc_memo_set_ref(r2)` sets `len2` to 0 and leaves the matrix and the
buffer of the previous sequence as they are, and a following
`fc_memo_compute(q)` returns what the same call returns on a memoizer just
initialised (same metric, `max_len` and `max_dist`) and bound to `r2`: the
one-shot value, or `INT32_MAX` for an edit distance when the lengths of `r2`
and `q` differ by more than `max_dist`. -/
theorem memo_set_ref_rebinds (ctx0 ctx1 : fc_memo) (metric : fc_metric) (max_len : Nat)
    (max_dist : Int) (r1 : List Nat) (qs : List (List Nat)) (r2 q : List Nat)
    (hr1 : r1.length ≤ max_len) (hqs : ∀ x, x ∈ qs → x.length ≤ max_len)
    (hr2 : r2.length ≤ max_len) (hq : q.length ≤ max_len) :
    ∃ ctx, memoOps (fc_memo_init ctx0 metric max_len max_dist)
        (MemoOp.set_ref r1 :: qs.map MemoOp.compute) = some ctx ∧
      (fc_memo_set_ref ctx r2).len2 = 0 ∧
      (fc_memo_set_ref ctx r2).matrix = ctx.matrix ∧
      (fc_memo_set_ref ctx r2).seq2 = ctx.seq2 ∧
      ∃ v c c', fc_memo_compute (fc_memo_set_ref ctx r2) q = some (v, c) ∧
        fc_memo_compute (fc_memo_set_ref (fc_memo_init ctx1 metric max_len max_dist) r2) q
          = some (v, c') ∧
        v = (if (metric = fc_metric.FC_LEVENSHTEIN ∨ metric = fc_metric.FC_DAMERAU) ∧
              (Int.natAbs ((r2.length : Int) - (q.length : Int)) : Int) > max_dist
            then INT32_MAX else oneShot metric r2 q) := by
  obtain ⟨hinv0, hmd0⟩ := MemoInv_init ctx0 metric max_len max_dist r1 hr1
  obtain ⟨ctx, e, hinv, hmd⟩ := memoOps_computes_inv metric max_len r1 qs _ hinv0 hqs
  rw [hmd0] at hmd
  have hA := MemoInv_set_ref metric max_len r1 r2 ctx hinv hr2
  obtain ⟨hB, hmdB⟩ := MemoInv_init ctx1 metric max_len max_dist r2 hr2
  obtain ⟨v, c, eA, _, _, a1, a2⟩ := MemoInv_compute_exact metric max_len r2 q _ hA hq
  obtain ⟨v', c', eB, _, _, b1, b2⟩ := MemoInv_compute_exact metric max_len r2 q _ hB hq
  have rA : memoRejects (fc_memo_set_ref ctx r2) q
      = decide ((Int.natAbs ((r2.length : Int) - (q.length : Int)) : Int) > max_dist) := by
    rw [memoRejects_of_len2_zero _ _ rfl]
    show decide ((Int.natAbs ((r2.length : Int) - (q.length : Int)) : Int) > ctx.max_dist) = _
    rw [hmd]
  have rB : memoRejects (fc_memo_set_ref (fc_memo_init ctx1 metric max_len max_dist) r2) q
      = decide ((Int.natAbs ((r2.length : Int) - (q.length : Int)) : Int) > max_dist) := by
    rw [memoRejects_of_len2_zero _ _ rfl]
    have e1 : (fc_memo_set_ref (fc_memo_init ctx1 metric max_len max_dist) r2).len1
        = r2.length := rfl
    rw [e1, hmdB]
  rw [rA, decide_eq_true_eq] at a1 a2
  rw [rB, decide_eq_true_eq] at b1 b2
  refine ⟨ctx, by rw [memoOps]; exact e, rfl, rfl, rfl, v, c, c', eA, ?_, ?_⟩
  · by_cases hc : (metric = fc_metric.FC_LEVENSHTEIN ∨ metric = fc_metric.FC_DAMERAU) ∧
        (Int.natAbs ((r2.length : Int) - (q.length : Int)) : Int) > max_dist
    · rw [(a1 hc).1, ← (b1 hc).1]
      exact eB
    · rw [(a2 hc).1, ← (b2 hc).1]
      exact eB
  · by_cases hc : (metric = fc_metric.FC_LEVENSHTEIN ∨ metric = fc_metric.FC_DAMERAU) ∧
        (Int.natAbs ((r2.length : Int) - (q.length : Int)) : Int) > max_dist
    · rw [if_pos hc]
      exact (a1 hc).1
    · rw [if_neg hc]
      exact (a2 hc).1

/-- Claim C31 on the Levenshtein metric with `max_dist` 1: after the
reference `ab` and the sequences `abc` and `b`, the reference `abc` and the
sequence `ac`. -/
theorem memo_set_ref_rebinds_witness :
    ∃ ctx, memoOps (fc_memo_init memo0 fc_metric.FC_LEVENSHTEIN 3 1)
        (MemoOp.set_ref (cps "ab") :: [cps "abc", cps "b"].map MemoOp.compute) = some ctx ∧
      (fc_memo_set_ref ctx (cps "abc")).len2 = 0 ∧
      (fc_memo_set_ref ctx (cps "abc")).matrix = ctx.matrix ∧
      (fc_memo_set_ref ctx (cps "abc")).seq2 = ctx.seq2 ∧
      ∃ v c c', fc_memo_compute (fc_memo_set_ref ctx (cps "abc")) (cps "ac") = some (v, c) ∧
        fc_memo_compute (fc_memo_set_ref (fc_memo_init memo0 fc_metric.FC_LEVENSHTEIN 3 1)
          (cps "abc")) (cps "ac") = some (v, c') ∧
        v = (if (fc_metric.FC_LEVENSHTEIN = fc_metric.FC_LEVENSHTEIN ∨
                fc_metric.FC_LEVENSHTEIN = fc_metric.FC_DAMERAU) ∧
              (Int.natAbs (((cps "abc").length : Int) - ((cps "ac").length : Int)) : Int) > 1
            then INT32_MAX else oneShot fc_metric.FC_LEVENSHTEIN (cps "abc") (cps "ac")) :=
  memo_set_ref_rebinds memo0 memo0 fc_metric.FC_LEVENSHTEIN 3 1 (cps "ab")
    [cps "abc", cps "b"] (cps "abc") (cps "ac") (by decide) (by decide) (by decide) (by decide)

/-- Claim C32 as stated fails: `fc_memo_init` does not write `len2`. On a
structure whose field `len2` holds 7, `fc_memo_init` with `max_len` 5 leaves
7 there, which is above `max_len`. -/
theorem memo_init_leaves_len2 :
    (fc_memo_init ⟨fc_metric.FC_LEVENSHTEIN, [], 0, none, 0, [], 7, 0⟩
      fc_metric.FC_LEVENSHTEIN 5 0).len2 = 7 ∧
    ¬ (fc_memo_init ⟨fc_metric.FC_LEVENSHTEIN, [], 0, none, 0, [], 7, 0⟩
      fc_metric.FC_LEVENSHTEIN 5 0).len2 ≤ 5 := by
  decide

/-- Claim C32, amended: `fc_memo_init` sets `mdim` and the first column and
the first row of the matrix, and leaves `len2` as it was; the state invariant
of a memoizer is established by `fc_memo_init` followed by `fc_memo_set_ref`,
and preserved by every further `fc_memo_set_ref` and `fc_memo_compute` on
sequences of length at most `max_len`. After any such list of calls, for the
reference `r'` then bound:
`len2 ≤ max_len`; the first column and the first row of the matrix hold their
index for the two edit distances and 0 for the two other metrics; the cells
for the first `len2` positions of the previous sequence hold the recurrence of
the metric for `r'` and the previous sequence. And a further call of
`fc_memo_compute(q)` returns and keeps the invariant; it leaves the memoizer as
it was when it takes an early exit, and otherwise stores `q` as the previous
sequence, with `len2 = |q|`. -/
theorem memo_state_invariant (ctx0 : fc_memo) (metric : fc_metric) (max_len : Nat)
    (max_dist : Int) (r : List Nat) (ops : List MemoOp) (q : List Nat)
    (hr : r.length ≤ max_len) (hs : ∀ s, MemoOp.set_ref s ∈ ops → s.length ≤ max_len)
    (hc : ∀ x, MemoOp.compute x ∈ ops → x.length ≤ max_len) (hq : q.length ≤ max_len) :
    (fc_memo_init ctx0 metric max_len max_dist).mdim = max_len + 1 ∧
    (fc_memo_init ctx0 metric max_len max_dist).len2 = ctx0.len2 ∧
    (∀ i, i < max_len + 1 →
      (fc_memo_init ctx0 metric max_len max_dist).matrix.getD (i * (max_len + 1) + 0) 0
        = memoBorder metric i) ∧
    (∀ j, j < max_len + 1 →
      (fc_memo_init ctx0 metric max_len max_dist).matrix.getD (0 * (max_len + 1) + j) 0
        = memoBorder metric j) ∧
    ∃ ctx r', memoOps (fc_memo_init ctx0 metric max_len max_dist) (MemoOp.set_ref r :: ops)
        = some ctx ∧
      MemoInv metric max_len r' ctx ∧ ctx.seq1 = some r' ∧ ctx.mdim = max_len + 1 ∧
      ctx.len2 ≤ max_len ∧
      (∀ i, i < ctx.mdim → ctx.matrix.getD (i * ctx.mdim + 0) 0 = memoBorder metric i) ∧
      (∀ j, j < ctx.mdim → ctx.matrix.getD (0 * ctx.mdim + j) 0 = memoBorder metric j) ∧
      (∀ i j, i ≤ r'.length → j ≤ ctx.len2 →
        ctx.matrix.getD (memoIndex metric ctx.mdim i j) 0
          = memoCell metric r' (memoPrev ctx) i j) ∧
      ∃ v ctx', fc_memo_compute ctx q = some (v, ctx') ∧ MemoInv metric max_len r' ctx' ∧
        (((metric = fc_metric.FC_LEVENSHTEIN ∨ metric = fc_metric.FC_DAMERAU) ∧
            memoRejects ctx q = true) → ctx' = ctx) ∧
        (¬ ((metric = fc_metric.FC_LEVENSHTEIN ∨ metric = fc_metric.FC_DAMERAU) ∧
            memoRejects ctx q = true) → ctx'.len2 = q.length ∧ memoPrev ctx' = q) := by
  obtain ⟨hinv0, _⟩ := MemoInv_init ctx0 metric max_len max_dist r hr
  obtain ⟨ctx, r', e, hinv⟩ := memoOps_inv metric max_len ops r _ hinv0 hs hc
  obtain ⟨v, ctx', e', hinv', _, p1, p2⟩ := MemoInv_compute_exact metric max_len r' q ctx hinv hq
  have hb := MemoInv_border metric max_len r' ctx hinv
  have hb0 := MemoInv_border metric max_len r _ hinv0
  have hd : (fc_memo_init ctx0 metric max_len max_dist).mdim = max_len + 1 := hinv0.2.1
  have hm : (fc_memo_set_ref (fc_memo_init ctx0 metric max_len max_dist) r).matrix
      = (fc_memo_init ctx0 metric max_len max_dist).matrix := rfl
  have hd' : (fc_memo_set_ref (fc_memo_init ctx0 metric max_len max_dist) r).mdim
      = max_len + 1 := hinv0.2.1
  rw [hm, hd'] at hb0
  have hl : (fc_memo_init ctx0 metric max_len max_dist).len2 = ctx0.len2 := by
    cases metric <;> rfl
  refine ⟨hd, hl, hb0.1, hb0.2,
    ctx, r', by rw [memoOps]; exact e, hinv, hinv.2.2.1, hinv.2.1, hinv.2.2.2.2.2.2.1,
    hb.1, hb.2, MemoInv_cells metric max_len r' ctx hinv, v, ctx', e', hinv',
    fun h => (p1 h).2, fun h => ?_⟩
  obtain ⟨_, h1, h2⟩ := p2 h
  exact ⟨h1, memoPrev_of_take ctx' q h1 h2⟩

/-- Claim C32, amended, on the Levenshtein metric with `max_dist` 1: the
reference `ab`, the sequence `ab`, the reference `abc`, the sequence `ac`,
then the sequence `abd`. -/
theorem memo_state_invariant_witness :
    (fc_memo_init memo0 fc_metric.FC_LEVENSHTEIN 3 1).mdim = 3 + 1 ∧
    (fc_memo_init memo0 fc_metric.FC_LEVENSHTEIN 3 1).len2 = memo0.len2 ∧
    (∀ i, i < 3 + 1 →
      (fc_memo_init memo0 fc_metric.FC_LEVENSHTEIN 3 1).matrix.getD (i * (3 + 1) + 0) 0
        = memoBorder fc_metric.FC_LEVENSHTEIN i) ∧
    (∀ j, j < 3 + 1 →
      (fc_memo_init memo0 fc_metric.FC_LEVENSHTEIN 3 1).matrix.getD (0 * (3 + 1) + j) 0
        = memoBorder fc_metric.FC_LEVENSHTEIN j) ∧
    ∃ ctx r', memoOps (fc_memo_init memo0 fc_metric.FC_LEVENSHTEIN 3 1)
        (MemoOp.set_ref (cps "ab") ::
          [MemoOp.compute (cps "ab"), MemoOp.set_ref (cps "abc"), MemoOp.compute (cps "ac")])
        = some ctx ∧
      MemoInv fc_metric.FC_LEVENSHTEIN 3 r' ctx ∧ ctx.seq1 = some r' ∧ ctx.mdim = 3 + 1 ∧
      ctx.len2 ≤ 3 ∧
      (∀ i, i < ctx.mdim →
        ctx.matrix.getD (i * ctx.mdim + 0) 0 = memoBorder fc_metric.FC_LEVENSHTEIN i) ∧
      (∀ j, j < ctx.mdim →
        ctx.matrix.getD (0 * ctx.mdim + j) 0 = memoBorder fc_metric.FC_LEVENSHTEIN j) ∧
      (∀ i j, i ≤ r'.length → j ≤ ctx.len2 →
        ctx.matrix.getD (memoIndex fc_metric.FC_LEVENSHTEIN ctx.mdim i j) 0
          = memoCell fc_metric.FC_LEVENSHTEIN r' (memoPrev ctx) i j) ∧
      ∃ v ctx', fc_memo_compute ctx (cps "abd") = some (v, ctx') ∧
        MemoInv fc_metric.FC_LEVENSHTEIN 3 r' ctx' ∧
        (((fc_metric.FC_LEVENSHTEIN = fc_metric.FC_LEVENSHTEIN ∨
              fc_metric.FC_LEVENSHTEIN = fc_metric.FC_DAMERAU) ∧
            memoRejects ctx (cps "abd") = true) → ctx' = ctx) ∧
        (¬ ((fc_metric.FC_LEVENSHTEIN = fc_metric.FC_LEVENSHTEIN ∨
              fc_metric.FC_LEVENSHTEIN = fc_metric.FC_DAMERAU) ∧
            memoRejects ctx (cps "abd") = true) →
          ctx'.len2 = (cps "abd").length ∧ memoPrev ctx' = cps "abd") :=
  memo_state_invariant memo0 fc_metric.FC_LEVENSHTEIN 3 1 (cps "ab")
    [MemoOp.compute (cps "ab"), MemoOp.set_ref (cps "abc"), MemoOp.compute (cps "ac")]
    (cps "abd") (by decide)
    (by
      intro s hs
      simp at hs
      subst hs
      decide)
    (by
      intro x hx
      simp at hx
      rcases hx with hx | hx
      · subst hx
        decide
      · subst hx
        decide)
    (by decide)

/-- Claim C33: an early exit leaves the memoizer unchanged. For a memoizer of
the Levenshtein or of the Damerau metric, after `fc_memo_init` (`max_len`
within `FC_MAX_SEQ_LEN`), `fc_memo_set_ref(r)` and any list of calls of
`fc_memo_compute`, a call `fc_memo_compute(q)` returns `INT32_MAX` exactly when
one of the two early exits is taken (`abs(len1 - len2) > max_dist`, or `skip`
is not 0 and the minimum of the column `skip` exceeds `max_dist`), and then the
whole structure is as before the call: matrix, previous sequence, `len2` and
reference; any other value is the one-shot value, with `q` stored as the
previous sequence. -/
theorem memo_early_exit_unchanged (ctx0 : fc_memo) (metric : fc_metric) (max_len : Nat)
    (max_dist : Int) (r : List Nat) (qs : List (List Nat)) (q : List Nat)
    (hm : metric = fc_metric.FC_LEVENSHTEIN ∨ metric = fc_metric.FC_DAMERAU)
    (hmax : max_len ≤ FC_MAX_SEQ_LEN) (hr : r.length ≤ max_len)
    (hqs : ∀ x, x ∈ qs → x.length ≤ max_len) (hq : q.length ≤ max_len) :
    ∃ ctx v ctx', memoOps (fc_memo_init ctx0 metric max_len max_dist)
        (MemoOp.set_ref r :: qs.map MemoOp.compute) = some ctx ∧
      fc_memo_compute ctx q = some (v, ctx') ∧
      (v = INT32_MAX ↔ memoRejects ctx q = true) ∧
      (v = INT32_MAX → ctx' = ctx ∧ ctx'.matrix = ctx.matrix ∧ ctx'.seq2 = ctx.seq2 ∧
        ctx'.len2 = ctx.len2 ∧ ctx'.seq1 = ctx.seq1) ∧
      (v ≠ INT32_MAX → v = oneShot metric r q ∧ memoPrev ctx' = q) := by
  obtain ⟨hinv0, _⟩ := MemoInv_init ctx0 metric max_len max_dist r hr
  obtain ⟨ctx, e, hinv, _⟩ := memoOps_computes_inv metric max_len r qs _ hinv0 hqs
  obtain ⟨v, ctx', e', _, _, p1, p2⟩ := MemoInv_compute_exact metric max_len r q ctx hinv hq
  have hlt : oneShot metric r q < INT32_MAX := by
    have h1 := oneShot_le metric r q
    have h3 : max r.length q.length ≤ max_len := max_le hr hq
    unfold INT32_MAX
    unfold FC_MAX_SEQ_LEN at hmax
    omega
  have hiff : v = INT32_MAX ↔ memoRejects ctx q = true := by
    constructor
    · intro hv
      by_contra hn
      have := (p2 (fun h => hn h.2)).1
      omega
    · intro hrej
      exact (p1 ⟨hm, hrej⟩).1
  refine ⟨ctx, v, ctx', by rw [memoOps]; exact e, e', hiff, fun hv => ?_, fun hv => ?_⟩
  · have := (p1 ⟨hm, hiff.mp hv⟩).2
    rw [this]
    exact ⟨rfl, rfl, rfl, rfl, rfl⟩
  · obtain ⟨h0, h1, h2⟩ := p2 (fun h => hv (hiff.mpr h.2))
    exact ⟨h0, memoPrev_of_take ctx' q h1 h2⟩

/-- Claim C33 on the Levenshtein metric with `max_dist` 1, the reference
`abc`, the earlier sequence `xyz` and the sequence `x`. -/
theorem memo_early_exit_unchanged_witness :
    ∃ ctx v ctx', memoOps (fc_memo_init memo0 fc_metric.FC_LEVENSHTEIN 3 1)
        (MemoOp.set_ref (cps "abc") :: [cps "xyz"].map MemoOp.compute) = some ctx ∧
      fc_memo_compute ctx (cps "x") = some (v, ctx') ∧
      (v = INT32_MAX ↔ memoRejects ctx (cps "x") = true) ∧
      (v = INT32_MAX → ctx' = ctx ∧ ctx'.matrix = ctx.matrix ∧ ctx'.seq2 = ctx.seq2 ∧
        ctx'.len2 = ctx.len2 ∧ ctx'.seq1 = ctx.seq1) ∧
      (v ≠ INT32_MAX →
        v = oneShot fc_metric.FC_LEVENSHTEIN (cps "abc") (cps "x") ∧ memoPrev ctx' = cps "x") :=
  memo_early_exit_unchanged memo0 fc_metric.FC_LEVENSHTEIN 3 1 (cps "abc") [cps "xyz"] (cps "x")
    (by decide) (by decide) (by decide) (by decide) (by decide)

/-- Claim C36: the early exit on the minimum of a column is sound. In the
matrix of edit operations of `r` and `q`, with the transposition term (`t`
true) or without, some cell of the column `k ≤ |q|` is at most the last cell.
And in the matrix of a memoizer of an edit distance, after `fc_memo_init`,
`fc_memo_set_ref(r)` and any list of calls of `fc_memo_compute`: the last cell
is the distance of `r` to the previous sequence; the minimum that
`fc_memo_distance` takes of a column does not decrease from a column to one
further right, up to the column `len2`; and the minimum of the column `k` is at
most the distance of `r` to every sequence that shares its first `k`
codepoints with the previous sequence, so that this distance exceeds
`max_dist` when the minimum does. -/
theorem memo_column_minimum_sound (ctx0 : fc_memo) (t : Bool) (max_len : Nat) (max_dist : Int)
    (r : List Nat) (qs : List (List Nat)) (hr : r.length ≤ max_len)
    (hqs : ∀ x, x ∈ qs → x.length ≤ max_len) :
    (∀ q k, k ≤ q.length →
      ∃ i, i ≤ r.length ∧ distCell t r q i k ≤ distCell t r q r.length q.length) ∧
    ∃ ctx, memoOps (fc_memo_init ctx0
          (if t = true then fc_metric.FC_DAMERAU else fc_metric.FC_LEVENSHTEIN) max_len max_dist)
        (MemoOp.set_ref r :: qs.map MemoOp.compute) = some ctx ∧
      ctx.matrix.getD (ctx.len1 * ctx.mdim + ctx.len2) 0 = dist t r (memoPrev ctx) ∧
      (∀ k k', k ≤ k' → k' ≤ ctx.len2 →
        memoColMin ctx.matrix ctx.mdim k (ctx.len1 + 1) 0 INT32_MAX
          ≤ memoColMin ctx.matrix ctx.mdim k' (ctx.len1 + 1) 0 INT32_MAX) ∧
      (∀ k q, k ≤ ctx.len2 → k ≤ q.length →
        (∀ x, x < k → q.getD x 0 = (memoPrev ctx).getD x 0) →
        memoColMin ctx.matrix ctx.mdim k (ctx.len1 + 1) 0 INT32_MAX ≤ dist t r q ∧
        (max_dist < ((memoColMin ctx.matrix ctx.mdim k (ctx.len1 + 1) 0 INT32_MAX : Nat) : Int) →
          max_dist < ((dist t r q : Nat) : Int))) := by
  refine ⟨fun q k hk => ?_, ?_⟩
  · obtain ⟨i, hi, hle⟩ := distCell_column_le t r q _ r.length q.length k rfl
      (Nat.le_refl _) (Nat.le_refl _) hk
    exact ⟨i, hi, hle⟩
  · obtain ⟨hinv0, _⟩ := MemoInv_init ctx0
      (if t = true then fc_metric.FC_DAMERAU else fc_metric.FC_LEVENSHTEIN) max_len max_dist r hr
    obtain ⟨ctx, e, hinv, _⟩ := memoOps_computes_inv _ max_len r qs _ hinv0 hqs
    obtain ⟨s1, s2, s3⟩ := memoColMin_sound t max_len r ctx hinv
    refine ⟨ctx, by rw [memoOps]; exact e, s1, s2, fun k q hk hkq hpre => ?_⟩
    have := s3 k q hk hkq hpre
    exact ⟨this, fun h => by omega⟩

/-- Claim C36 on the Levenshtein metric with `max_dist` 1, the reference `ab`
and the earlier sequences `ac` and `cd`. -/
theorem memo_column_minimum_sound_witness :
    (∀ q k, k ≤ q.length →
      ∃ i, i ≤ (cps "ab").length ∧
        distCell false (cps "ab") q i k ≤ distCell false (cps "ab") q (cps "ab").length q.length) ∧
    ∃ ctx, memoOps (fc_memo_init memo0
          (if false = true then fc_metric.FC_DAMERAU else fc_metric.FC_LEVENSHTEIN) 2 1)
        (MemoOp.set_ref (cps "ab") :: [cps "ac", cps "cd"].map MemoOp.compute) = some ctx ∧
      ctx.matrix.getD (ctx.len1 * ctx.mdim + ctx.len2) 0 = dist false (cps "ab") (memoPrev ctx) ∧
      (∀ k k', k ≤ k' → k' ≤ ctx.len2 →
        memoColMin ctx.matrix ctx.mdim k (ctx.len1 + 1) 0 INT32_MAX
          ≤ memoColMin ctx.matrix ctx.mdim k' (ctx.len1 + 1) 0 INT32_MAX) ∧
      (∀ k q, k ≤ ctx.len2 → k ≤ q.length →
        (∀ x, x < k → q.getD x 0 = (memoPrev ctx).getD x 0) →
        memoColMin ctx.matrix ctx.mdim k (ctx.len1 + 1) 0 INT32_MAX ≤ dist false (cps "ab") q ∧
        ((1 : Int) < ((memoColMin ctx.matrix ctx.mdim k (ctx.len1 + 1) 0 INT32_MAX : Nat) : Int) →
          (1 : Int) < ((dist false (cps "ab") q : Nat) : Int))) :=
  memo_column_minimum_sound memo0 false 2 1 (cps "ab") [cps "ac", cps "cd"]
    (by decide) (by decide)

/-- Claim C37 as stated fails: with `max_dist` 1 and the reference `ab`, the
sequence `cd` computed twice in a row by a memoizer of the Levenshtein metric
gets the value 2, then `INT32_MAX`. -/
theorem memo_same_sequence_twice_differs :
    memoRun (fc_memo_set_ref (fc_memo_init memo0 fc_metric.FC_LEVENSHTEIN 2 1) (cps "ab"))
      [cps "cd", cps "cd"] = some [2, INT32_MAX] ∧ 2 ≠ INT32_MAX := by
  decide!

/-- Claim C37, amended: for a memoizer of the Levenshtein (`t` false) or of the
Damerau metric (`t` true), any `max_dist` and any reference `r`, every value
returned for a sequence `q` is the distance `dist t r q` or `INT32_MAX`,
whatever sequences were computed before; it is the distance whenever the
distance is at most `max_dist`. So the values of two calls on `q`, made twice in
a row or after different lists of earlier sequences, are equal when the
distance is at most `max_dist`, and both exceed `max_dist` otherwise. -/
theorem memo_value_of_history (ctx0 : fc_memo) (t : Bool) (max_len : Nat) (max_dist : Int)
    (r : List Nat) (qs qs' : List (List Nat)) (q : List Nat) (hmax : max_len ≤ FC_MAX_SEQ_LEN)
    (hr : r.length ≤ max_len) (hqs : ∀ x, x ∈ qs → x.length ≤ max_len)
    (hqs' : ∀ x, x ∈ qs' → x.length ≤ max_len) (hq : q.length ≤ max_len) :
    ∃ vs v1 v2 vs' v', memoRun (fc_memo_set_ref (fc_memo_init ctx0
          (if t = true then fc_metric.FC_DAMERAU else fc_metric.FC_LEVENSHTEIN)
          max_len max_dist) r) (qs ++ [q, q]) = some (vs ++ [v1, v2]) ∧
      vs.length = qs.length ∧
      memoRun (fc_memo_set_ref (fc_memo_init ctx0
          (if t = true then fc_metric.FC_DAMERAU else fc_metric.FC_LEVENSHTEIN)
          max_len max_dist) r) (qs' ++ [q]) = some (vs' ++ [v']) ∧
      vs'.length = qs'.length ∧
      (v1 = dist t r q ∨ v1 = INT32_MAX) ∧ (v2 = dist t r q ∨ v2 = INT32_MAX) ∧
      (v' = dist t r q ∨ v' = INT32_MAX) ∧
      (((dist t r q : Nat) : Int) ≤ max_dist →
        v1 = dist t r q ∧ v2 = dist t r q ∧ v' = dist t r q) ∧
      (max_dist < ((dist t r q : Nat) : Int) →
        max_dist < ((v1 : Nat) : Int) ∧ max_dist < ((v2 : Nat) : Int) ∧
          max_dist < ((v' : Nat) : Int)) := by
  obtain ⟨hinv, hmd⟩ := MemoInv_init ctx0
    (if t = true then fc_metric.FC_DAMERAU else fc_metric.FC_LEVENSHTEIN) max_len max_dist r hr
  obtain ⟨vs, v1, v2, e, hl, hv1, hv2⟩ := memoRun_twice _ max_len r qs _ q hinv hqs hq
  obtain ⟨vs', v', e', hl', hv'⟩ := memoRun_last _ max_len r qs' _ q hinv hqs' hq
  have hone : oneShot (if t = true then fc_metric.FC_DAMERAU else fc_metric.FC_LEVENSHTEIN) r q
      = dist t r q := by
    cases t with
    | false => exact fc_levenshtein_eq r q
    | true => exact fc_damerau_eq r q
  rw [hone, hmd] at hv1 hv2 hv'
  have hle := dist_le_max t r q
  have hbig : (dist t r q : Int) < ((INT32_MAX : Nat) : Int) := by
    have h3 : max r.length q.length ≤ max_len := max_le hr hq
    unfold INT32_MAX
    unfold FC_MAX_SEQ_LEN at hmax
    omega
  have key : ∀ v : Nat, (v = dist t r q ∨
      (((if t = true then fc_metric.FC_DAMERAU else fc_metric.FC_LEVENSHTEIN)
            = fc_metric.FC_LEVENSHTEIN ∨
          (if t = true then fc_metric.FC_DAMERAU else fc_metric.FC_LEVENSHTEIN)
            = fc_metric.FC_DAMERAU) ∧
        v = INT32_MAX ∧ max_dist < ((dist t r q : Nat) : Int))) →
      (v = dist t r q ∨ v = INT32_MAX) ∧
      (((dist t r q : Nat) : Int) ≤ max_dist → v = dist t r q) ∧
      (max_dist < ((dist t r q : Nat) : Int) → max_dist < ((v : Nat) : Int)) := by
    intro v hv
    rcases hv with hv | hv
    · exact ⟨Or.inl hv, fun _ => hv, fun h => by rw [hv]; exact h⟩
    · refine ⟨Or.inr hv.2.1, fun h => ?_, fun h => ?_⟩
      · have := hv.2.2
        omega
      · rw [hv.2.1]
        omega
  obtain ⟨a1, a2, a3⟩ := key v1 hv1
  obtain ⟨b1, b2, b3⟩ := key v2 hv2
  obtain ⟨c1, c2, c3⟩ := key v' hv'
  exact ⟨vs, v1, v2, vs', v', e, hl, e', hl', a1, b1, c1,
    fun h => ⟨a2 h, b2 h, c2 h⟩, fun h => ⟨a3 h, b3 h, c3 h⟩⟩

/-- Claim C37, amended, on the Levenshtein metric with `max_dist` 1 and the
reference `ab`: the sequence `ac` twice after `cd`, and once after `ab` and
`a`. -/
theorem memo_value_of_history_witness :
    ∃ vs v1 v2 vs' v', memoRun (fc_memo_set_ref (fc_memo_init memo0
          (if false = true then fc_metric.FC_DAMERAU else fc_metric.FC_LEVENSHTEIN)
          2 1) (cps "ab")) ([cps "cd"] ++ [cps "ac", cps "ac"]) = some (vs ++ [v1, v2]) ∧
      vs.length = [cps "cd"].length ∧
      memoRun (fc_memo_set_ref (fc_memo_init memo0
          (if false = true then fc_metric.FC_DAMERAU else fc_metric.FC_LEVENSHTEIN)
          2 1) (cps "ab")) ([cps "ab", cps "a"] ++ [cps "ac"]) = some (vs' ++ [v']) ∧
      vs'.length = [cps "ab", cps "a"].length ∧
      (v1 = dist false (cps "ab") (cps "ac") ∨ v1 = INT32_MAX) ∧
      (v2 = dist false (cps "ab") (cps "ac") ∨ v2 = INT32_MAX) ∧
      (v' = dist false (cps "ab") (cps "ac") ∨ v' = INT32_MAX) ∧
      (((dist false (cps "ab") (cps "ac") : Nat) : Int) ≤ 1 →
        v1 = dist false (cps "ab") (cps "ac") ∧ v2 = dist false (cps "ab") (cps "ac") ∧
          v' = dist false (cps "ab") (cps "ac")) ∧
      ((1 : Int) < ((dist false (cps "ab") (cps "ac") : Nat) : Int) →
        (1 : Int) < ((v1 : Nat) : Int) ∧ (1 : Int) < ((v2 : Nat) : Int) ∧
          (1 : Int) < ((v' : Nat) : Int)) :=
  memo_value_of_history memo0 false 2 1 (cps "ab") [cps "cd"] [cps "ab", cps "a"] (cps "ac")
    (by decide) (by decide) (by decide) (by decide) (by decide)

/-! ## The Jaro distance: main results on its two phases -/

/-- Claim C34: when the matching phase of `fc_jaro` finds no match, `fc_jaro`
returns 0. This is the case when either sequence is empty, and in general
exactly when no position of the first sequence holds the codepoint of a
position of the second one inside its window. -/
theorem fc_jaro_no_match (a b : List Nat) :
    ((jaroFlags a b).2 = 0 → fc_jaro a b = some 0) ∧
    (a = [] ∨ b = [] → (jaroFlags a b).2 = 0 ∧ fc_jaro a b = some 0) ∧
    ((jaroFlags a b).2 = 0 ↔
      ∀ i j, ¬ JaroValid a b (jaroWindow a.length b.length) i j) ∧
    fc_jaro [] b = some 0 ∧ fc_jaro a [] = some 0 :=
  ⟨fc_jaro_of_no_match a b,
    fun h => ⟨jaroFlags_of_empty a b h, fc_jaro_of_no_match a b (jaroFlags_of_empty a b h)⟩,
    jaroFlags_eq_zero_iff a b,
    fc_jaro_of_no_match [] b (jaroFlags_of_empty [] b (Or.inl rfl)),
    fc_jaro_of_no_match a [] (jaroFlags_of_empty a [] (Or.inr rfl))⟩

/-- Claim C40: in the transposition phase of `fc_jaro0`, run on the flags left
by the matching phase, no read of `seq2[j]` is made at `j = len2`: the phase
ends with a count, and so does `fc_jaro`. The flags set in `matched1` are as
many as the flags set in `matched2`, namely `matches`, and the count is the
number of ranks `k` at which the `k`-th flagged codepoint of `seq1` differs
from the `k`-th flagged codepoint of `seq2`. -/
theorem fc_jaro_transpositions_in_bounds (a b : List Nat) :
    (flaggedFrom a (jaroFlags a b).1 0 a.length 0).length = (jaroFlags a b).2 ∧
    (flaggedFrom b (jaroFlags a b).1 a.length b.length 0).length = (jaroFlags a b).2 ∧
    jaroTranspos a b (jaroFlags a b).1 a.length 0 0 0
      = some (mismatches (flaggedFrom a (jaroFlags a b).1 0 a.length 0)
          (flaggedFrom b (jaroFlags a b).1 a.length b.length 0)) ∧
    (∃ v, fc_jaro a b = some v) := by
  obtain ⟨_, _, hm1, hm2⟩ := jaroFlags_inv a b
  have ht := jaroTranspos_spec a b (jaroFlags a b).1 a.length 0 0 0 (by omega) (Nat.zero_le _)
    (by rw [Nat.sub_zero, ← hm1, ← hm2])
  rw [Nat.sub_zero, Nat.zero_add] at ht
  exact ⟨hm1.symm, hm2.symm, ht, _, fc_jaro_eq a b⟩

/-! ## The Damerau distance on the inputs as given -/

/-- Claim C35: stripping the common prefix and suffix (and swapping the
arguments) does not alter the Damerau value: `fc_damerau(a, b)` is the cell
`(|a|, |b|)` of the full recurrence `distCell true` on the inputs as given,
whose equations are: row 0 and column 0 hold the index; a cell with equal
codepoints copies the cell `(i - 1, j - 1)`; any other cell is one more than
the least of its three neighbours and, when `i > 1`, `j > 1`,
`a[i-2] = b[j-1]` and `a[i-1] = b[j-2]`, of the cell `(i - 2, j - 2)`. And the
run on a buffer whose cells all start uninitialised reads none of them before
it is written: it ends with the same value. -/
theorem fc_damerau_full_recurrence (a b : List Nat) :
    fc_damerau a b = distCell true a b a.length b.length ∧
    fc_damerau_checked a b = some (fc_damerau a b) ∧
    (∀ j, distCell true a b 0 j = j) ∧ (∀ i, distCell true a b i 0 = i) ∧
    (∀ i j, distCell true a b (i + 1) (j + 1) =
      if a.getD i 0 = b.getD j 0 then distCell true a b i j
      else if TRANSPOSED a b (i + 1) (j + 1) = true then
        min (distCell true a b (i - 1) (j - 1) + 1)
          (min (distCell true a b (i + 1) j + 1)
            (min (distCell true a b i (j + 1) + 1) (distCell true a b i j + 1)))
      else min (distCell true a b (i + 1) j + 1)
        (min (distCell true a b i (j + 1) + 1) (distCell true a b i j + 1))) ∧
    (∀ i j, TRANSPOSED a b i j = true ↔
      i > 1 ∧ j > 1 ∧ a.getD (i - 2) 0 = b.getD (j - 1) 0 ∧
        a.getD (i - 1) 0 = b.getD (j - 2) 0) := by
  refine ⟨?_, ?_, distCell_zero_left true a b, distCell_zero_right true a b,
    distCell_succ_true a b, ?_⟩
  · rw [fc_damerau_eq, distCell_eq_dist]
  · rw [fc_damerau_checked_eq, fc_damerau_eq]
  · intro i j
    unfold TRANSPOSED
    exact decide_eq_true_iff

/-! ## Glob matching: main results on the end of a run -/

/-- Claim C38, at an input where the code departs from it, with what holds of
every run. On the pattern `[^a]*b` and the empty string, the class takes the
terminator of the string for a codepoint, and the loop of `*` then reads the
cells after the terminator: the run of `fc_glob` leaves the string, where
nothing in the two arguments bounds it. In every run, the loop `for (;;)`
makes at most one iteration per cell of the pattern, so that the run ends
with a returned boolean or at such a read, and the depth of the recursion is
at most the number of `*` in the pattern; and on a pattern without `[` the
run returns. -/
theorem fc_glob_run_ends :
    fc_glob (cstr (cps "[^a]*b")) (cstr []) = GlobResult.outOfBounds ∧
    (∀ pat str, fc_glob pat str ≠ GlobResult.outOfFuel) ∧
    (∀ pat str, fc_globDepth (pat.length + 1) pat str ≤ pat.count 42) ∧
    (∀ p s, (∀ x, x ∈ p → x ≠ 0 ∧ x ≠ 91) → (∀ c, c ∈ s → c ≠ 0) →
      ∃ b, fc_glob (cstr p) (cstr s) = GlobResult.ret b) :=
  ⟨by decide, fc_glob_fuel, fun pat str => fc_globDepth_le _ pat str, fc_glob_returns⟩

/-- Claim C39, at the input where the code departs from it, with the branches
that agree with it. On the pattern `[^a]` and the empty string, the class
takes the terminator of the string for a codepoint, the string cursor moves
past the terminator and the next iteration reads the cell after it; so does
every negated class `[^w]` with `w` not empty. At the end of the string, the
case `?`, a literal, and a class without negation return false and consume
nothing. -/
theorem fc_glob_negated_class_past_end :
    fc_glob (cstr (cps "[^a]")) (cstr []) = GlobResult.outOfBounds ∧
    (∀ x l, x ≠ 0 → (∀ y, y ∈ l → y ≠ 93 ∧ y ≠ 0) →
      fc_glob (cstr (91 :: 94 :: x :: (l ++ [93]))) (cstr []) = GlobResult.outOfBounds) ∧
    (∀ fuel pat, fc_globAux (fuel + 1) (63 :: pat) (cstr []) = GlobResult.ret false) ∧
    (∀ fuel p pat, p ≠ 0 ∧ p ≠ 63 ∧ p ≠ 42 ∧ p ≠ 91 →
      fc_globAux (fuel + 1) (p :: pat) (cstr []) = GlobResult.ret false) ∧
    (∀ w, w ≠ [] → (∀ x, x ∈ w → x ≠ 93 ∧ x ≠ 0) → w.head? ≠ some 94 →
      fc_glob (cstr (91 :: (w ++ [93]))) (cstr []) = GlobResult.ret false) := by
  refine ⟨by decide, fc_glob_negated_class_at_end, ?_, ?_, ?_⟩
  · intro fuel pat
    rw [fc_globAux_question, cstr_nil]
    rfl
  · intro fuel p pat hp
    rw [fc_globAux_default fuel p pat _ hp, cstr_nil]
    simp only []
    rw [if_pos (Ne.symm hp.1)]
  · intro w hne hw hhead
    rw [fc_glob_class w [] hne hw hhead (fun c hc => absurd hc (List.not_mem_nil c))]
    simp

end Faconde
